import Mathlib

/-! # A segregated-free-list allocator (`mm.c`)

Shallow embedding of the allocator of `mm.c`.

* Memory is a byte map `Nat → Nat`; a `word_t` (`int32_t`) access reads or writes four
  bytes, little endian.  A word is kept as its 32-bit pattern; `sext` is the widening
  of that pattern to `size_t` that C performs when a `word_t` meets a `size_t` or a pointer.
* `size_t` arithmetic is reduced modulo `2 ^ 64`.  Addresses are natural numbers; pointer
  arithmetic is plain addition and (truncated) subtraction, since C gives no meaning
  to a pointer that leaves its object.
* The globals of `mm.c` and the two variables of the `mem_sbrk` primitive form `State`.
* Loops that follow links take a fuel argument; `none` means that the fuel ran out.
-/

namespace MM

/-! ## Memory -/

/-- Byte-addressed memory. -/
abbrev Mem := Nat → Nat

/-- Read the 32-bit word at byte address `a` (little endian). -/
def rd (m : Mem) (a : Nat) : Nat :=
  m a % 256 + 256 * (m (a + 1) % 256) + 65536 * (m (a + 2) % 256)
    + 16777216 * (m (a + 3) % 256)

/-- Write the low 32 bits of `v` at byte address `a` (little endian). -/
def wr (m : Mem) (a v : Nat) : Mem := fun x =>
  if x = a then v % 256
  else if x = a + 1 then v / 256 % 256
  else if x = a + 2 then v / 65536 % 256
  else if x = a + 3 then v / 16777216 % 256
  else m x

/-- The C library `memcpy` on non-overlapping regions. -/
def memcpy (m : Mem) (dst src n : Nat) : Mem := fun x =>
  if dst ≤ x ∧ x < dst + n then m (src + (x - dst)) else m x

/-- The C library `memset`. -/
def memset (m : Mem) (dst c n : Nat) : Mem := fun x =>
  if dst ≤ x ∧ x < dst + n then c % 256 else m x

/-- Widening of an `int32_t` bit pattern to `size_t`: sign extension to 64 bits. -/
def sext (w : Nat) : Nat := if w < 2 ^ 31 then w else w + (2 ^ 64 - 2 ^ 32)

/-! ## State -/

/-- The globals of `mm.c`, the heap bytes, and the break and limit of `mem_sbrk`. -/
structure State where
  /-- the bytes of the address space -/
  mem : Mem
  /-- `heap_start`: address of the first block -/
  heap_start : Nat
  /-- `heap_end`: address past the last byte of the last block -/
  heap_end : Nat
  /-- `last`: points at the last block -/
  last : Nat
  /-- `guard_blocks_start` -/
  guard_blocks_start : Nat
  /-- `guard_blocks_end` -/
  guard_blocks_end : Nat
  /-- `segment_lists_start` -/
  segment_lists_start : Nat
  /-- current break of the more-core primitive -/
  mem_brk : Nat
  /-- first address the more-core primitive will not hand out -/
  mem_max_addr : Nat

/-- Store a word: `ptr[..] = v`. -/
def State.store (s : State) (a v : Nat) : State := { s with mem := wr s.mem a v }

/-- The state before `mm_init`: zeroed globals, given memory, break and limit. -/
def boot (m : Mem) (brk max : Nat) : State :=
  { mem := m, heap_start := 0, heap_end := 0, last := 0, guard_blocks_start := 0,
    guard_blocks_end := 0, segment_lists_start := 0, mem_brk := brk, mem_max_addr := max }

/-! ## Boundary tags -/

/-- `bt_size`: `*bt & ~USED`, a `word_t`. -/
def bt_size (s : State) (bt : Nat) : Nat := rd s.mem bt &&& 0xFFFFFFFE

/-- `bt_used`: `*bt & USED`. -/
def bt_used (s : State) (bt : Nat) : Nat := rd s.mem bt &&& 1

/-- `bt_free`: `!(*bt & USED)`. -/
def bt_free (s : State) (bt : Nat) : Nat := if rd s.mem bt &&& 1 = 0 then 1 else 0

/-- `bt_footer`: `(void *)bt + bt_size(bt) - sizeof(word_t)`. -/
def bt_footer (s : State) (bt : Nat) : Nat := bt + sext (bt_size s bt) - 4

/-- `bt_fromptr`: `(word_t *)ptr - 1`. -/
def bt_fromptr (ptr : Nat) : Nat := ptr - 4

/-- `bt_make`: `bt_val = size | flags; bt[0] = bt_val; *bt_footer(bt) = bt_val`. -/
def bt_make (s : State) (bt size flags : Nat) : State :=
  let bt_val := (size ||| flags) % 2 ^ 32
  let s1 := s.store bt bt_val
  s1.store (bt_footer s1 bt) bt_val

/-- `bt_payload`: `bt + 1`. -/
def bt_payload (bt : Nat) : Nat := bt + 4

/-- `bt_next`: `(bt == last) ? NULL : bt_size(bt) + (void *)bt`. -/
def bt_next (s : State) (bt : Nat) : Nat :=
  if bt = s.last then 0 else sext (bt_size s bt) + bt

/-- `bt_prev`: `(bt == heap_start) ? NULL : (void *)bt - bt_size(bt - 1)`. -/
def bt_prev (s : State) (bt : Nat) : Nat :=
  if bt = s.heap_start then 0 else bt - sext (bt_size s (bt - 4))

/-! ## Free block lists -/

/-- `create_guard_pair`. -/
def create_guard_pair (s : State) (ptr : Nat) : State :=
  let s := bt_make s ptr 16 1
  let s := s.store (ptr + 4) (2 ^ 32 - 1)
  let s := s.store (ptr + 8) ((ptr - s.heap_start + 16) % 2 ^ 32)
  let s := s.store (ptr + 12) 0
  let s := s.store ptr 0
  let s := bt_make s (ptr + 16) 16 1
  let s := s.store (ptr + 20) ((ptr - s.heap_start) % 2 ^ 32)
  s.store (ptr + 24) (2 ^ 32 - 1)

/-- `is_head`: `ptr[0] == 0`. -/
def is_head (s : State) (ptr : Nat) : Bool := rd s.mem ptr = 0

/-- `is_tail`: `ptr[0] == 17 && ptr <= guard_blocks_end`. -/
def is_tail (s : State) (ptr : Nat) : Bool :=
  rd s.mem ptr = 17 && ptr ≤ s.guard_blocks_end

/-- `get_prev_offset`: `ptr[1]`, returned as `size_t`. -/
def get_prev_offset (s : State) (ptr : Nat) : Nat := sext (rd s.mem (ptr + 4))

/-- `get_next_offset`: `ptr[2]`, returned as `size_t`. -/
def get_next_offset (s : State) (ptr : Nat) : Nat := sext (rd s.mem (ptr + 8))

/-- `set_prev_offset`: `ptr[1] = offset`. -/
def set_prev_offset (s : State) (ptr offset : Nat) : State :=
  s.store (ptr + 4) (offset % 2 ^ 32)

/-- `set_next_offset`: `ptr[2] = offset`. -/
def set_next_offset (s : State) (ptr offset : Nat) : State :=
  s.store (ptr + 8) (offset % 2 ^ 32)

/-- `coalese_front`: merge the block with its successor. -/
def coalese_front (s : State) (bt : Nat) : State :=
  let next_block := bt_next s bt
  let s1 := { s with last := if next_block = s.last then bt else s.last }
  bt_make s1 bt ((bt_size s1 bt + bt_size s1 next_block) % 2 ^ 32) 0

/-- `coalese_back`: merge the block into its predecessor. -/
def coalese_back (s : State) (bt : Nat) : State :=
  let prev_block := bt_prev s bt
  let s1 := { s with last := if bt = s.last then prev_block else s.last }
  bt_make s1 prev_block ((bt_size s1 bt + bt_size s1 prev_block) % 2 ^ 32) 0

/-- The `for` loop of `get_list` over the segment lists; the first argument counts the
iterations left, then come `i`, `low` and `two_to_pow_i`. -/
def get_list_loop (s : State) (blk_size : Nat) : Nat → Nat → Nat → Nat → Nat
  | 0, _, _, _ => s.segment_lists_start + 2 * (3 - 1) * 16
  | k + 1, i, low, two_to_pow_i =>
    if blk_size ≥ low ∧ blk_size ≤ low + (two_to_pow_i - 1) * 16 then
      s.segment_lists_start + 2 * i * 16
    else get_list_loop s blk_size k (i + 1) (low + two_to_pow_i * 16) (two_to_pow_i * 2)

/-- `get_list`: the head guard of the list for blocks of size `blk_size`
(`CONST_LISTS_NUM = 8`, `SEGMENT_LISTS_NUM = 3`, `MIN_FREE_NODE_SIZE = 16`; `ALIGNMENT`
comes from the absent `mm.h` and is the alignment constant `A = 16`). -/
def get_list (s : State) (blk_size : Nat) : Nat :=
  if blk_size ≤ 8 * 16 then
    s.guard_blocks_start + ((blk_size / 16 + (2 ^ 64 - 1)) % 2 ^ 64 * 2 * 16) % 2 ^ 64
  else get_list_loop s blk_size (3 - 1) 0 (8 * 16 + 16) 2

/-- `prev_free`: `is_head(ptr) ? NULL : (void *)heap_start + get_prev_offset(ptr)`. -/
def prev_free (s : State) (ptr : Nat) : Nat :=
  if is_head s ptr then 0 else s.heap_start + get_prev_offset s ptr

/-- `next_free`: `is_tail(ptr) ? NULL : (void *)heap_start + get_next_offset(ptr)`. -/
def next_free (s : State) (ptr : Nat) : Nat :=
  if is_tail s ptr then 0 else s.heap_start + get_next_offset s ptr

/-- `insert_block`: put the block right after the head guard of its list. -/
def insert_block (s : State) (blk_ptr : Nat) : State :=
  let element_before_inserted := get_list s (sext (bt_size s blk_ptr))
  let prev_offset := (element_before_inserted - s.heap_start) % 2 ^ 32
  let next_offset := get_next_offset s element_before_inserted % 2 ^ 32
  let new_block_offset := (blk_ptr - s.heap_start) % 2 ^ 32
  let s1 := set_prev_offset s (next_free s element_before_inserted) new_block_offset
  let s2 := set_next_offset s1 element_before_inserted new_block_offset
  let s3 := set_prev_offset s2 blk_ptr prev_offset
  set_next_offset s3 blk_ptr next_offset

/-- `remove_block`: unlink the block from its list. -/
def remove_block (s : State) (ptr : Nat) : State :=
  let blk_prev := prev_free s ptr
  let blk_next := next_free s ptr
  let s1 := set_next_offset s blk_prev (get_next_offset s ptr)
  set_prev_offset s1 blk_next (get_prev_offset s1 ptr)

/-- `find_block_in_list`: first fit in one list; `some 0` is `NULL`. -/
def find_block_in_list (s : State) (size : Nat) : Nat → Nat → Option Nat
  | 0, _ => none
  | fuel + 1, act =>
    if is_tail s act then some 0
    else if sext (bt_size s act) ≥ size then some act
    else find_block_in_list s size fuel (next_free s act)

/-- The `while` loop of `find_free_block`; the first argument bounds the walk inside a
list, the third the number of lists visited. -/
def find_free_block_loop (fuel : Nat) (s : State) (size : Nat) : Nat → Nat → Option Nat
  | 0, _ => none
  | k + 1, list_to_check =>
    if list_to_check ≤ s.guard_blocks_end then
      match find_block_in_list s size fuel list_to_check with
      | none => none
      | some res =>
        if res = 0 then find_free_block_loop fuel s size k (list_to_check + 2 * 16)
        else some res
    else some 0

/-- `find_free_block`: search the list of `size` and then the following lists. -/
def find_free_block (fuel : Nat) (s : State) (size : Nat) : Option Nat :=
  find_free_block_loop fuel s size fuel (get_list s size)

/-! ## Miscellaneous procedures -/

/-- `blksz`: `(2 * sizeof(word_t) + size + ALIGNMENT - 1) & -ALIGNMENT` on `size_t`. -/
def blksz (size : Nat) : Nat := ((2 * 4 + size + 16 - 1) % 2 ^ 64) &&& (2 ^ 64 - 16)

/-- Modelled from the spec: the more-core primitive `mem_sbrk` of the absent `memlib`;
it returns the address of `incr` freshly appended bytes, contiguous with the region
returned before, or the out-of-memory indicator `(void *)-1`. -/
def mem_sbrk (s : State) (incr : Nat) : Nat × State :=
  if s.mem_brk + incr ≤ s.mem_max_addr then
    (s.mem_brk, { s with mem_brk := s.mem_brk + incr })
  else (2 ^ 64 - 1, s)

/-- `morecore`: `mem_sbrk` with `(void *)-1` turned into `NULL`. -/
def morecore (s : State) (size : Nat) : Nat × State :=
  let r := mem_sbrk s size
  if r.1 = 2 ^ 64 - 1 then (0, r.2) else r

/-- The `for` loop of `mm_init`: `create_guard_pair` for the pairs `0, ..., n - 1`. -/
def init_guards (s : State) : Nat → State
  | 0 => s
  | i + 1 =>
    let t := init_guards s i
    create_guard_pair t (t.guard_blocks_start + 2 * 16 * i)

/-- `mm_init`; the first component is the returned `int`. -/
def mm_init (s : State) : Int × State :=
  let r := morecore s (16 - 4)
  if r.1 = 0 then (-1, r.2)
  else
    let q := mem_sbrk r.2 (2 * 16 * 11)
    let s : State := { q.2 with guard_blocks_start := q.1 }
    if s.guard_blocks_start = 0 then (-1, s)
    else
      let s := { s with guard_blocks_end := s.guard_blocks_start + 2 * 16 * 11 - 16 }
      let s := { s with heap_start := s.guard_blocks_start }
      let s := init_guards s 11
      let s := { s with last := s.guard_blocks_end }
      let s := { s with heap_end := s.last + 16 }
      let s := { s with segment_lists_start := s.guard_blocks_start + 2 * 16 * 8 }
      (0, s)

/-- `malloc`; the first component is the returned pointer, `0` for `NULL`. -/
def malloc (fuel : Nat) (s : State) (size : Nat) : Option (Nat × State) :=
  let size := blksz size
  match find_free_block fuel s size with
  | none => none
  | some blk_ptr =>
    if blk_ptr = 0 then
      let r := morecore s size
      let blk_ptr := r.1
      if blk_ptr = 0 then some (0, r.2)
      else
        let s := { r.2 with last := blk_ptr }
        let s := { s with heap_end := s.last + size }
        some (bt_payload blk_ptr, bt_make s blk_ptr size 1)
    else
      let s := remove_block s blk_ptr
      let s :=
        if size < sext (bt_size s blk_ptr) then
          let splited_free_block := blk_ptr + size
          let splited_block_size := (sext (bt_size s blk_ptr) + (2 ^ 64 - size)) % 2 ^ 64
          let s := bt_make s splited_free_block splited_block_size 0
          let s := if blk_ptr = s.last then { s with last := splited_free_block } else s
          insert_block s splited_free_block
        else s
      some (bt_payload blk_ptr, bt_make s blk_ptr size 1)

/-- `free`. -/
def free (s : State) (ptr : Nat) : State :=
  if ptr = 0 then s
  else
    let blk_ptr := bt_fromptr ptr
    let size := bt_size s blk_ptr
    let s := bt_make s blk_ptr (sext size) 0
    let blk_prev := bt_prev s blk_ptr
    let blk_next := bt_next s blk_ptr
    let prev_used := if blk_prev ≠ 0 then bt_used s blk_prev else 1
    let next_used := if blk_next ≠ 0 then bt_used s blk_next else 1
    if prev_used ≠ 0 ∧ next_used ≠ 0 then insert_block s blk_ptr
    else if prev_used = 0 ∧ next_used ≠ 0 then
      let s := remove_block s blk_prev
      let s := coalese_back s blk_ptr
      insert_block s blk_prev
    else if prev_used ≠ 0 ∧ next_used = 0 then
      let s := remove_block s blk_next
      let s := coalese_front s blk_ptr
      insert_block s blk_ptr
    else
      let s := remove_block s blk_next
      let s := coalese_back s blk_ptr
      coalese_front s blk_prev

/-- `realloc`; the first component is the returned pointer, `0` for `NULL`. -/
def realloc (fuel : Nat) (s : State) (old_ptr size : Nat) : Option (Nat × State) :=
  if size = 0 then some (0, free s old_ptr)
  else if old_ptr = 0 then malloc fuel s size
  else
    let blk_ptr := bt_fromptr old_ptr
    let old_size := sext (bt_size s blk_ptr)
    let new_block_size := blksz size
    if old_size ≥ new_block_size then some (old_ptr, s)
    else if bt_next s blk_ptr = 0 then
      let extend_size := new_block_size - old_size
      let r := morecore s extend_size
      if r.1 = 0 then some (0, r.2)
      else
        let s := bt_make r.2 blk_ptr new_block_size 1
        some (old_ptr, { s with heap_end := s.heap_end + extend_size })
    else
      match malloc fuel s size with
      | none => none
      | some (new_ptr, s) =>
        if new_ptr = 0 then some (0, s)
        else
          let s := { s with mem := memcpy s.mem new_ptr old_ptr
                                     ((old_size + (2 ^ 64 - 2 * 4)) % 2 ^ 64) }
          some (new_ptr, free s old_ptr)

/-- `calloc`; the first component is the returned pointer, `0` for `NULL`. -/
def calloc (fuel : Nat) (s : State) (nmemb size : Nat) : Option (Nat × State) :=
  let bytes := (nmemb * size) % 2 ^ 64
  match malloc fuel s bytes with
  | none => none
  | some (new_ptr, s) =>
    if new_ptr = 0 then some (0, s)
    else some (new_ptr, { s with mem := memset s.mem new_ptr 0 bytes })

/-! ## The heap walk of `mm_checkheap` -/

/-- The `while (act != heap_end)` loop of `mm_checkheap`, which goes from a block to
`act + bt_size(act)`; the result lists the blocks visited. -/
def heap_blocks (s : State) : Nat → Nat → Option (List Nat)
  | 0, _ => none
  | fuel + 1, act =>
    if act = s.heap_end then some []
    else
      match heap_blocks s fuel (act + sext (bt_size s act)) with
      | none => none
      | some l => some (act :: l)

/-- The free-byte total: the sizes of the blocks met by the walk of `mm_checkheap`, which
starts at `guard_blocks_end`, that are not in use, summed. -/
def free_total (fuel : Nat) (s : State) : Option Nat :=
  match heap_blocks s fuel s.guard_blocks_end with
  | none => none
  | some l => some ((l.filter (fun a => bt_used s a = 0)).map (fun a => sext (bt_size s a))).sum

/-- The `while (!is_tail(act))` loop of `is_on_free_list`; `some 1` when the block is met,
`some 0` when the tail guard is reached first. -/
def is_on_free_list_loop (s : State) (blk_ptr : Nat) : Nat → Nat → Option Nat
  | 0, _ => none
  | fuel + 1, act =>
    if is_tail s act then some 0
    else if act = blk_ptr then some 1
    else is_on_free_list_loop s blk_ptr fuel (next_free s act)

/-- `is_on_free_list`: whether the block is on the list that `get_list` gives for its size. -/
def is_on_free_list (fuel : Nat) (s : State) (blk_ptr : Nat) : Option Nat :=
  is_on_free_list_loop s blk_ptr fuel (get_list s (sext (bt_size s blk_ptr)))

/-- The walk `while (!is_tail(act)) act = next_free(act)` that `find_block_in_list` and
`is_on_free_list` make through a list; the result lists the nodes met before the tail
guard, and the tail guard reached. -/
def list_nodes (s : State) : Nat → Nat → Option (List Nat × Nat)
  | 0, _ => none
  | fuel + 1, act =>
    if is_tail s act then some ([], act)
    else
      match list_nodes s fuel (next_free s act) with
      | none => none
      | some r => some (act :: r.1, r.2)

/-- The block that `free` is called for, with the neighbours that `free` finds not in
use: `blk_prev` when `prev_used` is 0, the block, `blk_next` when `next_used` is 0. -/
def free_run (s : State) (blk_ptr : Nat) : List Nat :=
  let blk_prev := bt_prev s blk_ptr
  let blk_next := bt_next s blk_ptr
  let prev_used := if blk_prev ≠ 0 then bt_used s blk_prev else 1
  let next_used := if blk_next ≠ 0 then bt_used s blk_next else 1
  (if prev_used = 0 then [blk_prev] else []) ++ [blk_ptr] ++
    (if next_used = 0 then [blk_next] else [])

/-! ## The heap as a chain of blocks with free lists -/

/-- What the boundary tags of a block say: in use, free, or not yet stamped. -/
inductive Kind where
  | used
  | free
  | raw
  deriving DecidableEq, Repr

/-- The flag bit that goes with a kind. -/
def Kind.flag : Kind → Nat
  | .used => 1
  | _ => 0

/-- A block of the heap: address of its header, size in bytes, kind. -/
structure Blk where
  /-- address of the header -/
  a : Nat
  /-- size in bytes, header and footer included -/
  sz : Nat
  /-- kind -/
  k : Kind
  deriving DecidableEq, Repr

/-- Header and footer of a stamped block hold its size and flag. -/
def Tagged (m : Mem) (b : Blk) : Prop :=
  b.k ≠ .raw → rd m b.a = b.sz + b.k.flag ∧ rd m (b.a + b.sz - 4) = b.sz + b.k.flag

/-- The blocks `bs` tile the bytes from `a` to `e`. -/
def Tiles (m : Mem) : Nat → List Blk → Nat → Prop
  | a, [], e => a = e
  | a, b :: bs, e =>
    b.a = a ∧ 16 ≤ b.sz ∧ b.sz % 16 = 0 ∧ Tagged m b ∧ Tiles m (a + b.sz) bs e

/-- Address of the last block of the chain, `d` when there is none. -/
def lastAddr (d : Nat) : List Blk → Nat
  | [] => d
  | b :: bs => lastAddr b.a bs

/-- Two list nodes that do not share their link words. -/
def Sep (x y : Nat) : Prop := x + 16 ≤ y ∨ y + 16 ≤ x

/-- `y` follows `x` in a list: the next link of `x` and the previous link of `y`
are the offsets of `y` and `x` from the heap start `g`. -/
def Link (m : Mem) (g x y : Nat) : Prop := rd m (x + 8) = y - g ∧ rd m (y + 4) = x - g

/-- The nodes `l` are linked one after the other, starting from `x`. -/
def Links (m : Mem) (g : Nat) : Nat → List Nat → Prop
  | _, [] => True
  | x, y :: l => Link m g x y ∧ Links m g y l

/-- Last node of the path that starts at `x` and goes through `l`. -/
def lastOf : Nat → List Nat → Nat
  | x, [] => x
  | _, y :: l => lastOf y l

/-- Tags of the eleven guard pairs: head `0`, tail `17`. -/
def Guards (m : Mem) (g : Nat) : Prop :=
  ∀ i < 11, rd m (g + 32 * i) = 0 ∧ rd m (g + 32 * i + 12) = 0 ∧
    rd m (g + 32 * i + 16) = 17 ∧ rd m (g + 32 * i + 28) = 17

/-- The memory `m` holds the guards at `g`, the block chain `bs` up to `e`, and the eleven
free lists with nodes `fl 0`, ..., `fl 10`; list nodes are blocks that are not in use. -/
structure Heap (m : Mem) (g e : Nat) (bs : List Blk) (fl : Nat → List Nat) : Prop where
  guards : Guards m g
  tiles : Tiles m (g + 352) bs e
  links : ∀ i < 11, Links m g (g + 32 * i) (fl i ++ [g + 32 * i + 16])
  nodup : ∀ i < 11, (fl i).Nodup
  disj : ∀ i j a, i < 11 → j < 11 → a ∈ fl i → a ∈ fl j → i = j
  node : ∀ i < 11, ∀ a ∈ fl i, ∃ b ∈ bs, b.a = a ∧ b.k ≠ .used
  bound : e < g + 2 ^ 31

/-- The payload bytes of the blocks in use are the same in `m'` as in `m`. -/
def Keeps (m m' : Mem) (bs : List Blk) : Prop :=
  ∀ u ∈ bs, u.k = .used → ∀ z, u.a + 4 ≤ z → z + 4 < u.a + u.sz → m' z = m z

/-- A node of some list: a guard, or a block of the chain that is not in use. -/
def IsLinkNode (g : Nat) (bs : List Blk) (x : Nat) : Prop :=
  (∃ i < 11, x = g + 32 * i ∨ x = g + 32 * i + 16) ∨ ∃ b ∈ bs, b.a = x ∧ b.k ≠ .used

/-- Index of the free list that `get_list` picks for a block size. -/
def list_idx (sz : Nat) : Nat :=
  if sz ≤ 128 then sz / 16 - 1 else if sz ≤ 160 then 8 else if sz ≤ 224 then 9 else 10

/-- The state holds a well-formed heap: `bs` is its block chain, `fl` its free lists. -/
structure Core (s : State) (bs : List Blk) (fl : Nat → List Nat) : Prop where
  hs : s.heap_start = s.guard_blocks_start
  gbe : s.guard_blocks_end = s.guard_blocks_start + 336
  sls : s.segment_lists_start = s.guard_blocks_start + 256
  al : s.guard_blocks_start % 16 = 12
  brk : s.mem_brk = s.heap_end
  max : s.heap_end ≤ s.mem_max_addr
  lim : s.mem_max_addr < s.guard_blocks_start + 2 ^ 31
  lim64 : s.mem_max_addr < 2 ^ 63
  heap : Heap s.mem s.guard_blocks_start s.heap_end bs fl
  last : s.last = lastAddr (s.guard_blocks_start + 336) bs

/-- No two neighbours of the chain are both free. -/
def NoAdj (bs : List Blk) : Prop := bs.Chain' (fun x y => x.k ≠ .free ∨ y.k ≠ .free)

/-- The part of the invariant that does not mention memory: every block is stamped, the
free blocks are exactly the list nodes, free blocks are never neighbours, and the live
pointers are exactly the payloads of the blocks in use. -/
structure Abs (bs : List Blk) (fl : Nat → List Nat) (L : List Nat) : Prop where
  noraw : ∀ b ∈ bs, b.k ≠ .raw
  free_in : ∀ b ∈ bs, b.k = .free → ∃ i < 11, b.a ∈ fl i
  in_free : ∀ i < 11, ∀ a ∈ fl i, ∃ b ∈ bs, b.a = a ∧ b.k = .free
  noadj : NoAdj bs
  live_nodup : L.Nodup
  live : ∀ p, p ∈ L ↔ ∃ b ∈ bs, b.k = .used ∧ b.a + 4 = p

/-- The invariant of the allocator: `bs` is the block chain, `fl` the free lists, `L` the
pointers handed out and not yet freed. -/
structure Inv (s : State) (bs : List Blk) (fl : Nat → List Nat) (L : List Nat) : Prop where
  core : Core s bs fl
  abs : Abs bs fl L

/-! ## States and chains of the paths through the operations -/

/-- The state `malloc` reaches when the search finds the free block `r`. -/
def malloc_found (s : State) (r size : Nat) : State :=
  let s := remove_block s r
  let s :=
    if size < sext (bt_size s r) then
      let s := bt_make s (r + size) ((sext (bt_size s r) + (2 ^ 64 - size)) % 2 ^ 64) 0
      let s := if r = s.last then { s with last := r + size } else s
      insert_block s (r + size)
    else s
  bt_make s r size 1

/-- The state `malloc` reaches when it extends the heap. -/
def malloc_grown (s : State) (size : Nat) : State :=
  bt_make { s with mem_brk := s.mem_brk + size, last := s.mem_brk,
                   heap_end := s.mem_brk + size } s.mem_brk size 1

/-- How the block chain changes in a successful `malloc`: a block in use is appended at
the old heap end, or a free block is taken, split when it is larger than asked. -/
def MallocShape (s : State) (bs : List Blk) (size p : Nat) (s' : State)
    (bs' : List Blk) : Prop :=
  (p = s.heap_end + 4 ∧ bs' = bs ++ [⟨s.heap_end, size, .used⟩] ∧
      s'.heap_end = s.heap_end + size ∧ s'.mem_brk = s.mem_brk + size) ∨
  (∃ pre x post, bs = pre ++ x :: post ∧ x.k = .free ∧ p = x.a + 4 ∧ size ≤ x.sz ∧
      s'.heap_end = s.heap_end ∧ s'.mem_brk = s.mem_brk ∧
      bs' = pre ++ ⟨x.a, size, .used⟩ ::
        ((if size < x.sz then [⟨x.a + size, x.sz - size, .free⟩] else []) ++ post))

/-- How the block chain changes in `free`: the block becomes free and absorbs its free
neighbours. -/
def FreeShape (bs : List Blk) (p : Nat) (bs' : List Blk) : Prop :=
  ∃ pre x post, bs = pre ++ x :: post ∧ x.k = .used ∧ x.a + 4 = p ∧
    ((bs' = pre ++ ⟨x.a, x.sz, .free⟩ :: post) ∨
     (∃ pre' pv, pre = pre' ++ [pv] ∧ pv.k = .free ∧
        bs' = pre' ++ ⟨pv.a, pv.sz + x.sz, .free⟩ :: post) ∨
     (∃ nx post', post = nx :: post' ∧ nx.k = .free ∧
        bs' = pre ++ ⟨x.a, x.sz + nx.sz, .free⟩ :: post') ∨
     (∃ pre' pv nx post', pre = pre' ++ [pv] ∧ post = nx :: post' ∧ pv.k = .free ∧
        nx.k = .free ∧ bs' = pre' ++ ⟨pv.a, pv.sz + x.sz + nx.sz, .free⟩ :: post'))

/-- The state `realloc` reaches when it grows the last block in place. -/
def realloc_grown (s : State) (blk new_size old_size : Nat) : State :=
  { bt_make { s with mem_brk := s.mem_brk + (new_size - old_size) } blk new_size 1 with
    heap_end := s.heap_end + (new_size - old_size) }

/-- The pointers that are live after `realloc(old, size)` returned `q`. -/
def realloc_live (L : List Nat) (old size q : Nat) : List Nat :=
  if size = 0 then L.erase old
  else if old = 0 then (if q = 0 then L else q :: L)
  else if q = 0 ∨ q = old then L
  else q :: L.erase old

/-- The payload bytes of the blocks in use other than the one at `old` are the same. -/
def KeepsOthers (m m' : Mem) (bs : List Blk) (old : Nat) : Prop :=
  ∀ u ∈ bs, u.k = .used → u.a + 4 ≠ old → ∀ z, u.a + 4 ≤ z → z + 4 < u.a + u.sz → m' z = m z

/-- What `create_guard_pair` leaves in the pair at index `i`. -/
def PairOk (m : Mem) (g i : Nat) : Prop :=
  rd m (g + 32 * i) = 0 ∧ rd m (g + 32 * i + 12) = 0 ∧ rd m (g + 32 * i + 16) = 17 ∧
    rd m (g + 32 * i + 28) = 17 ∧ rd m (g + 32 * i + 8) = 32 * i + 16 ∧
    rd m (g + 32 * i + 20) = 32 * i

/-! ## Reachable states -/

/-- The states reached from `mm_init` by calls of `malloc`, `free`, `realloc` and `calloc`,
with the list of the pointers returned and not freed since.  The break is positive and
aligned to 16, initialisation is granted its 364 bytes, and the limit of the more-core
primitive is less than `2 ^ 31` bytes past the break, so that sizes and offsets fit the
`int32_t` words of the heap.  `free` and `realloc` receive `NULL` or a live pointer.
Requests are below `2 ^ 64 - 23`; above, `blksz` wraps around. -/
inductive Reachable : State → List Nat → Prop
  | init (m0 : Mem) (brk0 max : Nat) (h0 : 0 < brk0) (h16 : brk0 % 16 = 0)
      (hfit : brk0 + 364 ≤ max) (hlim : max < brk0 + 2 ^ 31) (h63 : max < 2 ^ 63) :
      Reachable (mm_init (boot m0 brk0 max)).2 []
  | malloc_step {s s' : State} {L : List Nat} {fuel n p : Nat} (hR : Reachable s L)
      (hn : n + 23 < 2 ^ 64) (h : malloc fuel s n = some (p, s')) :
      Reachable s' (if p = 0 then L else p :: L)
  | free_step {s : State} {L : List Nat} {p : Nat} (hR : Reachable s L) (hp : p = 0 ∨ p ∈ L) :
      Reachable (free s p) (L.erase p)
  | realloc_step {s s' : State} {L : List Nat} {fuel old n q : Nat} (hR : Reachable s L)
      (hold : old = 0 ∨ old ∈ L) (hn : n + 23 < 2 ^ 64)
      (h : realloc fuel s old n = some (q, s')) :
      Reachable s' (realloc_live L old n q)
  | calloc_step {s s' : State} {L : List Nat} {fuel nmemb size p : Nat} (hR : Reachable s L)
      (hn : nmemb * size % 2 ^ 64 + 23 < 2 ^ 64)
      (h : calloc fuel s nmemb size = some (p, s')) :
      Reachable s' (if p = 0 then L else p :: L)

/-! ## Free bytes of a chain -/

/-- The bytes of the free blocks of a chain. -/
def fsum : List Blk → Nat
  | [] => 0
  | b :: bs => (if b.k = .free then b.sz else 0) + fsum bs

/-- The sizes, summed, of the blocks of `l` that the tags of `s` show as not in use. -/
def free_of (s : State) (l : List Nat) : Nat :=
  ((l.filter (fun a => bt_used s a = 0)).map (fun a => sext (bt_size s a))).sum

/-! ## Concrete heaps -/

/-- A heap right after `mm_init`: zeroed memory, break `4096`, limit `1000000`. -/
def heap0 : State := (mm_init (boot (fun _ => 0) 4096 1000000)).2

/-- The result of a call that returned. -/
def ran (o : Option (Nat × State)) : Nat × State := o.getD (0, heap0)

/-- The heap after `p = malloc(64)`, with `p = 4464`. -/
def heap1 : State := (ran (malloc 20 heap0 64)).2

/-- The heap after `p = malloc(64); q = malloc(16)`, with `q = 4544`. -/
def heap2 : State := (ran (malloc 20 heap1 16)).2

/-- The heap after `p = malloc(64); q = malloc(16); free(p)`. -/
def heap3 : State := free heap2 4464

/-- A heap right after `mm_init` with room for one block of 80 bytes: break `4096`, limit
`4540`. -/
def tight0 : State := (mm_init (boot (fun _ => 0) 4096 4540)).2

/-- The heap `tight0` after `p = malloc(64)`, with `p = 4464`; the limit is reached. -/
def tight1 : State := (ran (malloc 20 tight0 64)).2

/-- The heap after `a = malloc(8)`, with `a = 4464`. -/
def four1 : State := (ran (malloc 20 heap0 8)).2

/-- The heap after `a = malloc(8); b = malloc(8)`, with `b = 4480`. -/
def four2 : State := (ran (malloc 20 four1 8)).2

/-- The heap after `a`, `b` and `c = malloc(8)`, with `c = 4496`. -/
def four3 : State := (ran (malloc 20 four2 8)).2

/-- The heap after `a`, `b`, `c` and `d = malloc(8)`, with `d = 4512`. -/
def four4 : State := (ran (malloc 20 four3 8)).2

/-- The heap after `a, b, c, d = malloc(8)` four times and `free(a); free(c); free(b)`. -/
def merged : State := free (free (free four4 4464) 4496) 4480

/-- The heap after `a = malloc(100)`, with `a = 4464`. -/
def pair1 : State := (ran (malloc 20 heap0 100)).2

/-- The heap after `a = malloc(100); b = malloc(100)`, with `b = 4576`. -/
def pair2 : State := (ran (malloc 20 pair1 100)).2

/-- The heap after `a = malloc(100); b = malloc(100); free(a)`. -/
def pair3 : State := free pair2 4464

/-! ## Words written and words of the bookkeeping -/

/-- The memory `m'` is `m` outside the words at the addresses `W`. -/
def Touch (m m' : Mem) (W : List Nat) : Prop :=
  ∀ z, (∀ w ∈ W, z < w ∨ w + 4 ≤ z) → m' z = m z

/-- The address `w` is that of the header or of the footer of a block of the chain. -/
def Tagw (bs : List Blk) (w : Nat) : Prop := ∃ b ∈ bs, w = b.a ∨ w = b.a + b.sz - 4

/-- The address `w` is that of a link word of a free block of the chain. -/
def Linkw (bs : List Blk) (w : Nat) : Prop :=
  ∃ b ∈ bs, b.k = .free ∧ (w = b.a + 4 ∨ w = b.a + 8)

/-- The address `w` is that of a link word of one of the 22 guards. -/
def Guardw (g w : Nat) : Prop := ∃ j < 22, w = g + 16 * j + 4 ∨ w = g + 16 * j + 8

/-- The address `w` is that of a word of the bookkeeping: a boundary tag, or a link word of
a free block or of a guard. -/
def Metaw (g : Nat) (bs : List Blk) (w : Nat) : Prop := Tagw bs w ∨ Linkw bs w ∨ Guardw g w

/-- The bytes in which `m'` is not `m` all satisfy `P`. -/
def Changes (m m' : Mem) (P : Nat → Prop) : Prop := ∀ z, m' z ≠ m z → P z

/-- The address `w` is that of a word of the bookkeeping in state `s`: a link word
(`ptr[1]`, `ptr[2]`) of one of the 22 guards, the header or the footer of a block of the
heap, walked from the last guard as `mm_checkheap` does, or a link word of such a block
whose header says it is free. -/
def meta_word (s : State) (w : Nat) : Prop :=
  (∃ j < 22, w = s.guard_blocks_start + 16 * j + 4 ∨ w = s.guard_blocks_start + 16 * j + 8) ∨
  ∃ a ∈ ((heap_blocks s s.heap_end s.guard_blocks_end).getD []).tail,
    w = a ∨ w = bt_footer s a ∨ (bt_used s a = 0 ∧ (w = a + 4 ∨ w = a + 8))

/-- The frame of an operation that took `s` to `s'` and returned `q`, for the pointer `r`:
the payload bytes of the block of `r` are the same, and every byte that is not the same lies
in a word of the bookkeeping of `s` or of `s'`, or in the payload of the block of `q`. -/
def frame_ok (s s' : State) (r q : Nat) : Prop :=
  (∀ i, i + 8 < sext (bt_size s (bt_fromptr r)) → s'.mem (r + i) = s.mem (r + i)) ∧
  ∀ z, s'.mem z ≠ s.mem z →
    (∃ w, w ≤ z ∧ z < w + 4 ∧ (meta_word s w ∨ meta_word s' w)) ∨
    (q ≠ 0 ∧ q ≤ z ∧ z + 8 < q + sext (bt_size s' (bt_fromptr q)))

/-! # Properties -/

theorem and_mask (n k x : Nat) (hk : k ≤ n) (hx : x < 2 ^ n) :
    x &&& (2 ^ n - 2 ^ k) = x / 2 ^ k * 2 ^ k := by
  apply Nat.eq_of_testBit_eq
  intro i
  have e1 : 2 ^ n - 2 ^ k = 2 ^ k * (2 ^ (n - k) - 1) := by
    rw [Nat.mul_sub, ← pow_add, Nat.add_sub_cancel' hk, mul_one]
  rw [Nat.testBit_and, e1, Nat.mul_comm (x / 2 ^ k), Nat.testBit_mul_pow_two,
    Nat.testBit_mul_pow_two, Nat.testBit_two_pow_sub_one, ← Nat.shiftRight_eq_div_pow,
    Nat.testBit_shiftRight]
  by_cases hik : k ≤ i
  · by_cases hin : i < n
    · have : i - k < n - k := by omega
      simp [hik, this, Nat.sub_add_cancel hik]
    · have hxi : x < 2 ^ i := lt_of_lt_of_le hx (Nat.pow_le_pow_right (by decide) (by omega))
      have : ¬ (i - k < n - k) := by omega
      simp [hik, this, Nat.testBit_lt_two_pow hxi, Nat.sub_add_cancel hik]
  · simp [hik]

theorem and_mask32 (w : Nat) (h : w < 2 ^ 32) : w &&& 0xFFFFFFFE = w - w % 2 := by
  have := and_mask 32 1 w (by decide) h
  norm_num at this
  rw [this]; omega

theorem and_mask64 (x : Nat) (h : x < 2 ^ 64) : x &&& (2 ^ 64 - 16) = x / 16 * 16 := by
  have := and_mask 64 4 x (by decide) h
  norm_num at this ⊢
  exact this

theorem or_flag (sz fl : Nat) (h : sz % 2 = 0) (hf : fl < 2) : sz ||| fl = sz + fl := by
  have := Nat.mul_add_lt_is_or (i := 1) (b := fl) (by simpa using hf) (sz / 2)
  have e : 2 ^ 1 * (sz / 2) = sz := by omega
  rw [e] at this
  exact this.symm

/-! ## Words in memory -/

theorem rd_lt (m : Mem) (a : Nat) : rd m a < 2 ^ 32 := by
  unfold rd; omega

theorem rd_wr_same (m : Mem) (a v : Nat) : rd (wr m a v) a = v % 2 ^ 32 := by
  simp only [rd, wr]
  simp
  omega

theorem wr_get_ne (m : Mem) (a v x : Nat) (h : x < a ∨ a + 4 ≤ x) : wr m a v x = m x := by
  unfold wr
  have h1 : x ≠ a := by omega
  have h2 : x ≠ a + 1 := by omega
  have h3 : x ≠ a + 2 := by omega
  have h4 : x ≠ a + 3 := by omega
  simp [h1, h2, h3, h4]

theorem rd_wr_ne (m : Mem) (a v b : Nat) (h : a + 4 ≤ b ∨ b + 4 ≤ a) :
    rd (wr m a v) b = rd m b := by
  unfold rd
  rw [wr_get_ne m a v b (by omega), wr_get_ne m a v (b + 1) (by omega),
    wr_get_ne m a v (b + 2) (by omega), wr_get_ne m a v (b + 3) (by omega)]

theorem rd_congr (m m' : Mem) (a : Nat) (h : ∀ x, a ≤ x → x < a + 4 → m' x = m x) :
    rd m' a = rd m a := by
  unfold rd
  rw [h a (by omega) (by omega), h (a + 1) (by omega) (by omega),
    h (a + 2) (by omega) (by omega), h (a + 3) (by omega) (by omega)]

theorem sext_of_lt (w : Nat) (h : w < 2 ^ 31) : sext w = w := by
  unfold sext; split <;> omega

theorem sext_mod (w : Nat) (h : w < 2 ^ 32) : sext w % 2 ^ 32 = w := by
  unfold sext; split <;> omega

/-! ## Rounding -/

theorem blksz_eq (n : Nat) (h : n + 23 < 2 ^ 64) : blksz n = (n + 23) / 16 * 16 := by
  unfold blksz
  have e : (2 * 4 + n + 16 - 1) % 2 ^ 64 = n + 23 := by omega
  rw [e, and_mask64 _ h]

theorem blksz_lt (n : Nat) : blksz n < 2 ^ 64 := by
  unfold blksz
  exact lt_of_le_of_lt Nat.and_le_left (Nat.mod_lt _ (by decide))

/-! ## The block chain -/

@[simp] theorem Tiles_nil (m : Mem) (a e : Nat) : Tiles m a [] e ↔ a = e := Iff.rfl

@[simp] theorem Tiles_cons (m : Mem) (a e : Nat) (b : Blk) (bs : List Blk) :
    Tiles m a (b :: bs) e ↔
      b.a = a ∧ 16 ≤ b.sz ∧ b.sz % 16 = 0 ∧ Tagged m b ∧ Tiles m (a + b.sz) bs e := Iff.rfl

theorem Tiles_append {m : Mem} {xs ys : List Blk} {a e : Nat} :
    Tiles m a (xs ++ ys) e ↔ ∃ c, Tiles m a xs c ∧ Tiles m c ys e := by
  induction xs generalizing a with
  | nil => simp
  | cons x xs ih =>
    rw [List.cons_append, Tiles_cons]
    simp only [Tiles_cons, ih]
    constructor
    · rintro ⟨h1, h2, h3, h4, c, h5, h6⟩
      exact ⟨c, ⟨h1, h2, h3, h4, h5⟩, h6⟩
    · rintro ⟨c, ⟨h1, h2, h3, h4, h5⟩, h6⟩
      exact ⟨h1, h2, h3, h4, c, h5, h6⟩

theorem Tiles_le {m : Mem} {bs : List Blk} {a e : Nat} (h : Tiles m a bs e) : a ≤ e := by
  induction bs generalizing a with
  | nil => simp at h; omega
  | cons x xs ih =>
    obtain ⟨-, -, -, -, h5⟩ := h
    have := ih h5
    omega

theorem Tiles_mod {m : Mem} {bs : List Blk} {a e : Nat} (h : Tiles m a bs e) :
    e % 16 = a % 16 := by
  induction bs generalizing a with
  | nil => simp at h; omega
  | cons x xs ih =>
    obtain ⟨-, -, h3, -, h5⟩ := h
    have := ih h5
    omega

theorem Tiles_mem {m : Mem} {bs : List Blk} {a e : Nat} (h : Tiles m a bs e) {b : Blk}
    (hb : b ∈ bs) :
    a ≤ b.a ∧ b.a + b.sz ≤ e ∧ 16 ≤ b.sz ∧ b.sz % 16 = 0 ∧ b.a % 16 = a % 16 ∧ Tagged m b := by
  induction bs generalizing a with
  | nil => simp at hb
  | cons x xs ih =>
    obtain ⟨h1, h2, h3, h4, h5⟩ := h
    rcases List.mem_cons.1 hb with rfl | hb
    · have := Tiles_le h5
      exact ⟨by omega, by omega, h2, h3, by omega, h4⟩
    · obtain ⟨i1, i2, i3, i4, i5, i6⟩ := ih h5 hb
      exact ⟨by omega, i2, i3, i4, by omega, i6⟩

theorem Tiles_sep {m : Mem} {bs : List Blk} {a e : Nat} (h : Tiles m a bs e) {x y : Blk}
    (hx : x ∈ bs) (hy : y ∈ bs) : x = y ∨ x.a + x.sz ≤ y.a ∨ y.a + y.sz ≤ x.a := by
  induction bs generalizing a with
  | nil => simp at hx
  | cons z zs ih =>
    obtain ⟨h1, h2, h3, h4, h5⟩ := h
    rcases List.mem_cons.1 hx with hx | hx <;> rcases List.mem_cons.1 hy with hy | hy
    · left; rw [hx, hy]
    · have := Tiles_mem h5 hy
      subst hx
      right; left; omega
    · have := Tiles_mem h5 hx
      subst hy
      right; right; omega
    · exact ih h5 hx hy

theorem Tiles_addr_inj {m : Mem} {bs : List Blk} {a e : Nat} (h : Tiles m a bs e) {x y : Blk}
    (hx : x ∈ bs) (hy : y ∈ bs) (hxy : x.a = y.a) : x = y := by
  rcases Tiles_sep h hx hy with h1 | h1 | h1
  · exact h1
  · have := (Tiles_mem h hx).2.2.1; omega
  · have := (Tiles_mem h hy).2.2.1; omega

/-- The chain only depends on the tags of its stamped blocks. -/
theorem Tiles_frame {m m' : Mem} {bs : List Blk} {a e : Nat} (h : Tiles m a bs e)
    (hf : ∀ b ∈ bs, b.k ≠ .raw →
      rd m' b.a = rd m b.a ∧ rd m' (b.a + b.sz - 4) = rd m (b.a + b.sz - 4)) :
    Tiles m' a bs e := by
  induction bs generalizing a with
  | nil => exact h
  | cons x xs ih =>
    obtain ⟨h1, h2, h3, h4, h5⟩ := h
    refine ⟨h1, h2, h3, ?_, ih h5 (fun b hb => hf b (List.mem_cons_of_mem _ hb))⟩
    intro hk
    have := hf x (List.mem_cons_self _ _) hk
    rw [this.1, this.2]
    exact h4 hk

/-- The chain only depends on the bytes it covers. -/
theorem Tiles_agree {m m' : Mem} {bs : List Blk} {a e : Nat} (h : Tiles m a bs e)
    (hf : ∀ x, a ≤ x → x < e → m' x = m x) : Tiles m' a bs e := by
  apply Tiles_frame h
  intro b hb _
  have := Tiles_mem h hb
  constructor <;> apply rd_congr <;> intro x h1 h2 <;> apply hf <;> omega

theorem lastAddr_append (d : Nat) (xs : List Blk) (b : Blk) :
    lastAddr d (xs ++ [b]) = b.a := by
  induction xs generalizing d with
  | nil => rfl
  | cons x xs ih => simp [lastAddr, ih]

theorem lastAddr_append_cons (d : Nat) (xs ys : List Blk) (b : Blk) :
    lastAddr d (xs ++ b :: ys) = lastAddr b.a ys := by
  induction xs generalizing d with
  | nil => rfl
  | cons x xs ih => simp [lastAddr, ih]

theorem lastAddr_mem (d : Nat) (bs : List Blk) :
    lastAddr d bs = d ∧ bs = [] ∨ ∃ pre b, bs = pre ++ [b] ∧ lastAddr d bs = b.a := by
  rcases List.eq_nil_or_concat bs with h | ⟨pre, b, h⟩
  · left; subst h; exact ⟨rfl, rfl⟩
  · right
    rw [List.concat_eq_append] at h
    subst h
    exact ⟨pre, b, rfl, lastAddr_append d pre b⟩

/-! ## The free lists -/

@[simp] theorem Links_nil (m : Mem) (g x : Nat) : Links m g x [] ↔ True := Iff.rfl

@[simp] theorem Links_cons (m : Mem) (g x y : Nat) (l : List Nat) :
    Links m g x (y :: l) ↔ Link m g x y ∧ Links m g y l := Iff.rfl

@[simp] theorem lastOf_nil (x : Nat) : lastOf x [] = x := rfl

@[simp] theorem lastOf_cons (x y : Nat) (l : List Nat) : lastOf x (y :: l) = lastOf y l := rfl

theorem lastOf_mem (x : Nat) (l : List Nat) : lastOf x l ∈ x :: l := by
  induction l generalizing x with
  | nil => simp
  | cons y l ih =>
    have := ih y
    simp only [lastOf_cons, List.mem_cons] at this ⊢
    tauto

theorem lastOf_append (x y : Nat) (l1 l2 : List Nat) :
    lastOf x (l1 ++ y :: l2) = lastOf y l2 := by
  induction l1 generalizing x with
  | nil => rfl
  | cons z l1 ih => simp [ih]

theorem Links_append {m : Mem} {g x : Nat} {l1 l2 : List Nat} :
    Links m g x (l1 ++ l2) ↔ Links m g x l1 ∧ Links m g (lastOf x l1) l2 := by
  induction l1 generalizing x with
  | nil => simp
  | cons y l1 ih => simp [ih, and_assoc]

/-- The links only depend on the link words of the nodes. -/
theorem Links_frame {m m' : Mem} {g x : Nat} {l : List Nat} (h : Links m g x l)
    (hn : ∀ z ∈ x :: l, rd m' (z + 8) = rd m (z + 8))
    (hp : ∀ z ∈ l, rd m' (z + 4) = rd m (z + 4)) : Links m' g x l := by
  induction l generalizing x with
  | nil => trivial
  | cons y l ih =>
    obtain ⟨⟨h1, h2⟩, h3⟩ := h
    refine ⟨⟨?_, ?_⟩, ih h3 (fun z hz => hn z (List.mem_cons_of_mem _ hz))
      (fun z hz => hp z (List.mem_cons_of_mem _ hz))⟩
    · rw [hn x (List.mem_cons_self _ _)]; exact h1
    · rw [hp y (List.mem_cons_self _ _)]; exact h2

/-- A write away from the link words of the nodes keeps the links. -/
theorem Links_wr {m : Mem} {g x : Nat} {l : List Nat} (h : Links m g x l) (w v : Nat)
    (hw : ∀ z ∈ x :: l, w + 4 ≤ z + 4 ∨ z + 12 ≤ w) : Links (wr m w v) g x l := by
  apply Links_frame h
  · intro z hz
    apply rd_wr_ne
    have := hw z hz
    omega
  · intro z hz
    apply rd_wr_ne
    have := hw z (List.mem_cons_of_mem _ hz)
    omega

/-- A write away from the next links of `x :: l` and the previous links of `l`. -/
theorem Links_wr2 {m : Mem} {g x : Nat} {l : List Nat} (h : Links m g x l) (w v : Nat)
    (hn : ∀ z ∈ x :: l, w + 4 ≤ z + 8 ∨ z + 12 ≤ w)
    (hp : ∀ z ∈ l, w + 4 ≤ z + 4 ∨ z + 8 ≤ w) : Links (wr m w v) g x l := by
  apply Links_frame h
  · intro z hz
    apply rd_wr_ne
    have := hn z hz
    omega
  · intro z hz
    apply rd_wr_ne
    have := hp z hz
    omega

/-- Bytes that agree on the link words of the nodes give the same links. -/
theorem Links_agree {m m' : Mem} {g x : Nat} {l : List Nat} (h : Links m g x l)
    (hw : ∀ z ∈ x :: l, ∀ t, z + 4 ≤ t → t < z + 12 → m' t = m t) : Links m' g x l := by
  apply Links_frame h
  · intro z hz
    apply rd_congr
    intro t h1 h2
    exact hw z hz t (by omega) (by omega)
  · intro z hz
    apply rd_congr
    intro t h1 h2
    exact hw z (List.mem_cons_of_mem _ hz) t (by omega) (by omega)

/-- Unlinking `b`: its neighbours `x` and `y` get linked to each other. -/
theorem Links_remove {m : Mem} {g x0 b y : Nat} {l1 l2 : List Nat} {v1 v2 : Nat}
    (h : Links m g x0 (l1 ++ b :: y :: l2))
    (hs : (x0 :: (l1 ++ b :: y :: l2)).Pairwise Sep)
    (hv1 : v1 % 2 ^ 32 = y - g) (hv2 : v2 % 2 ^ 32 = lastOf x0 l1 - g) :
    Links (wr (wr m (lastOf x0 l1 + 8) v1) (y + 4) v2) g x0 (l1 ++ y :: l2) := by
  induction l1 generalizing x0 with
  | nil =>
    simp only [List.nil_append, Links_cons, lastOf_nil] at h hv2 ⊢
    obtain ⟨⟨-, -⟩, ⟨-, -⟩, h3⟩ := h
    simp only [List.nil_append, List.pairwise_cons, List.mem_cons] at hs
    obtain ⟨hs0, hsb, hsy, -⟩ := hs
    have hx0y : Sep x0 y := hs0 y (by simp)
    unfold Sep at hx0y
    refine ⟨⟨?_, ?_⟩, ?_⟩
    · rw [rd_wr_ne _ _ _ _ (by omega), rd_wr_same, hv1]
    · rw [rd_wr_same, hv2]
    · apply Links_wr2
      · apply Links_wr h3
        intro z hz
        have : Sep x0 z := hs0 z (by simp at hz ⊢; tauto)
        unfold Sep at this
        omega
      · intro z hz
        rcases List.mem_cons.1 hz with hz | hz
        · subst hz; omega
        · have : Sep y z := hsy z hz
          unfold Sep at this
          omega
      · intro z hz
        have : Sep y z := hsy z hz
        unfold Sep at this
        omega
  | cons u l1 ih =>
    simp only [List.cons_append, Links_cons, lastOf_cons] at h hv2 ⊢
    obtain ⟨⟨h1, h2⟩, h3⟩ := h
    have hs' := hs
    rw [List.cons_append, List.pairwise_cons] at hs'
    obtain ⟨hs0, hsr⟩ := hs'
    refine ⟨⟨?_, ?_⟩, ih h3 hsr hv2⟩
    · have hx : Sep x0 (lastOf u l1) := by
        apply hs0
        have := lastOf_mem u l1
        simp only [List.mem_cons, List.mem_append] at this ⊢
        tauto
      have hy : Sep x0 y := hs0 y (by simp)
      unfold Sep at hx hy
      rw [rd_wr_ne _ _ _ _ (by omega), rd_wr_ne _ _ _ _ (by omega)]
      exact h1
    · have hx : lastOf u l1 = u ∨ Sep u (lastOf u l1) := by
        rcases List.mem_cons.1 (lastOf_mem u l1) with e | e
        · exact Or.inl e
        · right
          rw [List.pairwise_cons] at hsr
          exact hsr.1 _ (by simp [e])
      have hy : Sep u y := by
        rw [List.pairwise_cons] at hsr
        exact hsr.1 _ (by simp)
      unfold Sep at hx hy
      rw [rd_wr_ne _ _ _ _ (by omega), rd_wr_ne _ _ _ _ (by omega)]
      exact h2

/-- Linking `b` right after `h`. -/
theorem Links_insert {m : Mem} {g h b n : Nat} {l : List Nat} {vb vh vn : Nat}
    (hl : Links m g h (n :: l)) (hs : (b :: h :: n :: l).Pairwise Sep)
    (hvb : vb % 2 ^ 32 = b - g) (hvh : vh % 2 ^ 32 = h - g) (hvn : vn % 2 ^ 32 = n - g) :
    Links (wr (wr (wr (wr m (n + 4) vb) (h + 8) vb) (b + 4) vh) (b + 8) vn) g h
      (b :: n :: l) := by
  simp only [Links_cons] at hl ⊢
  obtain ⟨-, h3⟩ := hl
  simp only [List.pairwise_cons, List.mem_cons] at hs
  obtain ⟨hsb, hsh, hsn, -⟩ := hs
  have hbh : Sep b h := hsb h (by simp)
  have hbn : Sep b n := hsb n (by simp)
  have hhn : Sep h n := hsh n (by simp)
  unfold Sep at hbh hbn hhn
  refine ⟨⟨?_, ?_⟩, ⟨?_, ?_⟩, ?_⟩
  · rw [rd_wr_ne _ _ _ _ (by omega), rd_wr_ne _ _ _ _ (by omega), rd_wr_same, hvb]
  · rw [rd_wr_ne _ _ _ _ (by omega), rd_wr_same, hvh]
  · rw [rd_wr_same, hvn]
  · rw [rd_wr_ne _ _ _ _ (by omega), rd_wr_ne _ _ _ _ (by omega),
      rd_wr_ne _ _ _ _ (by omega), rd_wr_same, hvb]
  · have key : ∀ z ∈ n :: l, (z = n ∨ Sep n z) ∧ Sep b z ∧ Sep h z := by
      intro z hz
      refine ⟨?_, hsb z (by simp at hz ⊢; tauto), hsh z (by simp at hz ⊢; tauto)⟩
      rcases List.mem_cons.1 hz with e | e
      · exact Or.inl e
      · exact Or.inr (hsn z e)
    apply Links_wr
    · apply Links_wr
      · apply Links_wr
        · apply Links_wr2 h3
          · intro z hz
            have := key z hz
            unfold Sep at this
            omega
          · intro z hz
            have := key z (List.mem_cons_of_mem _ hz)
            have h2 : Sep n z := hsn z hz
            unfold Sep at this h2
            omega
        · intro z hz
          have := key z hz
          unfold Sep at this
          omega
      · intro z hz
        have := key z hz
        unfold Sep at this
        omega
    · intro z hz
      have := key z hz
      unfold Sep at this
      omega

/-! ## The heap as block chain plus free lists -/

theorem Keeps_refl (m : Mem) (bs : List Blk) : Keeps m m bs := fun _ _ _ _ _ _ => rfl

theorem Heap.node_lo {m : Mem} {g e : Nat} {bs : List Blk} {fl : Nat → List Nat}
    (H : Heap m g e bs fl) {i a : Nat} (hi : i < 11) (ha : a ∈ fl i) :
    g + 352 ≤ a ∧ a + 16 ≤ e := by
  obtain ⟨b, hb, rfl, -⟩ := H.node i hi a ha
  have := Tiles_mem H.tiles hb
  omega

theorem Heap.node_sep {m : Mem} {g e : Nat} {bs : List Blk} {fl : Nat → List Nat}
    (H : Heap m g e bs fl) {i j a a' : Nat} (hi : i < 11) (hj : j < 11) (ha : a ∈ fl i)
    (ha' : a' ∈ fl j) (hne : a ≠ a') : Sep a a' := by
  obtain ⟨b, hb, rfl, -⟩ := H.node i hi a ha
  obtain ⟨b', hb', rfl, -⟩ := H.node j hj a' ha'
  have h1 := Tiles_mem H.tiles hb
  have h2 := Tiles_mem H.tiles hb'
  unfold Sep
  rcases Tiles_sep H.tiles hb hb' with h | h | h
  · exact absurd (congrArg Blk.a h) hne
  · omega
  · omega

/-- The nodes of one list, guards included, do not share link words. -/
theorem Heap.sep_list {m : Mem} {g e : Nat} {bs : List Blk} {fl : Nat → List Nat}
    (H : Heap m g e bs fl) {i : Nat} (hi : i < 11) :
    ((g + 32 * i) :: (fl i ++ [g + 32 * i + 16])).Pairwise Sep := by
  rw [List.pairwise_cons, List.pairwise_append]
  refine ⟨?_, ?_, by simp, ?_⟩
  · intro a ha
    rcases List.mem_append.1 ha with ha | ha
    · have := H.node_lo hi ha
      unfold Sep; omega
    · simp only [List.mem_singleton] at ha
      unfold Sep; omega
  · exact (H.nodup i hi).imp_of_mem (fun {a b} ha hb hne => H.node_sep hi hi ha hb hne)
  · intro a ha b hb
    simp only [List.mem_singleton] at hb
    have := H.node_lo hi ha
    unfold Sep; omega

/-- A node of list `i` is away from every node of another list `j`. -/
theorem Heap.sep_other {m : Mem} {g e : Nat} {bs : List Blk} {fl : Nat → List Nat}
    (H : Heap m g e bs fl) {i j : Nat} (hi : i < 11) (hj : j < 11) (hij : i ≠ j)
    {a a' : Nat} (ha : a ∈ (g + 32 * i) :: (fl i ++ [g + 32 * i + 16]))
    (ha' : a' ∈ (g + 32 * j) :: (fl j ++ [g + 32 * j + 16])) : Sep a a' := by
  simp only [List.mem_cons, List.mem_append, List.not_mem_nil, or_false] at ha ha'
  unfold Sep
  rcases ha with ha | ha | ha <;> rcases ha' with ha' | ha' | ha'
  · omega
  · have := H.node_lo hj ha'; omega
  · omega
  · have := H.node_lo hi ha; omega
  · have hne : a ≠ a' := fun h => hij (H.disj i j a hi hj ha (h ▸ ha'))
    exact H.node_sep hi hj ha ha' hne
  · have := H.node_lo hi ha; omega
  · omega
  · have := H.node_lo hj ha'; omega
  · omega

/-! ## Effect of tag writes, link writes and payload writes on the heap -/

/-- Replacing a run `mid` of the chain by a run `mid'` over the same bytes, when memory
changes only inside the tag words of the stamped blocks of `mid'`. -/
theorem Heap_replace {m m' : Mem} {g e c d : Nat} {pre mid mid' post : List Blk}
    {fl : Nat → List Nat} (H : Heap m g e (pre ++ mid ++ post) fl)
    (hc : Tiles m (g + 352) pre c) (hd : Tiles m d post e) (hmid' : Tiles m' c mid' d)
    (hag : ∀ x, (∀ b ∈ mid', b.k ≠ .raw →
      (x < b.a ∨ b.a + 4 ≤ x) ∧ (x + 4 < b.a + b.sz ∨ b.a + b.sz ≤ x)) → m' x = m x)
    (hnode : ∀ i < 11, ∀ a ∈ fl i, ∀ b ∈ mid, b.a = a → ∃ b' ∈ mid', b'.a = a ∧ b'.k ≠ .used) :
    Heap m' g e (pre ++ mid' ++ post) fl := by
  have hgc := Tiles_le hc
  have hA : ∀ x, x < c ∨ d ≤ x → m' x = m x := by
    intro x hx
    apply hag
    intro b hb _
    have := Tiles_mem hmid' hb
    omega
  have hB : ∀ b' ∈ mid', ∀ t, b'.a + 4 ≤ t → t + 4 < b'.a + b'.sz → m' t = m t := by
    intro b' hb' t h1 h2
    apply hag
    intro b hb _
    rcases Tiles_sep hmid' hb hb' with h | h | h
    · subst h; omega
    · omega
    · have := Tiles_mem hmid' hb
      omega
  refine ⟨?_, ?_, ?_, H.nodup, H.disj, ?_, H.bound⟩
  · intro i hi
    obtain ⟨h1, h2, h3, h4⟩ := H.guards i hi
    refine ⟨?_, ?_, ?_, ?_⟩
    · rw [← h1]; apply rd_congr; intro x _ _; apply hA; omega
    · rw [← h2]; apply rd_congr; intro x _ _; apply hA; omega
    · rw [← h3]; apply rd_congr; intro x _ _; apply hA; omega
    · rw [← h4]; apply rd_congr; intro x _ _; apply hA; omega
  · rw [Tiles_append, ]
    refine ⟨d, ?_, Tiles_agree hd (fun x h1 _ => hA x (Or.inr h1))⟩
    rw [Tiles_append]
    exact ⟨c, Tiles_agree hc (fun x _ h2 => hA x (Or.inl h2)), hmid'⟩
  · intro i hi
    apply Links_agree (H.links i hi)
    intro z hz t h1 h2
    simp only [List.mem_cons, List.mem_append, List.not_mem_nil, or_false] at hz
    rcases hz with hz | hz | hz
    · apply hA; omega
    · obtain ⟨b, hb, hba, -⟩ := H.node i hi z hz
      simp only [List.mem_append] at hb
      rcases hb with (hb | hb) | hb
      · have := Tiles_mem hc hb
        apply hA; omega
      · obtain ⟨b', hb', hba', -⟩ := hnode i hi z hz b hb hba
        have := Tiles_mem hmid' hb'
        apply hB b' hb' <;> omega
      · have := Tiles_mem hd hb
        apply hA; omega
    · apply hA; omega
  · intro i hi a ha
    obtain ⟨b, hb, hba, hk⟩ := H.node i hi a ha
    simp only [List.mem_append] at hb ⊢
    rcases hb with (hb | hb) | hb
    · exact ⟨b, Or.inl (Or.inl hb), hba, hk⟩
    · obtain ⟨b', hb', h1, h2⟩ := hnode i hi a ha b hb hba
      exact ⟨b', Or.inl (Or.inr hb'), h1, h2⟩
    · exact ⟨b, Or.inr hb, hba, hk⟩

/-- Fresh bytes at the end of the heap form a block that is not stamped yet. -/
theorem Heap_extend {m : Mem} {g e n : Nat} {bs : List Blk} {fl : Nat → List Nat}
    (H : Heap m g e bs fl) (h1 : 16 ≤ n) (h2 : n % 16 = 0) (h3 : e + n < g + 2 ^ 31) :
    Heap m g (e + n) (bs ++ [⟨e, n, .raw⟩]) fl := by
  refine ⟨H.guards, ?_, H.links, H.nodup, H.disj, ?_, h3⟩
  · rw [Tiles_append]
    refine ⟨e, H.tiles, ?_⟩
    simp [Tagged, h1, h2]
  · intro i hi a ha
    obtain ⟨b, hb, hba, hk⟩ := H.node i hi a ha
    exact ⟨b, List.mem_append_left _ hb, hba, hk⟩

/-- Writes into the payload of a block in use. -/
theorem Heap_payload {m m' : Mem} {g e : Nat} {bs : List Blk} {fl : Nat → List Nat}
    (H : Heap m g e bs fl) {u : Blk} (hu : u ∈ bs) (hk : u.k = .used)
    (hag : ∀ x, x < u.a + 4 ∨ u.a + u.sz ≤ x + 4 → m' x = m x) : Heap m' g e bs fl := by
  have hU := Tiles_mem H.tiles hu
  refine ⟨?_, ?_, ?_, H.nodup, H.disj, H.node, H.bound⟩
  · intro i hi
    obtain ⟨h1, h2, h3, h4⟩ := H.guards i hi
    refine ⟨?_, ?_, ?_, ?_⟩
    · rw [← h1]; apply rd_congr; intro x _ _; apply hag; omega
    · rw [← h2]; apply rd_congr; intro x _ _; apply hag; omega
    · rw [← h3]; apply rd_congr; intro x _ _; apply hag; omega
    · rw [← h4]; apply rd_congr; intro x _ _; apply hag; omega
  · apply Tiles_frame H.tiles
    intro b hb _
    have hB := Tiles_mem H.tiles hb
    rcases Tiles_sep H.tiles hb hu with h | h | h
    · subst h
      constructor <;> apply rd_congr <;> intro x _ _ <;> apply hag <;> omega
    · constructor <;> apply rd_congr <;> intro x _ _ <;> apply hag <;> omega
    · constructor <;> apply rd_congr <;> intro x _ _ <;> apply hag <;> omega
  · intro i hi
    apply Links_agree (H.links i hi)
    intro z hz t h1 h2
    simp only [List.mem_cons, List.mem_append, List.not_mem_nil, or_false] at hz
    rcases hz with hz | hz | hz
    · apply hag; omega
    · obtain ⟨b, hb, hba, hbk⟩ := H.node i hi z hz
      have hB := Tiles_mem H.tiles hb
      rcases Tiles_sep H.tiles hb hu with h | h | h
      · subst h; exact absurd hk hbk
      · apply hag; omega
      · apply hag; omega
    · apply hag; omega

/-! ## Link writes -/

theorem Heap.isLinkNode {m : Mem} {g e : Nat} {bs : List Blk} {fl : Nat → List Nat}
    (H : Heap m g e bs fl) {i z : Nat} (hi : i < 11)
    (hz : z ∈ (g + 32 * i) :: (fl i ++ [g + 32 * i + 16])) : IsLinkNode g bs z := by
  simp only [List.mem_cons, List.mem_append, List.not_mem_nil, or_false] at hz
  rcases hz with hz | hz | hz
  · exact Or.inl ⟨i, hi, Or.inl hz⟩
  · exact Or.inr (H.node i hi z hz)
  · exact Or.inl ⟨i, hi, Or.inr hz⟩

theorem IsLinkNode.range {m : Mem} {g e : Nat} {bs : List Blk} {x : Nat}
    (hx : IsLinkNode g bs x) (ht : Tiles m (g + 352) bs e) : g ≤ x ∧ x + 16 ≤ max e (g + 352) := by
  rcases hx with ⟨i, hi, h | h⟩ | ⟨b, hb, h, -⟩
  · omega
  · omega
  · have := Tiles_mem ht hb
    omega

/-- A write to a link word of a node keeps guards, chain and payloads in use. -/
theorem link_write {m : Mem} {g e : Nat} {bs : List Blk} {x w : Nat} (v : Nat)
    (hG : Guards m g) (ht : Tiles m (g + 352) bs e) (hx : IsLinkNode g bs x)
    (hw : w = x + 4 ∨ w = x + 8) :
    Guards (wr m w v) g ∧ Tiles (wr m w v) (g + 352) bs e ∧ Keeps m (wr m w v) bs := by
  refine ⟨?_, ?_, ?_⟩
  · intro i hi
    obtain ⟨h1, h2, h3, h4⟩ := hG i hi
    rcases hx with ⟨j, hj, h | h⟩ | ⟨b, hb, h, -⟩
    · refine ⟨?_, ?_, ?_, ?_⟩ <;> rw [rd_wr_ne _ _ _ _ (by omega)] <;> assumption
    · refine ⟨?_, ?_, ?_, ?_⟩ <;> rw [rd_wr_ne _ _ _ _ (by omega)] <;> assumption
    · have := Tiles_mem ht hb
      refine ⟨?_, ?_, ?_, ?_⟩ <;> rw [rd_wr_ne _ _ _ _ (by omega)] <;> assumption
  · apply Tiles_frame ht
    intro b hb _
    have hB := Tiles_mem ht hb
    rcases hx with ⟨j, hj, h | h⟩ | ⟨b', hb', h, -⟩
    · constructor <;> apply rd_wr_ne <;> omega
    · constructor <;> apply rd_wr_ne <;> omega
    · have hB' := Tiles_mem ht hb'
      rcases Tiles_sep ht hb hb' with h' | h' | h'
      · subst h'
        constructor <;> apply rd_wr_ne <;> omega
      · constructor <;> apply rd_wr_ne <;> omega
      · constructor <;> apply rd_wr_ne <;> omega
  · intro u hu hk z h1 h2
    have hU := Tiles_mem ht hu
    apply wr_get_ne
    rcases hx with ⟨j, hj, h | h⟩ | ⟨b', hb', h, hk'⟩
    · omega
    · omega
    · have hB' := Tiles_mem ht hb'
      rcases Tiles_sep ht hu hb' with h' | h' | h'
      · subst h'; exact absurd hk hk'
      · omega
      · omega

theorem Keeps_trans {m m' m'' : Mem} {bs : List Blk} (h1 : Keeps m m' bs)
    (h2 : Keeps m' m'' bs) : Keeps m m'' bs := by
  intro u hu hk z hz1 hz2
  rw [h2 u hu hk z hz1 hz2, h1 u hu hk z hz1 hz2]

/-- `remove_block` on the heap: the node leaves its list. -/
theorem Heap_remove {m : Mem} {g e : Nat} {bs : List Blk} {fl : Nat → List Nat}
    (H : Heap m g e bs fl) {j b : Nat} (hj : j < 11) (hb : b ∈ fl j) :
    ∃ x y, rd m (b + 4) = x - g ∧ rd m (b + 8) = y - g ∧ g ≤ x ∧ g ≤ y ∧
      x < g + 2 ^ 31 ∧ y < g + 2 ^ 31 ∧ Sep x b ∧
      ∀ v1 v2, v1 % 2 ^ 32 = y - g → v2 % 2 ^ 32 = x - g →
        Heap (wr (wr m (x + 8) v1) (y + 4) v2) g e bs (fun i => (fl i).erase b) ∧
        Keeps m (wr (wr m (x + 8) v1) (y + 4) v2) bs := by
  obtain ⟨l1, l2', hfl⟩ := List.append_of_mem hb
  obtain ⟨y, l2, hy⟩ : ∃ y l2, l2' ++ [g + 32 * j + 16] = y :: l2 := by
    cases l2' with
    | nil => exact ⟨_, _, rfl⟩
    | cons y l => exact ⟨y, l ++ [g + 32 * j + 16], rfl⟩
  have hL : fl j ++ [g + 32 * j + 16] = l1 ++ b :: y :: l2 := by
    rw [hfl, List.append_assoc, List.cons_append, hy]
  have hlinks := H.links j hj
  have hsep := H.sep_list hj
  rw [hL] at hlinks hsep
  have hx_mem : lastOf (g + 32 * j) l1 ∈ (g + 32 * j) :: (fl j ++ [g + 32 * j + 16]) := by
    have := lastOf_mem (g + 32 * j) l1
    rw [hL]
    simp only [List.mem_cons, List.mem_append] at this ⊢
    tauto
  have hy_mem : y ∈ (g + 32 * j) :: (fl j ++ [g + 32 * j + 16]) := by
    rw [hL]; simp
  have hxn := H.isLinkNode hj hx_mem
  have hyn := H.isLinkNode hj hy_mem
  have hxr := hxn.range H.tiles
  have hyr := hyn.range H.tiles
  have hbd := H.bound
  have hge := Tiles_le H.tiles
  obtain ⟨-, hl2⟩ := Links_append.1 hlinks
  obtain ⟨⟨-, hxb⟩, ⟨hby, -⟩, -⟩ := hl2
  have hxb_sep : Sep (lastOf (g + 32 * j) l1) b := by
    rw [List.pairwise_cons, List.pairwise_append] at hsep
    rcases List.mem_cons.1 (lastOf_mem (g + 32 * j) l1) with h | h
    · rw [h]; exact hsep.1 b (by simp)
    · exact hsep.2.2.2 _ h b (by simp)
  refine ⟨lastOf (g + 32 * j) l1, y, hxb, hby, by omega, by omega, by omega, by omega,
    hxb_sep, ?_⟩
  intro v1 v2 hv1 hv2
  obtain ⟨G1, T1, K1⟩ := link_write v1 H.guards H.tiles hxn (Or.inr rfl)
  obtain ⟨G2, T2, K2⟩ := link_write v2 G1 T1 hyn (Or.inl rfl)
  have hnb : b ∉ l1 := by
    have := H.nodup j hj
    rw [hfl] at this
    intro hmem
    have := (List.nodup_append.1 this).2.2 hmem (List.mem_cons_self _ _)
    exact this
  have herase : (fl j).erase b = l1 ++ l2' := by
    rw [hfl, List.erase_append_right _ hnb, List.erase_cons_head]
  refine ⟨⟨G2, T2, ?_, ?_, ?_, ?_, H.bound⟩, Keeps_trans K1 K2⟩
  · intro i hi
    by_cases hij : i = j
    · subst hij
      show Links _ g (g + 32 * i) ((fl i).erase b ++ [g + 32 * i + 16])
      rw [herase, List.append_assoc, hy]
      exact Links_remove hlinks hsep hv1 hv2
    · have hnot : b ∉ fl i := fun h => hij (H.disj i j b hi hj h hb)
      show Links _ g (g + 32 * i) ((fl i).erase b ++ [g + 32 * i + 16])
      rw [List.erase_of_not_mem hnot]
      apply Links_wr
      · apply Links_wr (H.links i hi)
        intro z hz
        have := H.sep_other hi hj hij hz hx_mem
        unfold Sep at this
        omega
      · intro z hz
        have := H.sep_other hi hj hij hz hy_mem
        unfold Sep at this
        omega
  · intro i hi
    exact (H.nodup i hi).erase b
  · intro i i' a hi hi' ha ha'
    exact H.disj i i' a hi hi' (List.mem_of_mem_erase ha) (List.mem_of_mem_erase ha')
  · intro i hi a ha
    exact H.node i hi a (List.mem_of_mem_erase ha)

/-- `insert_block` on the heap: the block becomes the first node of list `k`. -/
theorem Heap_insert {m : Mem} {g e : Nat} {bs : List Blk} {fl : Nat → List Nat}
    (H : Heap m g e bs fl) {k : Nat} (hk : k < 11) {blk : Blk} (hb : blk ∈ bs)
    (hbk : blk.k ≠ .used) (hnot : ∀ i < 11, blk.a ∉ fl i) :
    ∃ n, rd m (g + 32 * k + 8) = n - g ∧ g ≤ n ∧ n < g + 2 ^ 31 ∧
      ∀ vb vh vn, vb % 2 ^ 32 = blk.a - g → vh % 2 ^ 32 = g + 32 * k - g →
        vn % 2 ^ 32 = n - g →
        Heap (wr (wr (wr (wr m (n + 4) vb) (g + 32 * k + 8) vb) (blk.a + 4) vh)
          (blk.a + 8) vn) g e bs (Function.update fl k (blk.a :: fl k)) ∧
        Keeps m (wr (wr (wr (wr m (n + 4) vb) (g + 32 * k + 8) vb) (blk.a + 4) vh)
          (blk.a + 8) vn) bs := by
  obtain ⟨n, l, hn⟩ : ∃ n l, fl k ++ [g + 32 * k + 16] = n :: l := by
    cases fl k with
    | nil => exact ⟨_, _, rfl⟩
    | cons y l => exact ⟨y, l ++ [g + 32 * k + 16], rfl⟩
  have hlinks := H.links k hk
  have hsep := H.sep_list hk
  rw [hn] at hlinks hsep
  have hn_mem : n ∈ (g + 32 * k) :: (fl k ++ [g + 32 * k + 16]) := by
    rw [hn]; simp
  have hh_mem : g + 32 * k ∈ (g + 32 * k) :: (fl k ++ [g + 32 * k + 16]) := by simp
  have hnn := H.isLinkNode hk hn_mem
  have hhn := H.isLinkNode hk hh_mem
  have hbn : IsLinkNode g bs blk.a := Or.inr ⟨blk, hb, rfl, hbk⟩
  have hnr := hnn.range H.tiles
  have hbd := H.bound
  have hge := Tiles_le H.tiles
  have hB := Tiles_mem H.tiles hb
  refine ⟨n, hlinks.1.1, by omega, by omega, ?_⟩
  intro vb vh vn hvb hvh hvn
  obtain ⟨G1, T1, K1⟩ := link_write vb H.guards H.tiles hnn (Or.inl rfl)
  obtain ⟨G2, T2, K2⟩ := link_write vb G1 T1 hhn (Or.inr rfl)
  obtain ⟨G3, T3, K3⟩ := link_write vh G2 T2 hbn (Or.inl rfl)
  obtain ⟨G4, T4, K4⟩ := link_write vn G3 T3 hbn (Or.inr rfl)
  have hbsep : ∀ i < 11, ∀ z ∈ (g + 32 * i) :: (fl i ++ [g + 32 * i + 16]), Sep blk.a z := by
    intro i hi z hz
    simp only [List.mem_cons, List.mem_append, List.not_mem_nil, or_false] at hz
    unfold Sep
    rcases hz with hz | hz | hz
    · omega
    · obtain ⟨b', hb', hba', -⟩ := H.node i hi z hz
      have hB' := Tiles_mem H.tiles hb'
      rcases Tiles_sep H.tiles hb hb' with h | h | h
      · subst h; exact absurd (hba' ▸ hz) (hnot i hi)
      · omega
      · omega
    · omega
  refine ⟨⟨G4, T4, ?_, ?_, ?_, ?_, H.bound⟩,
    Keeps_trans (Keeps_trans (Keeps_trans K1 K2) K3) K4⟩
  · intro i hi
    by_cases hik : i = k
    · subst hik
      rw [Function.update_same, List.cons_append, hn]
      apply Links_insert hlinks _ hvb hvh hvn
      rw [List.pairwise_cons]
      refine ⟨?_, hsep⟩
      intro z hz
      rw [← hn] at hz
      exact hbsep i hi z hz
    · rw [Function.update_noteq hik]
      apply Links_wr
      · apply Links_wr
        · apply Links_wr
          · apply Links_wr (H.links i hi)
            intro z hz
            have := H.sep_other hi hk hik hz hn_mem
            unfold Sep at this
            omega
          · intro z hz
            have := H.sep_other hi hk hik hz hh_mem
            unfold Sep at this
            omega
        · intro z hz
          have := hbsep i hi z hz
          unfold Sep at this
          omega
      · intro z hz
        have := hbsep i hi z hz
        unfold Sep at this
        omega
  · intro i hi
    by_cases hik : i = k
    · subst hik
      rw [Function.update_same, List.nodup_cons]
      exact ⟨hnot i hi, H.nodup i hi⟩
    · rw [Function.update_noteq hik]
      exact H.nodup i hi
  · intro i i' a hi hi' ha ha'
    by_cases hik : i = k <;> by_cases hik' : i' = k
    · rw [hik, hik']
    · exfalso
      subst hik
      rw [Function.update_same] at ha
      rw [Function.update_noteq hik'] at ha'
      rcases List.mem_cons.1 ha with h | h
      · exact hnot i' hi' (h ▸ ha')
      · exact hik' (H.disj i' i a hi' hi ha' h)
    · exfalso
      subst hik'
      rw [Function.update_same] at ha'
      rw [Function.update_noteq hik] at ha
      rcases List.mem_cons.1 ha' with h | h
      · exact hnot i hi (h ▸ ha)
      · exact hik (H.disj i i' a hi hi' ha h)
    · rw [Function.update_noteq hik] at ha
      rw [Function.update_noteq hik'] at ha'
      exact H.disj i i' a hi hi' ha ha'
  · intro i hi a ha
    by_cases hik : i = k
    · subst hik
      rw [Function.update_same] at ha
      rcases List.mem_cons.1 ha with h | h
      · exact ⟨blk, hb, h.symm, hbk⟩
      · exact H.node i hi a h
    · rw [Function.update_noteq hik] at ha
      exact H.node i hi a ha

/-! ## The primitives on states -/

@[simp] theorem store_mem (s : State) (a v : Nat) : (s.store a v).mem = wr s.mem a v := rfl

theorem bits_size (sz fl : Nat) (h1 : sz % 2 = 0) (h2 : sz < 2 ^ 31) (h3 : fl ≤ 1) :
    (sz + fl) &&& 0xFFFFFFFE = sz := by
  rw [and_mask32 _ (by omega)]; omega

theorem bits_used (sz fl : Nat) (h1 : sz % 2 = 0) (h3 : fl ≤ 1) : (sz + fl) &&& 1 = fl := by
  rw [Nat.and_one_is_mod]; omega

theorem bt_size_eq {s : State} {a sz F : Nat} (h : rd s.mem a = sz + F) (h1 : sz % 2 = 0)
    (h2 : sz < 2 ^ 31) (h3 : F ≤ 1) : bt_size s a = sz := by
  unfold bt_size; rw [h, bits_size sz F h1 h2 h3]

theorem bt_used_eq {s : State} {a Z fl : Nat} (h : rd s.mem a = Z + fl) (h1 : Z % 2 = 0)
    (h3 : fl ≤ 1) : bt_used s a = fl := by
  unfold bt_used; rw [h, bits_used Z fl h1 h3]

/-- What `bt_make` writes, for an even size below `2 ^ 31`. -/
theorem bt_make_eq (s : State) (a sz fl : Nat) (h1 : sz % 2 = 0) (h2 : sz < 2 ^ 31)
    (h3 : fl ≤ 1) :
    bt_make s a sz fl = { s with mem := wr (wr s.mem a (sz + fl)) (a + sz - 4) (sz + fl) } := by
  have e1 : (sz ||| fl) % 2 ^ 32 = sz + fl := by
    rw [or_flag sz fl h1 (by omega)]; omega
  have e2 : rd (wr s.mem a (sz + fl)) a &&& 0xFFFFFFFE = sz := by
    rw [rd_wr_same, Nat.mod_eq_of_lt (by omega), bits_size sz fl h1 h2 h3]
  simp only [bt_make, State.store, bt_footer, bt_size, e1, e2, sext_of_lt sz h2]

theorem list_idx_lt (sz : Nat) : list_idx sz < 11 := by
  unfold list_idx; split_ifs <;> omega

theorem get_list_eq (s : State) (sz : Nat) (h16 : 16 ≤ sz) (hm : sz % 16 = 0)
    (hsls : s.segment_lists_start = s.guard_blocks_start + 256) :
    get_list s sz = s.guard_blocks_start + 32 * list_idx sz := by
  unfold get_list list_idx
  by_cases h1 : sz ≤ 128
  · rw [if_pos (by omega), if_pos h1]
    omega
  · rw [if_neg (by omega), if_neg h1]
    simp only [get_list_loop, hsls]
    split_ifs <;> omega

/-! ## The variables other than memory -/

@[simp] theorem store_heap_start (s : State) (a v : Nat) :
    (s.store a v).heap_start = s.heap_start := rfl

@[simp] theorem store_heap_end (s : State) (a v : Nat) :
    (s.store a v).heap_end = s.heap_end := rfl

@[simp] theorem store_last (s : State) (a v : Nat) :
    (s.store a v).last = s.last := rfl

@[simp] theorem store_guard_blocks_start (s : State) (a v : Nat) :
    (s.store a v).guard_blocks_start = s.guard_blocks_start := rfl

@[simp] theorem store_guard_blocks_end (s : State) (a v : Nat) :
    (s.store a v).guard_blocks_end = s.guard_blocks_end := rfl

@[simp] theorem store_segment_lists_start (s : State) (a v : Nat) :
    (s.store a v).segment_lists_start = s.segment_lists_start := rfl

@[simp] theorem store_mem_brk (s : State) (a v : Nat) :
    (s.store a v).mem_brk = s.mem_brk := rfl

@[simp] theorem store_mem_max_addr (s : State) (a v : Nat) :
    (s.store a v).mem_max_addr = s.mem_max_addr := rfl

@[simp] theorem bt_make_heap_start (s : State) (a sz fl : Nat) :
    (bt_make s a sz fl).heap_start = s.heap_start := rfl

@[simp] theorem bt_make_heap_end (s : State) (a sz fl : Nat) :
    (bt_make s a sz fl).heap_end = s.heap_end := rfl

@[simp] theorem bt_make_last (s : State) (a sz fl : Nat) :
    (bt_make s a sz fl).last = s.last := rfl

@[simp] theorem bt_make_guard_blocks_start (s : State) (a sz fl : Nat) :
    (bt_make s a sz fl).guard_blocks_start = s.guard_blocks_start := rfl

@[simp] theorem bt_make_guard_blocks_end (s : State) (a sz fl : Nat) :
    (bt_make s a sz fl).guard_blocks_end = s.guard_blocks_end := rfl

@[simp] theorem bt_make_segment_lists_start (s : State) (a sz fl : Nat) :
    (bt_make s a sz fl).segment_lists_start = s.segment_lists_start := rfl

@[simp] theorem bt_make_mem_brk (s : State) (a sz fl : Nat) :
    (bt_make s a sz fl).mem_brk = s.mem_brk := rfl

@[simp] theorem bt_make_mem_max_addr (s : State) (a sz fl : Nat) :
    (bt_make s a sz fl).mem_max_addr = s.mem_max_addr := rfl

@[simp] theorem set_prev_offset_heap_start (s : State) (a v : Nat) :
    (set_prev_offset s a v).heap_start = s.heap_start := rfl

@[simp] theorem set_prev_offset_heap_end (s : State) (a v : Nat) :
    (set_prev_offset s a v).heap_end = s.heap_end := rfl

@[simp] theorem set_prev_offset_last (s : State) (a v : Nat) :
    (set_prev_offset s a v).last = s.last := rfl

@[simp] theorem set_prev_offset_guard_blocks_start (s : State) (a v : Nat) :
    (set_prev_offset s a v).guard_blocks_start = s.guard_blocks_start := rfl

@[simp] theorem set_prev_offset_guard_blocks_end (s : State) (a v : Nat) :
    (set_prev_offset s a v).guard_blocks_end = s.guard_blocks_end := rfl

@[simp] theorem set_prev_offset_segment_lists_start (s : State) (a v : Nat) :
    (set_prev_offset s a v).segment_lists_start = s.segment_lists_start := rfl

@[simp] theorem set_prev_offset_mem_brk (s : State) (a v : Nat) :
    (set_prev_offset s a v).mem_brk = s.mem_brk := rfl

@[simp] theorem set_prev_offset_mem_max_addr (s : State) (a v : Nat) :
    (set_prev_offset s a v).mem_max_addr = s.mem_max_addr := rfl

@[simp] theorem set_next_offset_heap_start (s : State) (a v : Nat) :
    (set_next_offset s a v).heap_start = s.heap_start := rfl

@[simp] theorem set_next_offset_heap_end (s : State) (a v : Nat) :
    (set_next_offset s a v).heap_end = s.heap_end := rfl

@[simp] theorem set_next_offset_last (s : State) (a v : Nat) :
    (set_next_offset s a v).last = s.last := rfl

@[simp] theorem set_next_offset_guard_blocks_start (s : State) (a v : Nat) :
    (set_next_offset s a v).guard_blocks_start = s.guard_blocks_start := rfl

@[simp] theorem set_next_offset_guard_blocks_end (s : State) (a v : Nat) :
    (set_next_offset s a v).guard_blocks_end = s.guard_blocks_end := rfl

@[simp] theorem set_next_offset_segment_lists_start (s : State) (a v : Nat) :
    (set_next_offset s a v).segment_lists_start = s.segment_lists_start := rfl

@[simp] theorem set_next_offset_mem_brk (s : State) (a v : Nat) :
    (set_next_offset s a v).mem_brk = s.mem_brk := rfl

@[simp] theorem set_next_offset_mem_max_addr (s : State) (a v : Nat) :
    (set_next_offset s a v).mem_max_addr = s.mem_max_addr := rfl

@[simp] theorem insert_block_heap_start (s : State) (a : Nat) :
    (insert_block s a).heap_start = s.heap_start := rfl

@[simp] theorem insert_block_heap_end (s : State) (a : Nat) :
    (insert_block s a).heap_end = s.heap_end := rfl

@[simp] theorem insert_block_last (s : State) (a : Nat) :
    (insert_block s a).last = s.last := rfl

@[simp] theorem insert_block_guard_blocks_start (s : State) (a : Nat) :
    (insert_block s a).guard_blocks_start = s.guard_blocks_start := rfl

@[simp] theorem insert_block_guard_blocks_end (s : State) (a : Nat) :
    (insert_block s a).guard_blocks_end = s.guard_blocks_end := rfl

@[simp] theorem insert_block_segment_lists_start (s : State) (a : Nat) :
    (insert_block s a).segment_lists_start = s.segment_lists_start := rfl

@[simp] theorem insert_block_mem_brk (s : State) (a : Nat) :
    (insert_block s a).mem_brk = s.mem_brk := rfl

@[simp] theorem insert_block_mem_max_addr (s : State) (a : Nat) :
    (insert_block s a).mem_max_addr = s.mem_max_addr := rfl

@[simp] theorem remove_block_heap_start (s : State) (a : Nat) :
    (remove_block s a).heap_start = s.heap_start := rfl

@[simp] theorem remove_block_heap_end (s : State) (a : Nat) :
    (remove_block s a).heap_end = s.heap_end := rfl

@[simp] theorem remove_block_last (s : State) (a : Nat) :
    (remove_block s a).last = s.last := rfl

@[simp] theorem remove_block_guard_blocks_start (s : State) (a : Nat) :
    (remove_block s a).guard_blocks_start = s.guard_blocks_start := rfl

@[simp] theorem remove_block_guard_blocks_end (s : State) (a : Nat) :
    (remove_block s a).guard_blocks_end = s.guard_blocks_end := rfl

@[simp] theorem remove_block_segment_lists_start (s : State) (a : Nat) :
    (remove_block s a).segment_lists_start = s.segment_lists_start := rfl

@[simp] theorem remove_block_mem_brk (s : State) (a : Nat) :
    (remove_block s a).mem_brk = s.mem_brk := rfl

@[simp] theorem remove_block_mem_max_addr (s : State) (a : Nat) :
    (remove_block s a).mem_max_addr = s.mem_max_addr := rfl

@[simp] theorem coalese_front_heap_start (s : State) (a : Nat) :
    (coalese_front s a).heap_start = s.heap_start := rfl

@[simp] theorem coalese_front_heap_end (s : State) (a : Nat) :
    (coalese_front s a).heap_end = s.heap_end := rfl

@[simp] theorem coalese_front_guard_blocks_start (s : State) (a : Nat) :
    (coalese_front s a).guard_blocks_start = s.guard_blocks_start := rfl

@[simp] theorem coalese_front_guard_blocks_end (s : State) (a : Nat) :
    (coalese_front s a).guard_blocks_end = s.guard_blocks_end := rfl

@[simp] theorem coalese_front_segment_lists_start (s : State) (a : Nat) :
    (coalese_front s a).segment_lists_start = s.segment_lists_start := rfl

@[simp] theorem coalese_front_mem_brk (s : State) (a : Nat) :
    (coalese_front s a).mem_brk = s.mem_brk := rfl

@[simp] theorem coalese_front_mem_max_addr (s : State) (a : Nat) :
    (coalese_front s a).mem_max_addr = s.mem_max_addr := rfl

@[simp] theorem coalese_back_heap_start (s : State) (a : Nat) :
    (coalese_back s a).heap_start = s.heap_start := rfl

@[simp] theorem coalese_back_heap_end (s : State) (a : Nat) :
    (coalese_back s a).heap_end = s.heap_end := rfl

@[simp] theorem coalese_back_guard_blocks_start (s : State) (a : Nat) :
    (coalese_back s a).guard_blocks_start = s.guard_blocks_start := rfl

@[simp] theorem coalese_back_guard_blocks_end (s : State) (a : Nat) :
    (coalese_back s a).guard_blocks_end = s.guard_blocks_end := rfl

@[simp] theorem coalese_back_segment_lists_start (s : State) (a : Nat) :
    (coalese_back s a).segment_lists_start = s.segment_lists_start := rfl

@[simp] theorem coalese_back_mem_brk (s : State) (a : Nat) :
    (coalese_back s a).mem_brk = s.mem_brk := rfl

@[simp] theorem coalese_back_mem_max_addr (s : State) (a : Nat) :
    (coalese_back s a).mem_max_addr = s.mem_max_addr := rfl

/-! ## The invariant that holds between the steps of an operation -/

/-- Stamping the block `⟨a, sz, k⟩` at the end of a run of the chain; the blocks `l`
before it in the run stay without tags. -/
theorem Heap_stamp {m : Mem} {g e c d a Z : Nat} {k : Kind} {P M l Q : List Blk}
    {fl : Nat → List Nat} (H : Heap m g e (P ++ M ++ Q) fl)
    (hc : Tiles m (g + 352) P c) (hd : Tiles m d Q e) (hl : Tiles m c l a)
    (hraw : ∀ b ∈ l, b.k = .raw) (had : a + Z = d) (h16 : 16 ≤ Z) (hm : Z % 16 = 0)
    (hk : k ≠ .raw)
    (hnode : ∀ i < 11, ∀ x ∈ fl i, ∀ b ∈ M, b.a = x →
      ∃ b' ∈ l ++ [⟨a, Z, k⟩], b'.a = x ∧ b'.k ≠ .used) :
    Heap (wr (wr m a (Z + k.flag)) (a + Z - 4) (Z + k.flag)) g e
      (P ++ (l ++ [⟨a, Z, k⟩]) ++ Q) fl := by
  have h1 := Tiles_le hc
  have h2 := Tiles_le hd
  have h3 := Tiles_le hl
  have h4 := H.bound
  have hfl : k.flag ≤ 1 := by cases k <;> simp [Kind.flag]
  apply Heap_replace H hc hd _ _ hnode
  · rw [Tiles_append]
    refine ⟨a, Tiles_frame hl (fun b hb hb' => absurd (hraw b hb) hb'), ?_⟩
    simp only [Tiles_cons, Tiles_nil, Tagged]
    refine ⟨trivial, h16, hm, fun _ => ⟨?_, ?_⟩, had⟩
    · rw [rd_wr_ne _ _ _ _ (by omega), rd_wr_same, Nat.mod_eq_of_lt (by omega)]
    · rw [rd_wr_same, Nat.mod_eq_of_lt (by omega)]
  · intro x hx
    have := hx ⟨a, Z, k⟩ (by simp) hk
    simp only at this
    rw [wr_get_ne _ _ _ _ (by omega), wr_get_ne _ _ _ _ (by omega)]

theorem Core.size_lt {s : State} {bs : List Blk} {fl : Nat → List Nat} (hC : Core s bs fl)
    {b : Blk} (hb : b ∈ bs) :
    s.guard_blocks_start + 352 ≤ b.a ∧ b.a + b.sz ≤ s.heap_end ∧ 16 ≤ b.sz ∧ b.sz % 16 = 0 ∧
      b.sz < 2 ^ 31 ∧ b.a % 16 = 12 ∧ b.a < s.guard_blocks_start + 2 ^ 31 := by
  have := Tiles_mem hC.heap.tiles hb
  have := hC.heap.bound
  have := hC.al
  omega

theorem Core.header {s : State} {bs : List Blk} {fl : Nat → List Nat} (hC : Core s bs fl)
    {b : Blk} (hb : b ∈ bs) (hk : b.k ≠ .raw) :
    rd s.mem b.a = b.sz + b.k.flag ∧ rd s.mem (b.a + b.sz - 4) = b.sz + b.k.flag :=
  (Tiles_mem hC.heap.tiles hb).2.2.2.2.2 hk

/-- `remove_block` takes a free block out of its list. -/
theorem Core.remove {s : State} {bs : List Blk} {fl : Nat → List Nat} (hC : Core s bs fl)
    {b : Blk} {j : Nat} (hj : j < 11) (hb : b ∈ bs) (hk : b.k = .free) (hm : b.a ∈ fl j) :
    Core (remove_block s b.a) bs (fun i => (fl i).erase b.a) ∧
      Keeps s.mem (remove_block s b.a).mem bs := by
  obtain ⟨x, y, hx, hy, gx, gy, bx, bY, hsep, hH⟩ := Heap_remove hC.heap hj hm
  have hB := hC.size_lt hb
  have hT := hC.header hb (by rw [hk]; decide)
  simp only [hk, Kind.flag, Nat.add_zero] at hT
  have hhead : is_head s b.a = false := by
    unfold is_head; rw [hT.1]; simp; omega
  have htail : is_tail s b.a = false := by
    unfold is_tail; rw [hT.1]
    have : b.sz ≠ 17 := by omega
    simp [this]
  have e1 : sext (rd s.mem (b.a + 4)) = x - s.guard_blocks_start := by
    rw [hx, sext_of_lt _ (by omega)]
  have e2 : sext (rd s.mem (b.a + 8)) = y - s.guard_blocks_start := by
    rw [hy, sext_of_lt _ (by omega)]
  have e3 : rd (wr s.mem (x + 8) ((y - s.guard_blocks_start) % 2 ^ 32)) (b.a + 4)
      = rd s.mem (b.a + 4) := by
    apply rd_wr_ne; unfold Sep at hsep; omega
  have hmem : remove_block s b.a = { s with mem := (wr
      (wr s.mem (x + 8) ((y - s.guard_blocks_start) % 2 ^ 32)) (y + 4)
        ((x - s.guard_blocks_start) % 2 ^ 32)) } := by
    simp only [remove_block, prev_free, next_free, hhead, htail, get_prev_offset,
      get_next_offset, set_next_offset, set_prev_offset, State.store, hC.hs, e1, e2,
      Bool.false_eq_true, if_false]
    rw [show s.guard_blocks_start + (x - s.guard_blocks_start) = x by omega,
      show s.guard_blocks_start + (y - s.guard_blocks_start) = y by omega, e3, e1]
  obtain ⟨H1, K1⟩ := hH ((y - s.guard_blocks_start) % 2 ^ 32)
    ((x - s.guard_blocks_start) % 2 ^ 32) (by omega) (by omega)
  rw [hmem]
  exact ⟨⟨hC.hs, hC.gbe, hC.sls, hC.al, hC.brk, hC.max, hC.lim, hC.lim64, H1, hC.last⟩, K1⟩

/-- `insert_block` puts a free block at the front of the list of its size. -/
theorem Core.insert {s : State} {bs : List Blk} {fl : Nat → List Nat} (hC : Core s bs fl)
    {b : Blk} (hb : b ∈ bs) (hk : b.k = .free) (hnot : ∀ i < 11, b.a ∉ fl i) :
    Core (insert_block s b.a) bs
        (Function.update fl (list_idx b.sz) (b.a :: fl (list_idx b.sz))) ∧
      Keeps s.mem (insert_block s b.a).mem bs := by
  have hidx := list_idx_lt b.sz
  obtain ⟨n, hn, gn, bn, hH⟩ := Heap_insert hC.heap hidx hb (by rw [hk]; decide) hnot
  have hB := hC.size_lt hb
  have hT := hC.header hb (by rw [hk]; decide)
  simp only [hk, Kind.flag, Nat.add_zero] at hT
  have hsz : bt_size s b.a = b.sz := bt_size_eq (F := 0) hT.1 (by omega) (by omega) (by omega)
  have hlist : get_list s b.sz = s.guard_blocks_start + 32 * list_idx b.sz :=
    get_list_eq s b.sz (by omega) (by omega) hC.sls
  have hG := hC.heap.guards _ hidx
  have htail : is_tail s (s.guard_blocks_start + 32 * list_idx b.sz) = false := by
    unfold is_tail; rw [hG.1]; simp
  have e2 : sext (rd s.mem (s.guard_blocks_start + 32 * list_idx b.sz + 8))
      = n - s.guard_blocks_start := by
    rw [hn, sext_of_lt _ (by omega)]
  have hmem : insert_block s b.a = { s with mem := (wr
      (wr (wr (wr s.mem (n + 4) ((b.a - s.guard_blocks_start) % 2 ^ 32 % 2 ^ 32))
        (s.guard_blocks_start + 32 * list_idx b.sz + 8)
          ((b.a - s.guard_blocks_start) % 2 ^ 32 % 2 ^ 32))
        (b.a + 4) ((s.guard_blocks_start + 32 * list_idx b.sz - s.guard_blocks_start)
          % 2 ^ 32 % 2 ^ 32))
        (b.a + 8) ((n - s.guard_blocks_start) % 2 ^ 32 % 2 ^ 32)) } := by
    simp only [insert_block, hsz, sext_of_lt b.sz hB.2.2.2.2.1, hlist, next_free, htail,
      get_next_offset, set_next_offset, set_prev_offset, State.store, hC.hs, e2,
      Bool.false_eq_true, if_false]
    rw [show s.guard_blocks_start + (n - s.guard_blocks_start) = n by omega]
  obtain ⟨H1, K1⟩ := hH ((b.a - s.guard_blocks_start) % 2 ^ 32 % 2 ^ 32)
    ((s.guard_blocks_start + 32 * list_idx b.sz - s.guard_blocks_start) % 2 ^ 32 % 2 ^ 32)
    ((n - s.guard_blocks_start) % 2 ^ 32 % 2 ^ 32) (by omega) (by omega) (by omega)
  rw [hmem]
  exact ⟨⟨hC.hs, hC.gbe, hC.sls, hC.al, hC.brk, hC.max, hC.lim, hC.lim64, H1, hC.last⟩, K1⟩

/-! ## The invariant between operations -/

theorem Tiles_sorted {m : Mem} {bs : List Blk} {a e : Nat} (h : Tiles m a bs e) :
    bs.Pairwise (fun x y => x.a < y.a) := by
  induction bs generalizing a with
  | nil => exact List.Pairwise.nil
  | cons x xs ih =>
    obtain ⟨h1, h2, h3, h4, h5⟩ := h
    refine List.Pairwise.cons ?_ (ih h5)
    intro y hy
    have := Tiles_mem h5 hy
    omega

theorem NoAdj_last {pre : List Blk} {x x' : Blk} (h : NoAdj (pre ++ [x]))
    (hk : x'.k = x.k ∨ x'.k ≠ .free) : NoAdj (pre ++ [x']) := by
  unfold NoAdj at h ⊢
  rw [List.chain'_append] at h ⊢
  refine ⟨h.1, List.chain'_singleton _, ?_⟩
  intro a ha b hb
  simp only [List.head?_cons, Option.mem_def, Option.some.injEq] at hb
  subst hb
  have := h.2.2 a ha x (by simp)
  rcases hk with hk | hk
  · rw [hk]; exact this
  · exact Or.inr hk

theorem NoAdj_head {post : List Blk} {x x' : Blk} (h : NoAdj (x :: post))
    (hk : x'.k = x.k ∨ x'.k ≠ .free) : NoAdj (x' :: post) := by
  unfold NoAdj at h ⊢
  rw [List.chain'_cons'] at h ⊢
  refine ⟨?_, h.2⟩
  intro b hb
  have := h.1 b hb
  rcases hk with hk | hk
  · rw [hk]; exact this
  · exact Or.inl hk

theorem NoAdj_split {pre post : List Blk} {x : Blk} :
    NoAdj (pre ++ x :: post) ↔ NoAdj (pre ++ [x]) ∧ NoAdj (x :: post) := List.chain'_split

theorem NoAdj_cons {x y : Blk} {l : List Blk} :
    NoAdj (x :: y :: l) ↔ (x.k ≠ .free ∨ y.k ≠ .free) ∧ NoAdj (y :: l) := List.chain'_cons

theorem NoAdj_single (x : Blk) : NoAdj [x] := List.chain'_singleton x

theorem NoAdj_append_single {pre : List Blk} {y x : Blk} :
    NoAdj (pre ++ [y] ++ [x]) ↔ NoAdj (pre ++ [y]) ∧ (y.k ≠ .free ∨ x.k ≠ .free) := by
  unfold NoAdj
  rw [List.append_assoc, List.singleton_append, List.chain'_split, List.chain'_pair]

/-- Freeing `x` and merging it with the free neighbours that share the run `mid` with it. -/
theorem Abs_merge {P M post : List Blk} {fl fl' : Nat → List Nat} {L : List Nat}
    {x : Blk} {a0 sz0 k : Nat} (hA : Abs (P ++ M ++ post) fl L)
    (hs : (P ++ M ++ post).Pairwise (fun b b' => b.a < b'.a))
    (hx : x ∈ M) (hxk : x.k = .used) (hmid : ∀ b ∈ M, b ≠ x → b.k = .free) (hk : k < 11)
    (hfl' : ∀ i < 11, ∀ a, a ∈ fl' i ↔ (a ∈ fl i ∧ ∀ b ∈ M, b.a ≠ a) ∨ (a = a0 ∧ i = k))
    (hch : NoAdj (P ++ ⟨a0, sz0, .free⟩ :: post)) :
    Abs (P ++ ⟨a0, sz0, .free⟩ :: post) fl' (L.erase (x.a + 4)) := by
  have hs1 := List.pairwise_append.1 hs
  have hs2 := List.pairwise_append.1 hs1.1
  have hpm : ∀ b ∈ P, ∀ b' ∈ M, b.a ≠ b'.a := fun b hb b' hb' =>
    Nat.ne_of_lt (hs2.2.2 b hb b' hb')
  have hmp : ∀ b ∈ post, ∀ b' ∈ M, b.a ≠ b'.a := fun b hb b' hb' =>
    (Nat.ne_of_lt (hs1.2.2 b' (List.mem_append_right _ hb') b hb)).symm
  refine ⟨?_, ?_, ?_, hch, hA.live_nodup.erase _, ?_⟩
  · intro b hb
    simp only [List.mem_append, List.mem_cons] at hb
    rcases hb with hb | rfl | hb
    · exact hA.noraw b (by simp [hb])
    · simp
    · exact hA.noraw b (by simp [hb])
  · intro b hb hbk
    simp only [List.mem_append, List.mem_cons] at hb
    rcases hb with hb | rfl | hb
    · obtain ⟨i, hi, h⟩ := hA.free_in b (by simp [hb]) hbk
      exact ⟨i, hi, (hfl' i hi b.a).2 (Or.inl ⟨h, fun b' hb' e => hpm b hb b' hb' e.symm⟩)⟩
    · exact ⟨k, hk, (hfl' k hk a0).2 (Or.inr ⟨rfl, rfl⟩)⟩
    · obtain ⟨i, hi, h⟩ := hA.free_in b (by simp [hb]) hbk
      exact ⟨i, hi, (hfl' i hi b.a).2 (Or.inl ⟨h, fun b' hb' e => hmp b hb b' hb' e.symm⟩)⟩
  · intro i hi a ha
    rcases (hfl' i hi a).1 ha with ⟨h1, h2⟩ | ⟨h1, -⟩
    · obtain ⟨b, hb, hba, hbk⟩ := hA.in_free i hi a h1
      simp only [List.mem_append] at hb
      rcases hb with (hb | hb) | hb
      · exact ⟨b, by simp [hb], hba, hbk⟩
      · exact absurd hba (h2 b hb)
      · exact ⟨b, by simp [hb], hba, hbk⟩
    · exact ⟨⟨a0, sz0, .free⟩, by simp, h1.symm, rfl⟩
  · intro p
    rw [hA.live_nodup.mem_erase_iff, hA.live]
    constructor
    · rintro ⟨hne, b, hb, hbk, hbp⟩
      simp only [List.mem_append] at hb
      rcases hb with (hb | hb) | hb
      · exact ⟨b, by simp [hb], hbk, hbp⟩
      · by_cases hbx : b = x
        · subst hbx; exact absurd hbp.symm hne
        · have := hmid b hb hbx
          rw [hbk] at this
          exact absurd this (by decide)
      · exact ⟨b, by simp [hb], hbk, hbp⟩
    · rintro ⟨b, hb, hbk, hbp⟩
      simp only [List.mem_append, List.mem_cons] at hb
      rcases hb with hb | rfl | hb
      · refine ⟨?_, b, by simp [hb], hbk, hbp⟩
        intro e
        have := hpm b hb x hx
        omega
      · simp at hbk
      · refine ⟨?_, b, by simp [hb], hbk, hbp⟩
        intro e
        have := hmp b hb x hx
        omega

/-- Taking the free block `x` for an allocation, with an optional free remainder `rem`. -/
theorem Abs_alloc {pre post rem : List Blk} {fl fl' : Nat → List Nat} {L : List Nat}
    {x : Blk} {n : Nat} (hA : Abs (pre ++ x :: post) fl L)
    (hs : (pre ++ x :: post).Pairwise (fun b b' => b.a < b'.a)) (hxk : x.k = .free)
    (hrem : ∀ r ∈ rem, r.k = .free)
    (hfl' : ∀ i < 11, ∀ a, a ∈ fl' i ↔
      (a ∈ fl i ∧ a ≠ x.a) ∨ ∃ r ∈ rem, a = r.a ∧ i = list_idx r.sz)
    (hch : NoAdj (pre ++ ⟨x.a, n, .used⟩ :: (rem ++ post))) :
    Abs (pre ++ ⟨x.a, n, .used⟩ :: (rem ++ post)) fl' ((x.a + 4) :: L) := by
  have hs1 := List.pairwise_append.1 hs
  have hs2 := List.pairwise_cons.1 hs1.2.1
  have hpx : ∀ b ∈ pre, b.a ≠ x.a := fun b hb =>
    Nat.ne_of_lt (hs1.2.2 b hb x (List.mem_cons_self _ _))
  have hxp : ∀ b ∈ post, b.a ≠ x.a := fun b hb => (Nat.ne_of_lt (hs2.1 b hb)).symm
  have hxL : x.a + 4 ∉ L := by
    rw [hA.live]
    rintro ⟨b, hb, hbk, hbp⟩
    simp only [List.mem_append, List.mem_cons] at hb
    rcases hb with hb | rfl | hb
    · have := hpx b hb; omega
    · rw [hxk] at hbk; exact absurd hbk (by decide)
    · have := hxp b hb; omega
  refine ⟨?_, ?_, ?_, hch, List.nodup_cons.2 ⟨hxL, hA.live_nodup⟩, ?_⟩
  · intro b hb
    simp only [List.mem_append, List.mem_cons] at hb
    rcases hb with hb | rfl | hb | hb
    · exact hA.noraw b (by simp [hb])
    · simp
    · rw [hrem b hb]; decide
    · exact hA.noraw b (by simp [hb])
  · intro b hb hbk
    simp only [List.mem_append, List.mem_cons] at hb
    rcases hb with hb | rfl | hb | hb
    · obtain ⟨i, hi, h⟩ := hA.free_in b (by simp [hb]) hbk
      exact ⟨i, hi, (hfl' i hi b.a).2 (Or.inl ⟨h, hpx b hb⟩)⟩
    · simp at hbk
    · exact ⟨list_idx b.sz, list_idx_lt _,
        (hfl' _ (list_idx_lt _) b.a).2 (Or.inr ⟨b, hb, rfl, rfl⟩)⟩
    · obtain ⟨i, hi, h⟩ := hA.free_in b (by simp [hb]) hbk
      exact ⟨i, hi, (hfl' i hi b.a).2 (Or.inl ⟨h, hxp b hb⟩)⟩
  · intro i hi a ha
    rcases (hfl' i hi a).1 ha with ⟨h1, h2⟩ | ⟨r, hr, h1, -⟩
    · obtain ⟨b, hb, hba, hbk⟩ := hA.in_free i hi a h1
      simp only [List.mem_append, List.mem_cons] at hb
      rcases hb with hb | rfl | hb
      · exact ⟨b, by simp [hb], hba, hbk⟩
      · exact absurd hba.symm h2
      · exact ⟨b, by simp [hb], hba, hbk⟩
    · exact ⟨r, by simp [hr], h1.symm, hrem r hr⟩
  · intro p
    rw [List.mem_cons, hA.live]
    constructor
    · rintro (rfl | ⟨b, hb, hbk, hbp⟩)
      · exact ⟨⟨x.a, n, .used⟩, by simp, rfl, rfl⟩
      · simp only [List.mem_append, List.mem_cons] at hb
        rcases hb with hb | rfl | hb
        · exact ⟨b, by simp [hb], hbk, hbp⟩
        · rw [hxk] at hbk; exact absurd hbk (by decide)
        · exact ⟨b, by simp [hb], hbk, hbp⟩
    · rintro ⟨b, hb, hbk, hbp⟩
      simp only [List.mem_append, List.mem_cons] at hb
      rcases hb with hb | rfl | hb | hb
      · exact Or.inr ⟨b, by simp [hb], hbk, hbp⟩
      · exact Or.inl hbp.symm
      · rw [hrem b hb] at hbk; exact absurd hbk (by decide)
      · exact Or.inr ⟨b, by simp [hb], hbk, hbp⟩

/-- A fresh block in use at the end of the chain. -/
theorem Abs_grow {bs : List Blk} {fl : Nat → List Nat} {L : List Nat} {a n : Nat}
    (hA : Abs bs fl L) (hs : ∀ b ∈ bs, b.a < a) :
    Abs (bs ++ [⟨a, n, .used⟩]) fl ((a + 4) :: L) := by
  have haL : a + 4 ∉ L := by
    rw [hA.live]
    rintro ⟨b, hb, -, hbp⟩
    have := hs b hb; omega
  refine ⟨?_, ?_, ?_, ?_, List.nodup_cons.2 ⟨haL, hA.live_nodup⟩, ?_⟩
  · intro b hb
    simp only [List.mem_append, List.mem_singleton] at hb
    rcases hb with hb | rfl
    · exact hA.noraw b hb
    · simp
  · intro b hb hbk
    simp only [List.mem_append, List.mem_singleton] at hb
    rcases hb with hb | rfl
    · exact hA.free_in b hb hbk
    · simp at hbk
  · intro i hi x hx
    obtain ⟨b, hb, h⟩ := hA.in_free i hi x hx
    exact ⟨b, List.mem_append_left _ hb, h⟩
  · rcases List.eq_nil_or_concat bs with h | ⟨pre, y, h⟩
    · subst h; exact NoAdj_single _
    · rw [List.concat_eq_append] at h
      subst h
      exact NoAdj_append_single.2 ⟨hA.noadj, Or.inr (by simp)⟩
  · intro p
    rw [List.mem_cons, hA.live]
    constructor
    · rintro (rfl | ⟨b, hb, h⟩)
      · exact ⟨⟨a, n, .used⟩, by simp, rfl, rfl⟩
      · exact ⟨b, List.mem_append_left _ hb, h⟩
    · rintro ⟨b, hb, hbk, hbp⟩
      simp only [List.mem_append, List.mem_singleton] at hb
      rcases hb with hb | rfl
      · exact Or.inr ⟨b, hb, hbk, hbp⟩
      · exact Or.inl hbp.symm

/-! ## Searching the free lists -/

theorem Links_next {m : Mem} {g x a : Nat} {l : List Nat} (h : Links m g x l)
    (ha : a ∈ x :: l) : a = lastOf x l ∨ ∃ y ∈ l, rd m (a + 8) = y - g := by
  induction l generalizing x with
  | nil => left; simpa using ha
  | cons y l ih =>
    obtain ⟨⟨h1, -⟩, h3⟩ := h
    rcases List.mem_cons.1 ha with rfl | ha
    · exact Or.inr ⟨y, List.mem_cons_self _ _, h1⟩
    · rcases ih h3 ha with h | ⟨z, hz, h⟩
      · exact Or.inl h
      · exact Or.inr ⟨z, List.mem_cons_of_mem _ hz, h⟩

theorem Inv.free_node {s : State} {bs : List Blk} {fl : Nat → List Nat} {L : List Nat}
    (hI : Inv s bs fl L) {i a : Nat} (hi : i < 11) (ha : a ∈ fl i) :
    ∃ b ∈ bs, b.a = a ∧ b.k = .free ∧ rd s.mem a = b.sz ∧ 16 ≤ b.sz ∧ b.sz % 16 = 0 ∧
      b.sz < 2 ^ 31 ∧ s.guard_blocks_start + 352 ≤ a ∧ a < s.guard_blocks_start + 2 ^ 31 := by
  obtain ⟨b, hb, hba, hbk⟩ := hI.abs.in_free i hi a ha
  have h1 := hI.core.size_lt hb
  have h2 := hI.core.header hb (by rw [hbk]; decide)
  simp only [hbk, Kind.flag, Nat.add_zero] at h2
  subst hba
  exact ⟨b, hb, rfl, hbk, h2.1, by omega, by omega, by omega, by omega, by omega⟩

/-- `find_block_in_list` returns `NULL` or a free block of the list that is large enough. -/
theorem find_block_in_list_spec {s : State} {bs : List Blk} {fl : Nat → List Nat}
    {L : List Nat} (hI : Inv s bs fl L) {i size : Nat} (hi : i < 11) (hsz : 1 ≤ size)
    (fuel : Nat) : ∀ act r,
      act ∈ (s.guard_blocks_start + 32 * i) ::
        (fl i ++ [s.guard_blocks_start + 32 * i + 16]) →
      find_block_in_list s size fuel act = some r →
      r = 0 ∨ (r ∈ fl i ∧ ∃ b ∈ bs, b.a = r ∧ b.k = .free ∧ size ≤ b.sz) := by
  induction fuel with
  | zero => intro act r _ h; simp [find_block_in_list] at h
  | succ fuel ih =>
    intro act r hact h
    have hG := hI.core.heap.guards i hi
    have hgbe := hI.core.gbe
    have hlast : lastOf (s.guard_blocks_start + 32 * i)
        (fl i ++ [s.guard_blocks_start + 32 * i + 16]) = s.guard_blocks_start + 32 * i + 16 := by
      rw [lastOf_append]; rfl
    have hnext : act ≠ s.guard_blocks_start + 32 * i + 16 →
        next_free s act ∈ (s.guard_blocks_start + 32 * i) ::
          (fl i ++ [s.guard_blocks_start + 32 * i + 16]) ∨ is_tail s act = true := by
      intro hne
      by_cases ht : is_tail s act = true
      · exact Or.inr ht
      left
      rcases Links_next (hI.core.heap.links i hi) hact with h | ⟨y, hy, h⟩
      · rw [hlast] at h; exact absurd h hne
      · have hyn := hI.core.heap.isLinkNode hi (List.mem_cons_of_mem _ hy)
        have hyr := hyn.range hI.core.heap.tiles
        have hbd := hI.core.heap.bound
        have hge := Tiles_le hI.core.heap.tiles
        have : next_free s act = y := by
          simp only [next_free, ht, get_next_offset, h, hI.core.hs, Bool.false_eq_true, if_false]
          rw [sext_of_lt _ (by omega)]
          omega
        rw [this]
        exact List.mem_cons_of_mem _ hy
    simp only [List.mem_cons, List.mem_append, List.not_mem_nil, or_false] at hact
    unfold find_block_in_list at h
    rcases hact with hact | hact | hact
    · -- the head guard
      have ht : is_tail s act = false := by
        unfold is_tail; rw [hact, hG.1]; simp
      have hs0 : bt_size s act = 0 := by
        unfold bt_size; rw [hact, hG.1]; rfl
      rw [ht, hs0] at h
      simp only [Bool.false_eq_true, if_false, sext_of_lt 0 (by norm_num)] at h
      rw [if_neg (by omega)] at h
      rcases hnext (by omega) with hn | hn
      · exact ih _ r hn h
      · rw [ht] at hn; exact absurd hn (by decide)
    · -- a free block of the list
      obtain ⟨b, hb, hba, hbk, hrd, h16, hm, hlt, hlo, -⟩ := hI.free_node hi hact
      have ht : is_tail s act = false := by
        unfold is_tail; rw [hrd]
        have : b.sz ≠ 17 := by omega
        simp [this]
      have hs0 : bt_size s act = b.sz :=
        bt_size_eq (F := 0) hrd (by omega) hlt (by omega)
      rw [ht, hs0, sext_of_lt _ hlt] at h
      simp only [Bool.false_eq_true, if_false] at h
      by_cases hfit : b.sz ≥ size
      · rw [if_pos hfit] at h
        injection h with h
        subst h
        exact Or.inr ⟨hact, b, hb, hba, hbk, hfit⟩
      · rw [if_neg hfit] at h
        rcases hnext (by omega) with hn | hn
        · exact ih _ r hn h
        · rw [ht] at hn; exact absurd hn (by decide)
    · -- the tail guard
      have ht : is_tail s act = true := by
        unfold is_tail; rw [hact, hG.2.2.1, hgbe]
        simp; omega
      rw [ht] at h
      simp only [if_true] at h
      injection h with h
      exact Or.inl h.symm

/-- `find_free_block` returns `NULL` or a free block that is large enough. -/
theorem find_free_block_loop_spec {s : State} {bs : List Blk} {fl : Nat → List Nat}
    {L : List Nat} (hI : Inv s bs fl L) {size : Nat} (hsz : 1 ≤ size) (fuel : Nat) :
    ∀ k i r, find_free_block_loop fuel s size k (s.guard_blocks_start + 32 * i) = some r →
      r = 0 ∨ ∃ j < 11, r ∈ fl j ∧ ∃ b ∈ bs, b.a = r ∧ b.k = .free ∧ size ≤ b.sz := by
  intro k
  induction k with
  | zero => intro i r h; simp [find_free_block_loop] at h
  | succ k ih =>
    intro i r h
    unfold find_free_block_loop at h
    by_cases hle : s.guard_blocks_start + 32 * i ≤ s.guard_blocks_end
    · rw [if_pos hle] at h
      have hi : i < 11 := by have := hI.core.gbe; omega
      cases hf : find_block_in_list s size fuel (s.guard_blocks_start + 32 * i) with
      | none => rw [hf] at h; simp at h
      | some res =>
        rw [hf] at h
        simp only at h
        have := find_block_in_list_spec hI hi hsz fuel _ res (List.mem_cons_self _ _) hf
        by_cases h0 : res = 0
        · rw [if_pos h0] at h
          have e : s.guard_blocks_start + 32 * i + 2 * 16 = s.guard_blocks_start + 32 * (i + 1) := by
            omega
          rw [e] at h
          exact ih (i + 1) r h
        · rw [if_neg h0] at h
          injection h with h
          subst h
          rcases this with h | ⟨h1, h2⟩
          · exact Or.inl h
          · exact Or.inr ⟨i, hi, h1, h2⟩
    · rw [if_neg hle] at h
      injection h with h
      exact Or.inl h.symm

theorem find_free_block_spec {s : State} {bs : List Blk} {fl : Nat → List Nat}
    {L : List Nat} (hI : Inv s bs fl L) {size : Nat} (h16 : 16 ≤ size) (hm : size % 16 = 0)
    {fuel r : Nat} (h : find_free_block fuel s size = some r) :
    r = 0 ∨ ∃ j < 11, r ∈ fl j ∧ ∃ b ∈ bs, b.a = r ∧ b.k = .free ∧ size ≤ b.sz := by
  unfold find_free_block at h
  rw [get_list_eq s size h16 hm hI.core.sls] at h
  exact find_free_block_loop_spec hI (by omega) fuel fuel _ r h

/-! ## `malloc` keeps the invariant -/

theorem morecore_ok (s : State) (size : Nat) (h : s.mem_brk + size ≤ s.mem_max_addr)
    (h63 : s.mem_max_addr < 2 ^ 63) :
    morecore s size = (s.mem_brk, { s with mem_brk := s.mem_brk + size }) := by
  unfold morecore mem_sbrk
  rw [if_pos h]
  simp only
  rw [if_neg (by omega)]

theorem morecore_fail (s : State) (size : Nat) (h : ¬ s.mem_brk + size ≤ s.mem_max_addr) :
    morecore s size = (0, s) := by
  unfold morecore mem_sbrk
  rw [if_neg h]
  simp

/-- The three ways through `malloc`. -/
theorem malloc_cases {fuel : Nat} {s s' : State} {n p : Nat}
    (h : malloc fuel s n = some (p, s')) (hbrk : s.mem_brk ≠ 0)
    (h63 : s.mem_max_addr < 2 ^ 63) :
    ∃ r, find_free_block fuel s (blksz n) = some r ∧
      ((r = 0 ∧ ¬ s.mem_brk + blksz n ≤ s.mem_max_addr ∧ p = 0 ∧ s' = s) ∨
       (r = 0 ∧ s.mem_brk + blksz n ≤ s.mem_max_addr ∧ p = s.mem_brk + 4 ∧
          s' = malloc_grown s (blksz n)) ∨
       (r ≠ 0 ∧ p = r + 4 ∧ s' = malloc_found s r (blksz n))) := by
  unfold malloc at h
  simp only at h
  cases hf : find_free_block fuel s (blksz n) with
  | none => rw [hf] at h; simp at h
  | some r =>
    rw [hf] at h
    simp only at h
    refine ⟨r, rfl, ?_⟩
    by_cases hr : r = 0
    · rw [if_pos hr] at h
      by_cases hfit : s.mem_brk + blksz n ≤ s.mem_max_addr
      · rw [morecore_ok s _ hfit h63] at h
        simp only [hbrk, if_false] at h
        injection h with h
        injection h with h1 h2
        exact Or.inr (Or.inl ⟨hr, hfit, h1.symm, h2.symm⟩)
      · rw [morecore_fail s _ hfit] at h
        simp at h
        exact Or.inl ⟨hr, hfit, h.1.symm, h.2.symm⟩
    · rw [if_neg hr] at h
      injection h with h
      injection h with h1 h2
      exact Or.inr (Or.inr ⟨hr, h1.symm, h2.symm⟩)

theorem Keeps_stamp (m : Mem) {bs : List Blk} {a sz : Nat} (v : Nat) (h4 : 4 ≤ sz)
    (h : ∀ u ∈ bs, u.k = .used →
      u.a + u.sz ≤ a ∨ a + sz ≤ u.a ∨ (u.a = a ∧ u.sz ≤ sz)) :
    Keeps m (wr (wr m a v) (a + sz - 4) v) bs := by
  intro u hu hk z h1 h2
  have := h u hu hk
  rw [wr_get_ne _ _ _ _ (by omega), wr_get_ne _ _ _ _ (by omega)]

theorem Keeps_mono {m m' : Mem} {bs bs' : List Blk} (h : Keeps m m' bs')
    (hsub : ∀ u ∈ bs, u.k = .used → u ∈ bs') : Keeps m m' bs :=
  fun u hu hk z h1 h2 => h u (hsub u hu hk) hk z h1 h2

theorem blksz_facts (n : Nat) (h : n + 23 < 2 ^ 64) :
    16 ≤ blksz n ∧ blksz n % 16 = 0 ∧ n + 8 ≤ blksz n ∧ blksz n < n + 24 := by
  rw [blksz_eq n h]; omega

/-- Extending the heap by a block in use. -/
theorem malloc_grown_inv {s : State} {bs : List Blk} {fl : Nat → List Nat} {L : List Nat}
    (hI : Inv s bs fl L) {size : Nat} (h16 : 16 ≤ size) (hm : size % 16 = 0)
    (hfit : s.mem_brk + size ≤ s.mem_max_addr) :
    Inv (malloc_grown s size) (bs ++ [⟨s.heap_end, size, .used⟩]) fl ((s.heap_end + 4) :: L) ∧
      Keeps s.mem (malloc_grown s size).mem bs := by
  have hC := hI.core
  have hbrk := hC.brk
  have hlim := hC.lim
  have hge := Tiles_le hC.heap.tiles
  have hsz : size < 2 ^ 31 := by omega
  have hE := Heap_extend hC.heap h16 hm (by omega : s.heap_end + size < s.guard_blocks_start + 2 ^ 31)
  have hS := Heap_stamp (k := .used) (P := bs) (M := [⟨s.heap_end, size, .raw⟩]) (l := [])
    (Q := []) (c := s.heap_end) (d := s.heap_end + size) (a := s.heap_end) (Z := size)
    (by simpa using hE) hC.heap.tiles (by simp) (by simp) (by simp) rfl h16 hm (by decide)
    (by
      intro i hi x hx b hb hbx
      simp only [List.mem_singleton] at hb
      subst hb
      have := hC.heap.node_lo hi hx
      simp only at hbx
      omega)
  simp only [List.nil_append, List.append_nil, Kind.flag] at hS
  have hmem : malloc_grown s size = { s with
      mem := (wr (wr s.mem s.heap_end (size + 1)) (s.heap_end + size - 4) (size + 1)),
      mem_brk := s.heap_end + size, last := s.heap_end, heap_end := s.heap_end + size } := by
    unfold malloc_grown
    rw [bt_make_eq _ _ _ _ (by omega) hsz (by omega), hbrk]
  rw [hmem]
  refine ⟨⟨⟨hC.hs, hC.gbe, hC.sls, hC.al, rfl, by simp only; omega, hC.lim, hC.lim64, hS, ?_⟩,
    Abs_grow hI.abs ?_⟩, ?_⟩
  · simp only [lastAddr_append]
  · intro b hb
    have := Tiles_mem hC.heap.tiles hb
    omega
  · apply Keeps_stamp _ _ (by omega)
    intro u hu _
    have := Tiles_mem hC.heap.tiles hu
    omega

theorem lastAddr_app (d : Nat) (xs ys : List Blk) :
    lastAddr d (xs ++ ys) = lastAddr (lastAddr d xs) ys := by
  induction xs generalizing d with
  | nil => rfl
  | cons x xs ih => simp [lastAddr, ih]

theorem lastAddr_indep (d d' : Nat) {ys : List Blk} (h : ys ≠ []) :
    lastAddr d ys = lastAddr d' ys := by
  cases ys with
  | nil => exact absurd rfl h
  | cons y ys => rfl

theorem lastAddr_in (d : Nat) {ys : List Blk} (h : ys ≠ []) : ∃ b ∈ ys, lastAddr d ys = b.a := by
  rcases lastAddr_mem d ys with ⟨-, h'⟩ | ⟨pre, b, h1, h2⟩
  · exact absurd h' h
  · exact ⟨b, by rw [h1]; simp, h2⟩

theorem ite_last (s : State) (c : Prop) [Decidable c] (a : Nat) :
    (if c then { s with last := a } else s) = { s with last := if c then a else s.last } := by
  split <;> rfl

/-- Stamping a block and setting `last`, on states. -/
theorem Core.restamp {s : State} {bs bs' : List Blk} {fl fl' : Nat → List Nat}
    (hC : Core s bs fl) {a sz : Nat} {k : Kind} {l : Nat}
    (hH : Heap (wr (wr s.mem a (sz + k.flag)) (a + sz - 4) (sz + k.flag))
      s.guard_blocks_start s.heap_end bs' fl')
    (h2 : sz % 2 = 0) (h31 : sz < 2 ^ 31)
    (hl : l = lastAddr (s.guard_blocks_start + 336) bs') :
    Core { bt_make s a sz k.flag with last := l } bs' fl' := by
  have hfl : k.flag ≤ 1 := by cases k <;> simp [Kind.flag]
  rw [bt_make_eq _ _ _ _ h2 h31 hfl]
  exact ⟨hC.hs, hC.gbe, hC.sls, hC.al, hC.brk, hC.max, hC.lim, hC.lim64, hH, hl⟩

theorem Core.restamp_mem {s : State} {a Z : Nat} {k : Kind} {l : Nat}
    (h2 : Z % 2 = 0) (h31 : Z < 2 ^ 31) :
    ({ bt_make s a Z k.flag with last := l } : State).mem =
      wr (wr s.mem a (Z + k.flag)) (a + Z - 4) (Z + k.flag) := by
  have hfl : k.flag ≤ 1 := by cases k <;> simp [Kind.flag]
  rw [bt_make_eq _ _ _ _ h2 h31 hfl]

/-- Stamping a block that is in no list as used. -/
theorem Core.take {s : State} {pre post : List Blk} {y : Blk} {fl : Nat → List Nat}
    (hC : Core s (pre ++ y :: post) fl) (hno : ∀ i < 11, y.a ∉ fl i) :
    Core (bt_make s y.a y.sz 1) (pre ++ ⟨y.a, y.sz, .used⟩ :: post) fl ∧
      Keeps s.mem (bt_make s y.a y.sz 1).mem (pre ++ y :: post) := by
  have hy : y ∈ pre ++ y :: post := by simp
  have hY := hC.size_lt hy
  obtain ⟨c, hc, hy_t⟩ := Tiles_append.1 hC.heap.tiles
  obtain ⟨hya, -, -, -, hd⟩ := hy_t
  subst hya
  have H5 := Heap_stamp (k := .used) (P := pre) (M := [y]) (l := [])
    (Q := post) (a := y.a) (Z := y.sz)
    (by simpa using hC.heap) hc hd (by simp) (by simp) rfl (by omega) (by omega) (by decide)
    (by
      intro i hi a ha b hb hba
      exfalso
      simp only [List.mem_singleton] at hb
      subst hb
      subst hba
      exact hno _ hi ha)
  have hC5 := hC.restamp (k := .used) (l := s.last)
    H5 (by omega) (by omega) (by
      rw [hC.last]; simp [lastAddr_append_cons])
  refine ⟨by simpa using hC5, ?_⟩
  rw [bt_make_eq _ _ _ _ (by omega) (by omega) (by omega)]
  apply Keeps_stamp _ _ (by omega)
  intro u hu _
  rcases Tiles_sep hC.heap.tiles hu hy with h | h | h
  · subst h; omega
  · omega
  · omega

/-- Splitting a free block that is in no list: the remainder is stamped free and put
on its list; the front part waits for its tags. -/
theorem Core.split {s : State} {pre post : List Blk} {x : Blk} {fl : Nat → List Nat}
    (hC : Core s (pre ++ x :: post) fl) (hxk : x.k ≠ .used)
    {size : Nat} (h16 : 16 ≤ size) (hmod : size % 16 = 0) (hlt : size < x.sz) :
    Core (insert_block
          (if x.a = (bt_make s (x.a + size) (x.sz - size) 0).last then
            { bt_make s (x.a + size) (x.sz - size) 0 with last := x.a + size }
           else bt_make s (x.a + size) (x.sz - size) 0) (x.a + size))
        (pre ++ ⟨x.a, size, .raw⟩ :: ⟨x.a + size, x.sz - size, .free⟩ :: post)
        (Function.update fl (list_idx (x.sz - size))
          ((x.a + size) :: fl (list_idx (x.sz - size)))) ∧
      Keeps s.mem (insert_block
          (if x.a = (bt_make s (x.a + size) (x.sz - size) 0).last then
            { bt_make s (x.a + size) (x.sz - size) 0 with last := x.a + size }
           else bt_make s (x.a + size) (x.sz - size) 0) (x.a + size)).mem
        (pre ++ x :: post) := by
  have hx : x ∈ pre ++ x :: post := by simp
  have hX := hC.size_lt hx
  obtain ⟨c, hc, hx_t⟩ := Tiles_append.1 hC.heap.tiles
  obtain ⟨hxa, -, -, -, hd⟩ := hx_t
  subst hxa
  have hsorted := Tiles_sorted hC.heap.tiles
  have H2 := Heap_stamp (k := .free) (P := pre) (M := [x]) (l := [⟨x.a, size, .raw⟩])
    (Q := post) (a := x.a + size) (Z := x.sz - size)
    (by simpa using hC.heap) hc hd (by simp [Tagged, h16, hmod]) (by simp)
    (by omega) (by omega) (by omega) (by decide)
    (by
      intro i hi a ha b hb hba
      simp only [List.mem_singleton] at hb
      subst hb
      exact ⟨⟨b.a, size, .raw⟩, by simp, hba, by simp⟩)
  have hlast2 : (if x.a = s.last then x.a + size else s.last) =
      lastAddr (s.guard_blocks_start + 336)
        (pre ++ ([⟨x.a, size, .raw⟩] ++ [⟨x.a + size, x.sz - size, .free⟩]) ++ post) := by
    have hl := hC.last
    by_cases hp : post = []
    · subst hp
      rw [hl]
      simp [lastAddr_app, lastAddr]
    · obtain ⟨b, hb, hbl⟩ := lastAddr_in x.a hp
      have hxb : x.a < b.a :=
        (List.pairwise_cons.1 (List.pairwise_append.1 hsorted).2.1).1 b hb
      have e1 : s.last = b.a := by
        rw [hl, lastAddr_append_cons]; exact hbl
      rw [e1, if_neg (by omega), lastAddr_app, lastAddr_indep _ x.a hp, hbl]
  have hC3 := hC.restamp (k := .free) (l := if x.a = s.last then x.a + size else s.last)
    H2 (by omega) (by omega) hlast2
  have hmem3 := Core.restamp_mem (s := s) (a := x.a + size) (Z := x.sz - size) (k := .free)
    (l := if x.a = s.last then x.a + size else s.last) (by omega) (by omega)
  rw [ite_last, bt_make_last]
  simp only [Kind.flag] at hC3 hmem3
  obtain ⟨s3, hs3⟩ : ∃ s3 : State, s3 = { bt_make s (x.a + size) (x.sz - size) 0 with
    last := if x.a = s.last then x.a + size else s.last } := ⟨_, rfl⟩
  rw [← hs3] at hC3 ⊢
  replace hmem3 : s3.mem = wr (wr s.mem (x.a + size) (x.sz - size + 0))
      (x.a + size + (x.sz - size) - 4) (x.sz - size + 0) := by rw [hs3]; exact hmem3
  have hnb : (⟨x.a + size, x.sz - size, .free⟩ : Blk) ∈
      pre ++ ([⟨x.a, size, .raw⟩] ++ [⟨x.a + size, x.sz - size, .free⟩]) ++ post := by simp
  obtain ⟨hC4, K3⟩ := hC3.insert hnb rfl (by
    intro i hi h
    obtain ⟨b, hb, hba, -⟩ := hC.heap.node i hi _ h
    rcases Tiles_sep hC.heap.tiles hb hx with h | h | h
    · subst h; simp only at hba; omega
    · simp only at hba; omega
    · simp only at hba; omega)
  simp only at hC4 K3
  refine ⟨by simpa using hC4, ?_⟩
  have K2 : Keeps s.mem s3.mem (pre ++ x :: post) := by
    rw [hmem3]
    apply Keeps_stamp _ _ (by omega)
    intro u hu hk
    rcases Tiles_sep hC.heap.tiles hu hx with h | h | h
    · subst h; exact absurd hk hxk
    · omega
    · omega
  refine Keeps_trans K2 (Keeps_mono K3 ?_)
  intro u hu hk
  simp only [List.mem_append, List.mem_cons] at hu ⊢
  rcases hu with hu | rfl | hu
  · exact Or.inl (Or.inl hu)
  · exact absurd hk hxk
  · exact Or.inr hu

/-- `malloc` on a free block that is found: the block leaves its list, is split when it
is larger than asked, and is stamped as used. -/
theorem malloc_found_inv {s : State} {pre post : List Blk} {x : Blk} {fl : Nat → List Nat}
    {L : List Nat} (hI : Inv s (pre ++ x :: post) fl L) {j : Nat} (hj : j < 11)
    (hxk : x.k = .free) (hm : x.a ∈ fl j) {size : Nat} (h16 : 16 ≤ size)
    (hmod : size % 16 = 0) (hle : size ≤ x.sz) :
    ∃ fl', Inv (malloc_found s x.a size)
        (pre ++ ⟨x.a, size, .used⟩ ::
          ((if size < x.sz then [⟨x.a + size, x.sz - size, .free⟩] else []) ++ post))
        fl' ((x.a + 4) :: L) ∧
      Keeps s.mem (malloc_found s x.a size).mem (pre ++ x :: post) ∧
      (malloc_found s x.a size).heap_end = s.heap_end ∧
      (malloc_found s x.a size).guard_blocks_start = s.guard_blocks_start ∧
      (malloc_found s x.a size).mem_max_addr = s.mem_max_addr := by
  have hx : x ∈ pre ++ x :: post := by simp
  obtain ⟨hC1, K1⟩ := hI.core.remove hj hx hxk hm
  have hX := hC1.size_lt hx
  have hT1 := hC1.header hx (by rw [hxk]; decide)
  simp only [hxk, Kind.flag, Nat.add_zero] at hT1
  have hsz1 : bt_size (remove_block s x.a) x.a = x.sz :=
    bt_size_eq (F := 0) hT1.1 (by omega) (by omega) (by omega)
  have hsorted := Tiles_sorted hI.core.heap.tiles
  have hnd : ∀ i < 11, (fl i).Nodup := hI.core.heap.nodup
  have hnot1 : ∀ i < 11, x.a ∉ (fl i).erase x.a := fun i hi h =>
    ((hnd i hi).mem_erase_iff.1 h).1 rfl
  have hna := NoAdj_split.1 hI.abs.noadj
  have hvars : ∀ t : State, t.heap_end = (remove_block s x.a).heap_end →
      t.guard_blocks_start = (remove_block s x.a).guard_blocks_start →
      t.mem_max_addr = (remove_block s x.a).mem_max_addr →
      t.heap_end = s.heap_end ∧ t.guard_blocks_start = s.guard_blocks_start ∧
        t.mem_max_addr = s.mem_max_addr := fun t h1 h2 h3 => ⟨h1, h2, h3⟩
  by_cases hlt : size < x.sz
  · -- the block is split
    have hssz : (x.sz + (2 ^ 64 - size)) % 2 ^ 64 = x.sz - size := by omega
    obtain ⟨hC4, K2⟩ := hC1.split (by rw [hxk]; decide) h16 hmod hlt
    have hfinal : malloc_found s x.a size = bt_make (insert_block
        (if x.a = (bt_make (remove_block s x.a) (x.a + size) (x.sz - size) 0).last then
          { bt_make (remove_block s x.a) (x.a + size) (x.sz - size) 0 with last := x.a + size }
         else bt_make (remove_block s x.a) (x.a + size) (x.sz - size) 0) (x.a + size))
        x.a size 1 := by
      unfold malloc_found
      simp only [hsz1, sext_of_lt _ hX.2.2.2.2.1, hssz, hlt, if_true]
    rw [hfinal]
    obtain ⟨s4, hs4⟩ : ∃ s4 : State, s4 = insert_block
        (if x.a = (bt_make (remove_block s x.a) (x.a + size) (x.sz - size) 0).last then
          { bt_make (remove_block s x.a) (x.a + size) (x.sz - size) 0 with last := x.a + size }
         else bt_make (remove_block s x.a) (x.a + size) (x.sz - size) 0) (x.a + size) :=
      ⟨_, rfl⟩
    rw [← hs4] at hC4 K2 ⊢
    have hv4 : s4.heap_end = s.heap_end ∧ s4.guard_blocks_start = s.guard_blocks_start ∧
        s4.mem_max_addr = s.mem_max_addr := by
      rw [hs4, ite_last]; exact ⟨rfl, rfl, rfl⟩
    obtain ⟨hC5, K5⟩ := Core.take (y := ⟨x.a, size, .raw⟩) hC4 (by
      intro i hi ha
      simp only at ha
      by_cases hik : i = list_idx (x.sz - size)
      · subst hik
        rw [Function.update_same] at ha
        rcases List.mem_cons.1 ha with h | h
        · omega
        · exact hnot1 _ hi h
      · rw [Function.update_noteq hik] at ha
        exact hnot1 _ hi ha)
    simp only at hC5 K5
    refine ⟨_, ⟨by simpa [hlt] using hC5, ?_⟩, ?_, hv4⟩
    · rw [if_pos hlt]
      apply Abs_alloc hI.abs hsorted hxk (by simp)
      · intro i hi a
        by_cases hik : i = list_idx (x.sz - size)
        · subst hik
          rw [Function.update_same, List.mem_cons, (hnd _ hi).mem_erase_iff]
          simp only [List.mem_singleton, exists_eq_left, and_true]
          tauto
        · rw [Function.update_noteq hik, (hnd _ hi).mem_erase_iff]
          simp only [List.mem_singleton, exists_eq_left]
          tauto
      · rw [NoAdj_split]
        refine ⟨NoAdj_last hna.1 (Or.inr (by simp)), ?_⟩
        rw [List.singleton_append, NoAdj_cons]
        exact ⟨Or.inl (by simp), NoAdj_head hna.2 (Or.inl hxk.symm)⟩
    · refine Keeps_trans (Keeps_trans K1 K2) (Keeps_mono K5 ?_)
      intro u hu hk
      simp only [List.mem_append, List.mem_cons] at hu ⊢
      rcases hu with hu | rfl | hu
      · exact Or.inl hu
      · rw [hxk] at hk; exact absurd hk (by decide)
      · exact Or.inr (Or.inr (Or.inr hu))
  · -- the block is taken whole
    have hsz : size = x.sz := by omega
    subst hsz
    obtain ⟨hC5, K5⟩ := Core.take hC1 hnot1
    have hfinal : malloc_found s x.a x.sz = bt_make (remove_block s x.a) x.a x.sz 1 := by
      unfold malloc_found
      simp only [hsz1, sext_of_lt _ hX.2.2.2.2.1, lt_irrefl, if_false]
    rw [hfinal]
    refine ⟨_, ⟨by simpa using hC5, ?_⟩, Keeps_trans K1 K5, rfl, rfl, rfl⟩
    rw [if_neg hlt]
    apply Abs_alloc hI.abs hsorted hxk (by simp)
    · intro i hi a
      rw [(hnd _ hi).mem_erase_iff]
      simp only [List.not_mem_nil, false_and, exists_false, or_false]
      tauto
    · rw [NoAdj_split]
      exact ⟨NoAdj_last hna.1 (Or.inr (by simp)), NoAdj_head hna.2 (Or.inr (by simp))⟩

theorem Core.brk_pos {s : State} {bs : List Blk} {fl : Nat → List Nat} (hC : Core s bs fl) :
    s.mem_brk ≠ 0 := by
  have := Tiles_le hC.heap.tiles
  have := hC.brk
  omega

theorem malloc_found_brk (s : State) (r size : Nat) :
    (malloc_found s r size).mem_brk = s.mem_brk := by
  unfold malloc_found
  simp only [ite_last]
  split <;> rfl

/-- `malloc` keeps the invariant; it fails only without any change of state. -/
theorem malloc_spec {s s' : State} {bs : List Blk} {fl : Nat → List Nat} {L : List Nat}
    {fuel n p : Nat} (hI : Inv s bs fl L) (hn : n + 23 < 2 ^ 64)
    (h : malloc fuel s n = some (p, s')) :
    (p = 0 ∧ s' = s ∧ ¬ s.mem_brk + blksz n ≤ s.mem_max_addr) ∨
    (p ≠ 0 ∧ ∃ bs' fl', Inv s' bs' fl' (p :: L) ∧ Keeps s.mem s'.mem bs ∧
      s'.guard_blocks_start = s.guard_blocks_start ∧ s'.mem_max_addr = s.mem_max_addr ∧
      MallocShape s bs (blksz n) p s' bs') := by
  obtain ⟨h16, hmod, -, -⟩ := blksz_facts n hn
  obtain ⟨r, hf, hcase⟩ := malloc_cases h hI.core.brk_pos hI.core.lim64
  rcases hcase with ⟨-, hfit, hp, hs'⟩ | ⟨-, hfit, hp, hs'⟩ | ⟨hr, hp, hs'⟩
  · exact Or.inl ⟨hp, hs', hfit⟩
  · right
    have hbrk := hI.core.brk
    obtain ⟨hI', K⟩ := malloc_grown_inv hI h16 hmod hfit
    subst hs'
    rw [hbrk] at hp
    subst hp
    refine ⟨by omega, _, _, hI', K, rfl, rfl, Or.inl ⟨rfl, rfl, ?_, ?_⟩⟩
    · simp only [malloc_grown, bt_make_heap_end, hbrk]
    · simp only [malloc_grown, bt_make_mem_brk]
  · right
    rcases find_free_block_spec hI h16 hmod hf with h0 | ⟨j, hj, hrj, b, hb, hba, hbk, hle⟩
    · exact absurd h0 hr
    · obtain ⟨pre, post, hbs⟩ := List.append_of_mem hb
      subst hbs
      subst hba
      obtain ⟨fl', hI', K, e1, e2, e3⟩ := malloc_found_inv hI hj hbk hrj h16 hmod hle
      subst hs'
      subst hp
      exact ⟨by omega, _, fl', hI', K, e2, e3,
        Or.inr ⟨pre, b, post, rfl, hbk, rfl, hle, e1, malloc_found_brk _ _ _, rfl⟩⟩

/-! ## `free` keeps the invariant -/

/-- Stamping a block as free. -/
theorem Core.retag_free {s : State} {pre post : List Blk} {y : Blk} {fl : Nat → List Nat}
    (hC : Core s (pre ++ y :: post) fl) :
    Core (bt_make s y.a y.sz 0) (pre ++ ⟨y.a, y.sz, .free⟩ :: post) fl ∧
      Keeps s.mem (bt_make s y.a y.sz 0).mem (pre ++ y :: post) := by
  have hy : y ∈ pre ++ y :: post := by simp
  have hY := hC.size_lt hy
  obtain ⟨c, hc, hy_t⟩ := Tiles_append.1 hC.heap.tiles
  obtain ⟨hya, -, -, -, hd⟩ := hy_t
  subst hya
  have H5 := Heap_stamp (k := .free) (P := pre) (M := [y]) (l := [])
    (Q := post) (a := y.a) (Z := y.sz)
    (by simpa using hC.heap) hc hd (by simp) (by simp) rfl (by omega) (by omega) (by decide)
    (by
      intro i hi a ha b hb hba
      simp only [List.mem_singleton] at hb
      subst hb
      exact ⟨⟨b.a, b.sz, .free⟩, by simp, hba, by simp⟩)
  have hC5 := hC.restamp (k := .free) (l := s.last)
    H5 (by omega) (by omega) (by
      rw [hC.last]; simp [lastAddr_append_cons])
  refine ⟨by simpa using hC5, ?_⟩
  rw [bt_make_eq _ _ _ _ (by omega) (by omega) (by omega)]
  apply Keeps_stamp _ _ (by omega)
  intro u hu _
  rcases Tiles_sep hC.heap.tiles hu hy with h | h | h
  · subst h; omega
  · omega
  · omega

theorem bt_size_with_last (s : State) (l a : Nat) :
    bt_size { s with last := l } a = bt_size s a := rfl

/-- Merging two neighbours that are not in use, the second one in no list; `coalese_back`
on the second and `coalese_front` on the first do the same. -/
theorem Core.merge {s : State} {pre post : List Blk} {U V : Blk} {fl : Nat → List Nat}
    (hC : Core s (pre ++ U :: V :: post) fl) (h1 : U.k = .free) (h2 : V.k = .free)
    (hno : ∀ i < 11, V.a ∉ fl i) :
    Core (coalese_back s V.a) (pre ++ ⟨U.a, U.sz + V.sz, .free⟩ :: post) fl ∧
      Keeps s.mem (coalese_back s V.a).mem (pre ++ U :: V :: post) ∧
      coalese_front s U.a = coalese_back s V.a := by
  have hm1 : U ∈ pre ++ U :: V :: post := by simp
  have hm2 : V ∈ pre ++ U :: V :: post := by simp
  have hA1 := hC.size_lt hm1
  have hA2 := hC.size_lt hm2
  have hT1 := hC.header hm1 (by rw [h1]; decide)
  have hT2 := hC.header hm2 (by rw [h2]; decide)
  simp only [h1, h2, Kind.flag, Nat.add_zero] at hT1 hT2
  obtain ⟨c, hc, ht⟩ := Tiles_append.1 hC.heap.tiles
  obtain ⟨hca, -, -, -, ht2⟩ := ht
  obtain ⟨hca2, -, -, -, hd⟩ := ht2
  subst hca
  have hsorted := Tiles_sorted hC.heap.tiles
  have hlim := hC.heap.bound
  have hsum : U.sz + V.sz < 2 ^ 31 := by
    have := Tiles_le hd; omega
  have hs1 : bt_size s U.a = U.sz := bt_size_eq (F := 0) hT1.1 (by omega) (by omega) (by omega)
  have hs2 : bt_size s V.a = V.sz := bt_size_eq (F := 0) hT2.1 (by omega) (by omega) (by omega)
  have hf1 : bt_size s (V.a - 4) = U.sz := by
    apply bt_size_eq (F := 0) _ (by omega) (by omega) (by omega)
    rw [← hT1.2]; congr 1; omega
  have hprev : bt_prev s V.a = U.a := by
    unfold bt_prev
    rw [if_neg (by have := hC.hs; omega), hf1, sext_of_lt _ (by omega)]
    omega
  have hlast_ne : U.a ≠ s.last := by
    rw [hC.last, lastAddr_append_cons]
    by_cases hp : post = []
    · subst hp; simp only [lastAddr]; omega
    · obtain ⟨b, hb, hbl⟩ := lastAddr_in V.a hp
      have : V.a < b.a := by
        have h := (List.pairwise_append.1 hsorted).2.1
        have h' := (List.pairwise_cons.1 (List.pairwise_cons.1 h).2).1 b hb
        exact h'
      simp only [lastAddr]
      rw [lastAddr_indep _ V.a hp, hbl]
      omega
  have hnext : bt_next s U.a = V.a := by
    unfold bt_next
    rw [if_neg hlast_ne, hs1, sext_of_lt _ (by omega)]
    omega
  have hback : coalese_back s V.a =
      { bt_make s U.a (U.sz + V.sz) Kind.free.flag with
        last := if V.a = s.last then U.a else s.last } := by
    unfold coalese_back
    simp only [hprev]
    simp only [bt_size_with_last, hs1, hs2]
    rw [Nat.mod_eq_of_lt (by omega), Nat.add_comm V.sz U.sz]
    rw [bt_make_eq _ _ _ _ (by omega) hsum (by omega),
      bt_make_eq _ _ _ _ (by omega) hsum (by simp [Kind.flag])]
    rfl
  have hfront : coalese_front s U.a = coalese_back s V.a := by
    rw [hback]
    unfold coalese_front
    simp only [hnext]
    simp only [bt_size_with_last, hs1, hs2]
    rw [Nat.mod_eq_of_lt (by omega)]
    rw [bt_make_eq _ _ _ _ (by omega) hsum (by omega),
      bt_make_eq _ _ _ _ (by omega) hsum (by simp [Kind.flag])]
    rfl
  have H5 := Heap_stamp (k := .free) (P := pre) (M := [U, V]) (l := [])
    (Q := post) (a := U.a) (Z := U.sz + V.sz)
    (by simpa using hC.heap) hc hd (by simp) (by simp) (by omega) (by omega) (by omega)
    (by decide)
    (by
      intro i hi a ha b hb hba
      simp only [List.mem_cons, List.not_mem_nil, or_false] at hb
      rcases hb with rfl | rfl
      · exact ⟨⟨b.a, b.sz + V.sz, .free⟩, by simp, hba, by simp⟩
      · exact absurd (hba ▸ ha) (hno i hi))
  have hC5 := hC.restamp (k := .free) (l := if V.a = s.last then U.a else s.last)
    H5 (by omega) hsum (by
      have hl0 : s.last = lastAddr V.a post := by
        rw [hC.last, lastAddr_append_cons]; rfl
      have hr : lastAddr (s.guard_blocks_start + 336)
          (pre ++ ([] ++ [(⟨U.a, U.sz + V.sz, .free⟩ : Blk)]) ++ post)
          = lastAddr U.a post := by
        simp only [List.nil_append, List.append_assoc, List.singleton_append,
          lastAddr_append_cons]
      rw [hr, hl0]
      by_cases hp : post = []
      · subst hp; simp [lastAddr]
      · obtain ⟨b, hb, hbl⟩ := lastAddr_in V.a hp
        have : V.a < b.a := by
          have h := (List.pairwise_append.1 hsorted).2.1
          exact (List.pairwise_cons.1 (List.pairwise_cons.1 h).2).1 b hb
        rw [hbl, if_neg (by omega), lastAddr_indep _ V.a hp, hbl])
  rw [hback]
  refine ⟨by simpa using hC5, ?_, hfront.trans hback⟩
  rw [Core.restamp_mem (by omega) hsum]
  apply Keeps_stamp _ _ (by omega)
  intro u hu hk
  have hU := Tiles_mem hC.heap.tiles hu
  rcases Tiles_sep hC.heap.tiles hu hm1 with h | h | h
  · subst h; rw [h1] at hk; exact absurd hk (by decide)
  · omega
  · rcases Tiles_sep hC.heap.tiles hu hm2 with h' | h' | h'
    · subst h'; rw [h2] at hk; exact absurd hk (by decide)
    · omega
    · omega

theorem NoAdj_any_last {pre : List Blk} {x y : Blk} (h : NoAdj (pre ++ [x]))
    (hp : ∀ pre' pv, pre = pre' ++ [pv] → pv.k ≠ .free) : NoAdj (pre ++ [y]) := by
  rcases List.eq_nil_or_concat pre with h0 | ⟨pre', pv, h0⟩
  · subst h0; exact NoAdj_single _
  · rw [List.concat_eq_append] at h0
    subst h0
    exact NoAdj_append_single.2 ⟨(NoAdj_append_single.1 h).1, Or.inl (hp _ _ rfl)⟩

theorem NoAdj_any_head {post : List Blk} {x y : Blk} (h : NoAdj (x :: post))
    (hp : ∀ nx post', post = nx :: post' → nx.k ≠ .free) : NoAdj (y :: post) := by
  cases post with
  | nil => exact NoAdj_single _
  | cons nx post' => exact NoAdj_cons.2 ⟨Or.inr (hp _ _ rfl), (NoAdj_cons.1 h).2⟩

/-- The block before `x`, as `free` sees it: in use (or the last guard), or free. -/
theorem Core.prev_info {s : State} {pre post : List Blk} {x : Blk} {fl : Nat → List Nat}
    (hC : Core s (pre ++ x :: post) fl) (hraw : ∀ b ∈ pre, b.k ≠ .raw) :
    bt_prev s x.a ≠ 0 ∧
    ((bt_used s (bt_prev s x.a) = 1 ∧ ∀ pre' pv, pre = pre' ++ [pv] → pv.k = .used) ∨
     (bt_used s (bt_prev s x.a) = 0 ∧
        ∃ pre' pv, pre = pre' ++ [pv] ∧ pv.k = .free ∧ bt_prev s x.a = pv.a)) := by
  have hx : x ∈ pre ++ x :: post := by simp
  have hX := hC.size_lt hx
  have hne : x.a ≠ s.heap_start := by have := hC.hs; omega
  rcases List.eq_nil_or_concat pre with h0 | ⟨pre', pv, h0⟩
  · subst h0
    have hxa : x.a = s.guard_blocks_start + 352 := by
      have := hC.heap.tiles
      simp only [List.nil_append, Tiles_cons] at this
      exact this.1
    have hG := hC.heap.guards 10 (by norm_num)
    have hf : bt_size s (x.a - 4) = 16 := by
      apply bt_size_eq (F := 1) _ (by norm_num) (by norm_num) (by norm_num)
      rw [show x.a - 4 = s.guard_blocks_start + 32 * 10 + 28 by omega, hG.2.2.2]
    have hprev : bt_prev s x.a = s.guard_blocks_start + 336 := by
      unfold bt_prev
      rw [if_neg hne, hf, sext_of_lt _ (by norm_num)]
      omega
    rw [hprev]
    refine ⟨by omega, Or.inl ⟨?_, ?_⟩⟩
    · apply bt_used_eq (Z := 16) _ (by norm_num) (by norm_num)
      rw [show s.guard_blocks_start + 336 = s.guard_blocks_start + 32 * 10 + 16 by omega,
        hG.2.2.1]
    · intro pre' pv h
      simp at h
  · rw [List.concat_eq_append] at h0
    subst h0
    have hpv : pv ∈ pre' ++ [pv] ++ x :: post := by simp
    have hP := hC.size_lt hpv
    have hkr : pv.k ≠ .raw := hraw pv (by simp)
    have hT := hC.header hpv hkr
    have hfl : pv.k.flag ≤ 1 := by cases pv.k <;> simp [Kind.flag]
    have hadj : x.a = pv.a + pv.sz := by
      have := hC.heap.tiles
      rw [List.append_assoc, Tiles_append] at this
      obtain ⟨c, -, h2⟩ := this
      simp only [List.singleton_append, Tiles_cons] at h2
      omega
    have hf : bt_size s (x.a - 4) = pv.sz := by
      apply bt_size_eq (F := pv.k.flag) _ (by omega) (by omega) hfl
      rw [← hT.2]; congr 1; omega
    have hprev : bt_prev s x.a = pv.a := by
      unfold bt_prev
      rw [if_neg hne, hf, sext_of_lt _ (by omega)]
      omega
    rw [hprev]
    have hu : bt_used s pv.a = pv.k.flag := bt_used_eq hT.1 (by omega) hfl
    refine ⟨by omega, ?_⟩
    cases hk : pv.k with
    | used =>
      left
      rw [hu, hk]
      refine ⟨rfl, ?_⟩
      intro pre'' pv' h
      obtain ⟨-, h2⟩ := List.append_inj' h rfl
      simp only [List.cons.injEq, and_true] at h2
      rw [← h2]; exact hk
    | free =>
      right
      rw [hu, hk]
      exact ⟨rfl, pre', pv, rfl, hk, rfl⟩
    | raw => exact absurd hk hkr

/-- The block after `x`, as `free` sees it: none, in use, or free. -/
theorem Core.next_info {s : State} {pre post : List Blk} {x : Blk} {fl : Nat → List Nat}
    (hC : Core s (pre ++ x :: post) fl) (hxr : x.k ≠ .raw) (hraw : ∀ b ∈ post, b.k ≠ .raw) :
    ((if bt_next s x.a ≠ 0 then bt_used s (bt_next s x.a) else 1) = 1 ∧
        ∀ nx post', post = nx :: post' → nx.k = .used) ∨
    ((if bt_next s x.a ≠ 0 then bt_used s (bt_next s x.a) else 1) = 0 ∧
        ∃ nx post', post = nx :: post' ∧ nx.k = .free ∧ bt_next s x.a = nx.a) := by
  have hx : x ∈ pre ++ x :: post := by simp
  have hX := hC.size_lt hx
  have hT := hC.header hx hxr
  have hfl : x.k.flag ≤ 1 := by cases x.k <;> simp [Kind.flag]
  have hsz : bt_size s x.a = x.sz := bt_size_eq hT.1 (by omega) (by omega) hfl
  have hsorted := Tiles_sorted hC.heap.tiles
  cases post with
  | nil =>
    left
    have : bt_next s x.a = 0 := by
      unfold bt_next
      rw [if_pos]
      rw [hC.last, lastAddr_append]
    rw [this]
    simp
  | cons nx post' =>
    have hnx : nx ∈ pre ++ x :: nx :: post' := by simp
    have hN := hC.size_lt hnx
    have hkr : nx.k ≠ .raw := hraw nx (by simp)
    have hTn := hC.header hnx hkr
    have hfln : nx.k.flag ≤ 1 := by cases nx.k <;> simp [Kind.flag]
    have hadj : nx.a = x.a + x.sz := by
      have := hC.heap.tiles
      rw [Tiles_append] at this
      obtain ⟨c, -, h2⟩ := this
      simp only [Tiles_cons] at h2
      omega
    have hlast_ne : x.a ≠ s.last := by
      rw [hC.last, lastAddr_append_cons]
      obtain ⟨b, hb, hbl⟩ := lastAddr_in x.a (List.cons_ne_nil nx post')
      rw [hbl]
      have := (List.pairwise_cons.1 (List.pairwise_append.1 hsorted).2.1).1 b hb
      omega
    have hnext : bt_next s x.a = nx.a := by
      unfold bt_next
      rw [if_neg hlast_ne, hsz, sext_of_lt _ (by omega)]
      omega
    have hu : bt_used s nx.a = nx.k.flag := bt_used_eq hTn.1 (by omega) hfln
    rw [hnext, if_pos (by omega), hu]
    cases hk : nx.k with
    | used =>
      left
      refine ⟨rfl, ?_⟩
      intro nx' post'' h
      simp only [List.cons.injEq] at h
      rw [← h.1]; exact hk
    | free =>
      right
      exact ⟨rfl, nx, post', rfl, hk, rfl⟩
    | raw => exact absurd hk hkr

theorem Inv.used_not_node {s : State} {bs : List Blk} {fl : Nat → List Nat} {L : List Nat}
    (hI : Inv s bs fl L) {x : Blk} (hx : x ∈ bs) (hxk : x.k = .used) :
    ∀ i < 11, x.a ∉ fl i := by
  intro i hi h
  obtain ⟨b, hb, hba, hbk⟩ := hI.abs.in_free i hi _ h
  have := Tiles_addr_inj hI.core.heap.tiles hb hx hba
  subst this
  rw [hxk] at hbk
  exact absurd hbk (by decide)

theorem Inv.free_node_of {s : State} {bs : List Blk} {fl : Nat → List Nat} {L : List Nat}
    (hI : Inv s bs fl L) {x : Blk} (hx : x ∈ bs) (hxk : x.k = .free) :
    ∃ j < 11, x.a ∈ fl j := hI.abs.free_in x hx hxk

theorem Keeps_sub {m m' : Mem} {bs bs' : List Blk} (h : Keeps m m' bs)
    (hsub : ∀ u ∈ bs', u.k = .used → u ∈ bs) : Keeps m m' bs' :=
  fun u hu hk z h1 h2 => h u (hsub u hu hk) hk z h1 h2

/-- `free` with no free neighbour. -/
theorem free_UU {s : State} {pre post : List Blk} {x : Blk} {fl : Nat → List Nat}
    {L : List Nat} (hI : Inv s (pre ++ x :: post) fl L) (hxk : x.k = .used)
    (hpU : ∀ pre' pv, pre = pre' ++ [pv] → pv.k = .used)
    (hnU : ∀ nx post', post = nx :: post' → nx.k = .used) :
    ∃ fl', Inv (insert_block (bt_make s x.a x.sz 0) x.a)
        (pre ++ ⟨x.a, x.sz, .free⟩ :: post) fl' (L.erase (x.a + 4)) ∧
      Keeps s.mem (insert_block (bt_make s x.a x.sz 0) x.a).mem
        (pre ++ ⟨x.a, x.sz, .free⟩ :: post) := by
  have hx : x ∈ pre ++ x :: post := by simp
  have hxnot := hI.used_not_node hx hxk
  have hsorted := Tiles_sorted hI.core.heap.tiles
  have hna := NoAdj_split.1 hI.abs.noadj
  obtain ⟨hC1, K1⟩ := hI.core.retag_free
  obtain ⟨hC2, K2⟩ := hC1.insert (b := ⟨x.a, x.sz, .free⟩) (by simp) rfl hxnot
  simp only at hC2 K2
  refine ⟨_, ⟨hC2, ?_⟩, Keeps_trans (Keeps_sub K1 ?_) K2⟩
  · apply Abs_merge (M := [x]) (x := x) (k := list_idx x.sz) (by simpa using hI.abs)
      (by simpa using hsorted) (by simp) hxk (by simp) (list_idx_lt _)
    · intro i hi a
      by_cases hik : i = list_idx x.sz
      · subst hik
        rw [Function.update_same, List.mem_cons]
        simp only [List.mem_singleton, forall_eq, and_true]
        constructor
        · rintro (h | h)
          · exact Or.inr h
          · exact Or.inl ⟨h, fun e => hxnot _ hi (e ▸ h)⟩
        · rintro (⟨h, -⟩ | h)
          · exact Or.inr h
          · exact Or.inl h
      · rw [Function.update_noteq hik]
        simp only [List.mem_singleton, forall_eq]
        constructor
        · intro h
          exact Or.inl ⟨h, fun e => hxnot _ hi (e ▸ h)⟩
        · rintro (⟨h, -⟩ | ⟨-, h⟩)
          · exact h
          · exact absurd h hik
    · rw [NoAdj_split]
      exact ⟨NoAdj_any_last hna.1 (fun p' pv h => by rw [hpU p' pv h]; decide),
        NoAdj_any_head hna.2 (fun nx p' h => by rw [hnU nx p' h]; decide)⟩
  · intro u hu hk
    simp only [List.mem_append, List.mem_cons] at hu ⊢
    rcases hu with hu | rfl | hu
    · exact Or.inl hu
    · simp at hk
    · exact Or.inr (Or.inr hu)

/-- `free` with a free predecessor only. -/
theorem free_FU {s : State} {pre' post : List Blk} {pv x : Blk} {fl : Nat → List Nat}
    {L : List Nat} (hI : Inv s (pre' ++ pv :: x :: post) fl L) (hxk : x.k = .used)
    (hpk : pv.k = .free) (hnU : ∀ nx post', post = nx :: post' → nx.k = .used) :
    ∃ fl', Inv (insert_block (coalese_back (remove_block (bt_make s x.a x.sz 0) pv.a) x.a) pv.a)
        (pre' ++ ⟨pv.a, pv.sz + x.sz, .free⟩ :: post) fl' (L.erase (x.a + 4)) ∧
      Keeps s.mem
        (insert_block (coalese_back (remove_block (bt_make s x.a x.sz 0) pv.a) x.a) pv.a).mem
        (pre' ++ ⟨pv.a, pv.sz + x.sz, .free⟩ :: post) := by
  have hx : x ∈ pre' ++ pv :: x :: post := by simp
  have hpv : pv ∈ pre' ++ pv :: x :: post := by simp
  have hxnot := hI.used_not_node hx hxk
  obtain ⟨j, hj, hpj⟩ := hI.free_node_of hpv hpk
  have hsorted := Tiles_sorted hI.core.heap.tiles
  have hnd := hI.core.heap.nodup
  have hna := NoAdj_split.1 hI.abs.noadj
  have hI' : Inv s ((pre' ++ [pv]) ++ x :: post) fl L := by simpa using hI
  obtain ⟨hC1, K1⟩ := hI'.core.retag_free
  have hC1' : Core (bt_make s x.a x.sz 0) (pre' ++ pv :: ⟨x.a, x.sz, .free⟩ :: post) fl := by
    simpa using hC1
  obtain ⟨hC2, K2⟩ := hC1'.remove hj (b := pv) (by simp) hpk hpj
  obtain ⟨hC3, K3, -⟩ := hC2.merge (U := pv) (V := ⟨x.a, x.sz, .free⟩) hpk rfl
    (fun i hi h => hxnot i hi (List.mem_of_mem_erase h))
  simp only at hC3 K3
  obtain ⟨hC4, K4⟩ := hC3.insert (b := ⟨pv.a, pv.sz + x.sz, .free⟩) (by simp) rfl
    (fun i hi h => ((hnd i hi).mem_erase_iff.1 h).1 rfl)
  simp only at hC4 K4
  have hpx : pv.a ≠ x.a := by
    have := (List.pairwise_cons.1 (List.pairwise_append.1 hsorted).2.1).1 x (by simp)
    omega
  refine ⟨_, ⟨hC4, ?_⟩, ?_⟩
  · apply Abs_merge (P := pre') (M := [pv, x]) (x := x) (k := list_idx (pv.sz + x.sz))
      (by simpa using hI.abs) (by simpa using hsorted) (by simp) hxk ?_ (list_idx_lt _)
    · intro i hi a
      by_cases hik : i = list_idx (pv.sz + x.sz)
      · subst hik
        rw [Function.update_same, List.mem_cons, (hnd _ hi).mem_erase_iff]
        simp only [List.mem_cons, List.not_mem_nil, or_false, forall_eq_or_imp, forall_eq,
          and_true]
        constructor
        · rintro (h | ⟨h1, h2⟩)
          · exact Or.inr h
          · exact Or.inl ⟨h2, Ne.symm h1, fun e => hxnot _ hi (e ▸ h2)⟩
        · rintro (⟨h, h1, -⟩ | h)
          · exact Or.inr ⟨Ne.symm h1, h⟩
          · exact Or.inl h
      · rw [Function.update_noteq hik, (hnd _ hi).mem_erase_iff]
        simp only [List.mem_cons, List.not_mem_nil, or_false, forall_eq_or_imp, forall_eq]
        constructor
        · rintro ⟨h1, h2⟩
          exact Or.inl ⟨h2, Ne.symm h1, fun e => hxnot _ hi (e ▸ h2)⟩
        · rintro (⟨h, h1, -⟩ | ⟨-, h⟩)
          · exact ⟨Ne.symm h1, h⟩
          · exact absurd h hik
    · rw [NoAdj_split]
      have h2 : NoAdj (x :: post) := by
        have := hna.2
        exact (NoAdj_cons.1 this).2
      exact ⟨NoAdj_last hna.1 (Or.inl hpk.symm),
        NoAdj_any_head h2 (fun nx p' h => by rw [hnU nx p' h]; decide)⟩
    · intro b hb hbx
      simp only [List.mem_cons, List.not_mem_nil, or_false] at hb
      rcases hb with rfl | rfl
      · exact hpk
      · exact absurd rfl hbx
  · have hsub : ∀ (l : List Blk), (∀ u ∈ l, u.k = .used → u ∈ pre' ∨ u ∈ post ∨ u = x) →
        ∀ u ∈ pre' ++ (⟨pv.a, pv.sz + x.sz, .free⟩ : Blk) :: post, u.k = .used →
          u ∈ pre' ∨ u ∈ post := by
      intro l _ u hu hk
      simp only [List.mem_append, List.mem_cons] at hu
      rcases hu with hu | rfl | hu
      · exact Or.inl hu
      · simp at hk
      · exact Or.inr hu
    refine Keeps_trans (Keeps_trans (Keeps_trans (Keeps_sub K1 ?_) (Keeps_sub K2 ?_))
      (Keeps_sub K3 ?_)) (Keeps_sub K4 ?_)
    all_goals
      intro u hu hk
      rcases hsub [] (fun _ h => absurd h (List.not_mem_nil _)) u hu hk with h | h
      · simp [h]
      · simp [h]

/-- `free` with a free successor only. -/
theorem free_UF {s : State} {pre post' : List Blk} {x nx : Blk} {fl : Nat → List Nat}
    {L : List Nat} (hI : Inv s (pre ++ x :: nx :: post') fl L) (hxk : x.k = .used)
    (hnk : nx.k = .free) (hpU : ∀ pre' pv, pre = pre' ++ [pv] → pv.k = .used) :
    ∃ fl', Inv (insert_block (coalese_front (remove_block (bt_make s x.a x.sz 0) nx.a) x.a) x.a)
        (pre ++ ⟨x.a, x.sz + nx.sz, .free⟩ :: post') fl' (L.erase (x.a + 4)) ∧
      Keeps s.mem
        (insert_block (coalese_front (remove_block (bt_make s x.a x.sz 0) nx.a) x.a) x.a).mem
        (pre ++ ⟨x.a, x.sz + nx.sz, .free⟩ :: post') := by
  have hx : x ∈ pre ++ x :: nx :: post' := by simp
  have hnx : nx ∈ pre ++ x :: nx :: post' := by simp
  have hxnot := hI.used_not_node hx hxk
  obtain ⟨j, hj, hnj⟩ := hI.free_node_of hnx hnk
  have hsorted := Tiles_sorted hI.core.heap.tiles
  have hnd := hI.core.heap.nodup
  have hna := NoAdj_split.1 hI.abs.noadj
  obtain ⟨hC1, K1⟩ := hI.core.retag_free
  obtain ⟨hC2, K2⟩ := hC1.remove hj (b := nx) (by simp) hnk hnj
  obtain ⟨hC3, K3, hfront⟩ := hC2.merge (U := ⟨x.a, x.sz, .free⟩) (V := nx) rfl hnk
    (fun i hi h => ((hnd i hi).mem_erase_iff.1 h).1 rfl)
  simp only at hC3 K3 hfront
  rw [hfront]
  obtain ⟨hC4, K4⟩ := hC3.insert (b := ⟨x.a, x.sz + nx.sz, .free⟩) (by simp) rfl
    (fun i hi h => hxnot i hi (List.mem_of_mem_erase h))
  simp only at hC4 K4
  have hxn : x.a ≠ nx.a := by
    have := (List.pairwise_cons.1 (List.pairwise_append.1 hsorted).2.1).1 nx (by simp)
    omega
  refine ⟨_, ⟨hC4, ?_⟩, ?_⟩
  · apply Abs_merge (P := pre) (M := [x, nx]) (x := x) (k := list_idx (x.sz + nx.sz))
      (by simpa using hI.abs) (by simpa using hsorted) (by simp) hxk ?_ (list_idx_lt _)
    · intro i hi a
      by_cases hik : i = list_idx (x.sz + nx.sz)
      · subst hik
        rw [Function.update_same, List.mem_cons, (hnd _ hi).mem_erase_iff]
        simp only [List.mem_cons, List.not_mem_nil, or_false, forall_eq_or_imp, forall_eq,
          and_true]
        constructor
        · rintro (h | ⟨h1, h2⟩)
          · exact Or.inr h
          · exact Or.inl ⟨h2, fun e => hxnot _ hi (e ▸ h2), Ne.symm h1⟩
        · rintro (⟨h, -, h1⟩ | h)
          · exact Or.inr ⟨Ne.symm h1, h⟩
          · exact Or.inl h
      · rw [Function.update_noteq hik, (hnd _ hi).mem_erase_iff]
        simp only [List.mem_cons, List.not_mem_nil, or_false, forall_eq_or_imp, forall_eq]
        constructor
        · rintro ⟨h1, h2⟩
          exact Or.inl ⟨h2, fun e => hxnot _ hi (e ▸ h2), Ne.symm h1⟩
        · rintro (⟨h, -, h1⟩ | ⟨-, h⟩)
          · exact ⟨Ne.symm h1, h⟩
          · exact absurd h hik
    · rw [NoAdj_split]
      have h2 : NoAdj (nx :: post') := (NoAdj_cons.1 hna.2).2
      exact ⟨NoAdj_any_last hna.1 (fun p' pv h => by rw [hpU p' pv h]; decide),
        NoAdj_head h2 (Or.inl hnk.symm)⟩
    · intro b hb hbx
      simp only [List.mem_cons, List.not_mem_nil, or_false] at hb
      rcases hb with rfl | rfl
      · exact absurd rfl hbx
      · exact hnk
  · have hsub : ∀ u ∈ pre ++ (⟨x.a, x.sz + nx.sz, .free⟩ : Blk) :: post', u.k = .used →
          u ∈ pre ∨ u ∈ post' := by
      intro u hu hk
      simp only [List.mem_append, List.mem_cons] at hu
      rcases hu with hu | rfl | hu
      · exact Or.inl hu
      · simp at hk
      · exact Or.inr hu
    refine Keeps_trans (Keeps_trans (Keeps_trans (Keeps_sub K1 ?_) (Keeps_sub K2 ?_))
      (Keeps_sub K3 ?_)) (Keeps_sub K4 ?_)
    all_goals
      intro u hu hk
      rcases hsub u hu hk with h | h
      · simp [h]
      · simp [h]

/-- `free` with both neighbours free: the merged block stays where the predecessor was
in its list. -/
theorem free_FF {s : State} {pre' post' : List Blk} {pv x nx : Blk} {fl : Nat → List Nat}
    {L : List Nat} (hI : Inv s (pre' ++ pv :: x :: nx :: post') fl L) (hxk : x.k = .used)
    (hpk : pv.k = .free) (hnk : nx.k = .free) :
    ∃ fl', Inv (coalese_front (coalese_back (remove_block (bt_make s x.a x.sz 0) nx.a) x.a) pv.a)
        (pre' ++ ⟨pv.a, pv.sz + x.sz + nx.sz, .free⟩ :: post') fl' (L.erase (x.a + 4)) ∧
      Keeps s.mem
        (coalese_front (coalese_back (remove_block (bt_make s x.a x.sz 0) nx.a) x.a) pv.a).mem
        (pre' ++ ⟨pv.a, pv.sz + x.sz + nx.sz, .free⟩ :: post') ∧
      (∀ i < 11, fl' i = (fl i).erase nx.a) := by
  have hx : x ∈ pre' ++ pv :: x :: nx :: post' := by simp
  have hpv : pv ∈ pre' ++ pv :: x :: nx :: post' := by simp
  have hnx : nx ∈ pre' ++ pv :: x :: nx :: post' := by simp
  have hxnot := hI.used_not_node hx hxk
  obtain ⟨j, hj, hnj⟩ := hI.free_node_of hnx hnk
  obtain ⟨jp, hjp, hpj⟩ := hI.free_node_of hpv hpk
  have hsorted := Tiles_sorted hI.core.heap.tiles
  have hnd := hI.core.heap.nodup
  have hna := NoAdj_split.1 hI.abs.noadj
  have hI' : Inv s ((pre' ++ [pv]) ++ x :: nx :: post') fl L := by simpa using hI
  obtain ⟨hC1, K1⟩ := hI'.core.retag_free
  have hC1' : Core (bt_make s x.a x.sz 0)
      (pre' ++ pv :: ⟨x.a, x.sz, .free⟩ :: nx :: post') fl := by simpa using hC1
  obtain ⟨hC2, K2⟩ := hC1'.remove hj (b := nx) (by simp) hnk hnj
  obtain ⟨hC3, K3, -⟩ := hC2.merge (U := pv) (V := ⟨x.a, x.sz, .free⟩) hpk rfl
    (fun i hi h => hxnot i hi (List.mem_of_mem_erase h))
  simp only at hC3 K3
  obtain ⟨hC4, K4, hfront⟩ := hC3.merge (U := ⟨pv.a, pv.sz + x.sz, .free⟩) (V := nx) rfl hnk
    (fun i hi h => ((hnd i hi).mem_erase_iff.1 h).1 rfl)
  simp only at hC4 K4 hfront
  rw [hfront]
  have hs1 := (List.pairwise_cons.1 (List.pairwise_append.1 hsorted).2.1).1
  have hpx : pv.a < x.a := hs1 x (by simp)
  have hpn : pv.a < nx.a := hs1 nx (by simp)
  refine ⟨_, ⟨hC4, ?_⟩, ?_, fun i _ => rfl⟩
  · apply Abs_merge (P := pre') (M := [pv, x, nx]) (x := x) (k := jp)
      (by simpa using hI.abs) (by simpa using hsorted) (by simp) hxk ?_ hjp
    · intro i hi a
      rw [(hnd _ hi).mem_erase_iff]
      simp only [List.mem_cons, List.not_mem_nil, or_false, forall_eq_or_imp, forall_eq]
      constructor
      · rintro ⟨h1, h2⟩
        by_cases hap : a = pv.a
        · subst hap
          exact Or.inr ⟨rfl, hI.core.heap.disj i jp _ hi hjp h2 hpj⟩
        · exact Or.inl ⟨h2, Ne.symm hap, fun e => hxnot _ hi (e ▸ h2), Ne.symm h1⟩
      · rintro (⟨h, -, -, h1⟩ | ⟨h1, h2⟩)
        · exact ⟨Ne.symm h1, h⟩
        · subst h1 h2
          exact ⟨by omega, hpj⟩
    · rw [NoAdj_split]
      have h2 : NoAdj (nx :: post') := (NoAdj_cons.1 (NoAdj_cons.1 hna.2).2).2
      exact ⟨NoAdj_last hna.1 (Or.inl hpk.symm), NoAdj_head h2 (Or.inl hnk.symm)⟩
    · intro b hb hbx
      simp only [List.mem_cons, List.not_mem_nil, or_false] at hb
      rcases hb with rfl | rfl | rfl
      · exact hpk
      · exact absurd rfl hbx
      · exact hnk
  · have hsub : ∀ u ∈ pre' ++ (⟨pv.a, pv.sz + x.sz + nx.sz, .free⟩ : Blk) :: post',
          u.k = .used → u ∈ pre' ∨ u ∈ post' := by
      intro u hu hk
      simp only [List.mem_append, List.mem_cons] at hu
      rcases hu with hu | rfl | hu
      · exact Or.inl hu
      · simp at hk
      · exact Or.inr hu
    refine Keeps_trans (Keeps_trans (Keeps_trans (Keeps_sub K1 ?_) (Keeps_sub K2 ?_))
      (Keeps_sub K3 ?_)) (Keeps_sub K4 ?_)
    all_goals
      intro u hu hk
      rcases hsub u hu hk with h | h
      · simp [h]
      · simp [h]

/-- The four branches of `free`, by the flags it reads. -/
theorem free_eq (s : State) (p : Nat) (hp : p ≠ 0) :
    free s p =
      (let s1 := bt_make s (p - 4) (sext (bt_size s (p - 4))) 0
       let P := bt_prev s1 (p - 4)
       let N := bt_next s1 (p - 4)
       let pu := if P ≠ 0 then bt_used s1 P else 1
       let nu := if N ≠ 0 then bt_used s1 N else 1
       if pu ≠ 0 ∧ nu ≠ 0 then insert_block s1 (p - 4)
       else if pu = 0 ∧ nu ≠ 0 then
         insert_block (coalese_back (remove_block s1 P) (p - 4)) P
       else if pu ≠ 0 ∧ nu = 0 then
         insert_block (coalese_front (remove_block s1 N) (p - 4)) (p - 4)
       else coalese_front (coalese_back (remove_block s1 N) (p - 4)) P) := by
  unfold free
  rw [if_neg hp]
  rfl

theorem free_vars (s : State) (p : Nat) :
    (free s p).heap_end = s.heap_end ∧ (free s p).guard_blocks_start = s.guard_blocks_start ∧
      (free s p).mem_max_addr = s.mem_max_addr ∧ (free s p).mem_brk = s.mem_brk := by
  by_cases hp : p = 0
  · unfold free; rw [if_pos hp]; exact ⟨rfl, rfl, rfl, rfl⟩
  · rw [free_eq s p hp]
    simp only
    split_ifs <;> exact ⟨rfl, rfl, rfl, rfl⟩

/-- `free` of a live pointer keeps the invariant. -/
theorem free_spec {s : State} {bs : List Blk} {fl : Nat → List Nat} {L : List Nat} {p : Nat}
    (hI : Inv s bs fl L) (hp : p ∈ L) :
    ∃ bs' fl', Inv (free s p) bs' fl' (L.erase p) ∧ Keeps s.mem (free s p).mem bs' ∧
      FreeShape bs p bs' := by
  obtain ⟨x, hx, hxk, hxp⟩ := (hI.abs.live p).1 hp
  obtain ⟨pre, post, hbs⟩ := List.append_of_mem hx
  subst hbs
  subst hxp
  have hX := hI.core.size_lt hx
  have hT := hI.core.header hx (by rw [hxk]; decide)
  simp only [hxk, Kind.flag] at hT
  have hsz : bt_size s x.a = x.sz := bt_size_eq (F := 1) hT.1 (by omega) (by omega) (by omega)
  obtain ⟨hC1, -⟩ := hI.core.retag_free
  have hraw : ∀ b ∈ pre ++ x :: post, b.k ≠ .raw := hI.abs.noraw
  have hpi := hC1.prev_info (fun b hb => hraw b (by simp [hb]))
  have hni := hC1.next_info (by simp) (fun b hb => hraw b (by simp [hb]))
  simp only at hpi hni
  rw [free_eq s _ (by omega)]
  simp only [Nat.add_sub_cancel, hsz, sext_of_lt _ hX.2.2.2.2.1]
  rw [if_pos hpi.1]
  rcases hpi.2 with ⟨hpu, hpU⟩ | ⟨hpu, pre', pv, hpre, hpk, hpa⟩ <;>
    rcases hni with ⟨hnu, hnU⟩ | ⟨hnu, nx, post', hpost, hnk, hna⟩
  · rw [hpu, hnu, if_pos (by decide)]
    obtain ⟨fl', h1, h2⟩ := free_UU hI hxk hpU hnU
    exact ⟨_, fl', h1, h2, pre, x, post, rfl, hxk, rfl, Or.inl rfl⟩
  · rw [hpu, hnu, if_neg (by decide), if_neg (by decide), if_pos (by decide), hna]
    subst hpost
    obtain ⟨fl', h1, h2⟩ := free_UF hI hxk hnk hpU
    exact ⟨_, fl', h1, h2, pre, x, nx :: post', rfl, hxk, rfl,
      Or.inr (Or.inr (Or.inl ⟨nx, post', rfl, hnk, rfl⟩))⟩
  · rw [hpu, hnu, if_neg (by decide), if_pos (by decide), hpa]
    subst hpre
    obtain ⟨fl', h1, h2⟩ := free_FU (by simpa using hI) hxk hpk hnU
    exact ⟨_, fl', h1, h2, pre' ++ [pv], x, post, rfl, hxk, rfl,
      Or.inr (Or.inl ⟨pre', pv, rfl, hpk, rfl⟩)⟩
  · rw [hpu, hnu, if_neg (by decide), if_neg (by decide), if_neg (by decide), hna, hpa]
    subst hpre hpost
    obtain ⟨fl', h1, h2, -⟩ := free_FF (by simpa using hI) hxk hpk hnk
    exact ⟨_, fl', h1, h2, pre' ++ [pv], x, nx :: post', rfl, hxk, rfl,
      Or.inr (Or.inr (Or.inr ⟨pre', pv, nx, post', rfl, rfl, hpk, hnk, rfl⟩))⟩

/-! ## `realloc` and `calloc` keep the invariant -/

/-- Changing the size of a block changes nothing in the memory-free part of the
invariant. -/
theorem Abs_same {pre Q : List Blk} {x x' : Blk} {fl : Nat → List Nat} {L : List Nat}
    (hA : Abs (pre ++ x :: Q) fl L) (ha : x'.a = x.a) (hk : x'.k = x.k) :
    Abs (pre ++ x' :: Q) fl L := by
  have hna := NoAdj_split.1 hA.noadj
  refine ⟨?_, ?_, ?_, ?_, hA.live_nodup, ?_⟩
  · intro b hb
    simp only [List.mem_append, List.mem_cons] at hb
    rcases hb with hb | rfl | hb
    · exact hA.noraw b (by simp [hb])
    · rw [hk]; exact hA.noraw x (by simp)
    · exact hA.noraw b (by simp [hb])
  · intro b hb hbk
    simp only [List.mem_append, List.mem_cons] at hb
    rcases hb with hb | rfl | hb
    · exact hA.free_in b (by simp [hb]) hbk
    · rw [ha]; exact hA.free_in x (by simp) (hk ▸ hbk)
    · exact hA.free_in b (by simp [hb]) hbk
  · intro i hi a h
    obtain ⟨b, hb, hba, hbk⟩ := hA.in_free i hi a h
    simp only [List.mem_append, List.mem_cons] at hb
    rcases hb with hb | rfl | hb
    · exact ⟨b, by simp [hb], hba, hbk⟩
    · exact ⟨x', by simp, ha.trans hba, hk.trans hbk⟩
    · exact ⟨b, by simp [hb], hba, hbk⟩
  · exact NoAdj_split.2 ⟨NoAdj_last hna.1 (Or.inl hk), NoAdj_head hna.2 (Or.inl hk)⟩
  · intro p
    rw [hA.live]
    constructor
    · rintro ⟨b, hb, hbk, hbp⟩
      simp only [List.mem_append, List.mem_cons] at hb
      rcases hb with hb | rfl | hb
      · exact ⟨b, by simp [hb], hbk, hbp⟩
      · exact ⟨x', by simp, hk.trans hbk, by rw [ha]; exact hbp⟩
      · exact ⟨b, by simp [hb], hbk, hbp⟩
    · rintro ⟨b, hb, hbk, hbp⟩
      simp only [List.mem_append, List.mem_cons] at hb
      rcases hb with hb | rfl | hb
      · exact ⟨b, by simp [hb], hbk, hbp⟩
      · exact ⟨x, by simp, hk ▸ hbk, by rw [← ha]; exact hbp⟩
      · exact ⟨b, by simp [hb], hbk, hbp⟩

/-- Writes into the payload of a block in use keep the invariant. -/
theorem Inv.payload_write {s : State} {bs : List Blk} {fl : Nat → List Nat} {L : List Nat}
    (hI : Inv s bs fl L) {u : Blk} (hu : u ∈ bs) (hk : u.k = .used) {m' : Mem}
    (hag : ∀ x, x < u.a + 4 ∨ u.a + u.sz ≤ x + 4 → m' x = s.mem x) :
    Inv { s with mem := m' } bs fl L := by
  have hC := hI.core
  exact ⟨⟨hC.hs, hC.gbe, hC.sls, hC.al, hC.brk, hC.max, hC.lim, hC.lim64,
    Heap_payload hC.heap hu hk hag, hC.last⟩, hI.abs⟩

/-- Growing the last block in place. -/
theorem realloc_grown_inv {s : State} {pre : List Blk} {x : Blk} {fl : Nat → List Nat}
    {L : List Nat} (hI : Inv s (pre ++ [x]) fl L) (hxk : x.k = .used) {new : Nat}
    (hmod : new % 16 = 0) (hgt : x.sz < new)
    (hfit : s.mem_brk + (new - x.sz) ≤ s.mem_max_addr) :
    Inv (realloc_grown s x.a new x.sz) (pre ++ [⟨x.a, new, .used⟩]) fl L ∧
      Keeps s.mem (realloc_grown s x.a new x.sz).mem (pre ++ [x]) := by
  have hC := hI.core
  have hx : x ∈ pre ++ [x] := by simp
  have hX := hC.size_lt hx
  have hbrk := hC.brk
  have hlim := hC.lim
  have hxnot := hI.used_not_node hx hxk
  obtain ⟨c, hc, hxt⟩ := Tiles_append.1 hC.heap.tiles
  simp only [Tiles_cons, Tiles_nil] at hxt
  obtain ⟨hca, -, -, -, hend⟩ := hxt
  subst hca
  have hE := Heap_extend hC.heap (n := new - x.sz) (by omega) (by omega) (by omega)
  have hS := Heap_stamp (k := .used) (P := pre) (M := [x, ⟨s.heap_end, new - x.sz, .raw⟩])
    (l := []) (Q := []) (c := x.a) (d := s.heap_end + (new - x.sz)) (a := x.a) (Z := new)
    (by simpa using hE) hc (by simp) (by simp) (by simp) (by omega) (by omega) hmod
    (by decide)
    (by
      intro i hi a ha b hb hba
      exfalso
      simp only [List.mem_cons, List.not_mem_nil, or_false] at hb
      rcases hb with rfl | rfl
      · exact hxnot i hi (hba ▸ ha)
      · have := hC.heap.node_lo hi ha
        simp only at hba
        omega)
  simp only [List.nil_append, List.append_nil, Kind.flag] at hS
  have hmem : realloc_grown s x.a new x.sz = { s with
      mem := (wr (wr s.mem x.a (new + 1)) (x.a + new - 4) (new + 1)),
      mem_brk := s.mem_brk + (new - x.sz), heap_end := s.heap_end + (new - x.sz) } := by
    unfold realloc_grown
    rw [bt_make_eq _ _ _ _ (by omega) (by omega) (by omega)]
  rw [hmem]
  refine ⟨⟨⟨hC.hs, hC.gbe, hC.sls, hC.al, by simp only; omega, by simp only; omega, hC.lim,
    hC.lim64, hS, ?_⟩, Abs_same (Q := []) hI.abs rfl hxk.symm⟩, ?_⟩
  · simp only [lastAddr_append]
    rw [hC.last, lastAddr_append]
  · apply Keeps_stamp _ _ (by omega)
    intro u hu _
    have hU := Tiles_mem hC.heap.tiles hu
    rcases Tiles_sep hC.heap.tiles hu hx with h | h | h
    · subst h; omega
    · omega
    · omega

theorem MallocShape.used_keep {s s' : State} {bs bs' : List Blk} {size p : Nat}
    (h : MallocShape s bs size p s' bs') : ∀ u ∈ bs, u.k = .used → u ∈ bs' := by
  intro u hu hk
  rcases h with ⟨-, h, -⟩ | ⟨pre, x, post, h1, hxk, -, -, -, -, h2⟩
  · rw [h]; exact List.mem_append_left _ hu
  · subst h1 h2
    simp only [List.mem_append, List.mem_cons] at hu ⊢
    rcases hu with hu | rfl | hu
    · exact Or.inl hu
    · rw [hxk] at hk; exact absurd hk (by decide)
    · exact Or.inr (Or.inr (Or.inr hu))

theorem MallocShape.new_block {s s' : State} {bs bs' : List Blk} {size p : Nat}
    (h : MallocShape s bs size p s' bs') : (⟨p - 4, size, .used⟩ : Blk) ∈ bs' := by
  rcases h with ⟨hp, h, -⟩ | ⟨pre, x, post, h1, hxk, hp, -, -, -, h2⟩
  · subst hp h; simp
  · subst h1 h2 hp; simp

theorem FreeShape.used_rest {bs bs' : List Blk} {p : Nat} (h : FreeShape bs p bs') :
    ∀ u ∈ bs, u.k = .used → u.a + 4 ≠ p → u ∈ bs' := by
  intro u hu hk hne
  obtain ⟨pre, x, post, h1, hxk, hxp, hcase⟩ := h
  subst h1
  have hux : u ≠ x := fun e => hne (e ▸ hxp)
  simp only [List.mem_append, List.mem_cons] at hu
  rcases hcase with h | ⟨pre', pv, h1, hpk, h⟩ | ⟨nx, post', h1, hnk, h⟩ |
      ⟨pre', pv, nx, post', h1, h2, hpk, hnk, h⟩
  · subst h
    simp only [List.mem_append, List.mem_cons]
    tauto
  · subst h h1
    simp only [List.mem_append, List.mem_cons, List.not_mem_nil, or_false] at hu ⊢
    rcases hu with (hu | rfl) | rfl | hu
    · exact Or.inl hu
    · rw [hpk] at hk; exact absurd hk (by decide)
    · exact absurd rfl hux
    · exact Or.inr (Or.inr hu)
  · subst h h1
    simp only [List.mem_append, List.mem_cons] at hu ⊢
    rcases hu with hu | rfl | rfl | hu
    · exact Or.inl hu
    · exact absurd rfl hux
    · rw [hnk] at hk; exact absurd hk (by decide)
    · exact Or.inr (Or.inr hu)
  · subst h h1 h2
    simp only [List.mem_append, List.mem_cons, List.not_mem_nil, or_false] at hu ⊢
    rcases hu with (hu | rfl) | rfl | rfl | hu
    · exact Or.inl hu
    · rw [hpk] at hk; exact absurd hk (by decide)
    · exact absurd rfl hux
    · rw [hnk] at hk; exact absurd hk (by decide)
    · exact Or.inr (Or.inr hu)

theorem Keeps.others {m m' : Mem} {bs : List Blk} (h : Keeps m m' bs) (old : Nat) :
    KeepsOthers m m' bs old := fun u hu hk _ z h1 h2 => h u hu hk z h1 h2

/-- `realloc` by allocating, copying and freeing. -/
theorem realloc_move_inv {s s1 : State} {bs : List Blk} {fl : Nat → List Nat} {L : List Nat}
    {x : Blk} {fuel size np : Nat} (hI : Inv s bs fl L) (hx : x ∈ bs) (hxk : x.k = .used)
    (hn : size + 23 < 2 ^ 64) (hlt : x.sz < blksz size)
    (hm : malloc fuel s size = some (np, s1)) (hnp : np ≠ 0) :
    ∃ bs' fl', Inv (free { s1 with mem := memcpy s1.mem np (x.a + 4) (x.sz - 8) } (x.a + 4))
        bs' fl' (np :: L.erase (x.a + 4)) ∧
      KeepsOthers s.mem
        (free { s1 with mem := memcpy s1.mem np (x.a + 4) (x.sz - 8) } (x.a + 4)).mem
        bs (x.a + 4) ∧
      (∀ i, i + 8 < x.sz →
        (free { s1 with mem := memcpy s1.mem np (x.a + 4) (x.sz - 8) } (x.a + 4)).mem (np + i)
          = s.mem (x.a + 4 + i)) ∧ np ≠ x.a + 4 := by
  rcases malloc_spec hI hn hm with ⟨h0, -⟩ | ⟨-, bs1, fl1, hI1, K1, -, -, hsh⟩
  · exact absurd h0 hnp
  have hy := hsh.new_block
  have hY := hI1.core.size_lt hy
  simp only at hY
  have hxL : x.a + 4 ∈ L := (hI.abs.live _).2 ⟨x, hx, hxk, rfl⟩
  have hnd := hI1.abs.live_nodup
  have hnpL : np ∉ L := (List.nodup_cons.1 hnd).1
  have hne : np ≠ x.a + 4 := fun e => hnpL (e ▸ hxL)
  have hcopy : ∀ z, z < (np - 4) + 4 ∨ (np - 4) + blksz size ≤ z + 4 →
      memcpy s1.mem np (x.a + 4) (x.sz - 8) z = s1.mem z := by
    intro z hz
    unfold memcpy
    rw [if_neg (by omega)]
  have hI2 : Inv { s1 with mem := memcpy s1.mem np (x.a + 4) (x.sz - 8) } bs1 fl1 (np :: L) :=
    hI1.payload_write hy rfl hcopy
  obtain ⟨bs', fl', hI3, K3, hfs⟩ := free_spec hI2 (List.mem_cons_of_mem _ hxL)
  have herase : (np :: L).erase (x.a + 4) = np :: L.erase (x.a + 4) := by
    rw [List.erase_cons_tail]
    simpa using hne
  rw [herase] at hI3
  have hx1 : x ∈ bs1 := hsh.used_keep x hx hxk
  refine ⟨bs', fl', hI3, ?_, ?_, hne⟩
  · intro u hu hk hune z h1 h2
    have hu1 : u ∈ bs1 := hsh.used_keep u hu hk
    have hu' : u ∈ bs' := hfs.used_rest u hu1 hk hune
    rw [K3 u hu' hk z h1 h2]
    simp only
    have huy : u.a ≠ np - 4 := by
      intro e
      have : u.a + 4 ∈ L := (hI.abs.live _).2 ⟨u, hu, hk, rfl⟩
      apply hnpL
      have e2 : u.a + 4 = np := by omega
      rw [← e2]; exact this
    have hU := hI1.core.size_lt hu1
    rw [hcopy z (by
      rcases Tiles_sep hI1.core.heap.tiles hu1 hy with h | h | h
      · exact absurd (congrArg Blk.a h) huy
      · simp only at h; omega
      · simp only at h; omega)]
    exact K1 u hu hk z h1 h2
  · intro i hi
    have hy' : (⟨np - 4, blksz size, .used⟩ : Blk) ∈ bs' :=
      hfs.used_rest _ hy rfl (by simp only; omega)
    have e1 := K3 _ hy' rfl (np + i) (by simp only; omega) (by simp only; omega)
    rw [e1]
    simp only
    unfold memcpy
    rw [if_pos (by omega)]
    have hX := hI.core.size_lt hx
    rw [K1 x hx hxk _ (by omega) (by omega)]
    congr 1
    omega

theorem Core.bt_next_zero {s : State} {pre post : List Blk} {x : Blk} {fl : Nat → List Nat}
    (hC : Core s (pre ++ x :: post) fl) (hxr : x.k ≠ .raw) :
    bt_next s x.a = 0 ↔ post = [] := by
  have hx : x ∈ pre ++ x :: post := by simp
  have hX := hC.size_lt hx
  have hT := hC.header hx hxr
  have hfl : x.k.flag ≤ 1 := by cases x.k <;> simp [Kind.flag]
  have hsz : bt_size s x.a = x.sz := bt_size_eq hT.1 (by omega) (by omega) hfl
  have hsorted := Tiles_sorted hC.heap.tiles
  unfold bt_next
  rw [hsz, sext_of_lt _ (by omega), hC.last, lastAddr_append_cons]
  constructor
  · intro h
    by_contra hp
    obtain ⟨b, hb, hbl⟩ := lastAddr_in x.a hp
    have := (List.pairwise_cons.1 (List.pairwise_append.1 hsorted).2.1).1 b hb
    rw [hbl, if_neg (by omega)] at h
    omega
  · intro h
    subst h
    simp [lastAddr]

theorem Inv.zero_not_live {s : State} {bs : List Blk} {fl : Nat → List Nat} {L : List Nat}
    (hI : Inv s bs fl L) : (0 : Nat) ∉ L := by
  intro h
  obtain ⟨b, -, -, hb⟩ := (hI.abs.live 0).1 h
  omega

theorem free_zero (s : State) : free s 0 = s := by
  unfold free; simp

/-- `realloc` keeps the invariant, leaves the payloads of the other live blocks alone, and
hands the old payload bytes over when it returns a block. -/
theorem realloc_spec {s s' : State} {bs : List Blk} {fl : Nat → List Nat} {L : List Nat}
    {fuel old size q : Nat} (hI : Inv s bs fl L) (hold : old = 0 ∨ old ∈ L)
    (hn : size + 23 < 2 ^ 64) (h : realloc fuel s old size = some (q, s')) :
    ∃ bs' fl', Inv s' bs' fl' (realloc_live L old size q) ∧
      KeepsOthers s.mem s'.mem bs old ∧
      (size ≠ 0 → old ≠ 0 → q ≠ 0 → ∀ x ∈ bs, x.a + 4 = old → ∀ i, i + 8 < x.sz →
        s'.mem (q + i) = s.mem (old + i)) := by
  unfold realloc at h
  by_cases hs0 : size = 0
  · rw [if_pos hs0] at h
    injection h with h
    injection h with h1 h2
    subst h1 h2
    rcases hold with h0 | hL
    · subst h0
      rw [free_zero]
      refine ⟨bs, fl, ?_, fun _ _ _ _ _ _ _ => rfl, fun h => absurd hs0 h⟩
      unfold realloc_live
      rw [if_pos hs0, List.erase_of_not_mem hI.zero_not_live]
      exact hI
    · obtain ⟨bs', fl', hI', K, hfs⟩ := free_spec hI hL
      refine ⟨bs', fl', ?_, ?_, fun h => absurd hs0 h⟩
      · unfold realloc_live
        rw [if_pos hs0]
        exact hI'
      · intro u hu hk hne z h1 h2
        exact K u (hfs.used_rest u hu hk hne) hk z h1 h2
  rw [if_neg hs0] at h
  by_cases ho0 : old = 0
  · rw [if_pos ho0] at h
    rcases malloc_spec hI hn h with ⟨hq, hs', -⟩ | ⟨hq, bs', fl', hI', K, -, -, -⟩
    · subst hs'
      refine ⟨bs, fl, ?_, fun _ _ _ _ _ _ _ => rfl, fun _ h => absurd ho0 h⟩
      unfold realloc_live
      rw [if_neg hs0, if_pos ho0, if_pos hq]
      exact hI
    · refine ⟨bs', fl', ?_, K.others _, fun _ h => absurd ho0 h⟩
      unfold realloc_live
      rw [if_neg hs0, if_pos ho0, if_neg hq]
      exact hI'
  rw [if_neg ho0] at h
  have hL : old ∈ L := by
    rcases hold with h0 | hL
    · exact absurd h0 ho0
    · exact hL
  obtain ⟨x, hx, hxk, hxp⟩ := (hI.abs.live old).1 hL
  obtain ⟨pre, post, hbs⟩ := List.append_of_mem hx
  subst hbs hxp
  have hX := hI.core.size_lt hx
  have hT := hI.core.header hx (by rw [hxk]; decide)
  simp only [hxk, Kind.flag] at hT
  have hsz : bt_size s x.a = x.sz := bt_size_eq (F := 1) hT.1 (by omega) (by omega) (by omega)
  have hsorted := Tiles_sorted hI.core.heap.tiles
  have huniq : ∀ y ∈ pre ++ x :: post, y.a + 4 = x.a + 4 → y = x := by
    intro y hy e
    exact Tiles_addr_inj hI.core.heap.tiles hy hx (by omega)
  simp only [bt_fromptr, Nat.add_sub_cancel, hsz, sext_of_lt _ hX.2.2.2.2.1] at h
  by_cases hfit : x.sz ≥ blksz size
  · rw [if_pos hfit] at h
    injection h with h
    injection h with h1 h2
    subst h1 h2
    refine ⟨pre ++ x :: post, fl, ?_, fun _ _ _ _ _ _ _ => rfl, fun _ _ _ _ _ _ _ _ => rfl⟩
    unfold realloc_live
    rw [if_neg hs0, if_neg ho0, if_pos (Or.inr rfl)]
    exact hI
  rw [if_neg hfit] at h
  obtain ⟨-, hmod, -, -⟩ := blksz_facts size hn
  by_cases hnx : bt_next s x.a = 0
  · rw [if_pos hnx] at h
    have hpost : post = [] := (hI.core.bt_next_zero (by rw [hxk]; decide)).1 hnx
    subst hpost
    by_cases hmc : s.mem_brk + (blksz size - x.sz) ≤ s.mem_max_addr
    · rw [morecore_ok s _ hmc hI.core.lim64] at h
      simp only [hI.core.brk_pos, if_false] at h
      injection h with h
      injection h with h1 h2
      subst h1
      obtain ⟨hI', K⟩ := realloc_grown_inv hI hxk hmod (by omega) hmc
      have hs' : s' = realloc_grown s x.a (blksz size) x.sz := by
        rw [← h2]; rfl
      subst hs'
      refine ⟨pre ++ [⟨x.a, blksz size, .used⟩], fl, ?_, K.others _, ?_⟩
      · unfold realloc_live
        rw [if_neg hs0, if_neg ho0, if_pos (Or.inr rfl)]
        exact hI'
      · intro _ _ _ y hy hya i hi
        have := huniq y hy hya
        subst this
        exact K y hy hxk _ (by omega) (by omega)
    · rw [morecore_fail s _ hmc] at h
      simp only [if_true] at h
      injection h with h
      injection h with h1 h2
      subst h1 h2
      refine ⟨pre ++ [x], fl, ?_, fun _ _ _ _ _ _ _ => rfl, fun _ _ h => absurd rfl h⟩
      unfold realloc_live
      rw [if_neg hs0, if_neg ho0, if_pos (Or.inl rfl)]
      exact hI
  · rw [if_neg hnx] at h
    cases hm : malloc fuel s size with
    | none => rw [hm] at h; simp at h
    | some r =>
      obtain ⟨np, s1⟩ := r
      rw [hm] at h
      simp only at h
      by_cases hnp : np = 0
      · rw [if_pos hnp] at h
        injection h with h
        injection h with h1 h2
        subst h1 h2
        rcases malloc_spec hI hn hm with ⟨-, hs1, -⟩ | ⟨hq, -⟩
        · subst hs1
          refine ⟨pre ++ x :: post, fl, ?_, fun _ _ _ _ _ _ _ => rfl,
            fun _ _ h => absurd rfl h⟩
          unfold realloc_live
          rw [if_neg hs0, if_neg ho0, if_pos (Or.inl rfl)]
          exact hI
        · exact absurd hnp hq
      · rw [if_neg hnp] at h
        injection h with h
        injection h with h1 h2
        subst h1
        obtain ⟨bs', fl', hI', K, hdata, hne⟩ :=
          realloc_move_inv hI hx hxk hn (by omega) hm hnp
        have e8 : (x.sz + (2 ^ 64 - 2 * 4)) % 2 ^ 64 = x.sz - 8 := by omega
        rw [e8] at h2
        subst h2
        refine ⟨bs', fl', ?_, K, ?_⟩
        · unfold realloc_live
          rw [if_neg hs0, if_neg ho0, if_neg (by
            rintro (h | h)
            · exact hnp h
            · exact hne h)]
          exact hI'
        · intro _ _ _ y hy hya i hi
          have := huniq y hy hya
          subst this
          exact hdata i hi

/-- `calloc` keeps the invariant and zeroes the bytes it was asked for. -/
theorem calloc_spec {s s' : State} {bs : List Blk} {fl : Nat → List Nat} {L : List Nat}
    {fuel nmemb size p : Nat} (hI : Inv s bs fl L) (hn : nmemb * size % 2 ^ 64 + 23 < 2 ^ 64)
    (h : calloc fuel s nmemb size = some (p, s')) :
    (p = 0 ∧ s' = s) ∨
    (p ≠ 0 ∧ ∃ bs' fl', Inv s' bs' fl' (p :: L) ∧ Keeps s.mem s'.mem bs ∧
      (⟨p - 4, blksz (nmemb * size % 2 ^ 64), .used⟩ : Blk) ∈ bs' ∧
      ∀ i, i < nmemb * size % 2 ^ 64 → s'.mem (p + i) = 0) := by
  unfold calloc at h
  simp only at h
  cases hm : malloc fuel s (nmemb * size % 2 ^ 64) with
  | none => rw [hm] at h; simp at h
  | some r =>
    obtain ⟨np, s1⟩ := r
    rw [hm] at h
    simp only at h
    obtain ⟨-, -, hcap, -⟩ := blksz_facts _ hn
    rcases malloc_spec hI hn hm with ⟨h0, hs1, -⟩ | ⟨hq, bs', fl', hI', K, -, -, hsh⟩
    · rw [if_pos h0] at h
      injection h with h
      injection h with h1 h2
      left
      subst h1 h2
      exact ⟨rfl, hs1⟩
    · rw [if_neg hq] at h
      injection h with h
      injection h with h1 h2
      right
      subst h1 h2
      have hy := hsh.new_block
      have hY := hI'.core.size_lt hy
      simp only at hY
      have hset : ∀ z, z < (np - 4) + 4 ∨ (np - 4) + blksz (nmemb * size % 2 ^ 64) ≤ z + 4 →
          memset s1.mem np 0 (nmemb * size % 2 ^ 64) z = s1.mem z := by
        intro z hz
        unfold memset
        rw [if_neg (by omega)]
      refine ⟨hq, bs', fl', hI'.payload_write hy rfl hset, ?_, hy, ?_⟩
      · intro u hu hk z h1 h2
        have hu1 : u ∈ bs' := hsh.used_keep u hu hk
        have hU := hI'.core.size_lt hu1
        have huy : u.a ≠ np - 4 := by
          intro e
          have : u.a + 4 ∈ L := (hI.abs.live _).2 ⟨u, hu, hk, rfl⟩
          have hnpL : np ∉ L := (List.nodup_cons.1 hI'.abs.live_nodup).1
          apply hnpL
          have e2 : u.a + 4 = np := by omega
          rw [← e2]; exact this
        simp only
        rw [hset z (by
          rcases Tiles_sep hI'.core.heap.tiles hu1 hy with h | h | h
          · exact absurd (congrArg Blk.a h) huy
          · simp only at h; omega
          · simp only at h; omega)]
        exact K u hu hk z h1 h2
      · intro i hi
        simp only
        unfold memset
        rw [if_pos (by omega)]

/-! ## `mm_init` establishes the invariant -/

theorem create_guard_pair_mem (s : State) (ptr : Nat) :
    (create_guard_pair s ptr).mem =
      wr (wr (wr (wr (wr (wr (wr (wr (wr (wr s.mem ptr 17) (ptr + 12) 17) (ptr + 4) (2 ^ 32 - 1))
        (ptr + 8) ((ptr - s.heap_start + 16) % 2 ^ 32)) (ptr + 12) 0) ptr 0) (ptr + 16) 17)
        (ptr + 28) 17) (ptr + 20) ((ptr - s.heap_start) % 2 ^ 32)) (ptr + 24) (2 ^ 32 - 1) := by
  unfold create_guard_pair
  simp only [bt_make_eq _ _ 16 1 (by norm_num) (by norm_num) (by norm_num), State.store]
  rfl

theorem create_guard_pair_spec (s : State) (i : Nat) (hi : i < 11)
    (hs : s.heap_start = s.guard_blocks_start) :
    PairOk (create_guard_pair s (s.guard_blocks_start + 32 * i)).mem s.guard_blocks_start i ∧
    (∀ j, j ≠ i → PairOk s.mem s.guard_blocks_start j →
      PairOk (create_guard_pair s (s.guard_blocks_start + 32 * i)).mem s.guard_blocks_start j) := by
  rw [create_guard_pair_mem, hs]
  have e1 : (s.guard_blocks_start + 32 * i - s.guard_blocks_start + 16) % 2 ^ 32 = 32 * i + 16 := by
    omega
  have e2 : (s.guard_blocks_start + 32 * i - s.guard_blocks_start) % 2 ^ 32 = 32 * i := by
    omega
  rw [e1, e2]
  constructor
  · unfold PairOk
    refine ⟨?_, ?_, ?_, ?_, ?_, ?_⟩
    · simp (disch := omega) only [rd_wr_ne]
      rw [rd_wr_same]; rfl
    · simp (disch := omega) only [rd_wr_ne]
      rw [rd_wr_same]; rfl
    · simp (disch := omega) only [rd_wr_ne]
      rw [rd_wr_same]; rfl
    · simp (disch := omega) only [rd_wr_ne]
      rw [rd_wr_same]; rfl
    · simp (disch := omega) only [rd_wr_ne]
      rw [rd_wr_same]; omega
    · simp (disch := omega) only [rd_wr_ne]
      rw [rd_wr_same]; omega
  · intro j hj ⟨h1, h2, h3, h4, h5, h6⟩
    unfold PairOk
    refine ⟨?_, ?_, ?_, ?_, ?_, ?_⟩ <;> simp (disch := omega) only [rd_wr_ne] <;> assumption

theorem create_guard_pair_vars (s : State) (ptr : Nat) :
    (create_guard_pair s ptr).heap_start = s.heap_start ∧
    (create_guard_pair s ptr).heap_end = s.heap_end ∧
    (create_guard_pair s ptr).last = s.last ∧
    (create_guard_pair s ptr).guard_blocks_start = s.guard_blocks_start ∧
    (create_guard_pair s ptr).guard_blocks_end = s.guard_blocks_end ∧
    (create_guard_pair s ptr).segment_lists_start = s.segment_lists_start ∧
    (create_guard_pair s ptr).mem_brk = s.mem_brk ∧
    (create_guard_pair s ptr).mem_max_addr = s.mem_max_addr :=
  ⟨rfl, rfl, rfl, rfl, rfl, rfl, rfl, rfl⟩

theorem init_guards_zero (s : State) : init_guards s 0 = s := rfl

theorem init_guards_succ (s : State) (n : Nat) :
    init_guards s (n + 1) =
      create_guard_pair (init_guards s n) ((init_guards s n).guard_blocks_start + 2 * 16 * n) :=
  rfl

theorem init_guards_spec (s : State) (hs : s.heap_start = s.guard_blocks_start) (n : Nat)
    (hn : n ≤ 11) :
    (init_guards s n).heap_start = s.heap_start ∧
    (init_guards s n).heap_end = s.heap_end ∧
    (init_guards s n).last = s.last ∧
    (init_guards s n).guard_blocks_start = s.guard_blocks_start ∧
    (init_guards s n).guard_blocks_end = s.guard_blocks_end ∧
    (init_guards s n).segment_lists_start = s.segment_lists_start ∧
    (init_guards s n).mem_brk = s.mem_brk ∧
    (init_guards s n).mem_max_addr = s.mem_max_addr ∧
    ∀ i < n, PairOk (init_guards s n).mem s.guard_blocks_start i := by
  induction n with
  | zero =>
    rw [init_guards_zero]
    refine ⟨rfl, rfl, rfl, rfl, rfl, rfl, rfl, rfl, ?_⟩
    intro i hi; omega
  | succ n ih =>
    obtain ⟨h1, h2, h3, h4, h5, h6, h7, h8, h9⟩ := ih (by omega)
    rw [init_guards_succ]
    obtain ⟨v1, v2, v3, v4, v5, v6, v7, v8⟩ :=
      create_guard_pair_vars (init_guards s n) ((init_guards s n).guard_blocks_start + 2 * 16 * n)
    refine ⟨v1.trans h1, v2.trans h2, v3.trans h3, v4.trans h4, v5.trans h5, v6.trans h6,
      v7.trans h7, v8.trans h8, ?_⟩
    have key := create_guard_pair_spec (init_guards s n) n (by omega) (by rw [h1, h4, hs])
    rw [h4] at key
    have e : s.guard_blocks_start + 2 * 16 * n = s.guard_blocks_start + 32 * n := by omega
    rw [h4, e]
    intro i hi
    by_cases hin : i = n
    · subst hin; exact key.1
    · exact key.2 i hin (h9 i (by omega))

/-- `mm_init` succeeds when more-core grants both requests, and the invariant holds. -/
theorem mm_init_inv (m0 : Mem) (brk0 max : Nat) (h0 : 0 < brk0) (h16 : brk0 % 16 = 0)
    (hfit : brk0 + 364 ≤ max) (hlim : max < brk0 + 2 ^ 31) (h63 : max < 2 ^ 63) :
    (mm_init (boot m0 brk0 max)).1 = 0 ∧
      Inv (mm_init (boot m0 brk0 max)).2 [] (fun _ => []) [] ∧
      (mm_init (boot m0 brk0 max)).2.guard_blocks_start = brk0 + 12 ∧
      (mm_init (boot m0 brk0 max)).2.mem_max_addr = max := by
  have hm1 : morecore (boot m0 brk0 max) (16 - 4) =
      (brk0, { boot m0 brk0 max with mem_brk := brk0 + 12 }) := by
    rw [morecore_ok _ _ (by simp only [boot]; omega) (by simp only [boot]; omega)]
    rfl
  have hm2 : mem_sbrk { boot m0 brk0 max with mem_brk := brk0 + 12 } (2 * 16 * 11) =
      (brk0 + 12, { boot m0 brk0 max with mem_brk := brk0 + 364 }) := by
    unfold mem_sbrk
    rw [if_pos (by simp only [boot]; omega)]
  obtain ⟨s0, hs0⟩ : ∃ s0 : State, s0 = { boot m0 brk0 max with
      mem_brk := brk0 + 364, guard_blocks_start := brk0 + 12,
      guard_blocks_end := brk0 + 12 + 2 * 16 * 11 - 16, heap_start := brk0 + 12 } := ⟨_, rfl⟩
  obtain ⟨t, ht⟩ : ∃ t : State, t = init_guards s0 11 := ⟨_, rfl⟩
  have hinit : mm_init (boot m0 brk0 max) = (0, { t with
      last := t.guard_blocks_end, heap_end := t.guard_blocks_end + 16,
      segment_lists_start := t.guard_blocks_start + 2 * 16 * 8 }) := by
    unfold mm_init
    rw [hm1]
    dsimp only
    rw [if_neg (by omega), hm2]
    dsimp only
    rw [if_neg (by omega), ht, hs0]
  have g1 : s0.heap_start = brk0 + 12 := by rw [hs0]
  have g4 : s0.guard_blocks_start = brk0 + 12 := by rw [hs0]
  have g5 : s0.guard_blocks_end = brk0 + 348 := by rw [hs0]; simp only; omega
  have g7 : s0.mem_brk = brk0 + 364 := by rw [hs0]
  have g8 : s0.mem_max_addr = max := by rw [hs0]; rfl
  obtain ⟨h1, -, -, h4, h5, -, h7, h8, h9⟩ := init_guards_spec s0 (by rw [g1, g4]) 11 le_rfl
  rw [← ht] at h1 h4 h5 h7 h8 h9
  rw [g1] at h1
  rw [g4] at h4 h9
  rw [g5] at h5
  rw [g7] at h7
  rw [g8] at h8
  rw [hinit]
  refine ⟨rfl, ⟨⟨?_, ?_, ?_, ?_, ?_, ?_, ?_, ?_, ?_, ?_⟩, ?_⟩, h4, h8⟩
  · show t.heap_start = t.guard_blocks_start
    rw [h1, h4]
  · show t.guard_blocks_end = t.guard_blocks_start + 336
    rw [h5, h4]
  · show t.guard_blocks_start + 2 * 16 * 8 = t.guard_blocks_start + 256
    rfl
  · show t.guard_blocks_start % 16 = 12
    rw [h4]; omega
  · show t.mem_brk = t.guard_blocks_end + 16
    rw [h7, h5]
  · show t.guard_blocks_end + 16 ≤ t.mem_max_addr
    rw [h5, h8]; omega
  · show t.mem_max_addr < t.guard_blocks_start + 2 ^ 31
    rw [h8, h4]; omega
  · show t.mem_max_addr < 2 ^ 63
    rw [h8]; exact h63
  · show Heap t.mem t.guard_blocks_start (t.guard_blocks_end + 16) [] (fun _ => [])
    rw [h4, h5]
    refine ⟨?_, ?_, ?_, ?_, ?_, ?_, ?_⟩
    · intro i hi
      obtain ⟨p1, p2, p3, p4, -, -⟩ := h9 i hi
      exact ⟨p1, p2, p3, p4⟩
    · simp only [Tiles_nil]
    · intro i hi
      obtain ⟨-, -, -, -, p5, p6⟩ := h9 i hi
      simp only [List.nil_append, Links_cons, Links_nil, and_true, Link]
      constructor
      · rw [p5]; omega
      · rw [show brk0 + 12 + 32 * i + 16 + 4 = brk0 + 12 + 32 * i + 20 by omega, p6]; omega
    · intro i _; exact List.nodup_nil
    · intro i j a _ _ h; simp at h
    · intro i _ a h; simp at h
    · omega
  · show t.guard_blocks_end = lastAddr (t.guard_blocks_start + 336) []
    rw [h5, h4]; rfl
  · refine ⟨?_, ?_, ?_, ?_, List.nodup_nil, ?_⟩
    · intro b hb; simp at hb
    · intro b hb; simp at hb
    · intro i _ a h; simp at h
    · exact List.chain'_nil
    · intro p; simp

/-! ## Reachable states -/

/-- Every reachable state satisfies the invariant, for some block chain and free lists. -/
theorem Reachable.inv {s : State} {L : List Nat} (hR : Reachable s L) :
    ∃ bs fl, Inv s bs fl L := by
  induction hR with
  | init m0 brk0 max h0 h16 hfit hlim h63 =>
    exact ⟨[], fun _ => [], (mm_init_inv m0 brk0 max h0 h16 hfit hlim h63).2.1⟩
  | @malloc_step s s' L fuel n p _ hn h ih =>
    obtain ⟨bs, fl, hI⟩ := ih
    rcases malloc_spec hI hn h with ⟨hp, hs, -⟩ | ⟨hp, bs', fl', hI', -⟩
    · rw [if_pos hp, hs]; exact ⟨bs, fl, hI⟩
    · rw [if_neg hp]; exact ⟨bs', fl', hI'⟩
  | @free_step s L p _ hp ih =>
    obtain ⟨bs, fl, hI⟩ := ih
    rcases hp with hp | hp
    · subst hp
      rw [free_zero, List.erase_of_not_mem hI.zero_not_live]
      exact ⟨bs, fl, hI⟩
    · obtain ⟨bs', fl', hI', -⟩ := free_spec hI hp
      exact ⟨bs', fl', hI'⟩
  | @realloc_step s s' L fuel old n q _ hold hn h ih =>
    obtain ⟨bs, fl, hI⟩ := ih
    obtain ⟨bs', fl', hI', -⟩ := realloc_spec hI hold hn h
    exact ⟨bs', fl', hI'⟩
  | @calloc_step s s' L fuel nmemb size p _ hn h ih =>
    obtain ⟨bs, fl, hI⟩ := ih
    rcases calloc_spec hI hn h with ⟨hp, hs⟩ | ⟨hp, bs', fl', hI', -⟩
    · rw [if_pos hp, hs]; exact ⟨bs, fl, hI⟩
    · rw [if_neg hp]; exact ⟨bs', fl', hI'⟩

/-! ## The heap walk and the block chain -/

theorem fsum_append (xs ys : List Blk) : fsum (xs ++ ys) = fsum xs + fsum ys := by
  induction xs with
  | nil => simp [fsum]
  | cons x xs ih =>
    show fsum (x :: (xs ++ ys)) = fsum (x :: xs) + fsum ys
    simp only [fsum, ih]; omega

theorem free_of_cons (s : State) (a : Nat) (l : List Nat) :
    free_of s (a :: l) = (if bt_used s a = 0 then sext (bt_size s a) else 0) + free_of s l := by
  unfold free_of
  by_cases h : bt_used s a = 0
  · simp [List.filter_cons, h]
  · simp [List.filter_cons, h]

theorem heap_blocks_succ (s : State) (fuel act : Nat) :
    heap_blocks s (fuel + 1) act =
      if act = s.heap_end then some []
      else
        match heap_blocks s fuel (act + sext (bt_size s act)) with
        | none => none
        | some l => some (act :: l) := rfl

/-- The walk from the start of a chain of stamped blocks visits exactly its blocks. -/
theorem heap_blocks_tiles {s : State} {bs : List Blk} {a : Nat}
    (hT : Tiles s.mem a bs s.heap_end) (hraw : ∀ b ∈ bs, b.k ≠ .raw)
    (hlt : ∀ b ∈ bs, b.sz < 2 ^ 31) (fuel : Nat) (hf : bs.length < fuel) :
    heap_blocks s fuel a = some (bs.map (fun b => b.a)) ∧
      free_of s (bs.map (fun b => b.a)) = fsum bs ∧
      ∀ x ∈ bs.map (fun b => b.a), sext (bt_size s x) % 16 = 0 := by
  induction bs generalizing a fuel with
  | nil =>
    obtain ⟨k, rfl⟩ : ∃ k, fuel = k + 1 := ⟨fuel - 1, by simp at hf; omega⟩
    simp only [Tiles_nil] at hT
    refine ⟨?_, rfl, by simp⟩
    rw [heap_blocks_succ, if_pos hT]; rfl
  | cons x xs ih =>
    obtain ⟨k, rfl⟩ : ∃ k, fuel = k + 1 := ⟨fuel - 1, by simp at hf; omega⟩
    obtain ⟨h1, h2, h3, h4, h5⟩ := hT
    have hxl := hlt x (List.mem_cons_self _ _)
    have hxr := hraw x (List.mem_cons_self _ _)
    have hfl : x.k.flag ≤ 1 := by cases x.k <;> simp [Kind.flag]
    have hrd := (h4 hxr).1
    have hsz : bt_size s x.a = x.sz := bt_size_eq hrd (by omega) hxl hfl
    have hus : bt_used s x.a = x.k.flag := bt_used_eq hrd (by omega) hfl
    have hle := Tiles_le h5
    obtain ⟨i1, i2, i3⟩ := ih h5 (fun b hb => hraw b (List.mem_cons_of_mem _ hb))
      (fun b hb => hlt b (List.mem_cons_of_mem _ hb)) k (by simp at hf; omega)
    subst h1
    refine ⟨?_, ?_, ?_⟩
    · rw [heap_blocks_succ, if_neg (by omega), hsz, sext_of_lt _ hxl, i1]
      rfl
    · rw [List.map_cons, free_of_cons, i2, hsz, hus, sext_of_lt _ hxl]
      simp only [fsum]
      cases hk : x.k <;> simp [Kind.flag, hk] at hxr ⊢
    · intro y hy
      rw [List.map_cons, List.mem_cons] at hy
      rcases hy with rfl | hy
      · rw [hsz, sext_of_lt _ hxl]; exact h3
      · exact i3 y hy

theorem Tiles_length {m : Mem} {bs : List Blk} {a e : Nat} (h : Tiles m a bs e) :
    a + 16 * bs.length ≤ e := by
  induction bs generalizing a with
  | nil => simp at h; simp; omega
  | cons x xs ih =>
    obtain ⟨-, h2, -, -, h5⟩ := h
    have := ih h5
    simp only [List.length_cons]
    omega

/-- In a state with the invariant the walk of `mm_checkheap` visits the last guard and then
the blocks of the chain, and the free-byte total is that of the chain. -/
theorem Inv.walk {s : State} {bs : List Blk} {fl : Nat → List Nat} {L : List Nat}
    (hI : Inv s bs fl L) (fuel : Nat) (hf : s.heap_end ≤ fuel) :
    heap_blocks s fuel s.guard_blocks_end =
        some (s.guard_blocks_end :: bs.map (fun b => b.a)) ∧
      free_total fuel s = some (fsum bs) ∧
      ∀ x ∈ s.guard_blocks_end :: bs.map (fun b => b.a), sext (bt_size s x) % 16 = 0 := by
  have hC := hI.core
  have hlen := Tiles_length hC.heap.tiles
  have hgbe := hC.gbe
  obtain ⟨k, rfl⟩ : ∃ k, fuel = k + 1 := ⟨fuel - 1, by omega⟩
  have hG := (hC.heap.guards 10 (by norm_num)).2.2.1
  have hrd : rd s.mem s.guard_blocks_end = 16 + 1 := by
    rw [hgbe, show s.guard_blocks_start + 336 = s.guard_blocks_start + 32 * 10 + 16 by omega, hG]
  have hsz : bt_size s s.guard_blocks_end = 16 := bt_size_eq hrd (by norm_num) (by norm_num) le_rfl
  have hus : bt_used s s.guard_blocks_end = 1 := bt_used_eq hrd (by norm_num) le_rfl
  have hT : Tiles s.mem (s.guard_blocks_end + 16) bs s.heap_end := by
    rw [hgbe, show s.guard_blocks_start + 336 + 16 = s.guard_blocks_start + 352 by omega]
    exact hC.heap.tiles
  obtain ⟨i1, i2, i3⟩ := heap_blocks_tiles hT hI.abs.noraw
    (fun b hb => (hC.size_lt hb).2.2.2.2.1) k (by omega)
  have hw : heap_blocks s (k + 1) s.guard_blocks_end =
      some (s.guard_blocks_end :: bs.map (fun b => b.a)) := by
    rw [heap_blocks_succ, if_neg (by omega), hsz, sext_of_lt _ (by norm_num), i1]
  refine ⟨hw, ?_, ?_⟩
  · unfold free_total
    rw [hw]
    show some (free_of s (s.guard_blocks_end :: bs.map (fun b => b.a))) = _
    rw [free_of_cons, hus, if_neg (by norm_num), i2, Nat.zero_add]
  · intro x hx
    rw [List.mem_cons] at hx
    rcases hx with rfl | hx
    · rw [hsz]; rfl
    · exact i3 x hx

/-! ## The searches end -/

theorem lastOf_split {x act : Nat} {l pre : List Nat} (h : x :: l = pre ++ [act]) :
    lastOf x l = act := by
  induction pre generalizing x l with
  | nil =>
    simp only [List.nil_append, List.cons.injEq] at h
    obtain ⟨rfl, rfl⟩ := h
    rfl
  | cons p pre ih =>
    simp only [List.cons_append, List.cons.injEq] at h
    obtain ⟨rfl, hl⟩ := h
    cases l with
    | nil => simp at hl
    | cons z l => rw [lastOf_cons]; exact ih hl

theorem Links_at {m : Mem} {g x act y : Nat} {l pre rest : List Nat} (h : Links m g x l)
    (hs : x :: l = pre ++ act :: y :: rest) : rd m (act + 8) = y - g := by
  induction pre generalizing x l with
  | nil =>
    simp only [List.nil_append, List.cons.injEq] at hs
    obtain ⟨rfl, rfl⟩ := hs
    exact h.1.1
  | cons p pre ih =>
    simp only [List.cons_append, List.cons.injEq] at hs
    obtain ⟨rfl, hl⟩ := hs
    cases l with
    | nil => simp at hl
    | cons z l => exact ih h.2 hl

/-- With more fuel than nodes ahead, `find_block_in_list` returns. -/
theorem find_block_in_list_total {s : State} {bs : List Blk} {fl : Nat → List Nat}
    {L : List Nat} (hI : Inv s bs fl L) {i : Nat} (hi : i < 11) (size : Nat) (fuel : Nat) :
    ∀ act pre rest,
      (s.guard_blocks_start + 32 * i) :: (fl i ++ [s.guard_blocks_start + 32 * i + 16]) =
        pre ++ act :: rest →
      rest.length < fuel → ∃ r, find_block_in_list s size fuel act = some r := by
  induction fuel with
  | zero => intro act pre rest _ h; exact absurd h (Nat.not_lt_zero _)
  | succ fuel ih =>
    intro act pre rest hs hlen
    have hG := hI.core.heap.guards i hi
    have hgbe := hI.core.gbe
    have hlast : lastOf (s.guard_blocks_start + 32 * i)
        (fl i ++ [s.guard_blocks_start + 32 * i + 16]) = s.guard_blocks_start + 32 * i + 16 := by
      rw [lastOf_append]; rfl
    have hact : act ∈ (s.guard_blocks_start + 32 * i) ::
        (fl i ++ [s.guard_blocks_start + 32 * i + 16]) := by rw [hs]; simp
    have hnext : act ≠ s.guard_blocks_start + 32 * i + 16 → is_tail s act = false →
        ∃ r, find_block_in_list s size fuel (next_free s act) = some r := by
      intro hne ht
      cases rest with
      | nil => exact absurd ((lastOf_split hs).symm.trans hlast) hne
      | cons y rest =>
        have hlk := Links_at (hI.core.heap.links i hi) hs
        have hy : y ∈ (s.guard_blocks_start + 32 * i) ::
            (fl i ++ [s.guard_blocks_start + 32 * i + 16]) := by rw [hs]; simp
        have hyr := (hI.core.heap.isLinkNode hi hy).range hI.core.heap.tiles
        have hbd := hI.core.heap.bound
        have hge := Tiles_le hI.core.heap.tiles
        have hnf : next_free s act = y := by
          simp only [next_free, ht, get_next_offset, hlk, hI.core.hs, Bool.false_eq_true,
            if_false]
          rw [sext_of_lt _ (by omega)]
          omega
        rw [hnf]
        exact ih y (pre ++ [act]) rest (by rw [hs]; simp) (by simp at hlen; omega)
    simp only [List.mem_cons, List.mem_append, List.not_mem_nil, or_false] at hact
    unfold find_block_in_list
    rcases hact with hact | hact | hact
    · have ht : is_tail s act = false := by
        unfold is_tail; rw [hact, hG.1]; simp
      rw [ht]
      simp only [Bool.false_eq_true, if_false]
      split
      · exact ⟨_, rfl⟩
      · exact hnext (by omega) ht
    · obtain ⟨b, hb, hba, hbk, hrd, h16, hm, hlt, hlo, -⟩ := hI.free_node hi hact
      have ht : is_tail s act = false := by
        unfold is_tail; rw [hrd]
        have : b.sz ≠ 17 := by omega
        simp [this]
      rw [ht]
      simp only [Bool.false_eq_true, if_false]
      split
      · exact ⟨_, rfl⟩
      · exact hnext (by omega) ht
    · have ht : is_tail s act = true := by
        unfold is_tail; rw [hact, hG.2.2.1, hgbe]
        simp; omega
      rw [ht]
      exact ⟨0, rfl⟩

/-- A free list has at most as many nodes as the chain has blocks. -/
theorem Inv.list_length {s : State} {bs : List Blk} {fl : Nat → List Nat} {L : List Nat}
    (hI : Inv s bs fl L) {i : Nat} (hi : i < 11) : (fl i).length ≤ bs.length := by
  have hsub : fl i ⊆ bs.map (fun b => b.a) := by
    intro a ha
    obtain ⟨b, hb, hba, -⟩ := hI.core.heap.node i hi a ha
    exact List.mem_map.2 ⟨b, hb, hba⟩
  have := ((hI.core.heap.nodup i hi).subperm hsub).length_le
  simpa using this

/-- With fuel up to the heap end, the loop of `find_free_block` returns. -/
theorem find_free_block_loop_total {s : State} {bs : List Blk} {fl : Nat → List Nat}
    {L : List Nat} (hI : Inv s bs fl L) (size : Nat) {fuel : Nat} (hf : s.heap_end ≤ fuel) :
    ∀ k i, 11 - i < k →
      ∃ r, find_free_block_loop fuel s size k (s.guard_blocks_start + 32 * i) = some r := by
  have hlen := Tiles_length hI.core.heap.tiles
  intro k
  induction k with
  | zero => intro i h; exact absurd h (Nat.not_lt_zero _)
  | succ k ih =>
    intro i hk
    unfold find_free_block_loop
    by_cases hle : s.guard_blocks_start + 32 * i ≤ s.guard_blocks_end
    · rw [if_pos hle]
      have hi : i < 11 := by have := hI.core.gbe; omega
      have hl := hI.list_length hi
      obtain ⟨res, hres⟩ := find_block_in_list_total hI hi size fuel _ [] _ rfl
        (by simp only [List.length_append, List.length_singleton]; omega)
      rw [hres]
      simp only
      by_cases h0 : res = 0
      · rw [if_pos h0,
          show s.guard_blocks_start + 32 * i + 2 * 16 = s.guard_blocks_start + 32 * (i + 1) by
            omega]
        exact ih (i + 1) (by omega)
      · rw [if_neg h0]; exact ⟨_, rfl⟩
    · rw [if_neg hle]; exact ⟨_, rfl⟩

theorem find_free_block_total {s : State} {bs : List Blk} {fl : Nat → List Nat}
    {L : List Nat} (hI : Inv s bs fl L) {size : Nat} (h16 : 16 ≤ size) (hm : size % 16 = 0)
    {fuel : Nat} (hf : s.heap_end ≤ fuel) : ∃ r, find_free_block fuel s size = some r := by
  unfold find_free_block
  rw [get_list_eq s size h16 hm hI.core.sls]
  have := Tiles_le hI.core.heap.tiles
  exact find_free_block_loop_total hI size hf fuel _ (by omega)

/-- In a reachable state `malloc` returns when its fuel reaches the heap end. -/
theorem malloc_returns {s : State} {L : List Nat} (hR : Reachable s L) {n : Nat}
    (hn : n + 23 < 2 ^ 64) {fuel : Nat} (hf : s.heap_end ≤ fuel) :
    ∃ p s', malloc fuel s n = some (p, s') := by
  obtain ⟨bs, fl, hI⟩ := hR.inv
  obtain ⟨h16, hmod, -, -⟩ := blksz_facts n hn
  obtain ⟨r, hr⟩ := find_free_block_total hI h16 hmod hf
  unfold malloc
  simp only [hr]
  split_ifs <;> exact ⟨_, _, rfl⟩

/-- In a reachable state `realloc` returns when its fuel reaches the heap end. -/
theorem realloc_returns {s : State} {L : List Nat} (hR : Reachable s L) (old : Nat) {n : Nat}
    (hn : n + 23 < 2 ^ 64) {fuel : Nat} (hf : s.heap_end ≤ fuel) :
    ∃ q s', realloc fuel s old n = some (q, s') := by
  obtain ⟨p, t, hm⟩ := malloc_returns hR hn hf
  unfold realloc
  simp only [hm]
  split_ifs <;> exact ⟨_, _, rfl⟩

/-- In a reachable state `calloc` returns when its fuel reaches the heap end. -/
theorem calloc_returns {s : State} {L : List Nat} (hR : Reachable s L) {c z : Nat}
    (hn : c * z % 2 ^ 64 + 23 < 2 ^ 64) {fuel : Nat} (hf : s.heap_end ≤ fuel) :
    ∃ p s', calloc fuel s c z = some (p, s') := by
  obtain ⟨p, t, hm⟩ := malloc_returns hR hn hf
  unfold calloc
  simp only [hm]
  split_ifs <;> exact ⟨_, _, rfl⟩

/-! ## Concrete runs -/

theorem ran_eq {o : Option (Nat × State)} (h : o.isSome = true) : o = some ((ran o).1, (ran o).2) := by
  cases o with
  | none => exact absurd h (by decide)
  | some w => rfl

theorem heap0_reachable : Reachable heap0 [] :=
  Reachable.init _ 4096 1000000 (by norm_num) (by norm_num) (by norm_num) (by norm_num)
    (by norm_num)

theorem heap1_reachable : Reachable heap1 [4464] := by
  have h := Reachable.malloc_step heap0_reachable (by norm_num)
    (ran_eq (o := malloc 20 heap0 64) (by decide!))
  have e : (ran (malloc 20 heap0 64)).1 = 4464 := by decide!
  rw [e] at h
  exact h

theorem heap2_reachable : Reachable heap2 [4544, 4464] := by
  have h := Reachable.malloc_step heap1_reachable (by norm_num)
    (ran_eq (o := malloc 20 heap1 16) (by decide!))
  have e : (ran (malloc 20 heap1 16)).1 = 4544 := by decide!
  rw [e] at h
  exact h

theorem heap3_reachable : Reachable heap3 [4544] :=
  Reachable.free_step heap2_reachable (Or.inr (by decide))

/-! ## Properties of the operations -/

/-- C1: in a state reachable from `mm_init`, for a request `n` with `n + 23 < 2 ^ 31`, when
`malloc n` returns a payload `p`, the header and the footer of the block at `p - 4` are
`blksz n | USED`, where `blksz n` is `n + 8` rounded up to a multiple of 16, so that the
payload capacity `blksz n - 8` is at least `n`. -/
theorem malloc_tags {s s' : State} {L : List Nat} {fuel n p : Nat} (hR : Reachable s L)
    (hn : n + 23 < 2 ^ 31) (h : malloc fuel s n = some (p, s')) (hp : p ≠ 0) :
    rd s'.mem (bt_fromptr p) = blksz n ||| 1 ∧
      rd s'.mem (bt_footer s' (bt_fromptr p)) = blksz n ||| 1 ∧
      blksz n % 16 = 0 ∧ n + 8 ≤ blksz n ∧ blksz n < n + 8 + 16 ∧ n ≤ blksz n - 8 := by
  obtain ⟨bs, fl, hI⟩ := hR.inv
  obtain ⟨h16, hmod, hlo, hhi⟩ := blksz_facts n (by omega)
  rcases malloc_spec hI (by omega) h with ⟨h0, -⟩ | ⟨-, bs', fl', hI', -, -, -, hsh⟩
  · exact absurd h0 hp
  · have hb := hsh.new_block
    have hT := hI'.core.header hb (by simp)
    have hX := hI'.core.size_lt hb
    simp only [Kind.flag] at hT hX
    have hsz : bt_size s' (p - 4) = blksz n := bt_size_eq hT.1 (by omega) hX.2.2.2.2.1 le_rfl
    refine ⟨?_, ?_, hmod, hlo, by omega, by omega⟩
    · rw [or_flag _ 1 (by omega) (by norm_num)]; exact hT.1
    · unfold bt_footer bt_fromptr
      rw [hsz, sext_of_lt _ hX.2.2.2.2.1, or_flag _ 1 (by omega) (by norm_num)]; exact hT.2

/-- Instance of `malloc_tags`: `malloc(0)` on the heap right after `mm_init`. -/
theorem malloc_tags_witness :
    rd (ran (malloc 20 heap0 0)).2.mem (bt_fromptr (ran (malloc 20 heap0 0)).1) = blksz 0 ||| 1 ∧
      rd (ran (malloc 20 heap0 0)).2.mem
          (bt_footer (ran (malloc 20 heap0 0)).2 (bt_fromptr (ran (malloc 20 heap0 0)).1)) =
        blksz 0 ||| 1 ∧
      blksz 0 % 16 = 0 ∧ 0 + 8 ≤ blksz 0 ∧ blksz 0 < 0 + 8 + 16 ∧ 0 ≤ blksz 0 - 8 :=
  malloc_tags heap0_reachable (by norm_num) (ran_eq (by decide!)) (by decide!)

theorem Inv.live_block {s : State} {bs : List Blk} {fl : Nat → List Nat} {L : List Nat}
    (hI : Inv s bs fl L) {p : Nat} (hp : p ∈ L) :
    ∃ x ∈ bs, x.k = .used ∧ x.a + 4 = p ∧ bt_size s (bt_fromptr p) = x.sz ∧
      bt_used s (bt_fromptr p) = 1 ∧ x.sz < 2 ^ 31 ∧ 16 ≤ x.sz := by
  obtain ⟨x, hx, hxk, hxp⟩ := (hI.abs.live p).1 hp
  have hX := hI.core.size_lt hx
  have hT := hI.core.header hx (by rw [hxk]; decide)
  simp only [hxk, Kind.flag] at hT
  subst hxp
  refine ⟨x, hx, hxk, rfl, ?_, ?_, hX.2.2.2.2.1, hX.2.2.1⟩
  · exact bt_size_eq hT.1 (by omega) hX.2.2.2.2.1 le_rfl
  · exact bt_used_eq hT.1 (by omega) le_rfl

theorem Inv.live_aligned {s : State} {bs : List Blk} {fl : Nat → List Nat} {L : List Nat}
    (hI : Inv s bs fl L) {p : Nat} (hp : p ∈ L) : p % 16 = 0 := by
  obtain ⟨x, hx, -, hxp, -⟩ := hI.live_block hp
  have := hI.core.size_lt hx
  omega

theorem realloc_zero {fuel : Nat} {s s' : State} {old q : Nat}
    (h : realloc fuel s old 0 = some (q, s')) : q = 0 := by
  unfold realloc at h
  rw [if_pos rfl] at h
  injection h with h
  injection h with h1 h2
  exact h1.symm

theorem realloc_live_mem {L : List Nat} {old n q : Nat} (hold : old = 0 ∨ old ∈ L)
    (hn : n ≠ 0) (hq : q ≠ 0) : q ∈ realloc_live L old n q := by
  unfold realloc_live
  rw [if_neg hn]
  by_cases h0 : old = 0
  · rw [if_pos h0, if_neg hq]; exact List.mem_cons_self _ _
  · rw [if_neg h0]
    by_cases h1 : q = 0 ∨ q = old
    · rw [if_pos h1]
      rcases h1 with h1 | h1
      · exact absurd h1 hq
      · rcases hold with h | h
        · exact absurd h h0
        · rw [h1]; exact h
    · rw [if_neg h1]; exact List.mem_cons_self _ _

/-- C2: with a break aligned to 16 and contiguous more-core regions, in a state reachable
from `mm_init` every pointer returned by `malloc`, `realloc` or `calloc` is a multiple
of 16, and every block of the heap has a size field that is a multiple of 16: the two guards
of each of the eleven lists, and every block the walk of the heap visits, which ends. -/
theorem returned_aligned {s s' : State} {L : List Nat} {fuel n o c z p : Nat}
    (hR : Reachable s L)
    (hcall : (n + 23 < 2 ^ 64 ∧ malloc fuel s n = some (p, s')) ∨
      ((o = 0 ∨ o ∈ L) ∧ n + 23 < 2 ^ 64 ∧ realloc fuel s o n = some (p, s')) ∨
      (c * z % 2 ^ 64 + 23 < 2 ^ 64 ∧ calloc fuel s c z = some (p, s')))
    (F : Nat) (hF : s.heap_end ≤ F) :
    p % 16 = 0 ∧
      (∀ i < 11, sext (bt_size s (s.guard_blocks_start + 2 * 16 * i)) % 16 = 0 ∧
        sext (bt_size s (s.guard_blocks_start + 2 * 16 * i + 16)) % 16 = 0) ∧
      ∃ l, heap_blocks s F s.guard_blocks_end = some l ∧
        ∀ a ∈ l, sext (bt_size s a) % 16 = 0 := by
  obtain ⟨bs, fl, hI⟩ := hR.inv
  refine ⟨?_, ?_, ?_⟩
  · by_cases hp : p = 0
    · rw [hp]
    · rcases hcall with ⟨hn, h⟩ | ⟨hold, hn, h⟩ | ⟨hn, h⟩
      · obtain ⟨bs', fl', hI'⟩ := (Reachable.malloc_step hR hn h).inv
        rw [if_neg hp] at hI'
        exact hI'.live_aligned (List.mem_cons_self _ _)
      · obtain ⟨bs', fl', hI'⟩ := (Reachable.realloc_step hR hold hn h).inv
        have hn0 : n ≠ 0 := fun h0 => hp (realloc_zero (h0 ▸ h))
        exact hI'.live_aligned (realloc_live_mem hold hn0 hp)
      · obtain ⟨bs', fl', hI'⟩ := (Reachable.calloc_step hR hn h).inv
        rw [if_neg hp] at hI'
        exact hI'.live_aligned (List.mem_cons_self _ _)
  · intro i hi
    obtain ⟨g1, -, g3, -⟩ := hI.core.heap.guards i hi
    have e1 : bt_size s (s.guard_blocks_start + 2 * 16 * i) = 0 :=
      bt_size_eq (F := 0) (by rw [show 2 * 16 * i = 32 * i by omega, g1]) (by norm_num)
        (by norm_num) (by norm_num)
    have e2 : bt_size s (s.guard_blocks_start + 2 * 16 * i + 16) = 16 :=
      bt_size_eq (F := 1) (by rw [show 2 * 16 * i = 32 * i by omega, g3]) (by norm_num)
        (by norm_num) (by norm_num)
    rw [e1, e2]
    exact ⟨rfl, rfl⟩
  · obtain ⟨h1, -, h3⟩ := hI.walk F hF
    exact ⟨_, h1, h3⟩

/-- Instance of `returned_aligned`: `malloc(40)` on the heap right after `mm_init`. -/
theorem returned_aligned_witness :
    (ran (malloc 20 heap0 40)).1 % 16 = 0 ∧
      (∀ i < 11, sext (bt_size heap0 (heap0.guard_blocks_start + 2 * 16 * i)) % 16 = 0 ∧
        sext (bt_size heap0 (heap0.guard_blocks_start + 2 * 16 * i + 16)) % 16 = 0) ∧
      ∃ l, heap_blocks heap0 5000 heap0.guard_blocks_end = some l ∧
        ∀ a ∈ l, sext (bt_size heap0 a) % 16 = 0 :=
  returned_aligned (o := 0) (c := 0) (z := 0) heap0_reachable
    (Or.inl ⟨by norm_num, ran_eq (by decide!)⟩) 5000 (by decide!)

/-- C3: in a state reachable from `mm_init`, the block that a successful `malloc` hands out,
the bytes from `p - 4` to `p - 4 + blksz n`, is disjoint from the block of every live
pointer and lies above the 352 bytes of the guards; it starts at the old heap end, or it
is a block of the heap walk that was not in use and is large enough. -/
theorem malloc_disjoint {s s' : State} {L : List Nat} {fuel n p : Nat} (hR : Reachable s L)
    (hn : n + 23 < 2 ^ 64) (h : malloc fuel s n = some (p, s')) (hp : p ≠ 0) :
    (∀ q ∈ L, bt_fromptr p + blksz n ≤ bt_fromptr q ∨
        bt_fromptr q + sext (bt_size s (bt_fromptr q)) ≤ bt_fromptr p) ∧
      s.heap_start + 352 ≤ bt_fromptr p ∧
      (bt_fromptr p = s.heap_end ∨
        (bt_used s (bt_fromptr p) = 0 ∧ blksz n ≤ sext (bt_size s (bt_fromptr p)) ∧
          ∀ F, s.heap_end ≤ F →
            ∃ l, heap_blocks s F s.guard_blocks_end = some l ∧ bt_fromptr p ∈ l)) := by
  obtain ⟨bs, fl, hI⟩ := hR.inv
  have hC := hI.core
  have hths := hC.hs
  have hle := Tiles_le hC.heap.tiles
  rcases malloc_spec hI hn h with ⟨h0, -⟩ | ⟨-, bs', fl', hI', -, -, -, hsh⟩
  · exact absurd h0 hp
  · unfold bt_fromptr
    rcases hsh with ⟨hpe, -, -, -⟩ | ⟨pre, x, post, hbs, hxk, hpx, hsz, -, -, -⟩
    · refine ⟨?_, by omega, Or.inl (by omega)⟩
      intro q hq
      obtain ⟨y, hy, -, hyq, hysz, -, hylt, -⟩ := hI.live_block hq
      have hY := hC.size_lt hy
      unfold bt_fromptr at hysz
      rw [hysz, sext_of_lt _ hylt]
      omega
    · have hx : x ∈ bs := by rw [hbs]; simp
      have hX := hC.size_lt hx
      have hT := hC.header hx (by rw [hxk]; decide)
      simp only [hxk, Kind.flag] at hT
      have hxs : bt_size s (p - 4) = x.sz := by
        rw [hpx, Nat.add_sub_cancel]
        exact bt_size_eq hT.1 (by omega) hX.2.2.2.2.1 (Nat.zero_le 1)
      have hxu : bt_used s (p - 4) = 0 := by
        rw [hpx, Nat.add_sub_cancel]
        exact bt_used_eq hT.1 (by omega) (Nat.zero_le 1)
      refine ⟨?_, by omega, Or.inr ⟨hxu, ?_, ?_⟩⟩
      · intro q hq
        obtain ⟨y, hy, hyk, hyq, hysz, -, hylt, -⟩ := hI.live_block hq
        unfold bt_fromptr at hysz
        rw [hysz, sext_of_lt _ hylt]
        rcases Tiles_sep hC.heap.tiles hx hy with e | e | e
        · rw [← e, hxk] at hyk; exact absurd hyk (by decide)
        · omega
        · omega
      · rw [hxs, sext_of_lt _ hX.2.2.2.2.1]; exact hsz
      · intro F hF
        obtain ⟨h1, -, -⟩ := hI.walk F hF
        refine ⟨_, h1, List.mem_cons_of_mem _ (List.mem_map.2 ⟨x, hx, ?_⟩)⟩
        omega

/-- Instance of `malloc_disjoint`: `malloc(8)` on `heap3`, where the block freed before is
taken and split and `4544` is live. -/
theorem malloc_disjoint_witness :
    (∀ q ∈ [4544], bt_fromptr (ran (malloc 20 heap3 8)).1 + blksz 8 ≤ bt_fromptr q ∨
        bt_fromptr q + sext (bt_size heap3 (bt_fromptr q)) ≤
          bt_fromptr (ran (malloc 20 heap3 8)).1) ∧
      heap3.heap_start + 352 ≤ bt_fromptr (ran (malloc 20 heap3 8)).1 ∧
      (bt_fromptr (ran (malloc 20 heap3 8)).1 = heap3.heap_end ∨
        (bt_used heap3 (bt_fromptr (ran (malloc 20 heap3 8)).1) = 0 ∧
          blksz 8 ≤ sext (bt_size heap3 (bt_fromptr (ran (malloc 20 heap3 8)).1)) ∧
          ∀ F, heap3.heap_end ≤ F →
            ∃ l, heap_blocks heap3 F heap3.guard_blocks_end = some l ∧
              bt_fromptr (ran (malloc 20 heap3 8)).1 ∈ l)) :=
  malloc_disjoint heap3_reachable (by norm_num) (ran_eq (by decide!)) (by decide!)

/-- A `malloc` that returns `NULL` has left the state alone. -/
theorem malloc_null {fuel : Nat} {s s' : State} {n : Nat} (hb : s.mem_brk ≠ 0)
    (h63 : s.mem_max_addr < 2 ^ 63)     (h : malloc fuel s n = some (0, s')) : s' = s := by
  unfold malloc at h
  simp only at h
  cases hf : find_free_block fuel s (blksz n) with
  | none => rw [hf] at h; simp at h
  | some r =>
    rw [hf] at h
    simp only at h
    by_cases hr : r = 0
    · rw [if_pos hr] at h
      by_cases hfit : s.mem_brk + blksz n ≤ s.mem_max_addr
      · rw [morecore_ok s _ hfit h63] at h
        simp only [hb, if_false] at h
        injection h with h
        injection h with h1 h2
        unfold bt_payload at h1
        omega
      · rw [morecore_fail s _ hfit] at h
        simp only [if_true] at h
        injection h with h
        injection h with h1 h2
        exact h2.symm
    · rw [if_neg hr] at h
      injection h with h
      injection h with h1 h2
      unfold bt_payload at h1
      omega

/-- A `realloc` of a positive size that returns `NULL` has left the state alone. -/
theorem realloc_null {fuel : Nat} {s s' : State} {p k : Nat} (hb : s.mem_brk ≠ 0)
    (h63 : s.mem_max_addr < 2 ^ 63) (hk : k ≠ 0) (h : realloc fuel s p k = some (0, s')) :
    s' = s := by
  unfold realloc at h
  rw [if_neg hk] at h
  by_cases hp : p = 0
  · rw [if_pos hp] at h
    exact malloc_null hb h63 h
  · rw [if_neg hp] at h
    simp only at h
    split_ifs at h with h1 h2 h3
    · injection h with h
      injection h with e1 e2
      exact absurd e1 hp
    · injection h with h
      injection h with e1 e2
      by_cases hfit : s.mem_brk + (blksz k - sext (bt_size s (bt_fromptr p))) ≤ s.mem_max_addr
      · rw [morecore_ok s _ hfit h63] at h3
        exact absurd h3 hb
      · rw [morecore_fail s _ hfit] at e2
        exact e2.symm
    · injection h with h
      injection h with e1 e2
      exact absurd e1 hp
    · cases hm : malloc fuel s k with
      | none => rw [hm] at h; simp at h
      | some w =>
        obtain ⟨q, t⟩ := w
        rw [hm] at h
        simp only at h
        by_cases hq : q = 0
        · rw [if_pos hq] at h
          injection h with h
          injection h with e1 e2
          subst hq
          rw [← e2]
          exact malloc_null hb h63 hm
        · rw [if_neg hq] at h
          injection h with h
          injection h with e1 e2
          exact absurd e1 hq

/-- A `calloc` that returns `NULL` has left the state alone. -/
theorem calloc_null {fuel : Nat} {s s' : State} {c z : Nat} (hb : s.mem_brk ≠ 0)
    (h63 : s.mem_max_addr < 2 ^ 63) (h : calloc fuel s c z = some (0, s')) : s' = s := by
  unfold calloc at h
  simp only at h
  cases hm : malloc fuel s (c * z % 2 ^ 64) with
  | none => rw [hm] at h; simp at h
  | some w =>
    obtain ⟨q, t⟩ := w
    rw [hm] at h
    simp only at h
    by_cases hq : q = 0
    · rw [if_pos hq] at h
      injection h with h
      injection h with e1 e2
      subst hq
      rw [← e2]
      exact malloc_null hb h63 hm
    · rw [if_neg hq] at h
      injection h with h
      injection h with e1 e2
      exact absurd e1 hq

theorem tight0_reachable : Reachable tight0 [] :=
  Reachable.init _ 4096 4540 (by norm_num) (by norm_num) (by norm_num) (by norm_num)
    (by norm_num)

theorem tight1_reachable : Reachable tight1 [4464] := by
  have h := Reachable.malloc_step tight0_reachable (by norm_num)
    (ran_eq (o := malloc 20 tight0 64) (by decide!))
  have e : (ran (malloc 20 tight0 64)).1 = 4464 := by decide!
  rw [e] at h
  exact h

/-- C4: in a state reachable from `mm_init`, when `malloc`, `realloc` with a size that is
not 0, or `calloc` returns `NULL`, which happens only when more-core refuses, the state
after the call is the state before it, memory, `heap_end` and `last` included; so the
block of every live pointer is still in use, with its size and its bytes. -/
theorem fail_unchanged {s s' : State} {L : List Nat} {fuel n p k c z : Nat}
    (hR : Reachable s L)
    (h : malloc fuel s n = some (0, s') ∨ (k ≠ 0 ∧ realloc fuel s p k = some (0, s')) ∨
      calloc fuel s c z = some (0, s')) :
    s' = s ∧ ∀ q ∈ L, bt_used s' (bt_fromptr q) = 1 ∧
      bt_size s' (bt_fromptr q) = bt_size s (bt_fromptr q) ∧
      ∀ i, s'.mem (q + i) = s.mem (q + i) := by
  obtain ⟨bs, fl, hI⟩ := hR.inv
  have hb := hI.core.brk_pos
  have h63 := hI.core.lim64
  have e : s' = s := by
    rcases h with h | ⟨hk, h⟩ | h
    · exact malloc_null hb h63 h
    · exact realloc_null hb h63 hk h
    · exact calloc_null hb h63 h
  subst e
  refine ⟨rfl, fun q hq => ⟨?_, rfl, fun _ => rfl⟩⟩
  obtain ⟨x, -, -, -, -, hu, -⟩ := hI.live_block hq
  exact hu

/-- Instance of `fail_unchanged`: on `tight1` the limit of more-core is reached, and
`realloc(4464, 200)`, which would grow the last block, returns `NULL`. -/
theorem fail_unchanged_witness :
    (ran (realloc 20 tight1 4464 200)).2 = tight1 ∧
      ∀ q ∈ [4464], bt_used (ran (realloc 20 tight1 4464 200)).2 (bt_fromptr q) = 1 ∧
        bt_size (ran (realloc 20 tight1 4464 200)).2 (bt_fromptr q) =
          bt_size tight1 (bt_fromptr q) ∧
        ∀ i, (ran (realloc 20 tight1 4464 200)).2.mem (q + i) = tight1.mem (q + i) :=
  fail_unchanged (n := 0) (c := 0) (z := 0) (k := 200) (p := 4464) tight1_reachable
    (Or.inr (Or.inl ⟨by decide, by
      have e : (ran (realloc 20 tight1 4464 200)).1 = 0 := by decide!
      have h := ran_eq (o := realloc 20 tight1 4464 200) (by decide!)
      rw [e] at h
      exact h⟩))

theorem blksz_mod (n : Nat) : blksz n % 16 = 0 := by
  unfold blksz
  rw [and_mask64 _ (Nat.mod_lt _ (by norm_num))]
  omega

/-- A size whose block size wraps around gets a block size of at most 16. -/
theorem blksz_wrap (n : Nat) (h1 : n < 2 ^ 64) (h2 : ¬ n + 23 < 2 ^ 64) : blksz n ≤ 16 := by
  unfold blksz
  rw [and_mask64 _ (Nat.mod_lt _ (by norm_num))]
  omega

/-- The branch of `realloc` that ignores the request. -/
theorem realloc_keep (fuel : Nat) (s : State) {p k : Nat} (hp : p ≠ 0) (hk : k ≠ 0)
    (hle : blksz k ≤ sext (bt_size s (bt_fromptr p))) : realloc fuel s p k = some (p, s) := by
  unfold realloc
  rw [if_neg hk, if_neg hp]
  simp only
  rw [if_pos hle]

/-- C5: in a state reachable from `mm_init`, for a live pointer `p` whose block has payload
capacity `c`, its size less 8, and a size `k` that is at least 1, when `realloc p k`
returns a pointer `q`, the first `min c k` bytes at `q` after the call are the first
`min c k` bytes at `p` before it, on every path. -/
theorem realloc_data {s s' : State} {L : List Nat} {fuel p k q : Nat} (hR : Reachable s L)
    (hp : p ∈ L) (hk : 1 ≤ k) (hk64 : k < 2 ^ 64) (h : realloc fuel s p k = some (q, s'))
    (hq : q ≠ 0) :
    ∀ i, i < min (sext (bt_size s (bt_fromptr p)) - 8) k → s'.mem (q + i) = s.mem (p + i) := by
  obtain ⟨bs, fl, hI⟩ := hR.inv
  obtain ⟨x, hx, hxk, hxp, hsz, -, hlt, h16⟩ := hI.live_block hp
  have hp0 : p ≠ 0 := fun e => hI.zero_not_live (e ▸ hp)
  intro i hi
  rw [hsz, sext_of_lt _ hlt] at hi
  by_cases hn : k + 23 < 2 ^ 64
  · obtain ⟨bs', fl', -, -, hd⟩ := realloc_spec hI (Or.inr hp) hn h
    exact hd (by omega) hp0 hq x hx hxp i (by omega)
  · have hw := blksz_wrap k hk64 hn
    rw [realloc_keep fuel s hp0 (by omega) (by rw [hsz, sext_of_lt _ hlt]; omega)] at h
    injection h with h
    injection h with e1 e2
    rw [← e1, ← e2]

/-- Instance of `realloc_data`, scenario S6: after `p = malloc(64); malloc(16)`, the call
`realloc(p, 128)` returns a pointer other than `p` that holds the first 64 bytes of `p`. -/
theorem realloc_data_witness :
    (ran (realloc 20 heap2 4464 128)).1 ≠ 4464 ∧
      ∀ i, i < 64 →
        (ran (realloc 20 heap2 4464 128)).2.mem ((ran (realloc 20 heap2 4464 128)).1 + i) =
          heap2.mem (4464 + i) :=
  ⟨by decide!, fun i hi =>
    realloc_data heap2_reachable (by decide) (by norm_num) (by norm_num)
      (ran_eq (o := realloc 20 heap2 4464 128) (by decide!)) (by decide!) i
      (lt_of_lt_of_le hi (by decide!))⟩

/-- C6: in a state reachable from `mm_init`, for a live pointer `p` whose block has size `B`
and a size `k` that is at least 1 with `blksz k ≤ B`, `realloc p k` returns `p` and the
state, the break of more-core included, is the one before the call; `k = B - 8` is such a
size. -/
theorem realloc_noop {s : State} {L : List Nat} {p k : Nat} (fuel : Nat) (hR : Reachable s L)
    (hp : p ∈ L) (hk : 1 ≤ k) (hle : blksz k ≤ sext (bt_size s (bt_fromptr p))) :
    realloc fuel s p k = some (p, s) ∧
      realloc fuel s p (sext (bt_size s (bt_fromptr p)) - 8) = some (p, s) := by
  obtain ⟨bs, fl, hI⟩ := hR.inv
  obtain ⟨x, hx, hxk, hxp, hsz, -, hlt, h16⟩ := hI.live_block hp
  have hp0 : p ≠ 0 := fun e => hI.zero_not_live (e ▸ hp)
  have hX := hI.core.size_lt hx
  refine ⟨realloc_keep fuel s hp0 (by omega) hle, realloc_keep fuel s hp0 ?_ ?_⟩
  · rw [hsz, sext_of_lt _ hlt]; omega
  · rw [hsz, sext_of_lt _ hlt, blksz_eq _ (by omega)]; omega

/-- Instance of `realloc_noop`: `realloc(4464, 50)` on `heap2`, where the block has 80 bytes. -/
theorem realloc_noop_witness :
    realloc 20 heap2 4464 50 = some (4464, heap2) ∧
      realloc 20 heap2 4464 (sext (bt_size heap2 (bt_fromptr 4464)) - 8) = some (4464, heap2) :=
  realloc_noop 20 heap2_reachable (by decide) (by norm_num) (by decide!)

/-- C7: in a state reachable from `mm_init`, for a live pointer `p` whose block is `last`
and has size `B`, and a size `k` with `blksz k > B` for which more-core has room,
`realloc p k` returns `p`; it moves the break of more-core by exactly `blksz k - B`, sets
header and footer of the block to `blksz k | USED`, moves `heap_end` by `blksz k - B` so
that `heap_end` is still `last` plus the size of the last block, leaves `last` alone, and
keeps the first `B - 8` payload bytes. -/
theorem realloc_grow_last {s : State} {L : List Nat} {p k : Nat} (fuel : Nat)
    (hR : Reachable s L) (hp : p ∈ L) (hlast : bt_fromptr p = s.last)
    (hgt : sext (bt_size s (bt_fromptr p)) < blksz k)
    (hmore : s.mem_brk + (blksz k - sext (bt_size s (bt_fromptr p))) ≤ s.mem_max_addr) :
    ∃ s', realloc fuel s p k = some (p, s') ∧
      s'.mem_brk = s.mem_brk + (blksz k - sext (bt_size s (bt_fromptr p))) ∧
      rd s'.mem (bt_fromptr p) = blksz k ||| 1 ∧
      rd s'.mem (bt_footer s' (bt_fromptr p)) = blksz k ||| 1 ∧
      s'.heap_end = s.heap_end + (blksz k - sext (bt_size s (bt_fromptr p))) ∧
      s'.heap_end = s'.last + sext (bt_size s' s'.last) ∧
      s'.last = s.last ∧
      ∀ i, i < sext (bt_size s (bt_fromptr p)) - 8 → s'.mem (p + i) = s.mem (p + i) := by
  obtain ⟨bs, fl, hI⟩ := hR.inv
  obtain ⟨x, hx, hxk, hxp, hsz, -, hlt, h16⟩ := hI.live_block hp
  have hp0 : p ≠ 0 := fun e => hI.zero_not_live (e ▸ hp)
  obtain ⟨pre, post, hbs⟩ := List.append_of_mem hx
  subst hbs hxp
  have hmod := blksz_mod k
  simp only [bt_fromptr, Nat.add_sub_cancel] at hlast hsz hgt hmore ⊢
  rw [hsz, sext_of_lt _ hlt] at hgt hmore ⊢
  have hk0 : k ≠ 0 := by
    intro e
    rw [e, blksz_eq 0 (by norm_num)] at hgt
    omega
  have hnx : bt_next s x.a = 0 := by unfold bt_next; rw [if_pos hlast]
  have hpost : post = [] := (hI.core.bt_next_zero (by rw [hxk]; decide)).1 hnx
  subst hpost
  obtain ⟨hI', K⟩ := realloc_grown_inv hI hxk hmod hgt hmore
  have hy : (⟨x.a, blksz k, .used⟩ : Blk) ∈ pre ++ [⟨x.a, blksz k, .used⟩] := by simp
  have hY := hI'.core.size_lt hy
  have hT := hI'.core.header hy (by simp)
  simp only [Kind.flag] at hY hT
  have hsz' : bt_size (realloc_grown s x.a (blksz k) x.sz) x.a = blksz k :=
    bt_size_eq hT.1 (by omega) hY.2.2.2.2.1 le_rfl
  have hl' : (realloc_grown s x.a (blksz k) x.sz).last = s.last := by
    unfold realloc_grown; simp only [bt_make_last]
  have he' : (realloc_grown s x.a (blksz k) x.sz).heap_end = s.heap_end + (blksz k - x.sz) :=
    rfl
  have hend : x.a + x.sz = s.heap_end := by
    obtain ⟨c, -, hxt⟩ := Tiles_append.1 hI.core.heap.tiles
    simp only [Tiles_cons, Tiles_nil] at hxt
    omega
  refine ⟨realloc_grown s x.a (blksz k) x.sz, ?_, ?_, ?_, ?_, he', ?_, hl', ?_⟩
  · unfold realloc
    rw [if_neg hk0, if_neg hp0]
    simp only [bt_fromptr, Nat.add_sub_cancel, hsz, sext_of_lt _ hlt]
    rw [if_neg (by omega), if_pos hnx, morecore_ok s _ hmore hI.core.lim64]
    simp only [hI.core.brk_pos, if_false]
    rfl
  · unfold realloc_grown; simp only [bt_make_mem_brk]
  · rw [or_flag _ 1 (by omega) (by norm_num)]; exact hT.1
  · unfold bt_footer
    rw [hsz', sext_of_lt _ hY.2.2.2.2.1, or_flag _ 1 (by omega) (by norm_num)]; exact hT.2
  · rw [hl', ← hlast, hsz', sext_of_lt _ hY.2.2.2.2.1, he']
    omega
  · intro i hi
    exact K x hx hxk _ (by omega) (by omega)

/-- Instance of `realloc_grow_last`: `realloc(4464, 100)` on `heap1`, where the block of 80
bytes at `4460` is the last one. -/
theorem realloc_grow_last_witness :
    ∃ s', realloc 20 heap1 4464 100 = some (4464, s') ∧
      s'.mem_brk = heap1.mem_brk + (blksz 100 - sext (bt_size heap1 (bt_fromptr 4464))) ∧
      rd s'.mem (bt_fromptr 4464) = blksz 100 ||| 1 ∧
      rd s'.mem (bt_footer s' (bt_fromptr 4464)) = blksz 100 ||| 1 ∧
      s'.heap_end = heap1.heap_end + (blksz 100 - sext (bt_size heap1 (bt_fromptr 4464))) ∧
      s'.heap_end = s'.last + sext (bt_size s' s'.last) ∧
      s'.last = heap1.last ∧
      ∀ i, i < sext (bt_size heap1 (bt_fromptr 4464)) - 8 →
        s'.mem (4464 + i) = heap1.mem (4464 + i) :=
  realloc_grow_last 20 heap1_reachable (by decide) (by decide!) (by decide!) (by decide!)

/-- Not for every size is `realloc(NULL, n)` the same as `malloc(n)`: at size 0 on the heap
right after `mm_init`, `realloc(NULL, 0)` returns `NULL` and `malloc(0)` a block. -/
theorem realloc_of_null_zero :
    ¬ (∀ (s : State) (L : List Nat) (fuel n : Nat), Reachable s L →
        realloc fuel s 0 n = malloc fuel s n) ∧
      (ran (realloc 20 heap0 0 0)).1 = 0 ∧ (ran (malloc 20 heap0 0)).1 = 4464 := by
  refine ⟨fun H => ?_, by decide!, by decide!⟩
  have h := H heap0 [] 20 0 heap0_reachable
  exact absurd (congrArg (fun o => (ran o).1) h) (by decide!)

/-- C8, amended: for every state and every size `n` that is not 0, `realloc(NULL, n)`
returns the result of `malloc(n)` and ends in the same state. -/
theorem realloc_of_null (fuel : Nat) (s : State) (n : Nat) (hn : n ≠ 0) :
    realloc fuel s 0 n = malloc fuel s n := by
  unfold realloc
  rw [if_neg hn, if_pos rfl]

/-- Instance of `realloc_of_null`: size 8 on `heap3`. -/
theorem realloc_of_null_witness : realloc 20 heap3 0 8 = malloc 20 heap3 8 :=
  realloc_of_null 20 heap3 8 (by decide)

/-- Not for every `count` and `size` does `calloc` return a block for the mathematical
product: for `count = size = 2 ^ 32` on the heap right after `mm_init` the product is
reduced to 0 and the block returned has a payload capacity of 8 bytes. -/
theorem calloc_product_wraps :
    ¬ (∀ (s s' : State) (L : List Nat) (fuel c z p : Nat), Reachable s L → c < 2 ^ 64 →
        z < 2 ^ 64 → calloc fuel s c z = some (p, s') → p ≠ 0 →
        c * z ≤ sext (bt_size s' (bt_fromptr p)) - 8 ∧ ∀ i, i < c * z → s'.mem (p + i) = 0) ∧
      (ran (calloc 20 heap0 (2 ^ 32) (2 ^ 32))).1 = 4464 ∧
      sext (bt_size (ran (calloc 20 heap0 (2 ^ 32) (2 ^ 32))).2 4460) = 16 := by
  refine ⟨fun H => ?_, by decide!, by decide!⟩
  have h := (H heap0 _ [] 20 (2 ^ 32) (2 ^ 32) _ heap0_reachable (by norm_num) (by norm_num)
    (ran_eq (o := calloc 20 heap0 (2 ^ 32) (2 ^ 32)) (by decide!)) (by decide!)).1
  exact absurd h (by decide!)

/-- C9, amended: in a state reachable from `mm_init`, for `count` and `size` whose product
reduced modulo `2 ^ 64` is `b`, with `b + 23 < 2 ^ 64`, when `calloc count size` returns a
payload `p`, the block at `p - 4` has a payload capacity of at least `b` and each of the
first `b` bytes at `p` is 0. -/
theorem calloc_zeroed {s s' : State} {L : List Nat} {fuel c z p : Nat} (hR : Reachable s L)
    (hn : c * z % 2 ^ 64 + 23 < 2 ^ 64) (h : calloc fuel s c z = some (p, s')) (hp : p ≠ 0) :
    c * z % 2 ^ 64 ≤ sext (bt_size s' (bt_fromptr p)) - 8 ∧
      ∀ i, i < c * z % 2 ^ 64 → s'.mem (p + i) = 0 := by
  obtain ⟨bs, fl, hI⟩ := hR.inv
  obtain ⟨-, -, hlo, -⟩ := blksz_facts _ hn
  rcases calloc_spec hI hn h with ⟨h0, -⟩ | ⟨-, bs', fl', hI', -, hb, hz⟩
  · exact absurd h0 hp
  · have hT := hI'.core.header hb (by simp)
    have hX := hI'.core.size_lt hb
    simp only [Kind.flag] at hT hX
    have hsz : bt_size s' (p - 4) = blksz (c * z % 2 ^ 64) :=
      bt_size_eq hT.1 (by omega) hX.2.2.2.2.1 le_rfl
    refine ⟨?_, hz⟩
    unfold bt_fromptr
    rw [hsz, sext_of_lt _ hX.2.2.2.2.1]
    omega

/-- Instance of `calloc_zeroed`: `calloc(3, 5)` on `heap3`, which takes the block freed before. -/
theorem calloc_zeroed_witness :
    3 * 5 % 2 ^ 64 ≤
        sext (bt_size (ran (calloc 20 heap3 3 5)).2 (bt_fromptr (ran (calloc 20 heap3 3 5)).1)) -
          8 ∧
      ∀ i, i < 3 * 5 % 2 ^ 64 →
        (ran (calloc 20 heap3 3 5)).2.mem ((ran (calloc 20 heap3 3 5)).1 + i) = 0 :=
  calloc_zeroed heap3_reachable (by norm_num)
    (ran_eq (o := calloc 20 heap3 3 5) (by decide!)) (by decide!)

theorem fsum_cons (b : Blk) (bs : List Blk) :
    fsum (b :: bs) = (if b.k = .free then b.sz else 0) + fsum bs := rfl

theorem fsum_nil : fsum [] = 0 := rfl

/-- The free bytes after `malloc`: unchanged when the heap grew, less by the size of the
block when a free block was taken. -/
theorem MallocShape.fsum_taken {s s' : State} {bs bs' : List Blk} {size p : Nat}
    (h : MallocShape s bs size p s' bs') :
    (s'.heap_end = s.heap_end + size ∧ fsum bs' = fsum bs) ∨
      (s'.heap_end = s.heap_end ∧ fsum bs' + size = fsum bs) := by
  rcases h with ⟨-, hbs, he, -⟩ | ⟨pre, x, post, hbs, hxk, -, hle, he, -, hbs'⟩
  · left
    refine ⟨he, ?_⟩
    rw [hbs, fsum_append, fsum_cons, fsum_nil]
    simp
  · right
    refine ⟨he, ?_⟩
    rw [hbs, hbs', fsum_append, fsum_append, fsum_cons, fsum_cons, fsum_append, hxk]
    by_cases hlt : size < x.sz
    · simp only [if_pos hlt, fsum_cons, fsum_nil]
      simp
      omega
    · simp only [if_neg hlt, fsum_nil]
      simp
      omega

/-- The free bytes after `free`: more by the size of the block freed. -/
theorem FreeShape.fsum_given {bs bs' : List Blk} {p : Nat} (h : FreeShape bs p bs') :
    ∃ x ∈ bs, x.k = .used ∧ x.a + 4 = p ∧ fsum bs' = fsum bs + x.sz := by
  obtain ⟨pre, x, post, hbs, hxk, hxp, hcase⟩ := h
  refine ⟨x, by rw [hbs]; simp, hxk, hxp, ?_⟩
  rcases hcase with h | ⟨pre', pv, h1, hpk, h⟩ | ⟨nx, post', h1, hnk, h⟩ |
      ⟨pre', pv, nx, post', h1, h2, hpk, hnk, h⟩
  · rw [hbs, h]
    simp only [fsum_append, fsum_cons, hxk]
    simp
    omega
  · rw [hbs, h, h1]
    simp only [fsum_append, fsum_cons, fsum_nil, hxk, hpk]
    simp
    omega
  · rw [hbs, h, h1]
    simp only [fsum_append, fsum_cons, fsum_nil, hxk, hnk]
    simp
    omega
  · rw [hbs, h, h1, h2]
    simp only [fsum_append, fsum_cons, fsum_nil, hxk, hpk, hnk]
    simp
    omega

set_option maxRecDepth 100000 in
/-- Not always does `free(malloc(n))` bring the free-byte total back: for `n = 8` on the
heap right after `mm_init` the total is 0 before and 16 after, since `malloc` had to
extend the heap and `free` does not give the bytes back. -/
theorem free_total_grows :
    ¬ (∀ (s s' : State) (L : List Nat) (fuel n p F : Nat), Reachable s L →
        malloc fuel s n = some (p, s') → p ≠ 0 →
        free_total F (free s' p) = free_total F s) ∧
      free_total 20 heap0 = some 0 ∧
      free_total 20 (free (ran (malloc 20 heap0 8)).2 (ran (malloc 20 heap0 8)).1) = some 16 := by
  refine ⟨fun H => ?_, by decide!, by decide!⟩
  have h := H heap0 _ [] 20 8 _ 20 heap0_reachable
    (ran_eq (o := malloc 20 heap0 8) (by decide!)) (by decide!)
  exact absurd h (by decide!)

/-- C10, amended: in a state reachable from `mm_init`, when `malloc n` returns a payload
`p`, then after `free p` the free-byte total, the sizes of the blocks of the heap walk
that are not in use, summed, is its value before the `malloc` when `malloc` took a free
block, and that value plus `blksz n` when `malloc` extended the heap. -/
theorem malloc_free_total {s s' : State} {L : List Nat} {fuel n p : Nat} (hR : Reachable s L)
    (hn : n + 23 < 2 ^ 64) (h : malloc fuel s n = some (p, s')) (hp : p ≠ 0) (F : Nat)
    (hF : s'.heap_end ≤ F) :
    ∃ t, free_total F s = some t ∧
      ((s'.heap_end = s.heap_end ∧ free_total F (free s' p) = some t) ∨
        (s'.heap_end = s.heap_end + blksz n ∧
          free_total F (free s' p) = some (t + blksz n))) := by
  obtain ⟨bs, fl, hI⟩ := hR.inv
  rcases malloc_spec hI hn h with ⟨h0, -⟩ | ⟨-, bs', fl', hI', -, -, -, hsh⟩
  · exact absurd h0 hp
  · obtain ⟨bs2, fl2, hI2, -, hfs⟩ := free_spec hI' (List.mem_cons_self p L)
    obtain ⟨x, hx, hxk, hxp, hsum⟩ := hfs.fsum_given
    have hxe : x = ⟨p - 4, blksz n, .used⟩ :=
      Tiles_addr_inj hI'.core.heap.tiles hx hsh.new_block (by simp only; omega)
    have hxs : x.sz = blksz n := by rw [hxe]
    have hend := (free_vars s' p).1
    have hw2 := (hI2.walk F (by rw [hend]; exact hF)).2.1
    rcases hsh.fsum_taken with ⟨he, hs⟩ | ⟨he, hs⟩
    · have hw := (hI.walk F (by omega)).2.1
      exact ⟨fsum bs, hw, Or.inr ⟨he, by rw [hw2, hsum, hs, hxs]⟩⟩
    · have hw := (hI.walk F (by omega)).2.1
      refine ⟨fsum bs, hw, Or.inl ⟨he, ?_⟩⟩
      rw [hw2, hsum, hxs, hs]

/-- Instance of `malloc_free_total`: `malloc(8)` on `heap3`, which takes a free block. -/
theorem malloc_free_total_witness :
    ∃ t, free_total 5000 heap3 = some t ∧
      (((ran (malloc 20 heap3 8)).2.heap_end = heap3.heap_end ∧
          free_total 5000 (free (ran (malloc 20 heap3 8)).2 (ran (malloc 20 heap3 8)).1) =
            some t) ∨
        ((ran (malloc 20 heap3 8)).2.heap_end = heap3.heap_end + blksz 8 ∧
          free_total 5000 (free (ran (malloc 20 heap3 8)).2 (ran (malloc 20 heap3 8)).1) =
            some (t + blksz 8))) :=
  malloc_free_total heap3_reachable (by norm_num)
    (ran_eq (o := malloc 20 heap3 8) (by decide!)) (by decide!) 5000 (by decide!)

/-- C11: `mm_init` does not return `-1` when its second more-core request fails.  When the
padding request of 12 bytes is granted and the request of 352 bytes for the guards is
refused, `mem_sbrk` returns `(void *)-1`, which the test `!guard_blocks_start` lets pass, and
`mm_init` returns 0; it returns `-1` when the first request is refused. -/
theorem mm_init_guards_unchecked (m : Mem) (brk0 max : Nat) (h0 : 0 < brk0)
    (h63 : max < 2 ^ 63) :
    (brk0 + 12 ≤ max → ¬ brk0 + 364 ≤ max →
      (mem_sbrk (morecore (boot m brk0 max) (16 - 4)).2 (2 * 16 * 11)).1 = 2 ^ 64 - 1 ∧
        (mm_init (boot m brk0 max)).1 = 0) ∧
      (¬ brk0 + 12 ≤ max → (mm_init (boot m brk0 max)).1 = -1) := by
  constructor
  · intro h1 h2
    have hm1 : morecore (boot m brk0 max) (16 - 4) =
        (brk0, { boot m brk0 max with mem_brk := brk0 + 12 }) := by
      rw [morecore_ok _ _ (by simp only [boot]; omega) (by simp only [boot]; omega)]
      rfl
    have hm2 : mem_sbrk { boot m brk0 max with mem_brk := brk0 + 12 } (2 * 16 * 11) =
        (2 ^ 64 - 1, { boot m brk0 max with mem_brk := brk0 + 12 }) := by
      unfold mem_sbrk
      rw [if_neg (by simp only [boot]; omega)]
    refine ⟨by rw [hm1, hm2], ?_⟩
    unfold mm_init
    rw [hm1]
    dsimp only
    rw [if_neg (by omega), hm2]
    dsimp only
    rw [if_neg (by norm_num)]
  · intro h1
    have hm1 : morecore (boot m brk0 max) (16 - 4) = (0, boot m brk0 max) :=
      morecore_fail _ _ (by simp only [boot]; omega)
    unfold mm_init
    rw [hm1]
    rfl

/-- Instance of `mm_init_guards_unchecked`: break `4096` and limit `4200`, room for the
padding and not for the guards. -/
theorem mm_init_guards_unchecked_witness :
    (mem_sbrk (morecore (boot (fun _ => 0) 4096 4200) (16 - 4)).2 (2 * 16 * 11)).1 = 2 ^ 64 - 1 ∧
      (mm_init (boot (fun _ => 0) 4096 4200)).1 = 0 :=
  (mm_init_guards_unchecked (fun _ => 0) 4096 4200 (by norm_num) (by norm_num)).1
    (by norm_num) (by norm_num)

/-- Not every size from 224 on has index 10 in `get_list`: the size 224 has index 9. -/
theorem get_list_224 :
    get_list heap0 224 = heap0.guard_blocks_start + 2 * 16 * 9 ∧
      get_list heap0 224 ≠ heap0.guard_blocks_start + 2 * 16 * 10 := by
  constructor <;> decide!

/-- C16, amended: with `segment_lists_start` as `mm_init` sets it, for every block size `sz`
that is a multiple of 16 and at least 16, `get_list sz` is the head guard with index
`sz / 16 - 1` for `sz` up to 128, index 8 for `144 ≤ sz ≤ 160`, index 9 for
`176 ≤ sz ≤ 224`, and index 10 for `sz ≥ 240`. -/
theorem get_list_index (s : State)
    (hs : s.segment_lists_start = s.guard_blocks_start + 2 * 16 * 8) (sz : Nat)
    (h16 : 16 ≤ sz) (hm : sz % 16 = 0) :
    get_list s sz = s.guard_blocks_start + 2 * 16 *
      (if sz ≤ 128 then sz / 16 - 1 else if sz ≤ 160 then 8 else if sz ≤ 224 then 9 else 10) := by
  rw [get_list_eq s sz h16 hm (by rw [hs])]
  unfold list_idx
  omega

/-- Instance of `get_list_index`: the size 208 on the heap right after `mm_init`. -/
theorem get_list_index_witness :
    get_list heap0 208 = heap0.guard_blocks_start + 2 * 16 *
      (if 208 ≤ 128 then 208 / 16 - 1 else if 208 ≤ 160 then 8 else if 208 ≤ 224 then 9 else 10) :=
  get_list_index heap0 (by decide!) 208 (by norm_num) (by norm_num)

/-- What `realloc` does for the last block of the chain when the block has to grow. -/
theorem realloc_last {s : State} {pre : List Blk} {x : Blk} {fl : Nat → List Nat}
    {L : List Nat} (hI : Inv s (pre ++ [x]) fl L) (hxk : x.k = .used) (fuel k : Nat)
    (hgt : x.sz < blksz k) :
    realloc fuel s (x.a + 4) k =
      if s.mem_brk + (blksz k - x.sz) ≤ s.mem_max_addr then
        some (x.a + 4, realloc_grown s x.a (blksz k) x.sz)
      else some (0, s) := by
  have hx : x ∈ pre ++ [x] := by simp
  have hX := hI.core.size_lt hx
  have hT := hI.core.header hx (by rw [hxk]; decide)
  simp only [hxk, Kind.flag] at hT
  have hsz : bt_size s x.a = x.sz := bt_size_eq hT.1 (by omega) hX.2.2.2.2.1 le_rfl
  have hk0 : k ≠ 0 := by
    intro e
    rw [e, blksz_eq 0 (by norm_num)] at hgt
    omega
  have hnx : bt_next s x.a = 0 :=
    (hI.core.bt_next_zero (by rw [hxk]; decide)).2 rfl
  unfold realloc
  rw [if_neg hk0, if_neg (by omega)]
  simp only [bt_fromptr, Nat.add_sub_cancel, hsz, sext_of_lt _ hX.2.2.2.2.1]
  rw [if_neg (by omega), if_pos hnx]
  by_cases hfit : s.mem_brk + (blksz k - x.sz) ≤ s.mem_max_addr
  · rw [if_pos hfit, morecore_ok s _ hfit hI.core.lim64]
    simp only [hI.core.brk_pos, if_false]
    rfl
  · rw [if_neg hfit, morecore_fail s _ hfit]
    simp only [if_true]

/-- Not by 80 bytes does `heap_end` move in `p = malloc(64); q = realloc(p, 128)` on the
heap right after `mm_init`: `q` is `p`, the block has 144 bytes, and `heap_end` is 64 bytes
higher than before the `realloc`. -/
theorem realloc_fresh_80 :
    (ran (realloc 20 heap1 4464 128)).1 = 4464 ∧
      sext (bt_size (ran (realloc 20 heap1 4464 128)).2 (bt_fromptr 4464)) = 144 ∧
      (ran (realloc 20 heap1 4464 128)).2.heap_end = heap1.heap_end + 64 ∧
      (ran (realloc 20 heap1 4464 128)).2.heap_end ≠ heap1.heap_end + 80 := by
  refine ⟨?_, ?_, ?_, ?_⟩ <;> decide!

/-- C19, amended: scenario S5 on a fresh heap.  After `p = malloc(64)` right after `mm_init`,
a call `q = realloc(p, 128)` that returns a block returns `p`, leaves the block with a size
of 144, and leaves `heap_end` exactly 64 bytes higher than it was before the `realloc`. -/
theorem realloc_fresh (m0 : Mem) (brk0 max : Nat) (h0 : 0 < brk0) (h16 : brk0 % 16 = 0)
    (hfit : brk0 + 364 ≤ max) (hlim : max < brk0 + 2 ^ 31) (h63 : max < 2 ^ 63)
    {f g p q : Nat} {s1 s2 : State}
    (h1 : malloc f (mm_init (boot m0 brk0 max)).2 64 = some (p, s1)) (hp : p ≠ 0)
    (h2 : realloc g s1 p 128 = some (q, s2)) (hq : q ≠ 0) :
    q = p ∧ sext (bt_size s2 (bt_fromptr p)) = 144 ∧ s2.heap_end = s1.heap_end + 64 := by
  have hI0 := (mm_init_inv m0 brk0 max h0 h16 hfit hlim h63).2.1
  have e80 : blksz 64 = 80 := by rw [blksz_eq 64 (by norm_num)]
  have e144 : blksz 128 = 144 := by rw [blksz_eq 128 (by norm_num)]
  rcases malloc_spec hI0 (by norm_num) h1 with ⟨hp0, -⟩ | ⟨-, bs', fl', hI1, -, -, -, hsh⟩
  · exact absurd hp0 hp
  · rw [e80] at hsh
    rcases hsh with ⟨hpe, hbs, -, -⟩ | ⟨pre, x, post, hbs, -⟩
    · rw [List.nil_append] at hbs
      subst hbs
      have hI1' : Inv s1 ([] ++ [(⟨(mm_init (boot m0 brk0 max)).2.heap_end, 80, .used⟩ : Blk)])
          fl' [p] := hI1
      have hr := realloc_last hI1' rfl g 128 (by rw [e144]; norm_num)
      simp only [e144] at hr
      have hpa : (mm_init (boot m0 brk0 max)).2.heap_end + 4 = p := hpe.symm
      rw [hpa, h2] at hr
      split_ifs at hr with hroom
      · injection hr with hr
        injection hr with e1 e2
        obtain ⟨hI2, -⟩ := realloc_grown_inv hI1' rfl (by norm_num : 144 % 16 = 0)
          (by norm_num) hroom
        simp only [List.nil_append] at hI2
        have hy : (⟨(mm_init (boot m0 brk0 max)).2.heap_end, 144, .used⟩ : Blk) ∈
            [(⟨(mm_init (boot m0 brk0 max)).2.heap_end, 144, .used⟩ : Blk)] := by simp
        have hT := hI2.core.header hy (by simp)
        simp only [Kind.flag] at hT
        rw [← e2] at hT
        refine ⟨e1, ?_, ?_⟩
        · have : bt_size s2 (bt_fromptr p) = 144 := by
            unfold bt_fromptr
            rw [← hpa, Nat.add_sub_cancel]
            exact bt_size_eq hT.1 (by norm_num) (by norm_num) le_rfl
          rw [this]; rfl
        · rw [e2]; rfl
      · injection hr with hr
        injection hr with e1 e2
        exact absurd e1 hq
    · exact absurd hbs (by simp)

/-- Instance of `realloc_fresh`: zeroed memory, break `4096`, limit `1000000`. -/
theorem realloc_fresh_witness :
    (ran (realloc 20 heap1 4464 128)).1 = 4464 ∧
      sext (bt_size (ran (realloc 20 heap1 4464 128)).2 (bt_fromptr 4464)) = 144 ∧
      (ran (realloc 20 heap1 4464 128)).2.heap_end = heap1.heap_end + 64 :=
  realloc_fresh (fun _ => 0) 4096 1000000 (by norm_num) (by norm_num) (by norm_num)
    (by norm_num) (by norm_num)
    (by
      have e : (ran (malloc 20 heap0 64)).1 = 4464 := by decide!
      have h := ran_eq (o := malloc 20 heap0 64) (by decide!)
      rw [e] at h
      exact h)
    (by norm_num) (ran_eq (o := realloc 20 heap1 4464 128) (by decide!)) (by decide!)

theorem ran_val {o : Option (Nat × State)} {p : Nat}
    (h : o.isSome = true ∧ (ran o).1 = p) : o = some (p, (ran o).2) := by
  rw [← h.2]
  exact ran_eq h.1

theorem four1_reachable : Reachable four1 [4464] :=
  Reachable.malloc_step heap0_reachable (by norm_num)
    (ran_val (o := malloc 20 heap0 8) (p := 4464) (by decide!))

theorem four2_reachable : Reachable four2 [4480, 4464] :=
  Reachable.malloc_step four1_reachable (by norm_num)
    (ran_val (o := malloc 20 four1 8) (p := 4480) (by decide!))

theorem four3_reachable : Reachable four3 [4496, 4480, 4464] :=
  Reachable.malloc_step four2_reachable (by norm_num)
    (ran_val (o := malloc 20 four2 8) (p := 4496) (by decide!))

theorem four4_reachable : Reachable four4 [4512, 4496, 4480, 4464] :=
  Reachable.malloc_step four3_reachable (by norm_num)
    (ran_val (o := malloc 20 four3 8) (p := 4512) (by decide!))

theorem merged_reachable : Reachable merged [4512] :=
  Reachable.free_step
    (Reachable.free_step (Reachable.free_step four4_reachable (Or.inr (by decide)))
      (Or.inr (by decide)))
    (Or.inr (by decide))

set_option maxRecDepth 100000 in
/-- C13: the state after `a, b, c, d = malloc(8)` four times and `free(a); free(c); free(b)`
is reachable, and in it the free
block of 48 bytes at `4460`, merged from the blocks of `a`, `b` and `c`, is the first node
of the list with index 0, the list of `a`, and not on the list with index 2 that `get_list`
gives for the size 48: `is_on_free_list` returns 0 for it. -/
theorem merged_misfiled :
    Reachable merged [4512] ∧
      bt_used merged 4460 = 0 ∧ sext (bt_size merged 4460) = 48 ∧
      get_list merged 48 = merged.guard_blocks_start + 2 * 16 * 2 ∧
      next_free merged (merged.guard_blocks_start + 2 * 16 * 0) = 4460 ∧
      is_on_free_list 20 merged 4460 = some 0 :=
  ⟨merged_reachable, by decide!⟩

set_option maxRecDepth 100000 in
/-- C18: the state after `a, b, c, d = malloc(8)` four times and `free(a); free(c); free(b)`
is reachable; in it a free block of 48 bytes exists at `4460`, and yet `find_free_block` returns `NULL` for the size
48 and `malloc(40)`, which needs `blksz 40 = 48` bytes, extends the heap by 48 bytes. -/
theorem merged_not_found :
    Reachable merged [4512] ∧
      bt_used merged 4460 = 0 ∧ sext (bt_size merged 4460) = 48 ∧ blksz 40 = 48 ∧
      find_free_block 20 merged 48 = some 0 ∧
      (malloc 20 merged 40).isSome = true ∧
      (ran (malloc 20 merged 40)).1 = merged.heap_end + 4 ∧
      (ran (malloc 20 merged 40)).2.mem_brk = merged.mem_brk + 48 :=
  ⟨merged_reachable, by decide!⟩

/-- In a state with the invariant the tags of a chain block show its size and kind. -/
theorem Inv.tags {s : State} {bs : List Blk} {fl : Nat → List Nat} {L : List Nat}
    (hI : Inv s bs fl L) {b : Blk} (hb : b ∈ bs) :
    bt_size s b.a = b.sz ∧ bt_used s b.a = b.k.flag ∧ b.sz < 2 ^ 31 ∧
      rd s.mem b.a = b.sz + b.k.flag ∧ rd s.mem (b.a + b.sz - 4) = b.sz + b.k.flag := by
  have hX := hI.core.size_lt hb
  have hT := hI.core.header hb (hI.abs.noraw b hb)
  have hfl : b.k.flag ≤ 1 := by cases b.k <;> simp [Kind.flag]
  exact ⟨bt_size_eq hT.1 (by omega) hX.2.2.2.2.1 hfl, bt_used_eq hT.1 (by omega) hfl,
    hX.2.2.2.2.1, hT.1, hT.2⟩

theorem Inv.used_zero {s : State} {bs : List Blk} {fl : Nat → List Nat} {L : List Nat}
    (hI : Inv s bs fl L) {b : Blk} (hb : b ∈ bs) : bt_used s b.a = 0 ↔ b.k = .free := by
  rw [(hI.tags hb).2.1]
  have := hI.abs.noraw b hb
  cases hk : b.k <;> simp [Kind.flag, hk] at this ⊢

theorem chain_walk {s : State} {bs : List Blk} (hu : ∀ b ∈ bs, bt_used s b.a = 0 ↔ b.k = .free)
    (h : NoAdj bs) :
    (bs.map (fun b => b.a)).Chain' (fun a b => ¬ (bt_used s a = 0 ∧ bt_used s b = 0)) := by
  induction bs with
  | nil => exact List.chain'_nil
  | cons x xs ih =>
    cases xs with
    | nil => exact List.chain'_singleton _
    | cons y ys =>
      unfold NoAdj at h
      rw [List.chain'_cons] at h
      simp only [List.map_cons]
      rw [List.chain'_cons]
      refine ⟨?_, ih (fun b hb => hu b (List.mem_cons_of_mem _ hb)) h.2⟩
      rw [hu x (List.mem_cons_self _ _), hu y (List.mem_cons_of_mem _ (List.mem_cons_self _ _))]
      intro hc
      rcases h.1 with h1 | h1
      · exact h1 hc.1
      · exact h1 hc.2

/-- C14: in a state reachable from `mm_init`, no two neighbours among the blocks that the
walk of the heap visits are both free, whatever the path through `free`, `malloc` or
`realloc` that led to the state. -/
theorem no_adjacent_free {s : State} {L : List Nat} (hR : Reachable s L) (F : Nat)
    (hF : s.heap_end ≤ F) :
    ∃ l, heap_blocks s F s.guard_blocks_end = some l ∧
      l.Chain' (fun a b => ¬ (bt_used s a = 0 ∧ bt_used s b = 0)) := by
  obtain ⟨bs, fl, hI⟩ := hR.inv
  obtain ⟨h1, -, -⟩ := hI.walk F hF
  refine ⟨_, h1, ?_⟩
  have hc := chain_walk (s := s) (fun b hb => hI.used_zero hb) hI.abs.noadj
  have hG := (hI.core.heap.guards 10 (by norm_num)).2.2.1
  have hrd : rd s.mem s.guard_blocks_end = 16 + 1 := by
    rw [hI.core.gbe,
      show s.guard_blocks_start + 336 = s.guard_blocks_start + 32 * 10 + 16 by omega, hG]
  have hus : bt_used s s.guard_blocks_end = 1 := bt_used_eq hrd (by norm_num) le_rfl
  refine hc.cons' ?_
  intro y _ h
  rw [hus] at h
  exact absurd h.1 (by norm_num)

/-- Instance of `no_adjacent_free`: the heap `merged`, after three calls of `free`. -/
theorem no_adjacent_free_witness :
    ∃ l, heap_blocks merged 5000 merged.guard_blocks_end = some l ∧
      l.Chain' (fun a b => ¬ (bt_used merged a = 0 ∧ bt_used merged b = 0)) :=
  no_adjacent_free merged_reachable 5000 (by decide!)

theorem lastAddr_getLast (d : Nat) (bs : List Blk) :
    (d :: bs.map (fun b => b.a)).getLast? = some (lastAddr d bs) := by
  induction bs generalizing d with
  | nil => rfl
  | cons x xs ih =>
    rw [List.map_cons, List.getLast?_cons_cons]
    exact ih x.a

/-- The last block of a chain ends where the chain ends, and no block starts above it. -/
theorem Tiles_last {m : Mem} {bs : List Blk} {a e d : Nat} (h : Tiles m a bs e)
    (hne : bs ≠ []) :
    ∃ b ∈ bs, b.a = lastAddr d bs ∧ b.a + b.sz = e ∧ ∀ x ∈ bs, x.a ≤ b.a := by
  rcases lastAddr_mem d bs with ⟨-, h0⟩ | ⟨pre, b, hbs, hl⟩
  · exact absurd h0 hne
  · have hb : b ∈ bs := by rw [hbs]; simp
    have hend : b.a + b.sz = e := by
      rw [hbs] at h
      obtain ⟨c, -, hc⟩ := Tiles_append.1 h
      simp only [Tiles_cons, Tiles_nil] at hc
      omega
    refine ⟨b, hb, hl.symm, hend, ?_⟩
    intro x hx
    have hX := Tiles_mem h hx
    rcases Tiles_sep h hx hb with e1 | e1 | e1
    · rw [e1]
    · omega
    · omega

/-- C15: in a state reachable from `mm_init`, the walk that steps from the last tail guard
by address plus header size visits only blocks whose header is their footer, ends with
`last`, and lands on `heap_end`, which is `last` plus the size of the block at `last`; no
block of the walk lies above `last`, and `last` is the last tail guard exactly when the
walk meets no other block. -/
theorem walk_ends_at_last {s : State} {L : List Nat} (hR : Reachable s L) (F : Nat)
    (hF : s.heap_end ≤ F) :
    ∃ l, heap_blocks s F s.guard_blocks_end = some l ∧
      (∀ a ∈ l, rd s.mem a = rd s.mem (bt_footer s a)) ∧
      l.getLast? = some s.last ∧
      s.heap_end = s.last + sext (bt_size s s.last) ∧
      (∀ a ∈ l, a ≤ s.last) ∧
      (s.last = s.guard_blocks_end ↔ l = [s.guard_blocks_end]) := by
  obtain ⟨bs, fl, hI⟩ := hR.inv
  have hC := hI.core
  obtain ⟨h1, -, -⟩ := hI.walk F hF
  have hgbe := hC.gbe
  have hG := hC.heap.guards 10 (by norm_num)
  have hrd : rd s.mem s.guard_blocks_end = 16 + 1 := by
    rw [hgbe, show s.guard_blocks_start + 336 = s.guard_blocks_start + 32 * 10 + 16 by omega,
      hG.2.2.1]
  have hsz : bt_size s s.guard_blocks_end = 16 := bt_size_eq hrd (by norm_num) (by norm_num) le_rfl
  have hlast := hC.last
  rw [← hgbe] at hlast
  refine ⟨_, h1, ?_, ?_, ?_, ?_, ?_⟩
  · intro a ha
    rw [List.mem_cons] at ha
    rcases ha with rfl | ha
    · unfold bt_footer
      rw [hsz, sext_of_lt _ (by norm_num), hrd, hgbe,
        show s.guard_blocks_start + 336 + 16 - 4 = s.guard_blocks_start + 32 * 10 + 28 by omega,
        hG.2.2.2]
    · obtain ⟨b, hb, rfl⟩ := List.mem_map.1 ha
      obtain ⟨e1, -, e3, e4, e5⟩ := hI.tags hb
      unfold bt_footer
      rw [e1, sext_of_lt _ e3, e4, e5]
  · rw [hlast]; exact lastAddr_getLast _ _
  · by_cases hne : bs = []
    · subst hne
      have := hC.heap.tiles
      simp only [Tiles_nil] at this
      rw [hlast]
      simp only [lastAddr]
      rw [hsz, sext_of_lt _ (by norm_num)]
      omega
    · obtain ⟨b, hb, e1, e2, -⟩ := Tiles_last (d := s.guard_blocks_end) hC.heap.tiles hne
      obtain ⟨e3, -, e4, -⟩ := hI.tags hb
      rw [hlast, ← e1, e3, sext_of_lt _ e4, e2]
  · intro a ha
    rw [List.mem_cons] at ha
    by_cases hne : bs = []
    · subst hne
      simp only [List.map_nil, List.not_mem_nil, or_false] at ha
      rw [hlast, ha]
      exact le_rfl
    · obtain ⟨b, hb, e1, -, e2⟩ := Tiles_last (d := s.guard_blocks_end) hC.heap.tiles hne
      have hX := hC.size_lt hb
      rcases ha with rfl | ha
      · rw [hlast, ← e1]; omega
      · obtain ⟨x, hx, rfl⟩ := List.mem_map.1 ha
        rw [hlast, ← e1]
        exact e2 x hx
  · constructor
    · intro h
      by_cases hne : bs = []
      · rw [hne]; rfl
      · exfalso
        obtain ⟨b, hb, e1, -, -⟩ := Tiles_last (d := s.guard_blocks_end) hC.heap.tiles hne
        have hX := hC.size_lt hb
        rw [hlast, ← e1] at h
        omega
    · intro h
      have hne : bs = [] := by
        cases bs with
        | nil => rfl
        | cons x xs => simp at h
      rw [hlast, hne]
      rfl

/-- Instance of `walk_ends_at_last`: the heap `heap3`, with a free and a live block. -/
theorem walk_ends_at_last_witness :
    ∃ l, heap_blocks heap3 5000 heap3.guard_blocks_end = some l ∧
      (∀ a ∈ l, rd heap3.mem a = rd heap3.mem (bt_footer heap3 a)) ∧
      l.getLast? = some heap3.last ∧
      heap3.heap_end = heap3.last + sext (bt_size heap3 heap3.last) ∧
      (∀ a ∈ l, a ≤ heap3.last) ∧
      (heap3.last = heap3.guard_blocks_end ↔ l = [heap3.guard_blocks_end]) :=
  walk_ends_at_last heap3_reachable 5000 (by decide!)

theorem list_nodes_succ (s : State) (fuel act : Nat) :
    list_nodes s (fuel + 1) act =
      if is_tail s act then some ([], act)
      else
        match list_nodes s fuel (next_free s act) with
        | none => none
        | some r => some (act :: r.1, r.2) := rfl

/-- Neighbours in a list are linked in both directions. -/
theorem Links_pair {m : Mem} {g x u v : Nat} {l pre rest : List Nat} (h : Links m g x l)
    (hs : x :: l = pre ++ u :: v :: rest) : Link m g u v := by
  induction pre generalizing x l with
  | nil =>
    simp only [List.nil_append, List.cons.injEq] at hs
    obtain ⟨rfl, rfl⟩ := hs
    exact h.1
  | cons p pre ih =>
    simp only [List.cons_append, List.cons.injEq] at hs
    obtain ⟨rfl, hl⟩ := hs
    cases l with
    | nil => simp at hl
    | cons z l => exact ih h.2 hl

/-- The link functions on the nodes of one list: guards and free blocks. -/
theorem Inv.node_links {s : State} {bs : List Blk} {fl : Nat → List Nat} {L : List Nat}
    (hI : Inv s bs fl L) {i : Nat} (hi : i < 11) {u v : Nat} {pre rest : List Nat}
    (hs : (s.guard_blocks_start + 32 * i) :: (fl i ++ [s.guard_blocks_start + 32 * i + 16]) =
      pre ++ u :: v :: rest) :
    is_tail s u = false ∧ next_free s u = v ∧ is_head s v = false ∧ prev_free s v = u := by
  have hG := hI.core.heap.guards i hi
  have hlk := Links_pair (hI.core.heap.links i hi) hs
  have hu : u ∈ (s.guard_blocks_start + 32 * i) ::
      (fl i ++ [s.guard_blocks_start + 32 * i + 16]) := by rw [hs]; simp
  have hv : v ∈ (s.guard_blocks_start + 32 * i) ::
      (fl i ++ [s.guard_blocks_start + 32 * i + 16]) := by rw [hs]; simp
  have hur := (hI.core.heap.isLinkNode hi hu).range hI.core.heap.tiles
  have hvr := (hI.core.heap.isLinkNode hi hv).range hI.core.heap.tiles
  have hbd := hI.core.heap.bound
  have hge := Tiles_le hI.core.heap.tiles
  have hsep := hI.core.heap.sep_list hi
  rw [hs] at hsep
  -- `u` is not the tail guard, `v` is not the head guard
  have hut : is_tail s u = false := by
    simp only [List.mem_cons, List.mem_append, List.not_mem_nil, or_false] at hu
    rcases hu with hu | hu | hu
    · unfold is_tail; rw [hu, hG.1]; simp
    · obtain ⟨b, hb, hba, hbk, hrd, h16, hm, hlt, hlo, -⟩ := hI.free_node hi hu
      unfold is_tail; rw [hrd]
      have : b.sz ≠ 17 := by omega
      simp [this]
    · exfalso
      have h1 : s.guard_blocks_start + 32 * i + 16 = lastOf v rest := by
        have := congrArg (fun l => lastOf 0 l) hs
        simp only [lastOf_cons, lastOf_append] at this
        exact this
      have hvl : lastOf v rest ∈ v :: rest := lastOf_mem v rest
      rw [← h1, ← hu] at hvl
      have hp := (List.pairwise_append.1 hsep).2.1
      rw [List.pairwise_cons] at hp
      have := hp.1 u hvl
      unfold Sep at this
      omega
  have hvh : is_head s v = false := by
    simp only [List.mem_cons, List.mem_append, List.not_mem_nil, or_false] at hv
    rcases hv with hv | hv | hv
    · exfalso
      cases pre with
      | nil =>
        simp only [List.nil_append, List.cons.injEq] at hs
        have hp := hsep
        simp only [List.nil_append] at hp
        rw [List.pairwise_cons] at hp
        have := hp.1 v (List.mem_cons_self _ _)
        unfold Sep at this
        omega
      | cons p pre =>
        simp only [List.cons_append, List.cons.injEq] at hs
        rw [List.cons_append, List.pairwise_cons] at hsep
        have := hsep.1 v (by simp)
        unfold Sep at this
        omega
    · obtain ⟨b, hb, hba, hbk, hrd, h16, hm, hlt, hlo, -⟩ := hI.free_node hi hv
      unfold is_head; rw [hrd]
      simp; omega
    · unfold is_head; rw [hv, hG.2.2.1]; simp
  refine ⟨hut, ?_, hvh, ?_⟩
  · simp only [next_free, hut, get_next_offset, hlk.1, hI.core.hs, Bool.false_eq_true, if_false]
    rw [sext_of_lt _ (by omega)]
    omega
  · simp only [prev_free, hvh, get_prev_offset, hlk.2, hI.core.hs, Bool.false_eq_true, if_false]
    rw [sext_of_lt _ (by omega)]
    omega

/-- The walk through a list from one of its nodes meets the nodes up to the tail guard. -/
theorem list_nodes_spec {s : State} {bs : List Blk} {fl : Nat → List Nat} {L : List Nat}
    (hI : Inv s bs fl L) {i : Nat} (hi : i < 11) :
    ∀ (nodes pre : List Nat) (fuel : Nat),
      (s.guard_blocks_start + 32 * i) :: (fl i ++ [s.guard_blocks_start + 32 * i + 16]) =
        pre ++ (nodes ++ [s.guard_blocks_start + 32 * i + 16]) →
      nodes.length < fuel →
      list_nodes s fuel (nodes.head?.getD (s.guard_blocks_start + 32 * i + 16)) =
        some (nodes, s.guard_blocks_start + 32 * i + 16) := by
  intro nodes
  induction nodes with
  | nil =>
    intro pre fuel _ hf
    obtain ⟨k, rfl⟩ : ∃ k, fuel = k + 1 := ⟨fuel - 1, by simp at hf; omega⟩
    have hG := hI.core.heap.guards i hi
    have ht : is_tail s (s.guard_blocks_start + 32 * i + 16) = true := by
      unfold is_tail; rw [hG.2.2.1, hI.core.gbe]
      simp; omega
    simp only [List.head?_nil, Option.getD_none]
    rw [list_nodes_succ, ht]
    rfl
  | cons u nodes ih =>
    intro pre fuel hs hf
    obtain ⟨k, rfl⟩ : ∃ k, fuel = k + 1 := ⟨fuel - 1, by simp at hf; omega⟩
    simp only [List.head?_cons, Option.getD_some]
    have hs' : (s.guard_blocks_start + 32 * i) ::
        (fl i ++ [s.guard_blocks_start + 32 * i + 16]) =
        (pre ++ [u]) ++ (nodes ++ [s.guard_blocks_start + 32 * i + 16]) := by
      rw [hs]; simp
    have hrec := ih (pre ++ [u]) k hs' (by simp at hf; omega)
    obtain ⟨v, rest, hv⟩ : ∃ v rest, nodes ++ [s.guard_blocks_start + 32 * i + 16] = v :: rest := by
      cases nodes with
      | nil => exact ⟨_, _, rfl⟩
      | cons v r => exact ⟨v, r ++ [s.guard_blocks_start + 32 * i + 16], rfl⟩
    have hhead : nodes.head?.getD (s.guard_blocks_start + 32 * i + 16) = v := by
      cases nodes with
      | nil =>
        simp only [List.nil_append, List.cons.injEq] at hv
        simp only [List.head?_nil, Option.getD_none]
        exact hv.1
      | cons w r =>
        simp only [List.cons_append, List.cons.injEq] at hv
        simp only [List.head?_cons, Option.getD_some]
        exact hv.1
    have hs2 : (s.guard_blocks_start + 32 * i) ::
        (fl i ++ [s.guard_blocks_start + 32 * i + 16]) = pre ++ u :: v :: rest := by
      rw [hs, List.cons_append, hv]
    obtain ⟨hut, hnx, -, -⟩ := hI.node_links hi hs2
    rw [list_nodes_succ, hut, hnx, ← hhead, hrec]
    rfl

/-- C20: in a state reachable from `mm_init`, in each of the eleven lists, for every node
`x` that the walk from the head guard by next links meets before the tail guard,
`next_free (prev_free x) = x` and `prev_free (next_free x) = x`; the walk reaches the tail
guard of its own list, and `find_block_in_list` returns. -/
theorem lists_linked {s : State} {L : List Nat} (hR : Reachable s L) {i : Nat} (hi : i < 11)
    (F : Nat) (hF : s.heap_end ≤ F) :
    ∃ l, list_nodes s F (s.guard_blocks_start + 2 * 16 * i) =
        some ((s.guard_blocks_start + 2 * 16 * i) :: l,
          s.guard_blocks_start + 2 * 16 * i + 16) ∧
      (∀ x ∈ l, next_free s (prev_free s x) = x ∧ prev_free s (next_free s x) = x) ∧
      ∀ size, ∃ r, find_block_in_list s size F (s.guard_blocks_start + 2 * 16 * i) = some r := by
  obtain ⟨bs, fl, hI⟩ := hR.inv
  have hlen := Tiles_length hI.core.heap.tiles
  have hl := hI.list_length hi
  rw [show 2 * 16 * i = 32 * i by omega]
  refine ⟨fl i, ?_, ?_, ?_⟩
  · have := list_nodes_spec hI hi ((s.guard_blocks_start + 32 * i) :: fl i) [] F rfl
      (by simp only [List.length_cons]; omega)
    simpa using this
  · intro x hx
    obtain ⟨A, B, hAB⟩ := List.append_of_mem hx
    obtain ⟨A', u, hA⟩ : ∃ A' u, (s.guard_blocks_start + 32 * i) :: A = A' ++ [u] := by
      rcases List.eq_nil_or_concat ((s.guard_blocks_start + 32 * i) :: A) with h | ⟨A', u, h⟩
      · exact absurd h (by simp)
      · exact ⟨A', u, by rw [h, List.concat_eq_append]⟩
    obtain ⟨v, rest, hv⟩ : ∃ v rest, B ++ [s.guard_blocks_start + 32 * i + 16] = v :: rest := by
      cases B with
      | nil => exact ⟨_, _, rfl⟩
      | cons v r => exact ⟨v, r ++ [s.guard_blocks_start + 32 * i + 16], rfl⟩
    have h1 : (s.guard_blocks_start + 32 * i) ::
        (fl i ++ [s.guard_blocks_start + 32 * i + 16]) = A' ++ u :: x :: v :: rest := by
      rw [hAB, List.append_assoc, List.cons_append, ← List.cons_append, hA, hv]
      simp
    have h2 : (s.guard_blocks_start + 32 * i) ::
        (fl i ++ [s.guard_blocks_start + 32 * i + 16]) = (A' ++ [u]) ++ x :: v :: rest := by
      rw [h1]; simp
    obtain ⟨-, e1, -, e2⟩ := hI.node_links hi h1
    obtain ⟨-, e3, -, e4⟩ := hI.node_links hi h2
    rw [e2, e1, e3, e4]
    exact ⟨rfl, rfl⟩
  · intro size
    exact find_block_in_list_total hI hi size F _ [] _ rfl
      (by simp only [List.length_append, List.length_singleton]; omega)

/-- Instance of `lists_linked`: the list with index 4 of `heap3`, which holds the free block
of 80 bytes. -/
theorem lists_linked_witness :
    ∃ l, list_nodes heap3 5000 (heap3.guard_blocks_start + 2 * 16 * 4) =
        some ((heap3.guard_blocks_start + 2 * 16 * 4) :: l,
          heap3.guard_blocks_start + 2 * 16 * 4 + 16) ∧
      (∀ x ∈ l, next_free heap3 (prev_free heap3 x) = x ∧
        prev_free heap3 (next_free heap3 x) = x) ∧
      ∀ size, ∃ r,
        find_block_in_list heap3 size 5000 (heap3.guard_blocks_start + 2 * 16 * 4) = some r :=
  lists_linked heap3_reachable (by norm_num) 5000 (by decide!)

theorem lastAddr_of_ne (d : Nat) {M : List Blk} (h : M ≠ []) :
    lastAddr d M ∈ M.map (fun b => b.a) := by
  obtain ⟨b, hb, e⟩ := lastAddr_in d h
  rw [e]
  exact List.mem_map.2 ⟨b, hb, rfl⟩

/-- Two states with the invariant whose chains differ in that the run `M` of the first is
the one free block `Y` of the second: the walks, the tags and `last`. -/
theorem merge_walk {s s' : State} {A M B : List Blk} {Y : Blk} {fl fl' : Nat → List Nat}
    {L L' : List Nat} (hI : Inv s (A ++ (M ++ B)) fl L) (hI' : Inv s' (A ++ Y :: B) fl' L')
    (hg : s'.guard_blocks_start = s.guard_blocks_start) (he : s'.heap_end = s.heap_end)
    (hM : M ≠ []) (hk : Y.k = .free) (hsz : Y.sz = (M.map (fun b => b.sz)).sum)
    (F : Nat) (hF : s.heap_end ≤ F) :
    heap_blocks s F s.guard_blocks_end =
        some ((s.guard_blocks_end :: A.map (fun b => b.a)) ++ M.map (fun b => b.a) ++
          B.map (fun b => b.a)) ∧
      heap_blocks s' F s'.guard_blocks_end =
        some ((s.guard_blocks_end :: A.map (fun b => b.a)) ++ [Y.a] ++ B.map (fun b => b.a)) ∧
      rd s'.mem Y.a = ((M.map (fun b => b.a)).map (fun a => sext (bt_size s a))).sum ∧
      rd s'.mem (bt_footer s' Y.a) =
        ((M.map (fun b => b.a)).map (fun a => sext (bt_size s a))).sum ∧
      (∀ a ∈ (s.guard_blocks_end :: A.map (fun b => b.a)) ++ B.map (fun b => b.a),
        rd s'.mem a = rd s.mem a ∧ bt_footer s' a = bt_footer s a ∧
          rd s'.mem (bt_footer s a) = rd s.mem (bt_footer s a)) ∧
      (s'.last = Y.a ↔ s.last ∈ M.map (fun b => b.a)) := by
  have hC := hI.core
  have hC' := hI'.core
  have hgbe : s'.guard_blocks_end = s.guard_blocks_end := by rw [hC.gbe, hC'.gbe, hg]
  obtain ⟨w1, -, -⟩ := hI.walk F hF
  obtain ⟨w2, -, -⟩ := hI'.walk F (by rw [he]; exact hF)
  have hY : Y ∈ A ++ Y :: B := by simp
  obtain ⟨t1, -, t3, t4, t5⟩ := hI'.tags hY
  have hsum : ((M.map (fun b => b.a)).map (fun a => sext (bt_size s a))).sum = Y.sz := by
    rw [hsz, List.map_map]
    congr 1
    apply List.map_congr_left
    intro b hb
    obtain ⟨e1, -, e3, -⟩ := hI.tags (b := b) (by simp [hb])
    simp only [Function.comp, e1, sext_of_lt _ e3]
  refine ⟨?_, ?_, ?_, ?_, ?_, ?_⟩
  · rw [w1]; simp
  · rw [w2, hgbe]; simp
  · rw [hsum, t4, hk]; rfl
  · unfold bt_footer
    rw [hsum, t1, sext_of_lt _ t3, t5, hk]; rfl
  · intro a ha
    rw [List.cons_append, List.mem_cons] at ha
    rcases ha with rfl | ha
    · have hG := hC.heap.guards 10 (by norm_num)
      have hG' := hC'.heap.guards 10 (by norm_num)
      rw [hg] at hG'
      have e0 := hC.gbe
      have ea : s.guard_blocks_end = s.guard_blocks_start + 32 * 10 + 16 := by omega
      have hs1 : bt_size s s.guard_blocks_end = 16 :=
        bt_size_eq (F := 1) (by rw [ea, hG.2.2.1]) (by norm_num) (by norm_num) le_rfl
      have hs2 : bt_size s' s.guard_blocks_end = 16 :=
        bt_size_eq (F := 1) (by rw [ea, hG'.2.2.1]) (by norm_num) (by norm_num) le_rfl
      have ef : bt_footer s s.guard_blocks_end = s.guard_blocks_start + 32 * 10 + 28 := by
        unfold bt_footer; rw [hs1, sext_of_lt _ (by norm_num)]; omega
      have ef' : bt_footer s' s.guard_blocks_end = s.guard_blocks_start + 32 * 10 + 28 := by
        unfold bt_footer; rw [hs2, sext_of_lt _ (by norm_num)]; omega
      refine ⟨?_, by rw [ef, ef'], ?_⟩
      · rw [ea, hG.2.2.1, hG'.2.2.1]
      · rw [ef, hG.2.2.2, hG'.2.2.2]
    · rw [← List.map_append] at ha
      obtain ⟨b, hb, rfl⟩ := List.mem_map.1 ha
      have hb1 : b ∈ A ++ (M ++ B) := by
        simp only [List.mem_append] at hb ⊢; tauto
      have hb2 : b ∈ A ++ Y :: B := by
        simp only [List.mem_append, List.mem_cons] at hb ⊢; tauto
      obtain ⟨e1, -, e3, e4, e5⟩ := hI.tags hb1
      obtain ⟨f1, -, -, f4, f5⟩ := hI'.tags hb2
      refine ⟨by rw [e4, f4], ?_, ?_⟩
      · unfold bt_footer; rw [e1, f1]
      · unfold bt_footer; rw [e1, sext_of_lt _ e3, e5, f5]
  · rw [hC'.last, hC.last, lastAddr_append_cons, ← List.append_assoc, lastAddr_app]
    by_cases hB : B = []
    · subst hB
      simp only [lastAddr, true_iff]
      rw [lastAddr_app]
      exact lastAddr_of_ne _ hM
    · obtain ⟨b, hb, e⟩ := lastAddr_in Y.a hB
      have e2 : lastAddr (lastAddr (s.guard_blocks_start + 336) (A ++ M)) B = b.a := by
        rw [lastAddr_indep _ Y.a hB]; exact e
      rw [e, e2]
      have hs' := Tiles_sorted hC'.heap.tiles
      have hs := Tiles_sorted hC.heap.tiles
      have h1 := (List.pairwise_cons.1 (List.pairwise_append.1 hs').2.1).1 b hb
      constructor
      · intro h; omega
      · intro h
        exfalso
        obtain ⟨m, hm, hma⟩ := List.mem_map.1 h
        have h2 := (List.pairwise_append.1 (List.pairwise_append.1 hs).2.1).2.2 m hm b hb
        omega

theorem NoAdj_around {pre post : List Blk} {y : Blk} (h : NoAdj (pre ++ y :: post))
    (hk : y.k = .free) :
    (∀ pre' pv, pre = pre' ++ [pv] → pv.k ≠ .free) ∧
      (∀ nx post', post = nx :: post' → nx.k ≠ .free) := by
  obtain ⟨h1, h2⟩ := NoAdj_split.1 h
  constructor
  · intro pre' pv e
    subst e
    rcases (NoAdj_append_single.1 h1).2 with h3 | h3
    · exact h3
    · exact absurd hk h3
  · intro nx post' e
    subst e
    rcases (NoAdj_cons.1 h2).1 with h3 | h3
    · exact absurd hk h3
    · exact h3

/-- What `free` finds before the block: nothing to merge, or the free block before it. -/
theorem Inv.prev_run {s : State} {pre post : List Blk} {x : Blk} {fl : Nat → List Nat}
    {L : List Nat} (hI : Inv s (pre ++ x :: post) fl L) :
    ((∀ pre' pv, pre = pre' ++ [pv] → pv.k ≠ .free) →
        (if bt_prev s x.a ≠ 0 then bt_used s (bt_prev s x.a) else 1) = 1) ∧
      (∀ pre' pv, pre = pre' ++ [pv] → pv.k = .free →
        (if bt_prev s x.a ≠ 0 then bt_used s (bt_prev s x.a) else 1) = 0 ∧
          bt_prev s x.a = pv.a) := by
  obtain ⟨h0, hc⟩ := hI.core.prev_info (fun b hb => hI.abs.noraw b (by simp [hb]))
  rw [if_pos h0]
  constructor
  · intro hn
    rcases hc with ⟨h1, -⟩ | ⟨-, pre', pv, e, hk, -⟩
    · exact h1
    · exact absurd hk (hn pre' pv e)
  · intro pre' pv e hk
    rcases hc with ⟨-, h1⟩ | ⟨h1, pre2, pv2, e2, -, h2⟩
    · have := h1 pre' pv e
      rw [hk] at this
      exact absurd this (by decide)
    · rw [e] at e2
      obtain ⟨-, e3⟩ := List.append_inj' e2 rfl
      simp only [List.cons.injEq, and_true] at e3
      rw [e3]
      exact ⟨h1, h2⟩

/-- What `free` finds after the block: nothing to merge, or the free block after it. -/
theorem Inv.next_run {s : State} {pre post : List Blk} {x : Blk} {fl : Nat → List Nat}
    {L : List Nat} (hI : Inv s (pre ++ x :: post) fl L) :
    ((∀ nx post', post = nx :: post' → nx.k ≠ .free) →
        (if bt_next s x.a ≠ 0 then bt_used s (bt_next s x.a) else 1) = 1) ∧
      (∀ nx post', post = nx :: post' → nx.k = .free →
        (if bt_next s x.a ≠ 0 then bt_used s (bt_next s x.a) else 1) = 0 ∧
          bt_next s x.a = nx.a) := by
  have hc := hI.core.next_info (hI.abs.noraw x (by simp))
    (fun b hb => hI.abs.noraw b (by simp [hb]))
  constructor
  · intro hn
    rcases hc with ⟨h1, -⟩ | ⟨-, nx, post', e, hk, -⟩
    · exact h1
    · exact absurd hk (hn nx post' e)
  · intro nx post' e hk
    rcases hc with ⟨-, h1⟩ | ⟨h1, nx2, post2, e2, -, h2⟩
    · have := h1 nx post' e
      rw [hk] at this
      exact absurd this (by decide)
    · rw [e] at e2
      simp only [List.cons.injEq] at e2
      rw [e2.1]
      exact ⟨h1, h2⟩

/-- C17: in a state reachable from `mm_init`, for a live pointer `p`: after `free p`, the
block of `p` and the neighbours that are not in use, which are consecutive blocks of the
heap walk, have become one block at the lowest of their addresses; its header and footer
hold the sum of their sizes, with the flag of a free block; the tags of the other blocks
of the walk are the same as before; and `last` is the new block exactly when `last` was one
of the blocks merged. -/
theorem free_merges {s : State} {L : List Nat} {p : Nat} (hR : Reachable s L) (hp : p ∈ L)
    (F : Nat) (hF : s.heap_end ≤ F) :
    ∃ pre post lo rest,
      free_run s (bt_fromptr p) = lo :: rest ∧ (∀ a ∈ rest, lo < a) ∧
      heap_blocks s F s.guard_blocks_end = some (pre ++ free_run s (bt_fromptr p) ++ post) ∧
      heap_blocks (free s p) F (free s p).guard_blocks_end = some (pre ++ [lo] ++ post) ∧
      rd (free s p).mem lo =
        ((free_run s (bt_fromptr p)).map (fun a => sext (bt_size s a))).sum ∧
      rd (free s p).mem (bt_footer (free s p) lo) =
        ((free_run s (bt_fromptr p)).map (fun a => sext (bt_size s a))).sum ∧
      (∀ a ∈ pre ++ post,
        rd (free s p).mem a = rd s.mem a ∧ bt_footer (free s p) a = bt_footer s a ∧
          rd (free s p).mem (bt_footer s a) = rd s.mem (bt_footer s a)) ∧
      ((free s p).last = lo ↔ s.last ∈ free_run s (bt_fromptr p)) := by
  obtain ⟨bs, fl, hI⟩ := hR.inv
  obtain ⟨bs', fl', hI', -, pre, x, post, hbs, hxk, hxp, hcase⟩ := free_spec hI hp
  obtain ⟨-, hg, -, -⟩ := free_vars s p
  have he := (free_vars s p).1
  subst hbs hxp
  simp only [bt_fromptr, Nat.add_sub_cancel]
  have hsorted := Tiles_sorted hI.core.heap.tiles
  rcases hcase with h | ⟨pre', pv, h1, hpk, h⟩ | ⟨nx, post', h1, hnk, h⟩ |
      ⟨pre', pv, nx, post', h1, h2, hpk, hnk, h⟩
  · subst h
    obtain ⟨n1, n2⟩ := NoAdj_around hI'.abs.noadj rfl
    have hpu := hI.prev_run.1 n1
    have hnu := hI.next_run.1 n2
    have hrun : free_run s x.a = [x.a] := by
      unfold free_run
      simp only [hpu, hnu]
      rfl
    obtain ⟨m1, m2, m3, m4, m5, m6⟩ := merge_walk (M := [x]) (B := post) hI hI' hg he
      (by simp) rfl (by simp) F hF
    rw [hrun]
    exact ⟨_, _, x.a, [], rfl, by simp, m1, m2, m3, m4, m5, m6⟩
  · subst h h1
    obtain ⟨-, n2⟩ := NoAdj_around hI'.abs.noadj rfl
    obtain ⟨hpu, hpa⟩ := hI.prev_run.2 pre' pv rfl hpk
    have hnu := hI.next_run.1 n2
    have hrun : free_run s x.a = [pv.a, x.a] := by
      rw [hpa] at hpu
      unfold free_run
      simp only [hpa, hpu, hnu]
      rfl
    have hlt : pv.a < x.a := by
      have := (List.pairwise_append.1 hsorted).2.2 pv (by simp) x (by simp)
      exact this
    obtain ⟨m1, m2, m3, m4, m5, m6⟩ := merge_walk (A := pre') (M := [pv, x]) (B := post)
      (Y := ⟨pv.a, pv.sz + x.sz, .free⟩) (by simpa using hI) hI' hg he (by simp) rfl
      (by simp) F hF
    rw [hrun]
    exact ⟨_, _, pv.a, [x.a], rfl, by simpa using hlt, m1, m2, m3, m4, m5, m6⟩
  · subst h h1
    obtain ⟨n1, -⟩ := NoAdj_around hI'.abs.noadj rfl
    have hpu := hI.prev_run.1 n1
    obtain ⟨hnu, hna⟩ := hI.next_run.2 nx post' rfl hnk
    have hrun : free_run s x.a = [x.a, nx.a] := by
      rw [hna] at hnu
      unfold free_run
      simp only [hna, hpu, hnu]
      rfl
    have hlt : x.a < nx.a := by
      have := (List.pairwise_cons.1 (List.pairwise_append.1 hsorted).2.1).1 nx (by simp)
      exact this
    obtain ⟨m1, m2, m3, m4, m5, m6⟩ := merge_walk (A := pre) (M := [x, nx]) (B := post')
      (Y := ⟨x.a, x.sz + nx.sz, .free⟩) (by simpa using hI) hI' hg he (by simp) rfl
      (by simp) F hF
    rw [hrun]
    exact ⟨_, _, x.a, [nx.a], rfl, by simpa using hlt, m1, m2, m3, m4, m5, m6⟩
  · subst h h1 h2
    obtain ⟨hpu, hpa⟩ := hI.prev_run.2 pre' pv rfl hpk
    obtain ⟨hnu, hna⟩ := hI.next_run.2 nx post' rfl hnk
    have hrun : free_run s x.a = [pv.a, x.a, nx.a] := by
      rw [hpa] at hpu
      rw [hna] at hnu
      unfold free_run
      simp only [hpa, hna, hpu, hnu]
      rfl
    have hlt1 : pv.a < x.a := by
      have := (List.pairwise_append.1 hsorted).2.2 pv (by simp) x (by simp)
      exact this
    have hlt2 : x.a < nx.a := by
      have := (List.pairwise_cons.1 (List.pairwise_append.1 hsorted).2.1).1 nx (by simp)
      exact this
    obtain ⟨m1, m2, m3, m4, m5, m6⟩ := merge_walk (A := pre') (M := [pv, x, nx]) (B := post')
      (Y := ⟨pv.a, pv.sz + x.sz + nx.sz, .free⟩) (by simpa using hI) hI' hg he (by simp) rfl
      (by simp [Nat.add_assoc]) F hF
    rw [hrun]
    refine ⟨_, _, pv.a, [x.a, nx.a], rfl, ?_, m1, m2, m3, m4, m5, m6⟩
    intro a ha
    simp only [List.mem_cons, List.not_mem_nil, or_false] at ha
    rcases ha with rfl | rfl <;> omega

theorem pair1_reachable : Reachable pair1 [4464] :=
  Reachable.malloc_step heap0_reachable (by norm_num)
    (ran_val (o := malloc 20 heap0 100) (p := 4464) (by decide!))

theorem pair2_reachable : Reachable pair2 [4576, 4464] :=
  Reachable.malloc_step pair1_reachable (by norm_num)
    (ran_val (o := malloc 20 pair1 100) (p := 4576) (by decide!))

theorem pair3_reachable : Reachable pair3 [4576] :=
  Reachable.free_step pair2_reachable (Or.inr (by decide))

set_option maxRecDepth 100000 in
/-- Instance of `free_merges`, scenario S4: after `a = malloc(100); b = malloc(100);
free(a)`, the call `free(b)` merges the blocks at `4460` and `4572` into one free block of
224 bytes at `4460`, which is `last`. -/
theorem free_merges_witness :
    (∃ pre post lo rest,
      free_run pair3 (bt_fromptr 4576) = lo :: rest ∧ (∀ a ∈ rest, lo < a) ∧
      heap_blocks pair3 5000 pair3.guard_blocks_end =
        some (pre ++ free_run pair3 (bt_fromptr 4576) ++ post) ∧
      heap_blocks (free pair3 4576) 5000 (free pair3 4576).guard_blocks_end =
        some (pre ++ [lo] ++ post) ∧
      rd (free pair3 4576).mem lo =
        ((free_run pair3 (bt_fromptr 4576)).map (fun a => sext (bt_size pair3 a))).sum ∧
      rd (free pair3 4576).mem (bt_footer (free pair3 4576) lo) =
        ((free_run pair3 (bt_fromptr 4576)).map (fun a => sext (bt_size pair3 a))).sum ∧
      (∀ a ∈ pre ++ post,
        rd (free pair3 4576).mem a = rd pair3.mem a ∧
          bt_footer (free pair3 4576) a = bt_footer pair3 a ∧
          rd (free pair3 4576).mem (bt_footer pair3 a) = rd pair3.mem (bt_footer pair3 a)) ∧
      ((free pair3 4576).last = lo ↔ pair3.last ∈ free_run pair3 (bt_fromptr 4576))) ∧
    (free_run pair3 (bt_fromptr 4576) = [4460, 4572] ∧ rd (free pair3 4576).mem 4460 = 224 ∧
      (free pair3 4576).last = 4460 ∧
      heap_blocks (free pair3 4576) 20 (free pair3 4576).guard_blocks_end =
        some [(free pair3 4576).guard_blocks_end, 4460]) :=
  ⟨free_merges pair3_reachable (by decide) 5000 (by decide!), by decide!⟩

/-! ## The words an operation writes -/

theorem Touch_refl (m : Mem) : Touch m m [] := fun _ _ => rfl

theorem Touch_wr (m : Mem) (a v : Nat) : Touch m (wr m a v) [a] := by
  intro z hz
  exact wr_get_ne m a v z (hz a (List.mem_singleton.2 rfl))

theorem Touch_trans {m m' m'' : Mem} {W W' : List Nat} (h1 : Touch m m' W)
    (h2 : Touch m' m'' W') : Touch m m'' (W ++ W') := by
  intro z hz
  rw [h2 z (fun w hw => hz w (List.mem_append_right _ hw)),
    h1 z (fun w hw => hz w (List.mem_append_left _ hw))]

theorem Touch_sub {m m' : Mem} {W W' : List Nat} (h : Touch m m' W)
    (hs : ∀ w ∈ W, w ∈ W') : Touch m m' W' :=
  fun z hz => h z (fun w hw => hz w (hs w hw))

/-- A byte that changed lies in one of the words written. -/
theorem Touch_changed {m m' : Mem} {W : List Nat} (h : Touch m m' W) {z : Nat}
    (hz : m' z ≠ m z) : ∃ w ∈ W, w ≤ z ∧ z < w + 4 := by
  by_contra hc
  push_neg at hc
  apply hz
  apply h
  intro w hw
  have := hc w hw
  omega

/-- The two words that a stamp of boundary tags writes. -/
theorem Touch_stamp (m : Mem) (a b v : Nat) : Touch m (wr (wr m a v) b v) [a, b] :=
  Touch_trans (Touch_wr m a v) (Touch_wr _ b v)

theorem bt_make_touch (s : State) (a sz fl : Nat) (h1 : sz % 2 = 0) (h2 : sz < 2 ^ 31)
    (h3 : fl ≤ 1) : Touch s.mem (bt_make s a sz fl).mem [a, a + sz - 4] := by
  rw [bt_make_eq s a sz fl h1 h2 h3]
  exact Touch_stamp _ _ _ _

/-- The nodes before and after a node of a list. -/
theorem Heap.around {m : Mem} {g e : Nat} {bs : List Blk} {fl : Nat → List Nat}
    (H : Heap m g e bs fl) {j b : Nat} (hj : j < 11) (hb : b ∈ fl j) :
    ∃ u v, rd m (b + 4) = u - g ∧ rd m (b + 8) = v - g ∧
      (u = g + 32 * j ∨ u ∈ fl j) ∧ (v = g + 32 * j + 16 ∨ v ∈ fl j) ∧
      g ≤ u ∧ g ≤ v := by
  obtain ⟨A, B, hAB⟩ := List.append_of_mem hb
  obtain ⟨A', u, hA⟩ : ∃ A' u, (g + 32 * j) :: A = A' ++ [u] := by
    rcases List.eq_nil_or_concat ((g + 32 * j) :: A) with h | ⟨A', u, h⟩
    · exact absurd h (by simp)
    · exact ⟨A', u, by rw [h, List.concat_eq_append]⟩
  obtain ⟨v, rest, hv⟩ : ∃ v rest, B ++ [g + 32 * j + 16] = v :: rest := by
    cases B with
    | nil => exact ⟨_, _, rfl⟩
    | cons v r => exact ⟨v, r ++ [g + 32 * j + 16], rfl⟩
  have h1 : (g + 32 * j) :: (fl j ++ [g + 32 * j + 16]) = A' ++ u :: b :: v :: rest := by
    rw [hAB, List.append_assoc, List.cons_append, ← List.cons_append, hA, hv]
    simp
  have h2 : (g + 32 * j) :: (fl j ++ [g + 32 * j + 16]) = (A' ++ [u]) ++ b :: v :: rest := by
    rw [h1]; simp
  have l1 := Links_pair (H.links j hj) h1
  have l2 := Links_pair (H.links j hj) h2
  have hu : u ∈ (g + 32 * j) :: A := by rw [hA]; simp
  have hvm : v ∈ B ++ [g + 32 * j + 16] := by rw [hv]; simp
  have hu' : u = g + 32 * j ∨ u ∈ fl j := by
    rcases List.mem_cons.1 hu with h | h
    · exact Or.inl h
    · exact Or.inr (by rw [hAB]; simp [h])
  have hv' : v = g + 32 * j + 16 ∨ v ∈ fl j := by
    rcases List.mem_append.1 hvm with h | h
    · exact Or.inr (by rw [hAB]; simp [h])
    · exact Or.inl (List.mem_singleton.1 h)
  refine ⟨u, v, l1.2, l2.1, hu', hv', ?_, ?_⟩
  · rcases hu' with h | h
    · omega
    · have := H.node_lo hj h; omega
  · rcases hv' with h | h
    · omega
    · have := H.node_lo hj h; omega

/-- The first node of a list. -/
theorem Heap.first {m : Mem} {g e : Nat} {bs : List Blk} {fl : Nat → List Nat}
    (H : Heap m g e bs fl) {k : Nat} (hk : k < 11) :
    ∃ n, rd m (g + 32 * k + 8) = n - g ∧ (n = g + 32 * k + 16 ∨ n ∈ fl k) ∧ g ≤ n := by
  obtain ⟨n, l, hn⟩ : ∃ n l, fl k ++ [g + 32 * k + 16] = n :: l := by
    cases fl k with
    | nil => exact ⟨_, _, rfl⟩
    | cons y l => exact ⟨y, l ++ [g + 32 * k + 16], rfl⟩
  have hl := H.links k hk
  rw [hn] at hl
  have hnm : n ∈ fl k ++ [g + 32 * k + 16] := by rw [hn]; simp
  have hn' : n = g + 32 * k + 16 ∨ n ∈ fl k := by
    rcases List.mem_append.1 hnm with h | h
    · exact Or.inr h
    · exact Or.inl (List.mem_singleton.1 h)
  refine ⟨n, hl.1.1, hn', ?_⟩
  rcases hn' with h | h
  · omega
  · have := H.node_lo hk h; omega

theorem remove_block_touch (s : State) (p : Nat) :
    Touch s.mem (remove_block s p).mem [prev_free s p + 8, next_free s p + 4] := by
  unfold remove_block set_next_offset set_prev_offset State.store
  exact Touch_trans (Touch_wr _ _ _) (Touch_wr _ _ _)

theorem insert_block_touch (s : State) (b : Nat) :
    Touch s.mem (insert_block s b).mem
      [next_free s (get_list s (sext (bt_size s b))) + 4,
        get_list s (sext (bt_size s b)) + 8, b + 4, b + 8] := by
  unfold insert_block set_next_offset set_prev_offset State.store
  exact Touch_trans (Touch_trans (Touch_trans (Touch_wr _ _ _) (Touch_wr _ _ _))
    (Touch_wr _ _ _)) (Touch_wr _ _ _)

/-- The words `remove_block` writes: a link word of the node before and of the node after. -/
theorem Core.remove_touch {s : State} {bs : List Blk} {fl : Nat → List Nat} (hC : Core s bs fl)
    {b : Blk} {j : Nat} (hj : j < 11) (hb : b ∈ bs) (hk : b.k = .free) (hm : b.a ∈ fl j) :
    ∃ u v, (u = s.guard_blocks_start + 32 * j ∨ u ∈ fl j) ∧
      (v = s.guard_blocks_start + 32 * j + 16 ∨ v ∈ fl j) ∧
      Touch s.mem (remove_block s b.a).mem [u + 8, v + 4] := by
  obtain ⟨u, v, hu, hv, hun, hvn, gu, gv⟩ := hC.heap.around hj hm
  have hbd := hC.heap.bound
  have hge := Tiles_le hC.heap.tiles
  have hur : u < s.guard_blocks_start + 2 ^ 31 := by
    rcases hun with h | h
    · omega
    · have := hC.heap.node_lo hj h; omega
  have hvr : v < s.guard_blocks_start + 2 ^ 31 := by
    rcases hvn with h | h
    · omega
    · have := hC.heap.node_lo hj h; omega
  have hB := hC.size_lt hb
  have hT := hC.header hb (by rw [hk]; decide)
  simp only [hk, Kind.flag, Nat.add_zero] at hT
  have hhead : is_head s b.a = false := by
    unfold is_head; rw [hT.1]; simp; omega
  have htail : is_tail s b.a = false := by
    unfold is_tail; rw [hT.1]
    have : b.sz ≠ 17 := by omega
    simp [this]
  have e1 : prev_free s b.a = u := by
    simp only [prev_free, hhead, get_prev_offset, hu, hC.hs, Bool.false_eq_true, if_false]
    rw [sext_of_lt _ (by omega)]
    omega
  have e2 : next_free s b.a = v := by
    simp only [next_free, htail, get_next_offset, hv, hC.hs, Bool.false_eq_true, if_false]
    rw [sext_of_lt _ (by omega)]
    omega
  refine ⟨u, v, hun, hvn, ?_⟩
  have := remove_block_touch s b.a
  rw [e1, e2] at this
  exact this

/-- The words `insert_block` writes: a link word of the head guard and of the first node
of the list, and the two link words of the block. -/
theorem Core.insert_touch {s : State} {bs : List Blk} {fl : Nat → List Nat} (hC : Core s bs fl)
    {b : Blk} (hb : b ∈ bs) (hk : b.k = .free) :
    ∃ n, (n = s.guard_blocks_start + 32 * list_idx b.sz + 16 ∨ n ∈ fl (list_idx b.sz)) ∧
      Touch s.mem (insert_block s b.a).mem
        [n + 4, s.guard_blocks_start + 32 * list_idx b.sz + 8, b.a + 4, b.a + 8] := by
  have hidx := list_idx_lt b.sz
  obtain ⟨n, hn, hnn, gn⟩ := hC.heap.first hidx
  have hbd := hC.heap.bound
  have hge := Tiles_le hC.heap.tiles
  have hnr : n < s.guard_blocks_start + 2 ^ 31 := by
    rcases hnn with h | h
    · omega
    · have := hC.heap.node_lo hidx h; omega
  have hB := hC.size_lt hb
  have hT := hC.header hb (by rw [hk]; decide)
  simp only [hk, Kind.flag, Nat.add_zero] at hT
  have hsz : bt_size s b.a = b.sz := bt_size_eq (F := 0) hT.1 (by omega) (by omega) (by omega)
  have hlist : get_list s b.sz = s.guard_blocks_start + 32 * list_idx b.sz :=
    get_list_eq s b.sz (by omega) (by omega) hC.sls
  have hG := hC.heap.guards _ hidx
  have htail : is_tail s (s.guard_blocks_start + 32 * list_idx b.sz) = false := by
    unfold is_tail; rw [hG.1]; simp
  have e2 : next_free s (s.guard_blocks_start + 32 * list_idx b.sz) = n := by
    simp only [next_free, htail, get_next_offset, hn, hC.hs, Bool.false_eq_true, if_false]
    rw [sext_of_lt _ (by omega)]
    omega
  refine ⟨n, hnn, ?_⟩
  have := insert_block_touch s b.a
  rw [hsz, sext_of_lt _ hB.2.2.2.2.1, hlist, e2] at this
  exact this

theorem Changes_of_touch {m m' : Mem} {W : List Nat} {Q : Nat → Prop} (h : Touch m m' W)
    (hq : ∀ w ∈ W, Q w) : Changes m m' (fun z => ∃ w, w ≤ z ∧ z < w + 4 ∧ Q w) := by
  intro z hz
  obtain ⟨w, hw, h1, h2⟩ := Touch_changed h hz
  exact ⟨w, h1, h2, hq w hw⟩

theorem Changes_trans {m m' m'' : Mem} {P Q : Nat → Prop} (h1 : Changes m m' P)
    (h2 : Changes m' m'' Q) : Changes m m'' (fun z => P z ∨ Q z) := by
  intro z hz
  by_cases h : m' z = m z
  · exact Or.inr (h2 z (by rw [h]; exact hz))
  · exact Or.inl (h1 z h)

theorem Changes_mono {m m' : Mem} {P Q : Nat → Prop} (h : Changes m m' P)
    (hpq : ∀ z, P z → Q z) : Changes m m' Q := fun z hz => hpq z (h z hz)

theorem Guardw_head (g : Nat) {i : Nat} (hi : i < 11) :
    Guardw g (g + 32 * i + 4) ∧ Guardw g (g + 32 * i + 8) :=
  ⟨⟨2 * i, by omega, Or.inl (by omega)⟩, ⟨2 * i, by omega, Or.inr (by omega)⟩⟩

theorem Guardw_tail (g : Nat) {i : Nat} (hi : i < 11) :
    Guardw g (g + 32 * i + 16 + 4) ∧ Guardw g (g + 32 * i + 16 + 8) :=
  ⟨⟨2 * i + 1, by omega, Or.inl (by omega)⟩, ⟨2 * i + 1, by omega, Or.inr (by omega)⟩⟩

/-- The link words of a node of a list are words of the bookkeeping. -/
theorem Inv.node_meta {s : State} {bs : List Blk} {fl : Nat → List Nat} {L : List Nat}
    (hI : Inv s bs fl L) {i u : Nat} (hi : i < 11)
    (hu : u = s.guard_blocks_start + 32 * i ∨ u = s.guard_blocks_start + 32 * i + 16 ∨
      u ∈ fl i) :
    Metaw s.guard_blocks_start bs (u + 4) ∧ Metaw s.guard_blocks_start bs (u + 8) := by
  rcases hu with h | h | h
  · rw [h]
    exact ⟨Or.inr (Or.inr (Guardw_head _ hi).1), Or.inr (Or.inr (Guardw_head _ hi).2)⟩
  · rw [h]
    exact ⟨Or.inr (Or.inr (Guardw_tail _ hi).1), Or.inr (Or.inr (Guardw_tail _ hi).2)⟩
  · obtain ⟨b, hb, hba, hbk⟩ := hI.abs.in_free i hi u h
    rw [← hba]
    exact ⟨Or.inr (Or.inl ⟨b, hb, hbk, Or.inl rfl⟩), Or.inr (Or.inl ⟨b, hb, hbk, Or.inr rfl⟩)⟩

/-- The words `malloc` writes when it extends the heap: the tags of the new block. -/
theorem malloc_grown_touch {s : State} {bs : List Blk} {fl : Nat → List Nat} {L : List Nat}
    (hI : Inv s bs fl L) {size : Nat} (hm : size % 16 = 0)
    (hfit : s.mem_brk + size ≤ s.mem_max_addr) :
    ∃ W, Touch s.mem (malloc_grown s size).mem W ∧
      ∀ w ∈ W, Metaw s.guard_blocks_start (bs ++ [⟨s.heap_end, size, .used⟩]) w := by
  have hC := hI.core
  have hbrk := hC.brk
  have hlim := hC.lim
  have hge := Tiles_le hC.heap.tiles
  refine ⟨[s.heap_end, s.heap_end + size - 4], ?_, ?_⟩
  · unfold malloc_grown
    rw [hbrk]
    exact bt_make_touch _ _ _ _ (by omega) (by omega) (by omega)
  · intro w hw
    simp only [List.mem_cons, List.not_mem_nil, or_false] at hw
    left
    refine ⟨⟨s.heap_end, size, .used⟩, by simp, ?_⟩
    rcases hw with h | h
    · exact Or.inl h
    · exact Or.inr h

/-- The state between the stamp of the remainder and its insertion, in a split. -/
theorem Core.split_stamp {s : State} {pre post : List Blk} {x : Blk} {fl : Nat → List Nat}
    (hC : Core s (pre ++ x :: post) fl) (hxk : x.k ≠ .used)
    {size : Nat} (h16 : 16 ≤ size) (hmod : size % 16 = 0) (hlt : size < x.sz) :
    Core { bt_make s (x.a + size) (x.sz - size) 0 with
        last := if x.a = s.last then x.a + size else s.last }
      (pre ++ ([⟨x.a, size, .raw⟩] ++ [⟨x.a + size, x.sz - size, .free⟩]) ++ post) fl := by
  have hx : x ∈ pre ++ x :: post := by simp
  have hX := hC.size_lt hx
  obtain ⟨c, hc, hx_t⟩ := Tiles_append.1 hC.heap.tiles
  obtain ⟨hxa, -, -, -, hd⟩ := hx_t
  subst hxa
  have hsorted := Tiles_sorted hC.heap.tiles
  have H2 := Heap_stamp (k := .free) (P := pre) (M := [x]) (l := [⟨x.a, size, .raw⟩])
    (Q := post) (a := x.a + size) (Z := x.sz - size)
    (by simpa using hC.heap) hc hd (by simp [Tagged, h16, hmod]) (by simp)
    (by omega) (by omega) (by omega) (by decide)
    (by
      intro i hi a ha b hb hba
      simp only [List.mem_singleton] at hb
      subst hb
      exact ⟨⟨b.a, size, .raw⟩, by simp, hba, by simp⟩)
  have hlast2 : (if x.a = s.last then x.a + size else s.last) =
      lastAddr (s.guard_blocks_start + 336)
        (pre ++ ([⟨x.a, size, .raw⟩] ++ [⟨x.a + size, x.sz - size, .free⟩]) ++ post) := by
    have hl := hC.last
    by_cases hp : post = []
    · subst hp
      rw [hl]
      simp [lastAddr_app, lastAddr]
    · obtain ⟨b, hb, hbl⟩ := lastAddr_in x.a hp
      have hxb : x.a < b.a :=
        (List.pairwise_cons.1 (List.pairwise_append.1 hsorted).2.1).1 b hb
      have e1 : s.last = b.a := by
        rw [hl, lastAddr_append_cons]; exact hbl
      rw [e1, if_neg (by omega), lastAddr_app, lastAddr_indep _ x.a hp, hbl]
  have hC3 := hC.restamp (k := .free) (l := if x.a = s.last then x.a + size else s.last)
    H2 (by omega) (by omega) hlast2
  simp only [Kind.flag] at hC3
  exact hC3

/-- The words `malloc` writes when it takes a free block. -/
theorem malloc_found_touch {s : State} {pre post : List Blk} {x : Blk} {fl : Nat → List Nat}
    {L : List Nat} (hI : Inv s (pre ++ x :: post) fl L) {j : Nat} (hj : j < 11)
    (hxk : x.k = .free) (hm : x.a ∈ fl j) {size : Nat} (h16 : 16 ≤ size)
    (hmod : size % 16 = 0) (hle : size ≤ x.sz) :
    ∃ W, Touch s.mem (malloc_found s x.a size).mem W ∧
      ∀ w ∈ W, Metaw s.guard_blocks_start (pre ++ x :: post) w ∨
        Metaw s.guard_blocks_start (pre ++ ⟨x.a, size, .used⟩ ::
          ((if size < x.sz then [⟨x.a + size, x.sz - size, .free⟩] else []) ++ post)) w := by
  have hx : x ∈ pre ++ x :: post := by simp
  obtain ⟨hC1, -⟩ := hI.core.remove hj hx hxk hm
  obtain ⟨u, v, hu, hv, T1⟩ := hI.core.remove_touch hj hx hxk hm
  have hX := hC1.size_lt hx
  have hT1 := hC1.header hx (by rw [hxk]; decide)
  simp only [hxk, Kind.flag, Nat.add_zero] at hT1
  have hsz1 : bt_size (remove_block s x.a) x.a = x.sz :=
    bt_size_eq (F := 0) hT1.1 (by omega) (by omega) (by omega)
  have hum := (hI.node_meta hj (u := u) (by tauto)).2
  have hvm := (hI.node_meta hj (u := v) (by tauto)).1
  have hxt : Tagw (pre ++ x :: post) x.a := ⟨x, hx, Or.inl rfl⟩
  by_cases hlt : size < x.sz
  · have hssz : (x.sz + (2 ^ 64 - size)) % 2 ^ 64 = x.sz - size := by omega
    have hfinal : malloc_found s x.a size = bt_make (insert_block
        (if x.a = (bt_make (remove_block s x.a) (x.a + size) (x.sz - size) 0).last then
          { bt_make (remove_block s x.a) (x.a + size) (x.sz - size) 0 with last := x.a + size }
         else bt_make (remove_block s x.a) (x.a + size) (x.sz - size) 0) (x.a + size))
        x.a size 1 := by
      unfold malloc_found
      simp only [hsz1, sext_of_lt _ hX.2.2.2.2.1, hssz, hlt, if_true]
    rw [hfinal, ite_last, bt_make_last, if_pos hlt]
    have hC3 := hC1.split_stamp (by rw [hxk]; decide) h16 hmod hlt
    obtain ⟨s3, hs3⟩ : ∃ s3 : State, s3 = { bt_make (remove_block s x.a) (x.a + size)
        (x.sz - size) 0 with
      last := if x.a = (remove_block s x.a).last then x.a + size
        else (remove_block s x.a).last } := ⟨_, rfl⟩
    rw [← hs3] at hC3 ⊢
    have T2 : Touch (remove_block s x.a).mem s3.mem
        [x.a + size, x.a + size + (x.sz - size) - 4] := by
      rw [hs3]
      exact bt_make_touch _ _ _ _ (by omega) (by omega) (by omega)
    have hnb : (⟨x.a + size, x.sz - size, .free⟩ : Blk) ∈
        pre ++ ([⟨x.a, size, .raw⟩] ++ [⟨x.a + size, x.sz - size, .free⟩]) ++ post := by simp
    obtain ⟨n, hn, T3⟩ := hC3.insert_touch hnb rfl
    simp only at hn T3
    have T4 := bt_make_touch (insert_block s3 (x.a + size)) x.a size 1 (by omega) (by omega)
      (by omega)
    have hg3 : s3.guard_blocks_start = s.guard_blocks_start := by rw [hs3]; rfl
    rw [hg3] at hn T3
    refine ⟨_, Touch_trans (Touch_trans (Touch_trans T1 T2) T3) T4, ?_⟩
    have hrem : (⟨x.a + size, x.sz - size, .free⟩ : Blk) ∈ pre ++ ⟨x.a, size, .used⟩ ::
        ([⟨x.a + size, x.sz - size, .free⟩] ++ post) := by simp
    have hnew : (⟨x.a, size, .used⟩ : Blk) ∈ pre ++ ⟨x.a, size, .used⟩ ::
        ([⟨x.a + size, x.sz - size, .free⟩] ++ post) := by simp
    have hidx := list_idx_lt (x.sz - size)
    intro w hw
    simp only [List.mem_append, List.mem_cons, List.not_mem_nil, or_false] at hw
    rcases hw with ((((rfl | rfl) | (rfl | rfl)) | (rfl | rfl | rfl | rfl)) | (rfl | rfl))
    · exact Or.inl hum
    · exact Or.inl hvm
    · exact Or.inr (Or.inl ⟨_, hrem, Or.inl rfl⟩)
    · exact Or.inr (Or.inl ⟨_, hrem, Or.inr rfl⟩)
    · rcases hn with h | h
      · rw [h]
        exact Or.inl (Or.inr (Or.inr (Guardw_tail _ hidx).1))
      · exact Or.inl (hI.node_meta hidx (Or.inr (Or.inr (List.mem_of_mem_erase h)))).1
    · exact Or.inl (Or.inr (Or.inr (Guardw_head _ hidx).2))
    · exact Or.inr (Or.inr (Or.inl ⟨_, hrem, rfl, Or.inl rfl⟩))
    · exact Or.inr (Or.inr (Or.inl ⟨_, hrem, rfl, Or.inr rfl⟩))
    · exact Or.inl (Or.inl hxt)
    · exact Or.inr (Or.inl ⟨_, hnew, Or.inr rfl⟩)
  · have hsz : size = x.sz := by omega
    subst hsz
    have hfinal : malloc_found s x.a x.sz = bt_make (remove_block s x.a) x.a x.sz 1 := by
      unfold malloc_found
      simp only [hsz1, sext_of_lt _ hX.2.2.2.2.1, lt_irrefl, if_false]
    rw [hfinal]
    have T5 := bt_make_touch (remove_block s x.a) x.a x.sz 1 (by omega) (by omega) (by omega)
    refine ⟨_, Touch_trans T1 T5, ?_⟩
    intro w hw
    simp only [List.mem_append, List.mem_cons, List.not_mem_nil, or_false] at hw
    rcases hw with (rfl | rfl) | (rfl | rfl)
    · exact Or.inl hum
    · exact Or.inl hvm
    · exact Or.inl (Or.inl hxt)
    · exact Or.inl (Or.inl ⟨x, hx, Or.inr rfl⟩)

/-! ## The words `free` writes -/

/-- The words a merge of two neighbours writes: the header of the first and the footer of
the second. -/
theorem Core.merge_touch {s : State} {pre post : List Blk} {U V : Blk} {fl : Nat → List Nat}
    (hC : Core s (pre ++ U :: V :: post) fl) (h1 : U.k = .free) (h2 : V.k = .free) :
    Touch s.mem (coalese_back s V.a).mem [U.a, V.a + V.sz - 4] := by
  have hm1 : U ∈ pre ++ U :: V :: post := by simp
  have hm2 : V ∈ pre ++ U :: V :: post := by simp
  have hA1 := hC.size_lt hm1
  have hA2 := hC.size_lt hm2
  have hT1 := hC.header hm1 (by rw [h1]; decide)
  have hT2 := hC.header hm2 (by rw [h2]; decide)
  simp only [h1, h2, Kind.flag, Nat.add_zero] at hT1 hT2
  obtain ⟨c, hc, ht⟩ := Tiles_append.1 hC.heap.tiles
  obtain ⟨hca, -, -, -, ht2⟩ := ht
  obtain ⟨hca2, -, -, -, hd⟩ := ht2
  subst hca
  have hlim := hC.heap.bound
  have hsum : U.sz + V.sz < 2 ^ 31 := by
    have := Tiles_le hd; omega
  have hs1 : bt_size s U.a = U.sz := bt_size_eq (F := 0) hT1.1 (by omega) (by omega) (by omega)
  have hs2 : bt_size s V.a = V.sz := bt_size_eq (F := 0) hT2.1 (by omega) (by omega) (by omega)
  have hf1 : bt_size s (V.a - 4) = U.sz := by
    apply bt_size_eq (F := 0) _ (by omega) (by omega) (by omega)
    rw [← hT1.2]; congr 1; omega
  have hprev : bt_prev s V.a = U.a := by
    unfold bt_prev
    rw [if_neg (by have := hC.hs; omega), hf1, sext_of_lt _ (by omega)]
    omega
  have hback : coalese_back s V.a =
      { bt_make s U.a (U.sz + V.sz) Kind.free.flag with
        last := if V.a = s.last then U.a else s.last } := by
    unfold coalese_back
    simp only [hprev]
    simp only [bt_size_with_last, hs1, hs2]
    rw [Nat.mod_eq_of_lt (by omega), Nat.add_comm V.sz U.sz]
    rw [bt_make_eq _ _ _ _ (by omega) hsum (by omega),
      bt_make_eq _ _ _ _ (by omega) hsum (by simp [Kind.flag])]
    rfl
  rw [hback]
  have e : V.a + V.sz - 4 = U.a + (U.sz + V.sz) - 4 := by omega
  rw [e]
  exact bt_make_touch s U.a (U.sz + V.sz) Kind.free.flag (by omega) hsum (by simp [Kind.flag])

/-- The words the stamp of `free` writes. -/
theorem Core.retag_touch {s : State} {bs : List Blk} {fl : Nat → List Nat} (hC : Core s bs fl)
    {y : Blk} (hy : y ∈ bs) : Touch s.mem (bt_make s y.a y.sz 0).mem [y.a, y.a + y.sz - 4] := by
  have hY := hC.size_lt hy
  exact bt_make_touch _ _ _ _ (by omega) (by omega) (by omega)

/-- The words `free` writes when no neighbour is free. -/
theorem free_UU_touch {s : State} {pre post : List Blk} {x : Blk} {fl : Nat → List Nat}
    {L : List Nat} (hI : Inv s (pre ++ x :: post) fl L) :
    ∃ W, Touch s.mem (insert_block (bt_make s x.a x.sz 0) x.a).mem W ∧
      ∀ w ∈ W, Metaw s.guard_blocks_start (pre ++ x :: post) w ∨
        Metaw s.guard_blocks_start (pre ++ ⟨x.a, x.sz, .free⟩ :: post) w := by
  have hx : x ∈ pre ++ x :: post := by simp
  obtain ⟨hC1, -⟩ := hI.core.retag_free
  have T1 := hI.core.retag_touch hx
  have hnb : (⟨x.a, x.sz, .free⟩ : Blk) ∈ pre ++ ⟨x.a, x.sz, .free⟩ :: post := by simp
  obtain ⟨n, hn, T2⟩ := hC1.insert_touch hnb rfl
  simp only at hn T2
  have hg : (bt_make s x.a x.sz 0).guard_blocks_start = s.guard_blocks_start := rfl
  rw [hg] at hn T2
  have hidx := list_idx_lt x.sz
  refine ⟨_, Touch_trans T1 T2, ?_⟩
  intro w hw
  simp only [List.mem_append, List.mem_cons, List.not_mem_nil, or_false] at hw
  rcases hw with (rfl | rfl) | (rfl | rfl | rfl | rfl)
  · exact Or.inl (Or.inl ⟨x, hx, Or.inl rfl⟩)
  · exact Or.inl (Or.inl ⟨x, hx, Or.inr rfl⟩)
  · exact Or.inl (hI.node_meta hidx (Or.inr hn)).1
  · exact Or.inl (Or.inr (Or.inr (Guardw_head _ hidx).2))
  · exact Or.inr (Or.inr (Or.inl ⟨_, hnb, rfl, Or.inl rfl⟩))
  · exact Or.inr (Or.inr (Or.inl ⟨_, hnb, rfl, Or.inr rfl⟩))

/-- The words `free` writes when only the predecessor is free. -/
theorem free_FU_touch {s : State} {pre' post : List Blk} {pv x : Blk} {fl : Nat → List Nat}
    {L : List Nat} (hI : Inv s (pre' ++ pv :: x :: post) fl L) (hxk : x.k = .used)
    (hpk : pv.k = .free) :
    ∃ W, Touch s.mem
        (insert_block (coalese_back (remove_block (bt_make s x.a x.sz 0) pv.a) x.a) pv.a).mem W ∧
      ∀ w ∈ W, Metaw s.guard_blocks_start (pre' ++ pv :: x :: post) w ∨
        Metaw s.guard_blocks_start (pre' ++ ⟨pv.a, pv.sz + x.sz, .free⟩ :: post) w := by
  have hx : x ∈ pre' ++ pv :: x :: post := by simp
  have hpv : pv ∈ pre' ++ pv :: x :: post := by simp
  have hxnot := hI.used_not_node hx hxk
  obtain ⟨j, hj, hpj⟩ := hI.free_node_of hpv hpk
  have hnd := hI.core.heap.nodup
  have hI' : Inv s ((pre' ++ [pv]) ++ x :: post) fl L := by simpa using hI
  obtain ⟨hC1, -⟩ := hI'.core.retag_free
  have T1 := hI.core.retag_touch hx
  have hC1' : Core (bt_make s x.a x.sz 0) (pre' ++ pv :: ⟨x.a, x.sz, .free⟩ :: post) fl := by
    simpa using hC1
  obtain ⟨hC2, -⟩ := hC1'.remove hj (b := pv) (by simp) hpk hpj
  obtain ⟨u, v, hu, hv, T2⟩ := hC1'.remove_touch hj (b := pv) (by simp) hpk hpj
  obtain ⟨hC3, -, -⟩ := hC2.merge (U := pv) (V := ⟨x.a, x.sz, .free⟩) hpk rfl
    (fun i hi h => hxnot i hi (List.mem_of_mem_erase h))
  have T3 := hC2.merge_touch (U := pv) (V := ⟨x.a, x.sz, .free⟩) hpk rfl
  simp only at hC3 T3
  have hnb : (⟨pv.a, pv.sz + x.sz, .free⟩ : Blk) ∈
      pre' ++ ⟨pv.a, pv.sz + x.sz, .free⟩ :: post := by simp
  obtain ⟨n, hn, T4⟩ := hC3.insert_touch hnb rfl
  simp only at hn T4
  have hg1 : (bt_make s x.a x.sz 0).guard_blocks_start = s.guard_blocks_start := rfl
  have hg3 : (coalese_back (remove_block (bt_make s x.a x.sz 0) pv.a) x.a).guard_blocks_start
      = s.guard_blocks_start := rfl
  rw [hg1] at hu hv
  rw [hg3] at hn T4
  have hidx := list_idx_lt (pv.sz + x.sz)
  refine ⟨_, Touch_trans (Touch_trans (Touch_trans T1 T2) T3) T4, ?_⟩
  intro w hw
  simp only [List.mem_append, List.mem_cons, List.not_mem_nil, or_false] at hw
  rcases hw with (((rfl | rfl) | (rfl | rfl)) | (rfl | rfl)) | (rfl | rfl | rfl | rfl)
  · exact Or.inl (Or.inl ⟨x, hx, Or.inl rfl⟩)
  · exact Or.inl (Or.inl ⟨x, hx, Or.inr rfl⟩)
  · exact Or.inl (hI.node_meta hj (u := u) (by tauto)).2
  · exact Or.inl (hI.node_meta hj (u := v) (by tauto)).1
  · exact Or.inl (Or.inl ⟨pv, hpv, Or.inl rfl⟩)
  · exact Or.inl (Or.inl ⟨x, hx, Or.inr rfl⟩)
  · rcases hn with h | h
    · rw [h]
      exact Or.inl (Or.inr (Or.inr (Guardw_tail _ hidx).1))
    · exact Or.inl (hI.node_meta hidx (Or.inr (Or.inr (List.mem_of_mem_erase h)))).1
  · exact Or.inl (Or.inr (Or.inr (Guardw_head _ hidx).2))
  · exact Or.inr (Or.inr (Or.inl ⟨_, hnb, rfl, Or.inl rfl⟩))
  · exact Or.inr (Or.inr (Or.inl ⟨_, hnb, rfl, Or.inr rfl⟩))

/-- The words `free` writes when only the successor is free. -/
theorem free_UF_touch {s : State} {pre post' : List Blk} {x nx : Blk} {fl : Nat → List Nat}
    {L : List Nat} (hI : Inv s (pre ++ x :: nx :: post') fl L) (hxk : x.k = .used)
    (hnk : nx.k = .free) :
    ∃ W, Touch s.mem
        (insert_block (coalese_front (remove_block (bt_make s x.a x.sz 0) nx.a) x.a) x.a).mem W ∧
      ∀ w ∈ W, Metaw s.guard_blocks_start (pre ++ x :: nx :: post') w ∨
        Metaw s.guard_blocks_start (pre ++ ⟨x.a, x.sz + nx.sz, .free⟩ :: post') w := by
  have hx : x ∈ pre ++ x :: nx :: post' := by simp
  have hnx : nx ∈ pre ++ x :: nx :: post' := by simp
  have hxnot := hI.used_not_node hx hxk
  obtain ⟨j, hj, hnj⟩ := hI.free_node_of hnx hnk
  have hnd := hI.core.heap.nodup
  obtain ⟨hC1, -⟩ := hI.core.retag_free
  have T1 := hI.core.retag_touch hx
  obtain ⟨hC2, -⟩ := hC1.remove hj (b := nx) (by simp) hnk hnj
  obtain ⟨u, v, hu, hv, T2⟩ := hC1.remove_touch hj (b := nx) (by simp) hnk hnj
  obtain ⟨hC3, -, hfront⟩ := hC2.merge (U := ⟨x.a, x.sz, .free⟩) (V := nx) rfl hnk
    (fun i hi h => ((hnd i hi).mem_erase_iff.1 h).1 rfl)
  have T3 := hC2.merge_touch (U := ⟨x.a, x.sz, .free⟩) (V := nx) rfl hnk
  simp only at hC3 T3 hfront
  rw [hfront]
  have hnb : (⟨x.a, x.sz + nx.sz, .free⟩ : Blk) ∈
      pre ++ ⟨x.a, x.sz + nx.sz, .free⟩ :: post' := by simp
  obtain ⟨n, hn, T4⟩ := hC3.insert_touch hnb rfl
  simp only at hn T4
  have hg1 : (bt_make s x.a x.sz 0).guard_blocks_start = s.guard_blocks_start := rfl
  have hg3 : (coalese_back (remove_block (bt_make s x.a x.sz 0) nx.a) nx.a).guard_blocks_start
      = s.guard_blocks_start := rfl
  rw [hg1] at hu hv
  rw [hg3] at hn T4
  have hidx := list_idx_lt (x.sz + nx.sz)
  refine ⟨_, Touch_trans (Touch_trans (Touch_trans T1 T2) T3) T4, ?_⟩
  intro w hw
  simp only [List.mem_append, List.mem_cons, List.not_mem_nil, or_false] at hw
  rcases hw with (((rfl | rfl) | (rfl | rfl)) | (rfl | rfl)) | (rfl | rfl | rfl | rfl)
  · exact Or.inl (Or.inl ⟨x, hx, Or.inl rfl⟩)
  · exact Or.inl (Or.inl ⟨x, hx, Or.inr rfl⟩)
  · exact Or.inl (hI.node_meta hj (u := u) (by tauto)).2
  · exact Or.inl (hI.node_meta hj (u := v) (by tauto)).1
  · exact Or.inl (Or.inl ⟨x, hx, Or.inl rfl⟩)
  · exact Or.inl (Or.inl ⟨nx, hnx, Or.inr rfl⟩)
  · rcases hn with h | h
    · rw [h]
      exact Or.inl (Or.inr (Or.inr (Guardw_tail _ hidx).1))
    · exact Or.inl (hI.node_meta hidx (Or.inr (Or.inr (List.mem_of_mem_erase h)))).1
  · exact Or.inl (Or.inr (Or.inr (Guardw_head _ hidx).2))
  · exact Or.inr (Or.inr (Or.inl ⟨_, hnb, rfl, Or.inl rfl⟩))
  · exact Or.inr (Or.inr (Or.inl ⟨_, hnb, rfl, Or.inr rfl⟩))

/-- The words `free` writes when both neighbours are free. -/
theorem free_FF_touch {s : State} {pre' post' : List Blk} {pv x nx : Blk}
    {fl : Nat → List Nat} {L : List Nat}
    (hI : Inv s (pre' ++ pv :: x :: nx :: post') fl L) (hxk : x.k = .used)
    (hpk : pv.k = .free) (hnk : nx.k = .free) :
    ∃ W, Touch s.mem
        (coalese_front (coalese_back (remove_block (bt_make s x.a x.sz 0) nx.a) x.a) pv.a).mem
        W ∧
      ∀ w ∈ W, Metaw s.guard_blocks_start (pre' ++ pv :: x :: nx :: post') w := by
  have hx : x ∈ pre' ++ pv :: x :: nx :: post' := by simp
  have hpv : pv ∈ pre' ++ pv :: x :: nx :: post' := by simp
  have hnx : nx ∈ pre' ++ pv :: x :: nx :: post' := by simp
  have hxnot := hI.used_not_node hx hxk
  obtain ⟨j, hj, hnj⟩ := hI.free_node_of hnx hnk
  have hnd := hI.core.heap.nodup
  have hI' : Inv s ((pre' ++ [pv]) ++ x :: nx :: post') fl L := by simpa using hI
  obtain ⟨hC1, -⟩ := hI'.core.retag_free
  have T1 := hI.core.retag_touch hx
  have hC1' : Core (bt_make s x.a x.sz 0)
      (pre' ++ pv :: ⟨x.a, x.sz, .free⟩ :: nx :: post') fl := by simpa using hC1
  obtain ⟨hC2, -⟩ := hC1'.remove hj (b := nx) (by simp) hnk hnj
  obtain ⟨u, v, hu, hv, T2⟩ := hC1'.remove_touch hj (b := nx) (by simp) hnk hnj
  obtain ⟨hC3, -, -⟩ := hC2.merge (U := pv) (V := ⟨x.a, x.sz, .free⟩) hpk rfl
    (fun i hi h => hxnot i hi (List.mem_of_mem_erase h))
  have T3 := hC2.merge_touch (U := pv) (V := ⟨x.a, x.sz, .free⟩) hpk rfl
  simp only at hC3 T3
  obtain ⟨-, -, hfront⟩ := hC3.merge (U := ⟨pv.a, pv.sz + x.sz, .free⟩) (V := nx) rfl hnk
    (fun i hi h => ((hnd i hi).mem_erase_iff.1 h).1 rfl)
  have T4 := hC3.merge_touch (U := ⟨pv.a, pv.sz + x.sz, .free⟩) (V := nx) rfl hnk
  simp only at hfront T4
  rw [hfront]
  have hg1 : (bt_make s x.a x.sz 0).guard_blocks_start = s.guard_blocks_start := rfl
  rw [hg1] at hu hv
  refine ⟨_, Touch_trans (Touch_trans (Touch_trans T1 T2) T3) T4, ?_⟩
  intro w hw
  simp only [List.mem_append, List.mem_cons, List.not_mem_nil, or_false] at hw
  rcases hw with (((rfl | rfl) | (rfl | rfl)) | (rfl | rfl)) | (rfl | rfl)
  · exact Or.inl ⟨x, hx, Or.inl rfl⟩
  · exact Or.inl ⟨x, hx, Or.inr rfl⟩
  · exact (hI.node_meta hj (u := u) (by tauto)).2
  · exact (hI.node_meta hj (u := v) (by tauto)).1
  · exact Or.inl ⟨pv, hpv, Or.inl rfl⟩
  · exact Or.inl ⟨x, hx, Or.inr rfl⟩
  · exact Or.inl ⟨pv, hpv, Or.inl rfl⟩
  · exact Or.inl ⟨nx, hnx, Or.inr rfl⟩

/-- The boundary tags and link words `free` of a live pointer may write: every word written
is a word of the bookkeeping of the chain before or after. -/
theorem free_touch {s : State} {bs : List Blk} {fl : Nat → List Nat} {L : List Nat} {p : Nat}
    (hI : Inv s bs fl L) (hp : p ∈ L) :
    ∃ bs' fl', Inv (free s p) bs' fl' (L.erase p) ∧ Keeps s.mem (free s p).mem bs' ∧
      FreeShape bs p bs' ∧
      ∃ W, Touch s.mem (free s p).mem W ∧
        ∀ w ∈ W, Metaw s.guard_blocks_start bs w ∨ Metaw s.guard_blocks_start bs' w := by
  obtain ⟨x, hx, hxk, hxp⟩ := (hI.abs.live p).1 hp
  obtain ⟨pre, post, hbs⟩ := List.append_of_mem hx
  subst hbs
  subst hxp
  have hX := hI.core.size_lt hx
  have hT := hI.core.header hx (by rw [hxk]; decide)
  simp only [hxk, Kind.flag] at hT
  have hsz : bt_size s x.a = x.sz := bt_size_eq (F := 1) hT.1 (by omega) (by omega) (by omega)
  obtain ⟨hC1, -⟩ := hI.core.retag_free
  have hraw : ∀ b ∈ pre ++ x :: post, b.k ≠ .raw := hI.abs.noraw
  have hpi := hC1.prev_info (fun b hb => hraw b (by simp [hb]))
  have hni := hC1.next_info (by simp) (fun b hb => hraw b (by simp [hb]))
  simp only at hpi hni
  rw [free_eq s _ (by omega)]
  simp only [Nat.add_sub_cancel, hsz, sext_of_lt _ hX.2.2.2.2.1]
  rw [if_pos hpi.1]
  rcases hpi.2 with ⟨hpu, hpU⟩ | ⟨hpu, pre', pv, hpre, hpk, hpa⟩ <;>
    rcases hni with ⟨hnu, hnU⟩ | ⟨hnu, nx, post', hpost, hnk, hna⟩
  · rw [hpu, hnu, if_pos (by decide)]
    obtain ⟨fl', h1, h2⟩ := free_UU hI hxk hpU hnU
    exact ⟨_, fl', h1, h2, ⟨pre, x, post, rfl, hxk, rfl, Or.inl rfl⟩, free_UU_touch hI⟩
  · rw [hpu, hnu, if_neg (by decide), if_neg (by decide), if_pos (by decide), hna]
    subst hpost
    obtain ⟨fl', h1, h2⟩ := free_UF hI hxk hnk hpU
    exact ⟨_, fl', h1, h2, ⟨pre, x, nx :: post', rfl, hxk, rfl,
      Or.inr (Or.inr (Or.inl ⟨nx, post', rfl, hnk, rfl⟩))⟩, free_UF_touch hI hxk hnk⟩
  · rw [hpu, hnu, if_neg (by decide), if_pos (by decide), hpa]
    subst hpre
    obtain ⟨fl', h1, h2⟩ := free_FU (by simpa using hI) hxk hpk hnU
    obtain ⟨W, hW, hm⟩ := free_FU_touch (by simpa using hI) hxk hpk
    refine ⟨_, fl', h1, h2, ⟨pre' ++ [pv], x, post, rfl, hxk, rfl,
      Or.inr (Or.inl ⟨pre', pv, rfl, hpk, rfl⟩)⟩, W, hW, ?_⟩
    simpa using hm
  · rw [hpu, hnu, if_neg (by decide), if_neg (by decide), if_neg (by decide), hna, hpa]
    subst hpre hpost
    obtain ⟨fl', h1, h2, -⟩ := free_FF (by simpa using hI) hxk hpk hnk
    obtain ⟨W, hW, hm⟩ := free_FF_touch (by simpa using hI) hxk hpk hnk
    refine ⟨_, fl', h1, h2, ⟨pre' ++ [pv], x, nx :: post', rfl, hxk, rfl,
      Or.inr (Or.inr (Or.inr ⟨pre', pv, nx, post', rfl, rfl, hpk, hnk, rfl⟩))⟩, W, hW,
      fun w hw => Or.inl ?_⟩
    simpa using hm w hw

/-- The words `malloc` writes: every one is a word of the bookkeeping of the chain before
or after. -/
theorem malloc_touch {s s' : State} {bs : List Blk} {fl : Nat → List Nat} {L : List Nat}
    {fuel n p : Nat} (hI : Inv s bs fl L) (hn : n + 23 < 2 ^ 64)
    (h : malloc fuel s n = some (p, s')) :
    (p = 0 ∧ s' = s) ∨
    (p ≠ 0 ∧ ∃ bs' fl', Inv s' bs' fl' (p :: L) ∧ Keeps s.mem s'.mem bs ∧
      s'.guard_blocks_start = s.guard_blocks_start ∧
      MallocShape s bs (blksz n) p s' bs' ∧
      ∃ W, Touch s.mem s'.mem W ∧
        ∀ w ∈ W, Metaw s.guard_blocks_start bs w ∨ Metaw s.guard_blocks_start bs' w) := by
  obtain ⟨h16, hmod, -, -⟩ := blksz_facts n hn
  obtain ⟨r, hf, hcase⟩ := malloc_cases h hI.core.brk_pos hI.core.lim64
  rcases hcase with ⟨-, hfit, hp, hs'⟩ | ⟨-, hfit, hp, hs'⟩ | ⟨hr, hp, hs'⟩
  · exact Or.inl ⟨hp, hs'⟩
  · right
    have hbrk := hI.core.brk
    obtain ⟨hI', K⟩ := malloc_grown_inv hI h16 hmod hfit
    obtain ⟨W, hW, hm⟩ := malloc_grown_touch hI hmod hfit
    subst hs'
    rw [hbrk] at hp
    subst hp
    refine ⟨by omega, _, _, hI', K, rfl, Or.inl ⟨rfl, rfl, ?_, ?_⟩, W, hW,
      fun w hw => Or.inr (hm w hw)⟩
    · simp only [malloc_grown, bt_make_heap_end, hbrk]
    · simp only [malloc_grown, bt_make_mem_brk]
  · right
    rcases find_free_block_spec hI h16 hmod hf with h0 | ⟨j, hj, hrj, b, hb, hba, hbk, hle⟩
    · exact absurd h0 hr
    · obtain ⟨pre, post, hbs⟩ := List.append_of_mem hb
      subst hbs
      subst hba
      obtain ⟨fl', hI', K, e1, e2, e3⟩ := malloc_found_inv hI hj hbk hrj h16 hmod hle
      subst hs'
      subst hp
      exact ⟨by omega, _, fl', hI', K, e2,
        Or.inr ⟨pre, b, post, rfl, hbk, rfl, hle, e1, malloc_found_brk _ _ _, rfl⟩,
        malloc_found_touch hI hj hbk hrj h16 hmod hle⟩

/-! ## The words `realloc` writes -/

theorem Tiles_adj {m : Mem} {P Q : List Blk} {u v : Blk} {a e : Nat}
    (h : Tiles m a (P ++ u :: v :: Q) e) : v.a = u.a + u.sz := by
  obtain ⟨c, -, ht⟩ := Tiles_append.1 h
  obtain ⟨h1, -, -, -, h2⟩ := ht
  obtain ⟨h3, -⟩ := h2
  omega

/-- A free block of the chain before `free` is still there, or it is the predecessor that
took the freed block in, or it is right behind the freed block. -/
theorem FreeShape.free_rest {bs bs' : List Blk} {p : Nat} (h : FreeShape bs p bs') {f : Blk}
    (hf : f ∈ bs) (hfk : f.k = .free) :
    f ∈ bs' ∨ (∃ b ∈ bs', b.k = .free ∧ b.a = f.a) ∨
      ∃ A x B, bs = A ++ x :: f :: B ∧ x.a + 4 = p := by
  obtain ⟨pre, x, post, h1, hxk, hxp, hcase⟩ := h
  subst h1
  have hfx : f ≠ x := by
    intro e
    rw [e, hxk] at hfk
    exact absurd hfk (by decide)
  simp only [List.mem_append, List.mem_cons] at hf
  rcases hcase with h | ⟨pre', pv, h1, hpk, h⟩ | ⟨nx, post', h1, hnk, h⟩ |
      ⟨pre', pv, nx, post', h1, h2, hpk, hnk, h⟩
  · subst h
    left
    simp only [List.mem_append, List.mem_cons]
    tauto
  · subst h h1
    simp only [List.mem_append, List.mem_cons, List.not_mem_nil, or_false] at hf
    rcases hf with (hf | rfl) | rfl | hf
    · left; simp [hf]
    · right; left
      exact ⟨⟨f.a, f.sz + x.sz, .free⟩, by simp, rfl, rfl⟩
    · exact absurd rfl hfx
    · left; simp [hf]
  · subst h h1
    simp only [List.mem_append, List.mem_cons] at hf
    rcases hf with hf | rfl | rfl | hf
    · left; simp [hf]
    · exact absurd rfl hfx
    · right; right
      exact ⟨pre, x, post', rfl, hxp⟩
    · left; simp [hf]
  · subst h h1 h2
    simp only [List.mem_append, List.mem_cons, List.not_mem_nil, or_false] at hf
    rcases hf with (hf | rfl) | rfl | rfl | hf
    · left; simp [hf]
    · right; left
      exact ⟨⟨f.a, f.sz + x.sz + nx.sz, .free⟩, by simp, rfl, rfl⟩
    · exact absurd rfl hfx
    · right; right
      exact ⟨pre' ++ [pv], x, post', by simp, hxp⟩
    · left; simp [hf]

/-- A block of the chain between the `malloc` and the `free` of a moving `realloc` is a
block of the chain before, or of the chain after, or it is the remainder of a split that the
freed block was merged into: then a free block of the chain after starts where it starts,
and it ends where a block of the chain before ends. -/
theorem move_blocks {s s1 : State} {bs bs1 bs' : List Blk} {fl1 : Nat → List Nat}
    {L1 : List Nat} {size np old : Nat} (hI1 : Inv s1 bs1 fl1 L1)
    (hsh : MallocShape s bs size np s1 bs1) (hfs : FreeShape bs1 old bs') (hne : np ≠ old)
    (hnp : 4 ≤ np) {b : Blk} (hb : b ∈ bs1) :
    b ∈ bs ∨ b ∈ bs' ∨
      (∃ c ∈ bs', c.k = .free ∧ c.a = b.a) ∧ ∃ y ∈ bs, b.a + b.sz = y.a + y.sz := by
  have hnew := hsh.new_block
  have hnew' : (⟨np - 4, size, .used⟩ : Blk) ∈ bs' :=
    hfs.used_rest _ hnew rfl (by simp only; omega)
  have ht := hI1.core.heap.tiles
  rcases hsh with ⟨hp, hbs1, -, -⟩ | ⟨pre, y, post, hbs, hyk, hp, hle, -, -, hbs1⟩
  · subst hbs1
    rcases List.mem_append.1 hb with h | h
    · exact Or.inl h
    · simp only [List.mem_singleton] at h
      subst h
      right; left
      have e : np - 4 = s.heap_end := by omega
      rw [e] at hnew'
      exact hnew'
  · subst hbs hbs1
    have e : np - 4 = y.a := by omega
    rw [e] at hnew' hnew
    simp only [List.mem_append, List.mem_cons] at hb
    rcases hb with h | rfl | h | h
    · left; simp [h]
    · exact Or.inr (Or.inl hnew')
    · by_cases hlt : size < y.sz
      · rw [if_pos hlt] at h ht hfs hnew hI1
        simp only [List.mem_singleton] at h
        subst h
        have hrem : (⟨y.a + size, y.sz - size, .free⟩ : Blk) ∈
            pre ++ ⟨y.a, size, .used⟩ :: ([⟨y.a + size, y.sz - size, .free⟩] ++ post) := by
          simp
        rcases hfs.free_rest hrem rfl with h | h | ⟨A, x, B, hAB, hxp⟩
        · exact Or.inr (Or.inl h)
        · exact Or.inr (Or.inr ⟨h, y, by simp, by simp only; omega⟩)
        · exfalso
          have hx : x ∈ pre ++ ⟨y.a, size, .used⟩ ::
              ([⟨y.a + size, y.sz - size, .free⟩] ++ post) := by
            rw [hAB]; simp
          have a1 := Tiles_adj (P := pre) (Q := post) (by simpa using ht)
          rw [hAB] at ht
          have a2 := Tiles_adj ht
          have hX := hI1.core.size_lt hx
          have hN := hI1.core.size_lt hnew
          simp only at a1 a2 hN
          rcases Tiles_sep hI1.core.heap.tiles hx hnew with h | h | h
          · apply hne
            rw [← hxp, h]
            simp only
            omega
          · simp only at h; omega
          · simp only at h; omega
      · rw [if_neg hlt] at h
        simp at h
    · left; simp [h]

/-- A word of the bookkeeping of the chain between the `malloc` and the `free` of a moving
`realloc` is one of the chain before or of the chain after. -/
theorem move_meta {s s1 : State} {bs bs1 bs' : List Blk} {fl1 : Nat → List Nat}
    {L1 : List Nat} {size np old : Nat} (hI1 : Inv s1 bs1 fl1 L1)
    (hsh : MallocShape s bs size np s1 bs1) (hfs : FreeShape bs1 old bs') (hne : np ≠ old)
    (hnp : 4 ≤ np) (g : Nat) {w : Nat} (hw : Metaw g bs1 w) :
    Metaw g bs w ∨ Metaw g bs' w := by
  rcases hw with ⟨b, hb, hwb⟩ | ⟨b, hb, hbk, hwb⟩ | hg
  · rcases move_blocks hI1 hsh hfs hne hnp hb with h | h | ⟨⟨c, hc, -, hca⟩, y, hy, hys⟩
    · exact Or.inl (Or.inl ⟨b, h, hwb⟩)
    · exact Or.inr (Or.inl ⟨b, h, hwb⟩)
    · rcases hwb with e | e
      · exact Or.inr (Or.inl ⟨c, hc, Or.inl (by rw [e, hca])⟩)
      · exact Or.inl (Or.inl ⟨y, hy, Or.inr (by rw [e, hys])⟩)
  · rcases move_blocks hI1 hsh hfs hne hnp hb with h | h | ⟨⟨c, hc, hck, hca⟩, -⟩
    · exact Or.inl (Or.inr (Or.inl ⟨b, h, hbk, hwb⟩))
    · exact Or.inr (Or.inr (Or.inl ⟨b, h, hbk, hwb⟩))
    · exact Or.inr (Or.inr (Or.inl ⟨c, hc, hck, by rw [hca]; exact hwb⟩))
  · exact Or.inl (Or.inr (Or.inr hg))

/-- The bytes `realloc` of a live pointer changes: each lies in a word of the bookkeeping
of the chain before or after, or in the payload of the block returned. -/
theorem realloc_touch {s s' : State} {bs : List Blk} {fl : Nat → List Nat} {L : List Nat}
    {fuel old size q : Nat} (hI : Inv s bs fl L) (hL : old ∈ L)
    (hn : size + 23 < 2 ^ 64) (h : realloc fuel s old size = some (q, s')) :
    ∃ bs' fl' L', Inv s' bs' fl' L' ∧
      ∀ z, s'.mem z ≠ s.mem z →
        (∃ w, w ≤ z ∧ z < w + 4 ∧
          (Metaw s.guard_blocks_start bs w ∨ Metaw s.guard_blocks_start bs' w)) ∨
        (q ≠ 0 ∧ q ≤ z ∧ z + 8 < q + sext (bt_size s' (bt_fromptr q))) := by
  have ho0 : old ≠ 0 := fun e => hI.zero_not_live (e ▸ hL)
  unfold realloc at h
  by_cases hs0 : size = 0
  · rw [if_pos hs0] at h
    injection h with h
    injection h with h1 h2
    subst h1 h2
    obtain ⟨bs', fl', hI', -, -, W, hW, hm⟩ := free_touch hI hL
    refine ⟨bs', fl', _, hI', fun z hz => Or.inl ?_⟩
    obtain ⟨w, hw, h1, h2⟩ := Touch_changed hW hz
    exact ⟨w, h1, h2, hm w hw⟩
  rw [if_neg hs0, if_neg ho0] at h
  obtain ⟨x, hx, hxk, hxp⟩ := (hI.abs.live old).1 hL
  obtain ⟨pre, post, hbs⟩ := List.append_of_mem hx
  subst hbs hxp
  have hX := hI.core.size_lt hx
  have hT := hI.core.header hx (by rw [hxk]; decide)
  simp only [hxk, Kind.flag] at hT
  have hsz : bt_size s x.a = x.sz := bt_size_eq (F := 1) hT.1 (by omega) (by omega) (by omega)
  simp only [bt_fromptr, Nat.add_sub_cancel, hsz, sext_of_lt _ hX.2.2.2.2.1] at h
  by_cases hfit : x.sz ≥ blksz size
  · rw [if_pos hfit] at h
    injection h with h
    injection h with h1 h2
    subst h1 h2
    exact ⟨_, fl, L, hI, fun z hz => absurd rfl hz⟩
  rw [if_neg hfit] at h
  obtain ⟨-, hmod, -, -⟩ := blksz_facts size hn
  by_cases hnx : bt_next s x.a = 0
  · rw [if_pos hnx] at h
    have hpost : post = [] := (hI.core.bt_next_zero (by rw [hxk]; decide)).1 hnx
    subst hpost
    by_cases hmc : s.mem_brk + (blksz size - x.sz) ≤ s.mem_max_addr
    · rw [morecore_ok s _ hmc hI.core.lim64] at h
      simp only [hI.core.brk_pos, if_false] at h
      injection h with h
      injection h with h1 h2
      subst h1
      obtain ⟨hI', -⟩ := realloc_grown_inv hI hxk hmod (by omega) hmc
      have hs' : s' = realloc_grown s x.a (blksz size) x.sz := by
        rw [← h2]; rfl
      subst hs'
      have hnb : (⟨x.a, blksz size, .used⟩ : Blk) ∈ pre ++ [⟨x.a, blksz size, .used⟩] := by
        simp
      have hN := hI'.core.size_lt hnb
      simp only at hN
      have T : Touch s.mem (realloc_grown s x.a (blksz size) x.sz).mem
          [x.a, x.a + blksz size - 4] :=
        bt_make_touch { s with mem_brk := s.mem_brk + (blksz size - x.sz) } x.a (blksz size) 1
          (by omega) (by omega) (by omega)
      refine ⟨_, fl, L, hI', fun z hz => Or.inl ?_⟩
      obtain ⟨w, hw, h1, h2⟩ := Touch_changed T hz
      refine ⟨w, h1, h2, ?_⟩
      simp only [List.mem_cons, List.not_mem_nil, or_false] at hw
      rcases hw with rfl | rfl
      · exact Or.inl (Or.inl ⟨x, hx, Or.inl rfl⟩)
      · exact Or.inr (Or.inl ⟨_, hnb, Or.inr rfl⟩)
    · rw [morecore_fail s _ hmc] at h
      simp only [if_true] at h
      injection h with h
      injection h with h1 h2
      subst h1 h2
      exact ⟨_, fl, L, hI, fun z hz => absurd rfl hz⟩
  · rw [if_neg hnx] at h
    cases hm : malloc fuel s size with
    | none => rw [hm] at h; simp at h
    | some r =>
      obtain ⟨np, s1⟩ := r
      rw [hm] at h
      simp only at h
      rcases malloc_touch hI hn hm with ⟨h0, hs1⟩ | ⟨hnp, bs1, fl1, hI1, -, hg1, hsh, W1, hW1, hm1⟩
      · rw [if_pos h0] at h
        injection h with h
        injection h with h1 h2
        subst h1 h2 hs1
        exact ⟨_, fl, L, hI, fun z hz => absurd rfl hz⟩
      · rw [if_neg hnp] at h
        injection h with h
        injection h with h1 h2
        subst h1
        have e8 : (x.sz + (2 ^ 64 - 2 * 4)) % 2 ^ 64 = x.sz - 8 := by omega
        rw [e8] at h2
        have hy := hsh.new_block
        have hY := hI1.core.size_lt hy
        simp only at hY
        have hnd := hI1.abs.live_nodup
        have hnpL : np ∉ L := (List.nodup_cons.1 hnd).1
        have hne : np ≠ x.a + 4 := fun e => hnpL (e ▸ hL)
        have hcopy : ∀ z, z < (np - 4) + 4 ∨ (np - 4) + blksz size ≤ z + 4 →
            memcpy s1.mem np (x.a + 4) (x.sz - 8) z = s1.mem z := by
          intro z hz
          unfold memcpy
          rw [if_neg (by omega)]
        have hI2 : Inv { s1 with mem := memcpy s1.mem np (x.a + 4) (x.sz - 8) } bs1 fl1
            (np :: L) := hI1.payload_write hy rfl hcopy
        obtain ⟨bs', fl', hI3, -, hfs, W3, hW3, hm3⟩ :=
          free_touch hI2 (List.mem_cons_of_mem _ hL)
        rw [h2] at hI3 hW3
        have hy' : (⟨np - 4, blksz size, .used⟩ : Blk) ∈ bs' :=
          hfs.used_rest _ hy rfl (by simp only; omega)
        have hsz' := (hI3.tags hy').1
        simp only at hsz' hm3 hW3
        rw [hg1] at hm3
        refine ⟨bs', fl', _, hI3, fun z hz => ?_⟩
        have conv := fun w (hw : Metaw s.guard_blocks_start bs1 w) =>
          move_meta hI1 hsh hfs hne (by omega) s.guard_blocks_start hw
        by_cases a2 : memcpy s1.mem np (x.a + 4) (x.sz - 8) z = s.mem z
        · obtain ⟨w, hw, h3, h4⟩ := Touch_changed hW3 (by rw [a2]; exact hz)
          refine Or.inl ⟨w, h3, h4, ?_⟩
          rcases hm3 w hw with h5 | h5
          · exact conv w h5
          · exact Or.inr h5
        · by_cases a1 : s1.mem z = s.mem z
          · right
            have hin : np ≤ z ∧ z < np + (x.sz - 8) := by
              by_contra hc
              apply a2
              unfold memcpy
              rw [if_neg hc, a1]
            refine ⟨hnp, hin.1, ?_⟩
            unfold bt_fromptr
            rw [hsz', sext_of_lt _ hY.2.2.2.2.1]
            omega
          · obtain ⟨w, hw, h3, h4⟩ := Touch_changed hW1 a1
            refine Or.inl ⟨w, h3, h4, ?_⟩
            rcases hm1 w hw with h5 | h5
            · exact Or.inl h5
            · exact conv w h5

/-- A word of the bookkeeping of the chain is one of the state. -/
theorem Inv.meta {s : State} {bs : List Blk} {fl : Nat → List Nat} {L : List Nat}
    (hI : Inv s bs fl L) (g : Nat) {w : Nat} (h : Metaw g bs w) :
    Guardw g w ∨ meta_word s w := by
  obtain ⟨hwalk, -, -⟩ := hI.walk s.heap_end le_rfl
  unfold meta_word
  rw [hwalk]
  simp only [Option.getD_some, List.tail_cons]
  rcases h with ⟨b, hb, hwb⟩ | ⟨b, hb, hbk, hwb⟩ | hg
  · right; right
    refine ⟨b.a, List.mem_map.2 ⟨b, hb, rfl⟩, ?_⟩
    rcases hwb with e | e
    · exact Or.inl e
    · right; left
      unfold bt_footer
      rw [(hI.tags hb).1, sext_of_lt _ (hI.tags hb).2.2.1]
      exact e
  · right; right
    exact ⟨b.a, List.mem_map.2 ⟨b, hb, rfl⟩,
      Or.inr (Or.inr ⟨(hI.used_zero hb).2 hbk, hwb⟩)⟩
  · exact Or.inl hg

theorem Inv.meta_own {s : State} {bs : List Blk} {fl : Nat → List Nat} {L : List Nat}
    (hI : Inv s bs fl L) {w : Nat} (h : Metaw s.guard_blocks_start bs w) : meta_word s w := by
  rcases hI.meta _ h with hg | h
  · exact Or.inl hg
  · exact h

/-- From the chains to the states: the bytes changed lie in words of the bookkeeping. -/
theorem Inv.frame {s s' : State} {bs bs' : List Blk} {fl fl' : Nat → List Nat}
    {L L' : List Nat} (hI : Inv s bs fl L) (hI' : Inv s' bs' fl' L') {z w : Nat}
    (h1 : w ≤ z) (h2 : z < w + 4)
    (h : Metaw s.guard_blocks_start bs w ∨ Metaw s.guard_blocks_start bs' w) :
    ∃ w, w ≤ z ∧ z < w + 4 ∧ (meta_word s w ∨ meta_word s' w) := by
  refine ⟨w, h1, h2, ?_⟩
  rcases h with h | h
  · exact Or.inl (hI.meta_own h)
  · rcases hI'.meta _ h with hg | h
    · exact Or.inl (Or.inl hg)
    · exact Or.inr h

/-- Claim C12: in a reachable state with a live pointer `r`, `malloc(n)`, `free(p)` of a
live `p` other than `r`, and `realloc(p, k)` of a live `p` other than `r`, whether it
succeeds or fails, return and leave every payload byte of the block of `r` as it was; every
byte of memory they change lies in a boundary tag of a block, in one of the two link words
of a free block or of a guard (of the heap before or after the call), or, for `realloc`, in
the payload of the block it returns. -/
theorem frame_effect {s : State} {L : List Nat} (hR : Reachable s L) {r : Nat} (hr : r ∈ L) :
    (∀ f n, n + 23 < 2 ^ 64 →
      (s.heap_end ≤ f → ∃ p s', malloc f s n = some (p, s')) ∧
      ∀ p s', malloc f s n = some (p, s') → frame_ok s s' r 0) ∧
    (∀ p ∈ L, p ≠ r → frame_ok s (free s p) r 0) ∧
    (∀ f p k, p ∈ L → p ≠ r → k + 23 < 2 ^ 64 →
      (s.heap_end ≤ f → ∃ q s', realloc f s p k = some (q, s')) ∧
      ∀ q s', realloc f s p k = some (q, s') → frame_ok s s' r q) := by
  obtain ⟨bs, fl, hI⟩ := hR.inv
  obtain ⟨x, hx, hxk, hxr, hxs, -, hx31, -⟩ := hI.live_block hr
  rw [← hxr] at hxs
  refine ⟨?_, ?_, ?_⟩
  · intro f n hn
    refine ⟨fun hf => malloc_returns hR hn hf, ?_⟩
    intro p s' h
    rcases malloc_touch hI hn h with ⟨-, hs'⟩ | ⟨-, bs', fl', hI', K, -, -, W, hW, hm⟩
    · subst hs'
      exact ⟨fun _ _ => rfl, fun z hz => absurd rfl hz⟩
    · refine ⟨fun i hi => ?_, fun z hz => Or.inl ?_⟩
      · rw [← hxr] at hi ⊢
        rw [hxs, sext_of_lt _ hx31] at hi
        exact K x hx hxk _ (by omega) (by omega)
      · obtain ⟨w, hw, h1, h2⟩ := Touch_changed hW hz
        exact hI.frame hI' h1 h2 (hm w hw)
  · intro p hp hpr
    obtain ⟨bs', fl', hI', K, hfs, W, hW, hm⟩ := free_touch hI hp
    refine ⟨fun i hi => ?_, fun z hz => Or.inl ?_⟩
    · rw [← hxr] at hi ⊢
      rw [hxs, sext_of_lt _ hx31] at hi
      have hx' : x ∈ bs' := hfs.used_rest x hx hxk (by rw [hxr]; exact fun e => hpr e.symm)
      exact K x hx' hxk _ (by omega) (by omega)
    · obtain ⟨w, hw, h1, h2⟩ := Touch_changed hW hz
      exact hI.frame hI' h1 h2 (hm w hw)
  · intro f p k hp hpr hk
    refine ⟨fun hf => realloc_returns hR p hk hf, ?_⟩
    intro q s' h
    obtain ⟨-, -, -, K, -⟩ := realloc_spec hI (Or.inr hp) hk h
    obtain ⟨bs', fl', L', hI', hch⟩ := realloc_touch hI hp hk h
    refine ⟨fun i hi => ?_, fun z hz => ?_⟩
    · rw [← hxr] at hi ⊢
      rw [hxs, sext_of_lt _ hx31] at hi
      exact K x hx hxk (by rw [hxr]; exact fun e => hpr e.symm) _ (by omega) (by omega)
    · rcases hch z hz with ⟨w, h1, h2, h3⟩ | h3
      · exact Or.inl (hI.frame hI' h1 h2 h3)
      · exact Or.inr h3

/-- Instance of `frame_effect`: after `p = malloc(64); q = malloc(16)`, the pointer `q` is
live, and both `free(p)` and the moving `realloc(p, 128)`, which returns, keep the frame
of `q`. -/
theorem frame_effect_witness :
    4544 ∈ [4544, 4464] ∧ 4464 ∈ [4544, 4464] ∧
      (realloc 20 heap2 4464 128).isSome = true ∧
      frame_ok heap2 (free heap2 4464) 4544 0 ∧
      frame_ok heap2 (ran (realloc 20 heap2 4464 128)).2 4544
        (ran (realloc 20 heap2 4464 128)).1 :=
  ⟨by decide, by decide, by decide!,
    (frame_effect heap2_reachable (r := 4544) (by decide)).2.1 4464 (by decide) (by decide),
    ((frame_effect heap2_reachable (r := 4544) (by decide)).2.2 20 4464 128 (by decide)
      (by decide) (by norm_num)).2 _ _ (ran_eq (o := realloc 20 heap2 4464 128) (by decide!))⟩

end MM
